import Mathlib

/-!
# Prefix-suggestion index: shallow embedding and verification

Embedding of `suggest_trie.go`, `suggest.go` and `common.go`.

Modelling conventions.

* A Go `string` that is walked byte by byte (normalized text, original text, query
  parts) is a `List Nat` of byte values.  Class and group names, which are only ever
  compared for equality, are Lean `String`s.
* `float32` weights range over an arbitrary type `W` with a linear order and a
  multiplication: every theorem holds for each such `W` (comparisons of NaN are outside
  the model).
* A `*Item` is an `Item` record carrying its address in the field `ptr`; maps keyed by
  `*Item` are keyed by `ptr`.
* `Item.Data` is the typed view of the `map[string]interface{}` through the three keys
  the program reads ("class", "classes", "group", each with the dynamic type that the
  type assertions of the source demand) plus the remaining keys.
* A Go `int` is an `Int`, or a `Nat` where it is a length or a position in a slice or string.
  The product `maxItemsPerPrefix * 2`, the one `int` operation that no length bounds, wraps
  as a 64-bit two's complement product (`wrapInt`), and the conversion `uint32(index)` of
  the serializer is taken modulo `2 ^ 32` (`uint32`).  A run-time panic is the result `none`.
* `strings.ToLower` and `strings.Fields` are embedded for ASCII texts.
* `sort.Slice` is not part of the repository and is not stable: it is the parameter
  `SliceSorter`, any function returning a sorted permutation of its input.
-/

namespace Suggest

/-! ## Data model -/

/-- Typed view of `Item.Data`. -/
structure ItemData where
  /-- The value of `Data["class"]`, when the key is present. -/
  cls : Option String
  /-- The value of `Data["classes"]`, when the key is present. -/
  classes : Option (List String)
  /-- The value of `Data["group"]`, when the key is present. -/
  group : Option String
  /-- The other keys of the map, in a canonical order. -/
  other : List (String × String)
deriving DecidableEq

/-- The input record `Item`, together with the address `ptr` under which it is referenced. -/
structure Item (W : Type) where
  ptr : Nat
  Weight : W
  OriginalText : List Nat
  NormalizedText : List Nat
  Data : ItemData
deriving DecidableEq

/-- Build-time `SuggestTrieItem`. -/
structure SuggestTrieItem (W : Type) where
  Weight : W
  OriginalItem : Item W
deriving DecidableEq

/-- Build-time class bucket `SuggestItems`: the binary heap array `Suggest` of one class. -/
structure SuggestItems (W : Type) where
  Class : String
  Suggest : List (SuggestTrieItem W)
deriving DecidableEq

mutual
/-- Mutable trie node `SuggestTrieBuilder`. -/
inductive SuggestTrieBuilder (W : Type) where
  | mk (Descendants : List (SuggestTrieDescendant W)) (SuggestItems : List (SuggestItems W))
/-- Edge `SuggestTrieDescendant` of the mutable trie. -/
inductive SuggestTrieDescendant (W : Type) where
  | mk (Key : Nat) (Builder : SuggestTrieBuilder W)
end

/-- Field `Descendants` of a builder node. -/
def SuggestTrieBuilder.Descendants {W : Type} : SuggestTrieBuilder W → List (SuggestTrieDescendant W)
  | .mk ds _ => ds

/-- Field `SuggestItems` of a builder node. -/
def SuggestTrieBuilder.Buckets {W : Type} : SuggestTrieBuilder W → List (SuggestItems W)
  | .mk _ bs => bs

/-- Field `Key` of a descendant. -/
def SuggestTrieDescendant.Key {W : Type} : SuggestTrieDescendant W → Nat
  | .mk k _ => k

/-- Field `Builder` of a descendant. -/
def SuggestTrieDescendant.Builder {W : Type} : SuggestTrieDescendant W → SuggestTrieBuilder W
  | .mk _ b => b

namespace stpb

/-- Serialized `stpb.Item`. -/
structure Item (W : Type) where
  Weight : W
  OriginalText : List Nat
  Data : ItemData
deriving DecidableEq

/-- Serialized bucket `stpb.ClassItems`. -/
structure ClassItems (W : Type) where
  Class : String
  ItemWeights : List W
  ItemIndexes : List Nat
deriving DecidableEq

/-- Serialized trie node `stpb.SuggestTrie`. -/
inductive SuggestTrie (W : Type) where
  | mk (DescendantKeys : List Nat) (DescendantTries : List (SuggestTrie W))
      (Items : List (ClassItems W))

/-- Field `DescendantKeys`. -/
def SuggestTrie.DescendantKeys {W : Type} : SuggestTrie W → List Nat
  | .mk ks _ _ => ks

/-- Field `DescendantTries`. -/
def SuggestTrie.DescendantTries {W : Type} : SuggestTrie W → List (SuggestTrie W)
  | .mk _ ts _ => ts

/-- Field `Items`. -/
def SuggestTrie.Items {W : Type} : SuggestTrie W → List (ClassItems W)
  | .mk _ _ its => its

/-- Serialized artifact `stpb.SuggestData`. -/
structure SuggestData (W : Type) where
  Trie : SuggestTrie W
  Items : List (Item W)

end stpb

/-- A `*stpb.Item` handed out by a query: the slot `index` of `suggest.Items` and the item
stored in that slot. -/
structure ItemRef (W : Type) where
  index : Nat
  item : stpb.Item W
deriving DecidableEq

/-- Working entry `SuggestClassesItem` of a query. -/
structure SuggestClassesItem (W : Type) where
  Classes : List String
  Item : ItemRef W
deriving DecidableEq

/-- Output block `SuggestionTextBlock`. -/
structure SuggestionTextBlock where
  Text : List Nat
  Highlight : Bool
deriving DecidableEq

/-- Output record `SuggestAnswerItem`. -/
structure SuggestAnswerItem (W : Type) where
  Weight : W
  Data : ItemData
  TextBlocks : List SuggestionTextBlock
deriving DecidableEq

/-- The contract of `sort.Slice(xs, func(i, j) bool { return xs[i].Weight > xs[j].Weight })`:
some permutation of the input along which the weight never increases. -/
structure SliceSorter (W : Type) [LinearOrder W] where
  sortDesc : {α : Type} → (α → W) → List α → List α
  perm : ∀ {α : Type} (key : α → W) (l : List α), (sortDesc key l).Perm l
  sorted : ∀ {α : Type} (key : α → W) (l : List α),
    (sortDesc key l).Pairwise (fun a b => key b ≤ key a)

section Defs

variable {W : Type} [LinearOrder W]

/-! ## `reflect.DeepEqual` on bucket lists -/

/-- Deep equality of two `*Item`: equal pointers, or pointing to deeply equal records. -/
def Item.deepEqual (a b : Item W) : Bool :=
  decide (a.ptr = b.ptr) ||
    (decide (a.Weight = b.Weight) && decide (a.OriginalText = b.OriginalText) &&
      decide (a.NormalizedText = b.NormalizedText) && decide (a.Data = b.Data))

/-- Deep equality of two `*SuggestTrieItem`. -/
def SuggestTrieItem.deepEqual (a b : SuggestTrieItem W) : Bool :=
  decide (a.Weight = b.Weight) && a.OriginalItem.deepEqual b.OriginalItem

/-- Deep equality of two slices: same length and deeply equal elements. -/
def deepEqualList {α : Type} (eq : α → α → Bool) : List α → List α → Bool
  | [], [] => true
  | a :: as, b :: bs => eq a b && deepEqualList eq as bs
  | _, _ => false

/-- Deep equality of two `*SuggestItems`. -/
def SuggestItems.deepEqual (a b : SuggestItems W) : Bool :=
  decide (a.Class = b.Class) && deepEqualList SuggestTrieItem.deepEqual a.Suggest b.Suggest

/-- The call `reflect.DeepEqual(x, y)` on two `[]*SuggestItems`. -/
def DeepEqual (x y : List (SuggestItems W)) : Bool :=
  deepEqualList SuggestItems.deepEqual x y

/-! ## `container/heap` over `SuggestItems` -/

/-- Method `Less` of the heap interface: `s.Suggest[i].Weight < s.Suggest[j].Weight`. -/
def Less (s : List (SuggestTrieItem W)) (i j : Nat) : Bool :=
  match s[i]?, s[j]? with
  | some a, some b => decide (a.Weight < b.Weight)
  | _, _ => false

/-- Method `Swap` of the heap interface. -/
def Swap (s : List (SuggestTrieItem W)) (i j : Nat) : List (SuggestTrieItem W) :=
  match s[i]?, s[j]? with
  | some a, some b => (s.set i b).set j a
  | _, _ => s

/-- The loop of `heap.up`; every turn moves `j` to its parent, so `j + 1` turns of fuel
are never used up. -/
def up : Nat → List (SuggestTrieItem W) → Nat → List (SuggestTrieItem W)
  | 0, s, _ => s
  | fuel + 1, s, j =>
    let i := (j - 1) / 2
    if i = j ∨ Less s j i = false then s else up fuel (Swap s i j) i

/-- The child picked by `heap.down` below `i`: the left child `j1 = 2*i + 1`, or the right
child `j2 = j1 + 1` when `j2 < n && h.Less(j2, j1)`. -/
def pickChild (s : List (SuggestTrieItem W)) (i n : Nat) : Nat :=
  if 2 * i + 1 + 1 < n ∧ Less s (2 * i + 1 + 1) (2 * i + 1) = true then 2 * i + 1 + 1
  else 2 * i + 1

/-- The loop of `heap.down` on the first `n` entries; every turn moves `i` to a child
below `n`, so `n` turns of fuel are never used up. -/
def down : Nat → List (SuggestTrieItem W) → Nat → Nat → List (SuggestTrieItem W)
  | 0, s, _, _ => s
  | fuel + 1, s, i, n =>
    if n ≤ 2 * i + 1 then s
    else if Less s (pickChild s i n) i = false then s
    else down fuel (Swap s i (pickChild s i n)) (pickChild s i n) n

/-- The call `heap.Push(suggest, item)`: append, then sift the last entry up. -/
def heapPush (s : List (SuggestTrieItem W)) (item : SuggestTrieItem W) :
    List (SuggestTrieItem W) :=
  let s1 := s ++ [item]
  up s1.length s1 (s1.length - 1)

/-- The call `heap.Pop(suggest)`: swap the root with the last entry, sift the new root down
in the first `n` entries, cut the last entry off.  On an empty heap the swap is out of
range. -/
def heapPop (s : List (SuggestTrieItem W)) : Option (List (SuggestTrieItem W)) :=
  if s.length = 0 then none
  else
    let n := s.length - 1
    some (down n (Swap s 0 n) 0 n).dropLast

/-- The loop `for len(suggest.Suggest) > maxItemsPerPrefix { heap.Pop(suggest) }`. -/
def popWhile : Nat → List (SuggestTrieItem W) → Int → Option (List (SuggestTrieItem W))
  | 0, _, _ => none
  | fuel + 1, s, maxItemsPerPrefix =>
    if maxItemsPerPrefix < (s.length : Int) then
      (heapPop s).bind (fun s1 => popWhile fuel s1 maxItemsPerPrefix)
    else some s

/-! ## Trie construction (`suggest_trie.go`) -/

/-- One turn of the outer loop of `addItem`, for the class `cls`: push into the first
bucket of that class, or append a new bucket. -/
def addItemClass (maxItemsPerPrefix : Int) (item : SuggestTrieItem W) (cls : String) :
    List (SuggestItems W) → Option (List (SuggestItems W))
  | [] => some [{ Class := cls, Suggest := [item] }]
  | suggest :: rest =>
    if cls = suggest.Class then
      let pushed := heapPush suggest.Suggest item
      (popWhile (pushed.length + 1) pushed maxItemsPerPrefix).map
        (fun s => { Class := suggest.Class, Suggest := s } :: rest)
    else (addItemClass maxItemsPerPrefix item cls rest).map (fun r => suggest :: r)

/-- Method `addItem`, on the bucket list of the node. -/
def addItem (maxItemsPerPrefix : Int) (item : SuggestTrieItem W) :
    List (SuggestItems W) → List String → Option (List (SuggestItems W))
  | buckets, [] => some buckets
  | buckets, cls :: rest =>
    (addItemClass maxItemsPerPrefix item cls buckets).bind
      (fun b => addItem maxItemsPerPrefix item b rest)

/-- The descendant scan of `Add`: the index of the last descendant whose key is `c`. -/
def findDescendant (c : Nat) : List (SuggestTrieDescendant W) → Option Nat
  | [] => none
  | d :: rest =>
    match findDescendant c rest with
    | some i => some (i + 1)
    | none => if d.Key = c then some 0 else none

/-- Method `Add`.  The pair `(position, text)` of the source is carried as the rest
`text[position:]` of the text. -/
def SuggestTrieBuilder.Add (maxItemsPerPrefix : Int) (item : SuggestTrieItem W)
    (itemClasses : List String) :
    List Nat → SuggestTrieBuilder W → Option (SuggestTrieBuilder W)
  | [], s =>
    (addItem maxItemsPerPrefix item s.Buckets itemClasses).map
      (fun b => SuggestTrieBuilder.mk s.Descendants b)
  | c :: text, s =>
    (addItem maxItemsPerPrefix item s.Buckets itemClasses).bind (fun b =>
      match findDescendant c s.Descendants with
      | some i =>
        ((s.Descendants.getD i (.mk c (.mk [] []))).Builder.Add maxItemsPerPrefix item itemClasses
            text).map
          (fun d => SuggestTrieBuilder.mk (s.Descendants.set i (.mk c d)) b)
      | none =>
        ((SuggestTrieBuilder.mk [] []).Add maxItemsPerPrefix item itemClasses text).map
          (fun d => SuggestTrieBuilder.mk (s.Descendants ++ [.mk c d]) b))

/-- The loop of `DeduplicateSuggest`, with the set `seenGroups` as a list. -/
def deduplicateLoop : List String → List (SuggestTrieItem W) → List (SuggestTrieItem W)
  | _, [] => []
  | seenGroups, item :: rest =>
    match item.OriginalItem.Data.group with
    | none => item :: deduplicateLoop seenGroups rest
    | some group =>
      if group ∈ seenGroups then deduplicateLoop seenGroups rest
      else item :: deduplicateLoop (group :: seenGroups) rest

/-- Method `DeduplicateSuggest`. -/
def DeduplicateSuggest (s : List (SuggestTrieItem W)) : List (SuggestTrieItem W) :=
  deduplicateLoop [] s

/-- The body of the second loop of `Finalize` for one bucket: sort by weight descending,
deduplicate by group, cut to `maxItemsPerPrefix` (a negative bound is out of range). -/
def finalizeBucket (S : SliceSorter W) (maxItemsPerPrefix : Int) (suggest : SuggestItems W) :
    Option (SuggestItems W) :=
  let sorted := S.sortDesc SuggestTrieItem.Weight suggest.Suggest
  let dedup := DeduplicateSuggest sorted
  if maxItemsPerPrefix < (dedup.length : Int) then
    if maxItemsPerPrefix < 0 then none
    else some { Class := suggest.Class, Suggest := dedup.take maxItemsPerPrefix.toNat }
  else some { Class := suggest.Class, Suggest := dedup }

/-- The second loop of `Finalize`. -/
def finalizeBuckets (S : SliceSorter W) (maxItemsPerPrefix : Int) :
    List (SuggestItems W) → Option (List (SuggestItems W))
  | [] => some []
  | suggest :: rest =>
    (finalizeBucket S maxItemsPerPrefix suggest).bind (fun b =>
      (finalizeBuckets S maxItemsPerPrefix rest).map (fun r => b :: r))

/-- The first loop of `Finalize`: the buckets of a node with a single descendant are
dropped when they are deeply equal to the buckets of that descendant. -/
def clearPassThrough (descendants : List (SuggestTrieDescendant W))
    (buckets : List (SuggestItems W)) : List (SuggestItems W) :=
  descendants.foldl
    (fun cur d => if descendants.length = 1 ∧ DeepEqual d.Builder.Buckets cur = true then []
      else cur)
    buckets

mutual
/-- Method `Finalize`. -/
def SuggestTrieBuilder.Finalize (S : SliceSorter W) (maxItemsPerPrefix : Int) :
    SuggestTrieBuilder W → Option (SuggestTrieBuilder W)
  | .mk ds bs =>
    (finalizeBuckets S maxItemsPerPrefix (clearPassThrough ds bs)).bind (fun b =>
      (FinalizeDescendants S maxItemsPerPrefix ds).map (fun d => SuggestTrieBuilder.mk d b))
/-- The third loop of `Finalize`, over the descendants of a node. -/
def FinalizeDescendants (S : SliceSorter W) (maxItemsPerPrefix : Int) :
    List (SuggestTrieDescendant W) → Option (List (SuggestTrieDescendant W))
  | [] => some []
  | d :: rest =>
    (FinalizeDescendant S maxItemsPerPrefix d).bind (fun d1 =>
      (FinalizeDescendants S maxItemsPerPrefix rest).map (fun r => d1 :: r))
/-- The call `descendant.Builder.Finalize(maxItemsPerPrefix)`. -/
def FinalizeDescendant (S : SliceSorter W) (maxItemsPerPrefix : Int) :
    SuggestTrieDescendant W → Option (SuggestTrieDescendant W)
  | .mk k b => (SuggestTrieBuilder.Finalize S maxItemsPerPrefix b).map (fun b1 => .mk k b1)
end

/-! ## Serialization (`suggest.go`) -/

/-- State of the serializer, `ProtoTransformer`: the map from item address to index and
the items table. -/
structure ProtoTransformer (W : Type) where
  ItemsMap : List (Nat × Nat)
  Items : List (stpb.Item W)

/-- The call `NewProtoTransformer()`. -/
def NewProtoTransformer : ProtoTransformer W :=
  { ItemsMap := [], Items := [] }

/-- The serialized form `&stpb.Item{...}` of an item. -/
def Item.toProto (item : Item W) : stpb.Item W :=
  { Weight := item.Weight, OriginalText := item.OriginalText, Data := item.Data }

/-- The `if _, ok := pt.ItemsMap[item.OriginalItem]; !ok` block of `TransformTrie`. -/
def ProtoTransformer.intern (pt : ProtoTransformer W) (item : Item W) : ProtoTransformer W :=
  match pt.ItemsMap.lookup item.ptr with
  | some _ => pt
  | none =>
    { ItemsMap := pt.ItemsMap ++ [(item.ptr, pt.Items.length)],
      Items := pt.Items ++ [item.toProto] }

/-- The conversion `uint32(n)` of a non-negative Go `int`: the value modulo `2 ^ 32`. -/
def uint32 (n : Nat) : Nat := n % 2 ^ 32

/-- The inner loop of `TransformTrie` over the entries of one bucket, appending to
`trieItems`. -/
def ProtoTransformer.transformItems :
    ProtoTransformer W → stpb.ClassItems W → List (SuggestTrieItem W) →
      ProtoTransformer W × stpb.ClassItems W
  | pt, trieItems, [] => (pt, trieItems)
  | pt, trieItems, item :: rest =>
    let pt1 := pt.intern item.OriginalItem
    ProtoTransformer.transformItems pt1
      { Class := trieItems.Class,
        ItemWeights := trieItems.ItemWeights ++ [item.Weight],
        ItemIndexes := trieItems.ItemIndexes ++
          [uint32 ((pt1.ItemsMap.lookup item.OriginalItem.ptr).getD 0)] }
      rest

/-- The loop of `TransformTrie` over the buckets of one node. -/
def ProtoTransformer.transformBuckets :
    ProtoTransformer W → List (SuggestItems W) → ProtoTransformer W × List (stpb.ClassItems W)
  | pt, [] => (pt, [])
  | pt, suggest :: rest =>
    let r := pt.transformItems { Class := suggest.Class, ItemWeights := [], ItemIndexes := [] }
      suggest.Suggest
    let r2 := ProtoTransformer.transformBuckets r.1 rest
    (r2.1, r.2 :: r2.2)

mutual
/-- Method `TransformTrie`: descendants first, in order, then the buckets of the node. -/
def ProtoTransformer.TransformTrie :
    ProtoTransformer W → SuggestTrieBuilder W → ProtoTransformer W × stpb.SuggestTrie W
  | pt, .mk ds bs =>
    let r := TransformDescendants pt ds
    let r2 := r.1.transformBuckets bs
    (r2.1, stpb.SuggestTrie.mk r.2.1 r.2.2 r2.2)
/-- The loop of `TransformTrie` over the descendants, giving the keys and the tries. -/
def TransformDescendants :
    ProtoTransformer W → List (SuggestTrieDescendant W) →
      ProtoTransformer W × List Nat × List (stpb.SuggestTrie W)
  | pt, [] => (pt, [], [])
  | pt, d :: rest =>
    let r := TransformDescendant pt d
    let r2 := TransformDescendants r.1 rest
    (r2.1, r.2.1 :: r2.2.1, r.2.2 :: r2.2.2)
/-- One turn of the loop over the descendants. -/
def TransformDescendant :
    ProtoTransformer W → SuggestTrieDescendant W → ProtoTransformer W × Nat × stpb.SuggestTrie W
  | pt, .mk k b =>
    let r := ProtoTransformer.TransformTrie pt b
    (r.1, k, r.2)
end

/-- Function `Transform`. -/
def Transform (builder : SuggestTrieBuilder W) : stpb.SuggestData W :=
  let r := (NewProtoTransformer : ProtoTransformer W).TransformTrie builder
  { Trie := r.2, Items := r.1.Items }

/-! ## Build (`suggest.go`) -/

/-- The loop over `data["classes"]` in `extractItemClasses`, with the set `seenClasses`
as a list. -/
def extractLoop (LowerNormalizeString : String → String) :
    List String → List String → List String → List String
  | _, classes, [] => classes
  | seenClasses, classes, c :: rest =>
    let itemClass := LowerNormalizeString c
    if itemClass ∈ seenClasses then extractLoop LowerNormalizeString seenClasses classes rest
    else extractLoop LowerNormalizeString (itemClass :: seenClasses) (classes ++ [itemClass]) rest

/-- Function `extractItemClasses`. -/
def extractItemClasses (LowerNormalizeString : String → String) (item : Item W) : List String :=
  let first : List String :=
    match item.Data.cls with
    | some c => [LowerNormalizeString c]
    | none => []
  match item.Data.classes with
  | some itemClasses => extractLoop LowerNormalizeString first first itemClasses
  | none => first

/-- The call `strings.Split(s, " ")` for the separator byte `sep`. -/
def Split (sep : Nat) : List Nat → List (List Nat)
  | [] => [[]]
  | c :: rest =>
    if c = sep then [] :: Split sep rest
    else
      match Split sep rest with
      | [] => [[c]]
      | p :: ps => (c :: p) :: ps

/-- The call `strings.Join(parts, " ")` for the separator byte `sep`. -/
def Join (sep : Nat) : List (List Nat) → List Nat
  | [] => []
  | [p] => p
  | p :: q :: rest => p ++ sep :: Join sep (q :: rest)

/-- The texts `strings.Join(parts[i:], " ")` for `i = 1, ..., len(parts) - 1`. -/
def rotations (text : List Nat) : List (List Nat) :=
  (List.range' 1 ((Split 32 text).length - 1)).map (fun i => Join 32 ((Split 32 text).drop i))

/-- The inner loop of `BuildSuggest` over the suffix rotations of one item. -/
def addRotations (maxItemsPerPrefix : Int) (item : SuggestTrieItem W) (itemClasses : List String) :
    List (List Nat) → SuggestTrieBuilder W → Option (SuggestTrieBuilder W)
  | [], builder => some builder
  | text :: rest, builder =>
    (builder.Add maxItemsPerPrefix item itemClasses text).bind
      (fun b => addRotations maxItemsPerPrefix item itemClasses rest b)

/-- One turn of the outer loop of `BuildSuggest`. -/
def addSuggestItem [Mul W] (LowerNormalizeString : String → String) (veroheadItemsCount : Int)
    (postfixWeightFactor : W) (builder : SuggestTrieBuilder W) (item : Item W) :
    Option (SuggestTrieBuilder W) :=
  let itemClasses := extractItemClasses LowerNormalizeString item
  (builder.Add veroheadItemsCount { Weight := item.Weight, OriginalItem := item } itemClasses
      item.NormalizedText).bind
    (fun b => addRotations veroheadItemsCount
      { Weight := item.Weight * postfixWeightFactor, OriginalItem := item } itemClasses
      (rotations item.NormalizedText) b)

/-- The outer loop of `BuildSuggest`. -/
def addSuggestItems [Mul W] (LowerNormalizeString : String → String) (veroheadItemsCount : Int)
    (postfixWeightFactor : W) : List (Item W) → SuggestTrieBuilder W → Option (SuggestTrieBuilder W)
  | [], builder => some builder
  | item :: rest, builder =>
    (addSuggestItem LowerNormalizeString veroheadItemsCount postfixWeightFactor builder item).bind
      (fun b => addSuggestItems LowerNormalizeString veroheadItemsCount postfixWeightFactor rest b)

/-- The value that an arithmetic operation on the Go type `int` (64 bits, two's complement)
leaves for the exact result `x`: `x` wrapped into the range from `-2 ^ 63` to `2 ^ 63 - 1`. -/
def wrapInt (x : Int) : Int := (x + 2 ^ 63) % 2 ^ 64 - 2 ^ 63

/-- Function `BuildSuggest`. The product `maxItemsPerPrefix * 2` is a Go `int` and wraps. -/
def BuildSuggest [Mul W] (S : SliceSorter W) (LowerNormalizeString : String → String)
    (items : List (Item W)) (maxItemsPerPrefix : Int) (postfixWeightFactor : W) :
    Option (stpb.SuggestData W) :=
  (addSuggestItems LowerNormalizeString (wrapInt (maxItemsPerPrefix * 2)) postfixWeightFactor
      items
      (SuggestTrieBuilder.mk [] [])).bind
    (fun builder => (builder.Finalize S maxItemsPerPrefix).map Transform)

/-! ## Query (`suggest.go`, `common.go`) -/

/-- Function `PrepareCheckMap`; the resulting set of keys is a list. -/
def PrepareCheckMap (LowerNormalizeString : String → String) (values : List String) :
    List String :=
  (values.filter (fun value => decide (value ≠ ""))).map LowerNormalizeString

/-- Function `itemSatisfyClasses`. -/
def itemSatisfyClasses (classes reqClassesMap exclClassesMap : List String) : Bool :=
  let satisfyClass := classes.any (fun cls => decide (cls ∈ reqClassesMap) || reqClassesMap.length == 0)
  if classes.any (fun cls => decide (cls ∈ exclClassesMap)) then false else satisfyClass

/-- The scan of `trie.DescendantKeys` in `GetSuggestItems`: the first index holding `c`. -/
def findKey (c : Nat) : List Nat → Option Nat
  | [] => none
  | key :: rest => if key = c then some 0 else (findKey c rest).map (fun i => i + 1)

/-- The descent loop of `GetSuggestItems`; `some none` is the early `return nil`. -/
def descend : List Nat → stpb.SuggestTrie W → Option (Option (stpb.SuggestTrie W))
  | [], trie => some (some trie)
  | c :: rest, trie =>
    match findKey c trie.DescendantKeys with
    | none => some none
    | some idx =>
      match trie.DescendantTries[idx]? with
      | none => none
      | some t => descend rest t

mutual
/-- The single-child skip loop of `GetSuggestItems`.  A node with one key, no bucket and
no descendant trie keeps the loop spinning for ever: the result is `none`. -/
def skipSingle : stpb.SuggestTrie W → Option (stpb.SuggestTrie W)
  | .mk keys tries items =>
    if keys.length = 1 ∧ items.length = 0 then skipFirst tries
    else some (.mk keys tries items)
/-- The body `for _, d := range trie.DescendantTries { trie = d; break }` of the skip loop,
followed by the next turns. -/
def skipFirst : List (stpb.SuggestTrie W) → Option (stpb.SuggestTrie W)
  | [] => none
  | d :: _ => skipSingle d
end

/-- The statement `classesItems[itemIdx].Classes = append(..., itemClass)`. -/
def appendClass (itemClass : String) :
    Nat → List (SuggestClassesItem W) → Option (List (SuggestClassesItem W))
  | _, [] => none
  | 0, e :: rest => some ({ Classes := e.Classes ++ [itemClass], Item := e.Item } :: rest)
  | i + 1, e :: rest => (appendClass itemClass i rest).map (fun r => e :: r)

/-- The body of the inner loop of the item assembly, on the state
`(classesItems, classesItemsMap)`. -/
def assembleIndex (items : List (stpb.Item W)) (itemClass : String)
    (st : List (SuggestClassesItem W) × List (Nat × Nat)) (itemIndex : Nat) :
    Option (List (SuggestClassesItem W) × List (Nat × Nat)) :=
  match st.2.lookup itemIndex with
  | some itemIdx => (appendClass itemClass itemIdx st.1).map (fun c => (c, st.2))
  | none =>
    match items[itemIndex]? with
    | none => none
    | some it =>
      (appendClass itemClass st.1.length
          (st.1 ++ [{ Classes := [], Item := { index := itemIndex, item := it } }])).map
        (fun c => (c, st.2 ++ [(itemIndex, st.1.length)]))

/-- The inner loop of the item assembly, over the indexes of one bucket. -/
def assembleIndexes (items : List (stpb.Item W)) (itemClass : String) :
    List Nat → List (SuggestClassesItem W) × List (Nat × Nat) →
      Option (List (SuggestClassesItem W) × List (Nat × Nat))
  | [], st => some st
  | itemIndex :: rest, st =>
    (assembleIndex items itemClass st itemIndex).bind (assembleIndexes items itemClass rest)

/-- The outer loop of the item assembly, over the buckets of the result node. -/
def assembleBuckets (items : List (stpb.Item W)) :
    List (stpb.ClassItems W) → List (SuggestClassesItem W) × List (Nat × Nat) →
      Option (List (SuggestClassesItem W) × List (Nat × Nat))
  | [], st => some st
  | suggestItems :: rest, st =>
    (assembleIndexes items suggestItems.Class suggestItems.ItemIndexes st).bind
      (assembleBuckets items rest)

/-- The part of `GetSuggestItems` after the result node `trie` is reached. -/
def collectItems (S : SliceSorter W) (LowerNormalizeString : String → String)
    (suggest : stpb.SuggestData W) (trie : stpb.SuggestTrie W)
    (requiredClasses excludedClasses : List String) : Option (List (ItemRef W)) :=
  (assembleBuckets suggest.Items trie.Items ([], [])).map (fun st =>
    let reqClassesMap := PrepareCheckMap LowerNormalizeString requiredClasses
    let exclClassesMap := PrepareCheckMap LowerNormalizeString excludedClasses
    let items := (st.1.filter (fun classesItem =>
      itemSatisfyClasses classesItem.Classes reqClassesMap exclClassesMap)).map
        SuggestClassesItem.Item
    S.sortDesc (fun r => r.item.Weight) items)

/-- Function `GetSuggestItems`.  The result lists the returned `*stpb.Item` in order; the
nil slice and the empty slice are both `[]`. -/
def GetSuggestItems (S : SliceSorter W) (LowerNormalizeString : String → String)
    (suggest : stpb.SuggestData W) (pre : List Nat)
    (requiredClasses excludedClasses : List String) : Option (List (ItemRef W)) :=
  match descend pre suggest.Trie with
  | none => none
  | some none => some []
  | some (some node) =>
    match skipSingle node with
    | none => none
    | some trie =>
      collectItems S LowerNormalizeString suggest trie requiredClasses excludedClasses

/-! ## Highlighting (`suggest.go`) -/

/-- The call `strings.ToLower(s)` on a string of ASCII bytes (every byte below 128), which Go
lowers byte by byte; bytes outside `A`-`Z` stay.  On other strings Go decodes UTF-8 and maps
code points, which this definition does not follow. -/
def ToLower (s : List Nat) : List Nat :=
  s.map (fun c => if 65 ≤ c ∧ c ≤ 90 then c + 32 else c)

/-- White space of `strings.Fields` within ASCII: tab, line feed, vertical tab, form feed,
carriage return, space. -/
def isSpace (c : Nat) : Bool :=
  decide (c = 9 ∨ c = 10 ∨ c = 11 ∨ c = 12 ∨ c = 13 ∨ c = 32)

/-- The scan of `strings.Fields`, with the field being read in `cur`. -/
def fieldsLoop : List Nat → List Nat → List (List Nat)
  | cur, [] => if cur = [] then [] else [cur]
  | cur, c :: rest =>
    if isSpace c = true then
      if cur = [] then fieldsLoop [] rest else cur :: fieldsLoop [] rest
    else fieldsLoop (cur ++ [c]) rest

/-- The call `strings.Fields(s)` on a string of ASCII bytes, split around runs of the six
ASCII white-space bytes.  On other strings Go also splits at the Unicode white space, which
this definition does not follow. -/
def Fields (s : List Nat) : List (List Nat) :=
  fieldsLoop [] s

/-- The call `strings.Index(s, sep)`. -/
def Index (sep : List Nat) : List Nat → Option Nat
  | [] => if sep = [] then some 0 else none
  | c :: s => if sep.isPrefixOf (c :: s) = true then some 0 else (Index sep s).map (fun i => i + 1)

/-- The slice expression `s[lo:hi]`, out of range unless `lo ≤ hi ≤ len(s)`. -/
def slice (s : List Nat) (lo hi : Nat) : Option (List Nat) :=
  if lo ≤ hi ∧ hi ≤ s.length then some ((s.take hi).drop lo) else none

/-- The call `strings.SplitN(s, sep, 2)` for a non-empty `sep`, as the first part and, when
`sep` occurs, the second part. -/
def SplitN2 (s sep : List Nat) : List Nat × Option (List Nat) :=
  match Index sep s with
  | none => (s, none)
  | some i => (s.take i, some (s.drop (i + sep.length)))

/-- The loop of `doHighlight` over the fields of the part. -/
def highlightLoop (originalSuggest loweredSuggest : List Nat) :
    List (List Nat) → Nat → List SuggestionTextBlock → Option (List SuggestionTextBlock)
  | [], _, textBlocks => some textBlocks
  | partField :: rest, pos, textBlocks =>
    (slice loweredSuggest pos loweredSuggest.length).bind (fun tail =>
      let suggestParts := SplitN2 tail partField
      let before := suggestParts.1.length
      (if suggestParts.1 ≠ [] then
          (slice originalSuggest pos (pos + before)).map
            (fun t => textBlocks ++ [SuggestionTextBlock.mk t false])
        else some textBlocks).bind (fun blocks1 =>
      (slice originalSuggest (pos + before) (pos + before + partField.length)).bind (fun hl =>
      (match rest, suggestParts.2 with
        | [], some after =>
          if after ≠ [] then
            (slice originalSuggest (pos + before + partField.length)
                (pos + before + partField.length + after.length)).map
              (fun t => blocks1 ++ [SuggestionTextBlock.mk hl true,
                SuggestionTextBlock.mk t false])
          else some (blocks1 ++ [SuggestionTextBlock.mk hl true])
        | _, _ => some (blocks1 ++ [SuggestionTextBlock.mk hl true])).bind (fun blocks3 =>
      highlightLoop originalSuggest loweredSuggest rest (pos + partField.length + before)
        blocks3))))

/-- Function `doHighlight`, for ASCII texts (see `ToLower` and `Fields`). -/
def doHighlight (AlphaNormalizeString : List Nat → List Nat)
    (originalPart originalSuggest : List Nat) : Option (List SuggestionTextBlock) :=
  highlightLoop originalSuggest (ToLower originalSuggest)
    (Fields (ToLower (AlphaNormalizeString originalPart))) 0 []

/-- The loop of `GetSuggest` over the items of the query result. -/
def answerItems (AlphaNormalizeString : List Nat → List Nat) (originalPart : List Nat) :
    List (ItemRef W) → Option (List (SuggestAnswerItem W))
  | [] => some []
  | trieItem :: rest =>
    (doHighlight AlphaNormalizeString originalPart trieItem.item.OriginalText).bind (fun blocks =>
      (answerItems AlphaNormalizeString originalPart rest).map (fun r =>
        { Weight := trieItem.item.Weight, Data := trieItem.item.Data, TextBlocks := blocks } :: r))

/-- Function `GetSuggest`. -/
def GetSuggest (S : SliceSorter W) (LowerNormalizeString : String → String)
    (AlphaNormalizeString : List Nat → List Nat) (suggest : stpb.SuggestData W)
    (originalPart normalizedPart : List Nat) (requiredClasses excludeClasses : List String) :
    Option (List (SuggestAnswerItem W)) :=
  (GetSuggestItems S LowerNormalizeString suggest normalizedPart requiredClasses
      excludeClasses).bind
    (answerItems AlphaNormalizeString originalPart)

/-- A sorter meeting the contract of `SliceSorter`: insertion sort. -/
def insertionSorter : SliceSorter W where
  sortDesc := fun key l => l.insertionSort (fun a b => key b ≤ key a)
  perm := fun key l => List.perm_insertionSort _ l
  sorted := fun key l => by
    have h := @List.sorted_insertionSort _ (fun a b => key b ≤ key a) _
      ⟨fun a b => le_total (key b) (key a)⟩ ⟨fun a b c h1 h2 => le_trans h2 h1⟩ l
    exact h

/-! ## Notions used in the statements -/

/-- The pairs (bucket class, item index) of a node in the order in which the item assembly
of a query scans them. -/
def pairsOf (buckets : List (stpb.ClassItems W)) : List (String × Nat) :=
  buckets.flatMap (fun b => b.ItemIndexes.map (fun i => (b.Class, i)))

/-- The classes of the buckets of a node that reference the index `i`, one per
reference. -/
def classesOf (buckets : List (stpb.ClassItems W)) (i : Nat) : List String :=
  ((pairsOf buckets).filter (fun p => decide (p.2 = i))).map Prod.fst

mutual
/-- Decode invariants below a node, for an items table of length `n`: as many descendant
tries as keys, as many weights as indexes in every bucket, every index below `n`. -/
def stpb.SuggestTrie.valid (n : Nat) : stpb.SuggestTrie W → Bool
  | .mk keys tries items =>
    decide (keys.length = tries.length) &&
      items.all (fun b => decide (b.ItemWeights.length = b.ItemIndexes.length) &&
        b.ItemIndexes.all (fun i => decide (i < n))) &&
      validList n tries
/-- Decode invariants below every node of a list. -/
def validList (n : Nat) : List (stpb.SuggestTrie W) → Bool
  | [] => true
  | t :: rest => stpb.SuggestTrie.valid n t && validList n rest
end

/-- Decode invariants of an artifact. -/
def stpb.SuggestData.valid (suggest : stpb.SuggestData W) : Bool :=
  suggest.Trie.valid suggest.Items.length

/-- The builder below the first descendant whose key is `c`. -/
def childOf (c : Nat) : List (SuggestTrieDescendant W) → Option (SuggestTrieBuilder W)
  | [] => none
  | d :: rest => if d.Key = c then some d.Builder else childOf c rest

/-- The node of a builder trie at the end of the path `q`, when the path exists. -/
def SuggestTrieBuilder.nodeAt : List Nat → SuggestTrieBuilder W → Option (SuggestTrieBuilder W)
  | [], s => some s
  | c :: q, s => (childOf c s.Descendants).bind (fun d => SuggestTrieBuilder.nodeAt q d)

/-- The bucket list of the node at the end of the path `q`; empty when there is no such
node. -/
def SuggestTrieBuilder.bucketsAt (q : List Nat) (s : SuggestTrieBuilder W) :
    List (SuggestItems W) :=
  ((s.nodeAt q).map SuggestTrieBuilder.Buckets).getD []

mutual
/-- The descendant keys of every node of a builder trie are pairwise distinct. -/
def SuggestTrieBuilder.NodupKeys : SuggestTrieBuilder W → Prop
  | .mk ds _ => (ds.map SuggestTrieDescendant.Key).Nodup ∧ NodupKeysList ds
/-- The descendant keys of every node below a list of descendants are pairwise distinct. -/
def NodupKeysList : List (SuggestTrieDescendant W) → Prop
  | [] => True
  | d :: rest => NodupKeysDesc d ∧ NodupKeysList rest
/-- The descendant keys of every node below a descendant are pairwise distinct. -/
def NodupKeysDesc : SuggestTrieDescendant W → Prop
  | .mk _ b => SuggestTrieBuilder.NodupKeys b
end

/-- One call of `Add` from the root: the text walked, the trie item, the classes. -/
structure Insertion (W : Type) where
  text : List Nat
  item : SuggestTrieItem W
  classes : List String

/-- A sequence of `Add` calls from the root, in order. -/
def addAll (maxItemsPerPrefix : Int) :
    List (Insertion W) → SuggestTrieBuilder W → Option (SuggestTrieBuilder W)
  | [], b => some b
  | i :: rest, b =>
    (b.Add maxItemsPerPrefix i.item i.classes i.text).bind (addAll maxItemsPerPrefix rest)

/-- A sequence of `addItem` calls on the bucket list of one node, in order. -/
def addItems (maxItemsPerPrefix : Int) :
    List (Insertion W) → List (SuggestItems W) → Option (List (SuggestItems W))
  | [], bs => some bs
  | i :: rest, bs =>
    (addItem maxItemsPerPrefix i.item bs i.classes).bind (addItems maxItemsPerPrefix rest)

/-- The `Add` calls that `BuildSuggest` makes for one item: the normalized text with the
weight of the item, then every suffix rotation with the weight times the factor. -/
def insertionsOf [Mul W] (LowerNormalizeString : String → String) (postfixWeightFactor : W)
    (item : Item W) : List (Insertion W) :=
  { text := item.NormalizedText, item := { Weight := item.Weight, OriginalItem := item },
    classes := extractItemClasses LowerNormalizeString item } ::
  (rotations item.NormalizedText).map (fun t =>
    { text := t, item := { Weight := item.Weight * postfixWeightFactor, OriginalItem := item },
      classes := extractItemClasses LowerNormalizeString item })

/-- The entry under which `BuildSuggest` inserts the normalized text of an item. -/
def Item.entry (x : Item W) : SuggestTrieItem W :=
  { Weight := x.Weight, OriginalItem := x }

/-- The single `Add` call of an item of class `c` without space in its normalized text. -/
def plainInsertion (c : String) (x : Item W) : Insertion W :=
  { text := x.NormalizedText, item := x.entry, classes := [c] }

/-- The `Add` calls that `BuildSuggest` makes for a list of items, in order. -/
def insertions [Mul W] (LowerNormalizeString : String → String) (postfixWeightFactor : W)
    (items : List (Item W)) : List (Insertion W) :=
  items.flatMap (insertionsOf LowerNormalizeString postfixWeightFactor)

/-- The entries that the buckets of class `c` of a node hold, in bucket order. -/
def entriesOf (c : String) (bs : List (SuggestItems W)) : List (SuggestTrieItem W) :=
  (bs.filter (fun b => decide (b.Class = c))).flatMap SuggestItems.Suggest

/-- The min-heap order on weight of a bucket array: no entry weighs less than its parent,
the parent of the index `j > 0` being `(j - 1) / 2`. -/
def IsHeap (s : List (SuggestTrieItem W)) : Prop :=
  ∀ j a b, 0 < j → s[j]? = some b → s[(j - 1) / 2]? = some a → a.Weight ≤ b.Weight

/-- The heap `h` holds the `limit` heaviest of the entries `all` pushed so far: it is in heap
order, has `min (length all) limit` entries, and the entries of `all` that it lost weigh no
more than any entry it kept. -/
def TopOf (limit : Nat) (all h : List (SuggestTrieItem W)) : Prop :=
  IsHeap h ∧ h.length = min all.length limit ∧
    ∃ dropped, all.Perm (h ++ dropped) ∧ ∀ d ∈ dropped, ∀ y ∈ h, d.Weight ≤ y.Weight

/-- A serialized bucket list mirrors a builder bucket list under the index assignment
`look` (item address to index): same classes, same weights, and every entry is replaced by the
index of its item. -/
def MirrorBuckets (look : Nat → Option Nat) (bs : List (SuggestItems W))
    (items : List (stpb.ClassItems W)) : Prop :=
  List.Forall₂ (fun b ci => ci.Class = b.Class ∧
      ci.ItemWeights = b.Suggest.map SuggestTrieItem.Weight ∧
      List.Forall₂ (fun e idx => look e.OriginalItem.ptr = some idx) b.Suggest ci.ItemIndexes)
    bs items

mutual
/-- A serialized trie mirrors a builder trie under the index assignment `look`: same keys in
the same order, mirrored descendants, mirrored buckets. -/
def Mirror (look : Nat → Option Nat) : SuggestTrieBuilder W → stpb.SuggestTrie W → Prop
  | .mk ds bs, t =>
    MirrorList look ds t.DescendantKeys t.DescendantTries ∧ MirrorBuckets look bs t.Items
/-- The descendants of a serialized node mirror a list of builder descendants. -/
def MirrorList (look : Nat → Option Nat) :
    List (SuggestTrieDescendant W) → List Nat → List (stpb.SuggestTrie W) → Prop
  | [], ks, ts => ks = [] ∧ ts = []
  | d :: rest, ks, ts =>
    ∃ k ks1 t ts1, ks = k :: ks1 ∧ ts = t :: ts1 ∧ MirrorDesc look d k t ∧
      MirrorList look rest ks1 ts1
/-- A key and a serialized trie mirror a builder descendant. -/
def MirrorDesc (look : Nat → Option Nat) :
    SuggestTrieDescendant W → Nat → stpb.SuggestTrie W → Prop
  | .mk key b, k, t => k = key ∧ Mirror look b t
end

/-- The node at which the single-child skip of a query stops, seen on the builder trie:
the first node, along the chain of only children, that has a bucket or does not have exactly
one descendant. -/
inductive SkipTo : SuggestTrieBuilder W → SuggestTrieBuilder W → Prop where
  | stop (n : SuggestTrieBuilder W) (h : ¬ (n.Descendants.length = 1 ∧ n.Buckets.length = 0)) :
      SkipTo n n
  | step (n n1 : SuggestTrieBuilder W) (d : SuggestTrieDescendant W)
      (hd : n.Descendants = [d]) (hb : n.Buckets.length = 0) (h : SkipTo d.Builder n1) :
      SkipTo n n1

/-- Invariant of the serializer state with respect to a set `Src` of source items: every
address in the map is the address of a source item whose serialized form sits in the table
at the mapped index, no two addresses share an index, the map has one pair per entry of the
table, and no address is mapped twice. -/
structure PtInv (Src : Item W → Prop) (pt : ProtoTransformer W) : Prop where
  item : ∀ p i, pt.ItemsMap.lookup p = some i →
    ∃ x, Src x ∧ x.ptr = p ∧ pt.Items[i]? = some x.toProto
  inj : ∀ p1 p2 i, pt.ItemsMap.lookup p1 = some i → pt.ItemsMap.lookup p2 = some i → p1 = p2
  len : pt.ItemsMap.length = pt.Items.length
  keys : (pt.ItemsMap.map Prod.fst).Nodup

mutual
/-- Every bucket of every node of a builder trie satisfies `P`. -/
def SuggestTrieBuilder.AllBuckets (P : SuggestItems W → Prop) : SuggestTrieBuilder W → Prop
  | .mk ds bs => (∀ b ∈ bs, P b) ∧ AllBucketsList P ds
/-- Every bucket of every node below a list of descendants satisfies `P`. -/
def AllBucketsList (P : SuggestItems W → Prop) : List (SuggestTrieDescendant W) → Prop
  | [] => True
  | d :: rest => AllBucketsDesc P d ∧ AllBucketsList P rest
/-- Every bucket of every node below a descendant satisfies `P`. -/
def AllBucketsDesc (P : SuggestItems W → Prop) : SuggestTrieDescendant W → Prop
  | .mk _ b => SuggestTrieBuilder.AllBuckets P b
end

/-- The property of a finalized bucket: at most `maxItemsPerPrefix` entries, weights never
increasing, no two entries whose items carry the same "group" value. -/
def FinalizedBucket (maxItemsPerPrefix : Int) (b : SuggestItems W) : Prop :=
  (b.Suggest.length : Int) ≤ maxItemsPerPrefix ∧
    b.Suggest.Pairwise (fun x y => y.Weight ≤ x.Weight) ∧
    b.Suggest.Pairwise (fun x y => ∀ g, x.OriginalItem.Data.group = some g →
      y.OriginalItem.Data.group ≠ some g)

/-- Invariant of the assembly loop after the pairs `seen` of (bucket class, item index)
have been processed. -/
structure AInv (items : List (stpb.Item W)) (seen : List (String × Nat))
    (st : List (SuggestClassesItem W) × List (Nat × Nat)) : Prop where
  look : ∀ i k, st.2.lookup i = some k ↔ (st.1.map (fun e => e.Item.index))[k]? = some i
  item : ∀ e ∈ st.1, items[e.Item.index]? = some e.Item.item
  cls : ∀ e ∈ st.1, e.Classes = (seen.filter (fun p => p.2 = e.Item.index)).map Prod.fst
  dom : ∀ i, (∃ e ∈ st.1, e.Item.index = i) ↔ i ∈ seen.map Prod.snd

/-- The index assignment of a serializer state. -/
def ProtoTransformer.look (pt : ProtoTransformer W) : Nat → Option Nat :=
  fun p => pt.ItemsMap.lookup p

/-- A later serializer state keeps every index assigned so far. -/
def Ext (pt pt1 : ProtoTransformer W) : Prop :=
  ∀ p i, pt.look p = some i → pt1.look p = some i

/-- The heap order with one entry `j` possibly lighter than its parent. -/
def UpInv (s : List (SuggestTrieItem W)) (j : Nat) : Prop :=
  (∀ k a b, 0 < k → k ≠ j → s[k]? = some b → s[(k - 1) / 2]? = some a → a.Weight ≤ b.Weight) ∧
  (∀ k a b, 0 < j → 0 < k → (k - 1) / 2 = j → s[k]? = some b → s[(j - 1) / 2]? = some a →
    a.Weight ≤ b.Weight)

/-- The heap order on the first `n` entries with the entry `i` possibly heavier than its
children. -/
def DownInv (s : List (SuggestTrieItem W)) (i n : Nat) : Prop :=
  (∀ k a b, 0 < k → k < n → (k - 1) / 2 ≠ i → s[k]? = some b → s[(k - 1) / 2]? = some a →
    a.Weight ≤ b.Weight) ∧
  (∀ k a b, 0 < i → 0 < k → k < n → (k - 1) / 2 = i → s[k]? = some b →
    s[(i - 1) / 2]? = some a → a.Weight ≤ b.Weight)

/-- The heap order on the first `n` entries. -/
def IsHeapN (s : List (SuggestTrieItem W)) (n : Nat) : Prop :=
  ∀ k a b, 0 < k → k < n → s[k]? = some b → s[(k - 1) / 2]? = some a → a.Weight ≤ b.Weight

end Defs

/-! ## A small artifact, used to instantiate the statements -/

/-- An item with the given address, weight and text (both original and normalized), the
single class `cls` and the given group. -/
def sampleItem (ptr : Nat) (weight : Int) (text : List Nat) (cls : String)
    (group : Option String) : Item Int :=
  { ptr := ptr, Weight := weight, OriginalText := text, NormalizedText := text,
    Data := { cls := none, classes := some [cls], group := group, other := [] } }

/-- The item "Red Apple" with normalized text "red apple", class "food" and weight 1. -/
def redApple : Item ℚ :=
  { ptr := 1, Weight := 1, OriginalText := [82, 101, 100, 32, 65, 112, 112, 108, 101],
    NormalizedText := [114, 101, 100, 32, 97, 112, 112, 108, 101],
    Data := { cls := none, classes := some ["food"], group := none, other := [] } }

/-- The bytes of "apple". -/
def appleBytes : List Nat := [97, 112, 112, 108, 101]

/-- The serialized item "xa": class "fruit", weight 10. -/
def fruitItem : stpb.Item Int :=
  { Weight := 10, OriginalText := [120, 97],
    Data := { cls := none, classes := some ["fruit"], group := none, other := [] } }

/-- The serialized item "xb": class "veggie", weight 9. -/
def veggieItem : stpb.Item Int :=
  { Weight := 9, OriginalText := [120, 98],
    Data := { cls := none, classes := some ["veggie"], group := none, other := [] } }

/-- The artifact built from the two items "xa" (class "fruit", weight 10) and "xb" (class
"veggie", weight 9): the root is a cleared pass-through node above the node of "x". -/
def fruitVeggie : stpb.SuggestData Int :=
  { Trie := .mk [120]
      [.mk [97, 98]
          [.mk [] [] [{ Class := "fruit", ItemWeights := [10], ItemIndexes := [0] }],
            .mk [] [] [{ Class := "veggie", ItemWeights := [9], ItemIndexes := [1] }]]
          [{ Class := "fruit", ItemWeights := [10], ItemIndexes := [0] },
            { Class := "veggie", ItemWeights := [9], ItemIndexes := [1] }]]
      [],
    Items := [fruitItem, veggieItem] }

/-- The node of "x" in `fruitVeggie`. -/
def fruitVeggieNode : stpb.SuggestTrie Int :=
  .mk [97, 98]
    [.mk [] [] [{ Class := "fruit", ItemWeights := [10], ItemIndexes := [0] }],
      .mk [] [] [{ Class := "veggie", ItemWeights := [9], ItemIndexes := [1] }]]
    [{ Class := "fruit", ItemWeights := [10], ItemIndexes := [0] },
      { Class := "veggie", ItemWeights := [9], ItemIndexes := [1] }]

end Suggest


namespace Suggest

section MoreDefs

variable {W : Type} [LinearOrder W]

/-! ## Further notions used in the statements -/

mutual
/-- The two decode invariants that a query relies on, below a node, for an items table of
length `n`: as many descendant tries as keys, and every index of every bucket below `n`. -/
def stpb.SuggestTrie.inRange (n : Nat) : stpb.SuggestTrie W → Bool
  | .mk keys tries items =>
    decide (keys.length = tries.length) &&
      items.all (fun b => b.ItemIndexes.all (fun i => decide (i < n))) &&
      inRangeList n tries
/-- The two invariants below every node of a list. -/
def inRangeList (n : Nat) : List (stpb.SuggestTrie W) → Bool
  | [] => true
  | t :: rest => stpb.SuggestTrie.inRange n t && inRangeList n rest
end

/-- A list with every later duplicate removed, the order of first occurrences kept. -/
def firstOccurrences : List String → List String
  | [] => []
  | a :: l => a :: (firstOccurrences l).filter (fun b => decide (b ≠ a))

/-- The tries reachable from the empty builder by a sequence of `Add` calls from the root,
each with its own bound, item, class list and text. -/
inductive Reachable : SuggestTrieBuilder W → Prop where
  | empty : Reachable (SuggestTrieBuilder.mk [] [])
  | add (s s1 : SuggestTrieBuilder W) (maxItemsPerPrefix : Int) (item : SuggestTrieItem W)
      (itemClasses : List String) (text : List Nat) (h : Reachable s)
      (ha : s.Add maxItemsPerPrefix item itemClasses text = some s1) : Reachable s1

mutual
/-- In every node of a builder trie: at most one bucket per class, and pairwise distinct
descendant keys. -/
def SuggestTrieBuilder.NodeInv : SuggestTrieBuilder W → Prop
  | .mk ds bs => (bs.map SuggestItems.Class).Nodup ∧
      (ds.map SuggestTrieDescendant.Key).Nodup ∧ NodeInvList ds
/-- The node invariant in every node below a list of descendants. -/
def NodeInvList : List (SuggestTrieDescendant W) → Prop
  | [] => True
  | d :: rest => NodeInvDesc d ∧ NodeInvList rest
/-- The node invariant in every node below a descendant. -/
def NodeInvDesc : SuggestTrieDescendant W → Prop
  | .mk _ b => SuggestTrieBuilder.NodeInv b
end

/-- The `k` largest of a list of weights, heaviest first (all of them when the list is
shorter than `k`). -/
def largest (k : Nat) (ws : List W) : List W :=
  (ws.insertionSort (fun a b => b ≤ a)).take k

/-- The fields `fs` occur in this order in `s`, each found at its first occurrence after
the end of the previous match. -/
def FieldsOccur : List Nat → List (List Nat) → Prop
  | _, [] => True
  | s, f :: rest =>
    ∃ a b, s = a ++ f ++ b ∧ (∀ a1 b1, s = a1 ++ f ++ b1 → a.length ≤ a1.length) ∧
      FieldsOccur b rest

mutual
/-- The items that `TransformTrie` meets on a builder trie, in the order in which it meets
them: the descendants first, in order, then the entries of the buckets of the node. -/
def SuggestTrieBuilder.encounter : SuggestTrieBuilder W → List (Item W)
  | .mk ds bs =>
    encounterList ds ++ bs.flatMap (fun b => b.Suggest.map SuggestTrieItem.OriginalItem)
/-- The items met below a list of descendants, in order. -/
def encounterList : List (SuggestTrieDescendant W) → List (Item W)
  | [] => []
  | d :: rest => encounterDesc d ++ encounterList rest
/-- The items met below a descendant, in order. -/
def encounterDesc : SuggestTrieDescendant W → List (Item W)
  | .mk _ b => SuggestTrieBuilder.encounter b
end

/-- The position of the first item of a list that has the address `p`. -/
def ptrIndex : List (Item W) → Nat → Option Nat
  | [], _ => none
  | x :: l, p => if x.ptr = p then some 0 else (ptrIndex l p).map (fun i => i + 1)

mutual
/-- Reference finalization for the transparency of path compression: every bucket of every
node is sorted, deduplicated by group and cut, and no node has its bucket list cleared. -/
def SuggestTrieBuilder.FinalizeReference (S : SliceSorter W) (maxItemsPerPrefix : Int) :
    SuggestTrieBuilder W → Option (SuggestTrieBuilder W)
  | .mk ds bs =>
    (finalizeBuckets S maxItemsPerPrefix bs).bind (fun b =>
      (FinalizeReferenceDescendants S maxItemsPerPrefix ds).map
        (fun d => SuggestTrieBuilder.mk d b))
/-- Reference finalization of the descendants of a node, in order. -/
def FinalizeReferenceDescendants (S : SliceSorter W) (maxItemsPerPrefix : Int) :
    List (SuggestTrieDescendant W) → Option (List (SuggestTrieDescendant W))
  | [] => some []
  | d :: rest =>
    (FinalizeReferenceDescendant S maxItemsPerPrefix d).bind (fun d1 =>
      (FinalizeReferenceDescendants S maxItemsPerPrefix rest).map (fun r => d1 :: r))
/-- Reference finalization below one descendant. -/
def FinalizeReferenceDescendant (S : SliceSorter W) (maxItemsPerPrefix : Int) :
    SuggestTrieDescendant W → Option (SuggestTrieDescendant W)
  | .mk k b =>
    (SuggestTrieBuilder.FinalizeReference S maxItemsPerPrefix b).map (fun b1 => .mk k b1)
end

/-- Reference build for the transparency of path compression: the insertion phase of
`BuildSuggest`, the reference finalization, and `Transform`. -/
def BuildSuggestReference [Mul W] (S : SliceSorter W) (LowerNormalizeString : String → String)
    (items : List (Item W)) (maxItemsPerPrefix : Int) (postfixWeightFactor : W) :
    Option (stpb.SuggestData W) :=
  (addSuggestItems LowerNormalizeString (wrapInt (maxItemsPerPrefix * 2)) postfixWeightFactor
      items
      (SuggestTrieBuilder.mk [] [])).bind
    (fun builder => (builder.FinalizeReference S maxItemsPerPrefix).map Transform)

/-- Reference query for the transparency of path compression: the descent of
`GetSuggestItems`, then the item assembly, filter and sort at the exact node that the descent reaches, without the
single-child skip. -/
def GetSuggestItemsReference (S : SliceSorter W) (LowerNormalizeString : String → String)
    (suggest : stpb.SuggestData W) (pre : List Nat)
    (requiredClasses excludedClasses : List String) : Option (List (ItemRef W)) :=
  match descend pre suggest.Trie with
  | none => none
  | some none => some []
  | some (some node) =>
    collectItems S LowerNormalizeString suggest node requiredClasses excludedClasses

/-- A sorter that sees the elements only through their keys, as `sort.Slice` sees them only
through the comparison function: sorting commutes with every map that the key factors
through. -/
def SliceSorter.Natural (S : SliceSorter W) : Prop :=
  ∀ {α β : Type} (f : α → β) (key : β → W) (l : List α),
    (S.sortDesc (fun a => key (f a)) l).map f = S.sortDesc key (l.map f)

/-- Two working entries of two item assemblies correspond: same classes, same item, and
indexes related by `ρ`. -/
def EntryRel (ρ : Nat → Nat → Prop) (e e1 : SuggestClassesItem W) : Prop :=
  e.Classes = e1.Classes ∧ e.Item.item = e1.Item.item ∧ ρ e.Item.index e1.Item.index

/-- The trie left by one `Add` call, from the empty builder, of the text "x" (the byte 120)
with the entry `e`, the class list ["c", "c"] and a bound of at least 2: the root and the
node of "x" each hold one bucket of class "c" with the entry twice. -/
def SuggestTrieItem.trieOf (e : SuggestTrieItem W) : SuggestTrieBuilder W :=
  .mk [.mk 120 (.mk [] [{ Class := "c", Suggest := [e, e] }])]
    [{ Class := "c", Suggest := [e, e] }]

/-- An artifact whose root holds the index 0 twice in the bucket of class "a" and once in
the bucket of class "b". -/
def twiceArtifact : stpb.SuggestData Int :=
  { Trie := .mk [] []
      [{ Class := "a", ItemWeights := [10, 10], ItemIndexes := [0, 0] },
        { Class := "b", ItemWeights := [10], ItemIndexes := [0] }],
    Items := [fruitItem] }

end MoreDefs

end Suggest


namespace Suggest

section QueryLemmas

set_option linter.unusedSectionVars false

variable {W : Type} [LinearOrder W]

/-! ## Item assembly of a query -/

theorem appendClass_eq (c : String) :
    ∀ (l : List (SuggestClassesItem W)) (k : Nat) (e : SuggestClassesItem W),
      l[k]? = some e →
      appendClass c k l = some (l.set k { Classes := e.Classes ++ [c], Item := e.Item })
  | [], k, e, h => by simp at h
  | a :: l, 0, e, h => by
    simp at h
    subst h
    simp [appendClass]
  | a :: l, k + 1, e, h => by
    simp at h
    simp [appendClass, appendClass_eq c l k e h]

theorem appendClass_none (c : String) :
    ∀ (l : List (SuggestClassesItem W)) (k : Nat), l.length ≤ k → appendClass c k l = none
  | [], k, _ => by cases k <;> simp [appendClass]
  | a :: l, 0, h => by simp at h
  | a :: l, k + 1, h => by
    simp at h
    simp [appendClass, appendClass_none c l k h]

theorem AInv.init (items : List (stpb.Item W)) : AInv items [] ([], []) where
  look := by intro i k; simp
  item := by intro e he; simp at he
  cls := by intro e he; simp at he
  dom := by intro i; simp

theorem AInv.index_inj {items : List (stpb.Item W)} {seen : List (String × Nat)}
    {st : List (SuggestClassesItem W) × List (Nat × Nat)} (h : AInv items seen st)
    {j k : Nat} {a b : SuggestClassesItem W} (ha : st.1[j]? = some a) (hb : st.1[k]? = some b)
    (hab : a.Item.index = b.Item.index) : j = k := by
  have h1 : st.2.lookup a.Item.index = some j := by
    rw [h.look]; simp [ha]
  have h2 : st.2.lookup a.Item.index = some k := by
    rw [h.look]; simp [hb, hab]
  rw [h1] at h2
  exact Option.some.inj h2

theorem AInv.step {items : List (stpb.Item W)} {seen : List (String × Nat)}
    {st : List (SuggestClassesItem W) × List (Nat × Nat)} (h : AInv items seen st)
    (c : String) (i : Nat) (hi : i < items.length) :
    ∃ st1, assembleIndex items c st i = some st1 ∧ AInv items (seen ++ [(c, i)]) st1 := by
  unfold assembleIndex
  cases hl : st.2.lookup i with
  | some k =>
    have hk := (h.look i k).1 hl
    simp only [List.getElem?_map, Option.map_eq_some'] at hk
    obtain ⟨e, he, hei⟩ := hk
    simp only [appendClass_eq c st.1 k e he, Option.map_some']
    refine ⟨_, rfl, ?_⟩
    have hklt : k < st.1.length := by
      rcases List.getElem?_eq_some.1 he with ⟨hlt, _⟩
      exact hlt
    have hmap : (st.1.set k { Classes := e.Classes ++ [c], Item := e.Item }).map
        (fun e => e.Item.index) = st.1.map (fun e => e.Item.index) := by
      apply List.ext_getElem?
      intro j
      simp only [List.getElem?_map, List.getElem?_set]
      by_cases hjk : k = j
      · subst hjk
        simp [hklt, he]
      · simp [hjk]
    have hmem : ∀ e1, e1 ∈ st.1.set k { Classes := e.Classes ++ [c], Item := e.Item } →
        (e1 = { Classes := e.Classes ++ [c], Item := e.Item }) ∨
          (e1 ∈ st.1 ∧ e1.Item.index ≠ i) := by
      intro e1 he1
      rcases List.mem_iff_getElem?.1 he1 with ⟨j, hj⟩
      rw [List.getElem?_set] at hj
      by_cases hjk : k = j
      · subst hjk
        simp [hklt] at hj
        exact Or.inl hj.symm
      · simp [hjk] at hj
        right
        refine ⟨List.mem_iff_getElem?.2 ⟨j, hj⟩, ?_⟩
        intro hc
        exact hjk (h.index_inj he hj (by rw [hei, hc]))
    constructor
    · intro i1 k1
      simp only [hmap]
      exact h.look i1 k1
    · intro e1 he1
      rcases hmem e1 he1 with h1 | ⟨h1, _⟩
      · subst h1
        exact h.item e (List.mem_iff_getElem?.2 ⟨k, he⟩)
      · exact h.item e1 h1
    · intro e1 he1
      rcases hmem e1 he1 with h1 | ⟨h1, h2⟩
      · subst h1
        have := h.cls e (List.mem_iff_getElem?.2 ⟨k, he⟩)
        simp [List.filter_append, this, hei]
      · have := h.cls e1 h1
        simp [List.filter_append, this, Ne.symm h2]
    · intro i1
      have hd := h.dom i1
      simp only [List.map_append, List.mem_append, List.map_cons, List.map_nil,
        List.mem_singleton]
      constructor
      · rintro ⟨e1, he1, rfl⟩
        rcases hmem e1 he1 with h1 | ⟨h1, _⟩
        · subst h1
          right
          exact hei
        · left
          exact hd.1 ⟨e1, h1, rfl⟩
      · intro hx
        have : ∃ e0 ∈ st.1, e0.Item.index = i1 := by
          rcases hx with hx | hx
          · exact hd.2 hx
          · exact ⟨e, List.mem_iff_getElem?.2 ⟨k, he⟩, by rw [hei, hx]⟩
        obtain ⟨e0, he0, he0i⟩ := this
        have hm : e0.Item.index ∈ (st.1.set k { Classes := e.Classes ++ [c], Item := e.Item }).map
            (fun e => e.Item.index) := by
          rw [hmap]
          exact List.mem_map.2 ⟨e0, he0, rfl⟩
        rcases List.mem_map.1 hm with ⟨e2, he2, he2i⟩
        exact ⟨e2, he2, by rw [he2i, he0i]⟩
  | none =>
    obtain ⟨it, hit⟩ : ∃ it, items[i]? = some it := ⟨items[i], by simp [hi]⟩
    simp only [hit]
    have hnew : (st.1 ++ [({ Classes := [], Item := { index := i, item := it } } :
        SuggestClassesItem W)])[st.1.length]? =
        some { Classes := [], Item := { index := i, item := it } } := by
      simp
    rw [appendClass_eq c _ _ _ hnew]
    simp only [Option.map_some']
    refine ⟨_, rfl, ?_⟩
    have hset : (st.1 ++ [({ Classes := [], Item := { index := i, item := it } } :
        SuggestClassesItem W)]).set st.1.length
          { Classes := [] ++ [c], Item := { index := i, item := it } } =
        st.1 ++ [{ Classes := [c], Item := { index := i, item := it } }] := by
      simp
    simp only [hset]
    have hnotin : ∀ e ∈ st.1, e.Item.index ≠ i := by
      intro e he hc
      rcases List.mem_iff_getElem?.1 he with ⟨j, hj⟩
      have : st.2.lookup i = some j := by
        rw [h.look]; simp [hj, hc]
      rw [hl] at this
      cases this
    constructor
    · intro i1 k1
      simp only [List.lookup_append, List.map_append, List.map_cons, List.map_nil]
      by_cases hk1 : k1 < st.1.length
      · rw [List.getElem?_append_left (by simpa using hk1)]
        rw [← h.look]
        cases hl1 : st.2.lookup i1 with
        | some k2 => simp
        | none =>
          simp only [Option.none_or, List.lookup_cons, List.lookup_nil]
          constructor
          · intro hx
            by_cases hii : i1 = i
            · subst hii
              simp at hx
              omega
            · have hb : (i1 == i) = false := by simpa using hii
              simp [hb] at hx
          · intro hx
            cases hx
      · have hk1' : st.1.length ≤ k1 := Nat.le_of_not_lt hk1
        rw [List.getElem?_append_right (by simpa using hk1')]
        simp only [List.length_map]
        cases hl1 : st.2.lookup i1 with
        | some k2 =>
          have h3 := (h.look i1 k2).1 hl1
          have hk2 : k2 < st.1.length := by
            rcases List.getElem?_eq_some.1 h3 with ⟨hlt, _⟩
            simpa using hlt
          have hne : i1 ≠ i := by
            intro hc
            rw [hc, hl] at hl1
            cases hl1
          simp only [Option.or_some, Option.some.injEq]
          constructor
          · intro hx
            omega
          · intro hx
            rcases Nat.eq_zero_or_pos (k1 - st.1.length) with h0 | h0
            · rw [h0] at hx
              simp at hx
              exact absurd hx.symm hne
            · obtain ⟨m, hm⟩ : ∃ m, k1 - st.1.length = m + 1 := ⟨k1 - st.1.length - 1, by omega⟩
              rw [hm] at hx
              simp at hx
        | none =>
          simp only [Option.none_or, List.lookup_cons, List.lookup_nil]
          by_cases hii : i1 = i
          · subst hii
            simp
            constructor
            · intro hx
              rw [← hx]
              simp
            · intro hx
              rcases Nat.eq_zero_or_pos (k1 - st.1.length) with h0 | h0
              · omega
              · obtain ⟨m, hm⟩ : ∃ m, k1 - st.1.length = m + 1 :=
                  ⟨k1 - st.1.length - 1, by omega⟩
                rw [hm] at hx
                simp at hx
          · have hb : (i1 == i) = false := by simpa using hii
            simp only [hb]
            constructor
            · intro hx
              cases hx
            · intro hx
              rcases Nat.eq_zero_or_pos (k1 - st.1.length) with h0 | h0
              · rw [h0] at hx
                simp at hx
                exact absurd hx.symm hii
              · obtain ⟨m, hm⟩ : ∃ m, k1 - st.1.length = m + 1 :=
                  ⟨k1 - st.1.length - 1, by omega⟩
                rw [hm] at hx
                simp at hx
    · intro e1 he1
      rcases List.mem_append.1 he1 with h1 | h1
      · exact h.item e1 h1
      · simp at h1
        subst h1
        exact hit
    · intro e1 he1
      rcases List.mem_append.1 he1 with h1 | h1
      · have := h.cls e1 h1
        simp [List.filter_append, this, Ne.symm (hnotin e1 h1)]
      · simp at h1
        subst h1
        have hno : seen.filter (fun p => p.2 = i) = [] := by
          rw [List.filter_eq_nil_iff]
          intro p hp hc
          have hc' : p.2 = i := by simpa using hc
          have : i ∈ seen.map Prod.snd := List.mem_map.2 ⟨p, hp, hc'⟩
          obtain ⟨e0, he0, he0i⟩ := (h.dom i).2 this
          exact hnotin e0 he0 he0i
        simp [List.filter_append, hno]
    · intro i1
      have hd := h.dom i1
      simp only [List.map_append, List.mem_append, List.map_cons, List.map_nil,
        List.mem_singleton]
      constructor
      · rintro ⟨e1, he1, rfl⟩
        rcases he1 with h1 | h1
        · left
          exact hd.1 ⟨e1, h1, rfl⟩
        · right
          subst h1
          rfl
      · intro hx
        rcases hx with hx | hx
        · obtain ⟨e0, he0, he0i⟩ := hd.2 hx
          exact ⟨e0, Or.inl he0, he0i⟩
        · exact ⟨_, Or.inr rfl, hx.symm⟩

theorem assembleIndexes_inv {items : List (stpb.Item W)} (c : String) :
    ∀ (idxs : List Nat) (seen : List (String × Nat))
      (st : List (SuggestClassesItem W) × List (Nat × Nat)),
      AInv items seen st → (∀ i ∈ idxs, i < items.length) →
      ∃ st1, assembleIndexes items c idxs st = some st1 ∧
        AInv items (seen ++ idxs.map (fun i => (c, i))) st1
  | [], seen, st, h, _ => ⟨st, rfl, by simpa using h⟩
  | i :: rest, seen, st, h, hb => by
    obtain ⟨st1, h1, hinv1⟩ := h.step c i (hb i (List.mem_cons_self _ _))
    obtain ⟨st2, h2, hinv2⟩ := assembleIndexes_inv c rest (seen ++ [(c, i)]) st1 hinv1
      (fun j hj => hb j (List.mem_cons_of_mem _ hj))
    refine ⟨st2, ?_, ?_⟩
    · simp [assembleIndexes, h1, h2]
    · simpa using hinv2

theorem assembleBuckets_inv {items : List (stpb.Item W)} :
    ∀ (bs : List (stpb.ClassItems W)) (seen : List (String × Nat))
      (st : List (SuggestClassesItem W) × List (Nat × Nat)),
      AInv items seen st → (∀ b ∈ bs, ∀ i ∈ b.ItemIndexes, i < items.length) →
      ∃ st1, assembleBuckets items bs st = some st1 ∧ AInv items (seen ++ pairsOf bs) st1
  | [], seen, st, h, _ => ⟨st, rfl, by simpa [pairsOf] using h⟩
  | b :: rest, seen, st, h, hb => by
    obtain ⟨st1, h1, hinv1⟩ := assembleIndexes_inv b.Class b.ItemIndexes seen st h
      (hb b (List.mem_cons_self _ _))
    obtain ⟨st2, h2, hinv2⟩ := assembleBuckets_inv rest _ st1 hinv1
      (fun b1 hb1 => hb b1 (List.mem_cons_of_mem _ hb1))
    refine ⟨st2, ?_, ?_⟩
    · simp [assembleBuckets, h1, h2]
    · simpa [pairsOf, List.append_assoc] using hinv2

theorem mem_pairsOf {bs : List (stpb.ClassItems W)} {c : String} {i : Nat} :
    (c, i) ∈ pairsOf bs ↔ ∃ b ∈ bs, b.Class = c ∧ i ∈ b.ItemIndexes := by
  simp only [pairsOf, List.mem_flatMap, List.mem_map, Prod.mk.injEq]
  constructor
  · rintro ⟨b, hb, j, hj, rfl, rfl⟩
    exact ⟨b, hb, rfl, hj⟩
  · rintro ⟨b, hb, rfl, hi⟩
    exact ⟨b, hb, i, hi, rfl, rfl⟩

theorem mem_classesOf {bs : List (stpb.ClassItems W)} {c : String} {i : Nat} :
    c ∈ classesOf bs i ↔ ∃ b ∈ bs, b.Class = c ∧ i ∈ b.ItemIndexes := by
  rw [← mem_pairsOf]
  simp only [classesOf, List.mem_map, List.mem_filter, decide_eq_true_eq]
  constructor
  · rintro ⟨⟨c1, i1⟩, ⟨hp, hi⟩, hc⟩
    simp only at hi hc
    subst hi hc
    exact hp
  · intro h
    exact ⟨(c, i), ⟨h, rfl⟩, rfl⟩

theorem itemSatisfyClasses_iff (classes req excl : List String) :
    itemSatisfyClasses classes req excl = true ↔
      (∃ c ∈ classes, c ∈ req ∨ req = []) ∧ ∀ c ∈ classes, c ∉ excl := by
  unfold itemSatisfyClasses
  by_cases hex : classes.any (fun cls => decide (cls ∈ excl)) = true
  · simp only [hex, if_true]
    constructor
    · intro h
      cases h
    · rintro ⟨_, h2⟩
      simp only [List.any_eq_true, decide_eq_true_eq] at hex
      obtain ⟨c, hc, hce⟩ := hex
      exact absurd hce (h2 c hc)
  · rw [if_neg hex]
    simp only [List.any_eq_true, decide_eq_true_eq, not_exists, not_and] at hex
    simp only [List.any_eq_true, Bool.or_eq_true, decide_eq_true_eq, beq_iff_eq,
      List.length_eq_zero]
    constructor
    · rintro ⟨c, hc, h⟩
      exact ⟨⟨c, hc, h⟩, hex⟩
    · rintro ⟨⟨c, hc, h⟩, _⟩
      exact ⟨c, hc, h⟩

/-- The working list of a query at the node `trie`: what `collectItems` returns, in terms
of the buckets of the node. -/
theorem collectItems_spec (S : SliceSorter W) (norm : String → String)
    (suggest : stpb.SuggestData W) (trie : stpb.SuggestTrie W) (req excl : List String)
    (hb : ∀ b ∈ trie.Items, ∀ i ∈ b.ItemIndexes, i < suggest.Items.length) :
    ∃ r, collectItems S norm suggest trie req excl = some r ∧
      (r.map ItemRef.index).Nodup ∧
      (r.Pairwise (fun a b => b.item.Weight ≤ a.item.Weight)) ∧
      (∀ x ∈ r, suggest.Items[x.index]? = some x.item) ∧
      ∀ x : ItemRef W, x ∈ r ↔
        (suggest.Items[x.index]? = some x.item ∧
          (∃ b ∈ trie.Items, x.index ∈ b.ItemIndexes) ∧
          itemSatisfyClasses (classesOf trie.Items x.index) (PrepareCheckMap norm req)
            (PrepareCheckMap norm excl) = true) := by
  obtain ⟨st, hst, hinv⟩ := assembleBuckets_inv trie.Items [] ([], []) (AInv.init _) hb
  simp only [List.nil_append] at hinv
  have hcls : ∀ e ∈ st.1, e.Classes = classesOf trie.Items e.Item.index := by
    intro e he
    rw [hinv.cls e he]
    simp [classesOf]
  have hnd : (st.1.map (fun e => e.Item.index)).Nodup := by
    rw [List.nodup_iff_getElem?_ne_getElem?]
    intro j k hjk hk hc
    have hj : j < (st.1.map (fun e => e.Item.index)).length := Nat.lt_trans hjk hk
    simp only [List.length_map] at hj hk
    have h1 : st.1[j]? = some st.1[j] := by simp [hj]
    have h2 : st.1[k]? = some st.1[k] := by simp [hk]
    simp only [List.getElem?_map, h1, h2, Option.map_some', Option.some.injEq] at hc
    have := hinv.index_inj h1 h2 hc
    omega
  refine ⟨S.sortDesc (fun r => r.item.Weight) ((st.1.filter (fun classesItem =>
      itemSatisfyClasses classesItem.Classes (PrepareCheckMap norm req)
        (PrepareCheckMap norm excl))).map SuggestClassesItem.Item),
    by simp only [collectItems, hst, Option.map_some'], ?_, S.sorted _ _, ?_, ?_⟩
  · refine ((S.perm _ _).map ItemRef.index).nodup_iff.2 ?_
    rw [List.map_map]
    exact (List.Nodup.sublist (List.Sublist.map _ (List.filter_sublist _)) hnd)
  · intro x hx
    have hx1 := (S.perm _ _).mem_iff.1 hx
    simp only [List.mem_map, List.mem_filter] at hx1
    obtain ⟨e, ⟨he, _⟩, rfl⟩ := hx1
    exact hinv.item e he
  · intro x
    rw [(S.perm _ _).mem_iff]
    simp only [List.mem_map, List.mem_filter]
    constructor
    · rintro ⟨e, ⟨he, hsat⟩, rfl⟩
      refine ⟨hinv.item e he, ?_, ?_⟩
      · have := (hinv.dom e.Item.index).1 ⟨e, he, rfl⟩
        simp only [List.mem_map] at this
        obtain ⟨⟨c, i⟩, hp, hi⟩ := this
        simp only at hi
        subst hi
        obtain ⟨b, hb1, _, hb2⟩ := mem_pairsOf.1 hp
        exact ⟨b, hb1, hb2⟩
      · rw [← hcls e he]
        exact hsat
    · rintro ⟨hit, ⟨b, hb1, hb2⟩, hsat⟩
      have : x.index ∈ (pairsOf trie.Items).map Prod.snd :=
        List.mem_map.2 ⟨(b.Class, x.index), mem_pairsOf.2 ⟨b, hb1, rfl, hb2⟩, rfl⟩
      obtain ⟨e, he, hei⟩ := (hinv.dom x.index).2 this
      refine ⟨e, ⟨he, ?_⟩, ?_⟩
      · rw [hcls e he, hei]
        exact hsat
      · have h2 := hinv.item e he
        rw [hei, hit] at h2
        cases x
        cases hx : e.Item
        simp only at hei h2 ⊢
        rw [hx] at hei h2
        simp only [Option.some.injEq] at h2
        simp only at hei
        simp [hei, h2]

/-! ## Descent and single-child skip on a valid artifact -/

theorem validList_getElem? (n : Nat) :
    ∀ (ts : List (stpb.SuggestTrie W)) (i : Nat) (t : stpb.SuggestTrie W),
      validList n ts = true → ts[i]? = some t → t.valid n = true
  | [], i, t, _, h => by simp at h
  | a :: ts, 0, t, hv, h => by
    simp only [validList, Bool.and_eq_true] at hv
    simp at h
    subst h
    exact hv.1
  | a :: ts, i + 1, t, hv, h => by
    simp only [validList, Bool.and_eq_true] at hv
    simp at h
    exact validList_getElem? n ts i t hv.2 h

theorem findKey_lt (c : Nat) : ∀ (keys : List Nat) (i : Nat), findKey c keys = some i →
    i < keys.length
  | [], i, h => by simp [findKey] at h
  | k :: keys, i, h => by
    unfold findKey at h
    by_cases hk : k = c
    · simp [hk] at h
      subst h
      simp
    · simp only [hk, if_false, Option.map_eq_some'] at h
      obtain ⟨j, hj, rfl⟩ := h
      have := findKey_lt c keys j hj
      simp
      omega

theorem valid_unfold {n : Nat} {keys : List Nat} {tries : List (stpb.SuggestTrie W)}
    {items : List (stpb.ClassItems W)} (h : (stpb.SuggestTrie.mk keys tries items).valid n = true) :
    keys.length = tries.length ∧
      (∀ b ∈ items, ∀ i ∈ b.ItemIndexes, i < n) ∧ validList n tries = true := by
  simp only [stpb.SuggestTrie.valid, Bool.and_eq_true, decide_eq_true_eq, List.all_eq_true]
    at h
  exact ⟨h.1.1, fun b hb i hi => (h.1.2 b hb).2 i hi, h.2⟩

theorem valid_items_bound {n : Nat} {t : stpb.SuggestTrie W} (h : t.valid n = true) :
    ∀ b ∈ t.Items, ∀ i ∈ b.ItemIndexes, i < n := by
  cases t with
  | mk keys tries items => exact (valid_unfold h).2.1

theorem descend_valid (n : Nat) :
    ∀ (pre : List Nat) (t : stpb.SuggestTrie W), t.valid n = true →
      descend pre t = some none ∨
        ∃ node, descend pre t = some (some node) ∧ node.valid n = true
  | [], t, h => Or.inr ⟨t, rfl, h⟩
  | c :: rest, .mk keys tries items, h => by
    obtain ⟨hlen, _, hl⟩ := valid_unfold h
    unfold descend
    simp only [stpb.SuggestTrie.DescendantKeys, stpb.SuggestTrie.DescendantTries]
    cases hf : findKey c keys with
    | none => exact Or.inl rfl
    | some idx =>
      have hlt := findKey_lt c keys idx hf
      rw [hlen] at hlt
      have hg : tries[idx]? = some tries[idx] := by simp [hlt]
      simp only [hg]
      exact descend_valid n rest _ (validList_getElem? n tries idx _ hl hg)

mutual
theorem skipSingle_valid (n : Nat) :
    ∀ (t : stpb.SuggestTrie W), t.valid n = true →
      ∃ r, skipSingle t = some r ∧ r.valid n = true
  | .mk keys tries items, h => by
    unfold skipSingle
    by_cases hc : keys.length = 1 ∧ items.length = 0
    · rw [if_pos hc]
      obtain ⟨hlen, _, hl⟩ := valid_unfold h
      exact skipFirst_valid n tries hl (by rw [← hlen, hc.1]; exact Nat.one_pos)
    · rw [if_neg hc]
      exact ⟨_, rfl, h⟩
theorem skipFirst_valid (n : Nat) :
    ∀ (ts : List (stpb.SuggestTrie W)), validList n ts = true → 0 < ts.length →
      ∃ r, skipFirst ts = some r ∧ r.valid n = true
  | [], _, h => by simp at h
  | d :: rest, hv, _ => by
    simp only [validList, Bool.and_eq_true] at hv
    unfold skipFirst
    exact skipSingle_valid n d hv.1
end

/-- On an artifact that satisfies the decode invariants a query returns a result. -/
theorem GetSuggestItems_valid (S : SliceSorter W) (norm : String → String)
    (suggest : stpb.SuggestData W) (pre : List Nat) (req excl : List String)
    (hv : suggest.valid = true) :
    ∃ r, GetSuggestItems S norm suggest pre req excl = some r := by
  unfold GetSuggestItems
  rcases descend_valid suggest.Items.length pre suggest.Trie hv with h | ⟨node, h, hn⟩
  · rw [h]
    exact ⟨[], rfl⟩
  · rw [h]
    obtain ⟨t, ht, htv⟩ := skipSingle_valid _ node hn
    simp only [ht]
    obtain ⟨r, hr, _⟩ := collectItems_spec S norm suggest t req excl (valid_items_bound htv)
    exact ⟨r, hr⟩

theorem mem_PrepareCheckMap (norm : String → String) (values : List String) (c : String) :
    c ∈ PrepareCheckMap norm values ↔ ∃ v ∈ values, v ≠ "" ∧ norm v = c := by
  simp only [PrepareCheckMap, List.mem_map, List.mem_filter, decide_eq_true_eq]
  constructor
  · rintro ⟨v, ⟨hv, hne⟩, rfl⟩
    exact ⟨v, hv, hne, rfl⟩
  · rintro ⟨v, hv, hne, rfl⟩
    exact ⟨v, ⟨hv, hne⟩, rfl⟩

theorem PrepareCheckMap_eq_nil (norm : String → String) (values : List String) :
    PrepareCheckMap norm values = [] ↔ ∀ v ∈ values, v = "" := by
  simp only [PrepareCheckMap, List.map_eq_nil_iff, List.filter_eq_nil_iff, decide_eq_true_eq,
    not_not]

theorem collectItems_mem (S : SliceSorter W) (norm : String → String)
    (suggest : stpb.SuggestData W) (trie : stpb.SuggestTrie W) (req excl : List String)
    (r : List (ItemRef W)) (h : collectItems S norm suggest trie req excl = some r) :
    ∃ st, assembleBuckets suggest.Items trie.Items ([], []) = some st ∧
      ∀ x, x ∈ r ↔ ∃ e ∈ st.1, itemSatisfyClasses e.Classes (PrepareCheckMap norm req)
        (PrepareCheckMap norm excl) = true ∧ e.Item = x := by
  unfold collectItems at h
  cases hst : assembleBuckets suggest.Items trie.Items ([], []) with
  | none => simp [hst] at h
  | some st =>
    simp only [hst, Option.map_some', Option.some.injEq] at h
    refine ⟨st, rfl, ?_⟩
    intro x
    rw [← h, (S.perm _ _).mem_iff]
    simp only [List.mem_map, List.mem_filter]
    constructor
    · rintro ⟨e, ⟨he, hs⟩, rfl⟩
      exact ⟨e, he, hs, rfl⟩
    · rintro ⟨e, he, hs, rfl⟩
      exact ⟨e, ⟨he, hs⟩, rfl⟩

theorem collectItems_sorted (S : SliceSorter W) (norm : String → String)
    (suggest : stpb.SuggestData W) (trie : stpb.SuggestTrie W) (req excl : List String)
    (r : List (ItemRef W)) (h : collectItems S norm suggest trie req excl = some r) :
    r.Pairwise (fun a b => b.item.Weight ≤ a.item.Weight) := by
  unfold collectItems at h
  cases hst : assembleBuckets suggest.Items trie.Items ([], []) with
  | none => simp [hst] at h
  | some st =>
    simp only [hst, Option.map_some', Option.some.injEq] at h
    rw [← h]
    exact S.sorted _ _

/-- The result of a query, when there is one, is either empty (no path for the bytes of
the query) or collected at the node reached by descent and skip. -/
theorem GetSuggestItems_cases (S : SliceSorter W) (norm : String → String)
    (suggest : stpb.SuggestData W) (pre : List Nat) (req excl : List String)
    (r : List (ItemRef W)) (h : GetSuggestItems S norm suggest pre req excl = some r) :
    (descend pre suggest.Trie = some none ∧ r = []) ∨
      ∃ node trie, descend pre suggest.Trie = some (some node) ∧ skipSingle node = some trie ∧
        collectItems S norm suggest trie req excl = some r := by
  unfold GetSuggestItems at h
  cases hd : descend pre suggest.Trie with
  | none => simp [hd] at h
  | some o =>
    cases o with
    | none =>
      simp only [hd, Option.some.injEq] at h
      exact Or.inl ⟨rfl, h.symm⟩
    | some node =>
      simp only [hd] at h
      cases hs : skipSingle node with
      | none => simp [hs] at h
      | some trie =>
        simp only [hs] at h
        exact Or.inr ⟨node, trie, rfl, hs, h⟩

theorem GetSuggestItems_of_node (S : SliceSorter W) (norm : String → String)
    (suggest : stpb.SuggestData W) (pre : List Nat) (req excl : List String)
    (node trie : stpb.SuggestTrie W) (hd : descend pre suggest.Trie = some (some node))
    (hs : skipSingle node = some trie) :
    GetSuggestItems S norm suggest pre req excl = collectItems S norm suggest trie req excl := by
  unfold GetSuggestItems
  simp only [hd, hs]

theorem answerItems_weights (alpha : List Nat → List Nat) (part : List Nat) :
    ∀ (items : List (ItemRef W)) (answers : List (SuggestAnswerItem W)),
      answerItems alpha part items = some answers →
      answers.map SuggestAnswerItem.Weight = items.map (fun r => r.item.Weight) ∧
        answers.map SuggestAnswerItem.Data = items.map (fun r => r.item.Data)
  | [], answers, h => by
    simp only [answerItems, Option.some.injEq] at h
    subst h
    simp
  | x :: rest, answers, h => by
    unfold answerItems at h
    cases hh : doHighlight alpha part x.item.OriginalText with
    | none => simp [hh] at h
    | some blocks =>
      simp only [hh, Option.some_bind, Option.map_eq_some'] at h
      obtain ⟨r, hr, rfl⟩ := h
      have := answerItems_weights alpha part rest r hr
      simp [this.1, this.2]

end QueryLemmas

end Suggest


namespace Suggest

section FinalizeLemmas

set_option linter.unusedSectionVars false

variable {W : Type} [LinearOrder W]

/-! ## `DeduplicateSuggest` and the buckets after `Finalize` -/

theorem deduplicateLoop_sublist :
    ∀ (l : List (SuggestTrieItem W)) (seen : List String),
      (deduplicateLoop seen l).Sublist l
  | [], seen => by simp [deduplicateLoop]
  | x :: l, seen => by
    unfold deduplicateLoop
    cases hg : x.OriginalItem.Data.group with
    | none =>
      simp only
      exact (deduplicateLoop_sublist l seen).cons₂ x
    | some g =>
      simp only
      by_cases hs : g ∈ seen
      · rw [if_pos hs]
        exact (deduplicateLoop_sublist l seen).cons x
      · rw [if_neg hs]
        exact (deduplicateLoop_sublist l _).cons₂ x

theorem deduplicateLoop_not_seen :
    ∀ (l : List (SuggestTrieItem W)) (seen : List String) (y : SuggestTrieItem W) (g : String),
      y ∈ deduplicateLoop seen l → g ∈ seen → y.OriginalItem.Data.group ≠ some g
  | [], seen, y, g, hy, _ => by simp [deduplicateLoop] at hy
  | x :: l, seen, y, g, hy, hg => by
    unfold deduplicateLoop at hy
    cases hx : x.OriginalItem.Data.group with
    | none =>
      simp only [hx, List.mem_cons] at hy
      rcases hy with rfl | hy
      · rw [hx]
        simp
      · exact deduplicateLoop_not_seen l seen y g hy hg
    | some g1 =>
      simp only [hx] at hy
      by_cases hs : g1 ∈ seen
      · rw [if_pos hs] at hy
        exact deduplicateLoop_not_seen l seen y g hy hg
      · rw [if_neg hs, List.mem_cons] at hy
        rcases hy with rfl | hy
        · rw [hx]
          intro hc
          cases hc
          exact hs hg
        · exact deduplicateLoop_not_seen l _ y g hy (List.mem_cons_of_mem _ hg)

theorem deduplicateLoop_pairwise :
    ∀ (l : List (SuggestTrieItem W)) (seen : List String),
      (deduplicateLoop seen l).Pairwise (fun x y => ∀ g, x.OriginalItem.Data.group = some g →
        y.OriginalItem.Data.group ≠ some g)
  | [], seen => by simp [deduplicateLoop]
  | x :: l, seen => by
    unfold deduplicateLoop
    cases hx : x.OriginalItem.Data.group with
    | none =>
      simp only
      refine List.Pairwise.cons ?_ (deduplicateLoop_pairwise l seen)
      intro y _ g hg
      rw [hx] at hg
      cases hg
    | some g1 =>
      simp only
      by_cases hs : g1 ∈ seen
      · rw [if_pos hs]
        exact deduplicateLoop_pairwise l seen
      · rw [if_neg hs]
        refine List.Pairwise.cons ?_ (deduplicateLoop_pairwise l _)
        intro y hy g hg
        rw [hx] at hg
        cases hg
        exact deduplicateLoop_not_seen l _ y g1 hy (List.mem_cons_self _ _)

theorem finalizeBucket_spec (S : SliceSorter W) (maxItemsPerPrefix : Int)
    (hmax : 0 ≤ maxItemsPerPrefix) (suggest : SuggestItems W) :
    ∃ b, finalizeBucket S maxItemsPerPrefix suggest = some b ∧ b.Class = suggest.Class ∧
      b.Suggest = (DeduplicateSuggest (S.sortDesc SuggestTrieItem.Weight suggest.Suggest)).take
        maxItemsPerPrefix.toNat := by
  unfold finalizeBucket
  simp only
  by_cases hlen : maxItemsPerPrefix <
      ((DeduplicateSuggest (S.sortDesc SuggestTrieItem.Weight suggest.Suggest)).length : Int)
  · rw [if_pos hlen, if_neg (not_lt.2 hmax)]
    exact ⟨_, rfl, rfl, rfl⟩
  · rw [if_neg hlen]
    refine ⟨_, rfl, rfl, ?_⟩
    simp only
    rw [List.take_of_length_le]
    omega

theorem finalizeBucket_finalized (S : SliceSorter W) (maxItemsPerPrefix : Int)
    (hmax : 0 ≤ maxItemsPerPrefix) (suggest b : SuggestItems W)
    (h : finalizeBucket S maxItemsPerPrefix suggest = some b) :
    FinalizedBucket maxItemsPerPrefix b := by
  obtain ⟨b1, hb1, _, hs⟩ := finalizeBucket_spec S maxItemsPerPrefix hmax suggest
  rw [h] at hb1
  cases hb1
  unfold FinalizedBucket
  rw [hs]
  refine ⟨?_, ?_, ?_⟩
  · have := List.length_take_le maxItemsPerPrefix.toNat
      (DeduplicateSuggest (S.sortDesc SuggestTrieItem.Weight suggest.Suggest))
    omega
  · exact ((S.sorted SuggestTrieItem.Weight suggest.Suggest).sublist
      (deduplicateLoop_sublist _ [])).sublist (List.take_sublist _ _)
  · exact (deduplicateLoop_pairwise _ []).sublist (List.take_sublist _ _)

theorem finalizeBuckets_spec (S : SliceSorter W) (maxItemsPerPrefix : Int)
    (hmax : 0 ≤ maxItemsPerPrefix) :
    ∀ (bs : List (SuggestItems W)),
      ∃ r, finalizeBuckets S maxItemsPerPrefix bs = some r ∧
        List.Forall₂ (fun b b1 => finalizeBucket S maxItemsPerPrefix b = some b1) bs r
  | [] => ⟨[], rfl, List.Forall₂.nil⟩
  | b :: bs => by
    obtain ⟨b1, hb1, _⟩ := finalizeBucket_spec S maxItemsPerPrefix hmax b
    obtain ⟨r, hr, hf⟩ := finalizeBuckets_spec S maxItemsPerPrefix hmax bs
    refine ⟨b1 :: r, ?_, List.Forall₂.cons hb1 hf⟩
    simp [finalizeBuckets, hb1, hr]

theorem forall₂_mem_right {α β : Type} {R : α → β → Prop} :
    ∀ {l : List α} {r : List β}, List.Forall₂ R l r → ∀ b ∈ r, ∃ a ∈ l, R a b
  | _, _, List.Forall₂.nil, b, hb => by simp at hb
  | _, _, List.Forall₂.cons h1 h2, b, hb => by
    rcases List.mem_cons.1 hb with rfl | hb
    · exact ⟨_, List.mem_cons_self _ _, h1⟩
    · obtain ⟨a, ha, hab⟩ := forall₂_mem_right h2 b hb
      exact ⟨a, List.mem_cons_of_mem _ ha, hab⟩

theorem forall₂_mem_left {α β : Type} {R : α → β → Prop} :
    ∀ {l : List α} {r : List β}, List.Forall₂ R l r → ∀ a ∈ l, ∃ b ∈ r, R a b
  | _, _, List.Forall₂.nil, a, ha => by simp at ha
  | _, _, List.Forall₂.cons h1 h2, a, ha => by
    rcases List.mem_cons.1 ha with rfl | ha
    · exact ⟨_, List.mem_cons_self _ _, h1⟩
    · obtain ⟨b, hb, hab⟩ := forall₂_mem_left h2 a ha
      exact ⟨b, List.mem_cons_of_mem _ hb, hab⟩

mutual
theorem Finalize_allBuckets (S : SliceSorter W) (maxItemsPerPrefix : Int)
    (hmax : 0 ≤ maxItemsPerPrefix) :
    ∀ (b : SuggestTrieBuilder W),
      ∃ b1, b.Finalize S maxItemsPerPrefix = some b1 ∧
        b1.AllBuckets (FinalizedBucket maxItemsPerPrefix)
  | .mk ds bs => by
    obtain ⟨r, hr, hf⟩ := finalizeBuckets_spec S maxItemsPerPrefix hmax (clearPassThrough ds bs)
    obtain ⟨ds1, hds1, hall⟩ := FinalizeDescendants_allBuckets S maxItemsPerPrefix hmax ds
    refine ⟨.mk ds1 r, ?_, ?_⟩
    · simp [SuggestTrieBuilder.Finalize, hr, hds1]
    · unfold SuggestTrieBuilder.AllBuckets
      refine ⟨?_, hall⟩
      intro b1 hb1
      obtain ⟨b0, _, hb0⟩ := forall₂_mem_right hf b1 hb1
      exact finalizeBucket_finalized S maxItemsPerPrefix hmax b0 b1 hb0
theorem FinalizeDescendants_allBuckets (S : SliceSorter W) (maxItemsPerPrefix : Int)
    (hmax : 0 ≤ maxItemsPerPrefix) :
    ∀ (ds : List (SuggestTrieDescendant W)),
      ∃ ds1, FinalizeDescendants S maxItemsPerPrefix ds = some ds1 ∧
        AllBucketsList (FinalizedBucket maxItemsPerPrefix) ds1
  | [] => ⟨[], rfl, trivial⟩
  | d :: rest => by
    obtain ⟨d1, hd1, hall1⟩ := FinalizeDescendant_allBuckets S maxItemsPerPrefix hmax d
    obtain ⟨r, hr, hall⟩ := FinalizeDescendants_allBuckets S maxItemsPerPrefix hmax rest
    refine ⟨d1 :: r, ?_, ?_⟩
    · simp [FinalizeDescendants, hd1, hr]
    · exact ⟨hall1, hall⟩
theorem FinalizeDescendant_allBuckets (S : SliceSorter W) (maxItemsPerPrefix : Int)
    (hmax : 0 ≤ maxItemsPerPrefix) :
    ∀ (d : SuggestTrieDescendant W),
      ∃ d1, FinalizeDescendant S maxItemsPerPrefix d = some d1 ∧
        AllBucketsDesc (FinalizedBucket maxItemsPerPrefix) d1
  | .mk k b => by
    obtain ⟨b1, hb1, hall⟩ := Finalize_allBuckets S maxItemsPerPrefix hmax b
    refine ⟨.mk k b1, ?_, ?_⟩
    · simp [FinalizeDescendant, hb1]
    · exact hall
end

end FinalizeLemmas

end Suggest


namespace Suggest

section TrieLemmas

set_option linter.unusedSectionVars false

variable {W : Type} [LinearOrder W]

/-! ## Paths in a builder trie -/

@[simp] theorem Key_mk (k : Nat) (b : SuggestTrieBuilder W) :
    (SuggestTrieDescendant.mk k b).Key = k := rfl

@[simp] theorem Builder_mk (k : Nat) (b : SuggestTrieBuilder W) :
    (SuggestTrieDescendant.mk k b).Builder = b := rfl

@[simp] theorem Descendants_mk (ds : List (SuggestTrieDescendant W))
    (bs : List (SuggestItems W)) : (SuggestTrieBuilder.mk ds bs).Descendants = ds := rfl

@[simp] theorem Buckets_mk (ds : List (SuggestTrieDescendant W))
    (bs : List (SuggestItems W)) : (SuggestTrieBuilder.mk ds bs).Buckets = bs := rfl

theorem NodupKeysList_iff :
    ∀ (ds : List (SuggestTrieDescendant W)),
      NodupKeysList ds ↔ ∀ d ∈ ds, d.Builder.NodupKeys
  | [] => by simp [NodupKeysList]
  | .mk k b :: rest => by
    simp only [NodupKeysList, NodupKeysDesc, NodupKeysList_iff rest, List.mem_cons,
      forall_eq_or_imp, Builder_mk]

theorem NodupKeys_mk (ds : List (SuggestTrieDescendant W)) (bs : List (SuggestItems W)) :
    (SuggestTrieBuilder.mk ds bs).NodupKeys ↔
      (ds.map SuggestTrieDescendant.Key).Nodup ∧ ∀ d ∈ ds, d.Builder.NodupKeys := by
  simp only [SuggestTrieBuilder.NodupKeys, NodupKeysList_iff]

theorem childOf_eq_none (c : Nat) :
    ∀ (ds : List (SuggestTrieDescendant W)),
      childOf c ds = none ↔ c ∉ ds.map SuggestTrieDescendant.Key
  | [] => by simp [childOf]
  | d :: rest => by
    unfold childOf
    by_cases h : d.Key = c
    · simp [h]
    · simp only [h, if_false, childOf_eq_none c rest, List.map_cons, List.mem_cons, not_or]
      constructor
      · intro h1
        exact ⟨fun hc => h hc.symm, h1⟩
      · intro h1
        exact h1.2

theorem childOf_mem (c : Nat) :
    ∀ (ds : List (SuggestTrieDescendant W)) (b : SuggestTrieBuilder W),
      childOf c ds = some b → SuggestTrieDescendant.mk c b ∈ ds
  | [], b, h => by simp [childOf] at h
  | .mk k b1 :: rest, b, h => by
    unfold childOf at h
    by_cases hk : k = c
    · simp only [Key_mk, hk, if_true, Builder_mk, Option.some.injEq] at h
      subst h
      subst hk
      exact List.mem_cons_self _ _
    · simp only [Key_mk, hk, if_false] at h
      exact List.mem_cons_of_mem _ (childOf_mem c rest b h)

theorem childOf_append (c k : Nat) (d1 : SuggestTrieBuilder W) :
    ∀ (ds : List (SuggestTrieDescendant W)), c ∉ ds.map SuggestTrieDescendant.Key →
      childOf k (ds ++ [.mk c d1]) = if k = c then some d1 else childOf k ds
  | [], _ => by
    simp only [List.nil_append, childOf, Key_mk, Builder_mk]
    by_cases h : c = k
    · simp [h]
    · simp [h, Ne.symm h]
  | d :: rest, hc => by
    simp only [List.map_cons, List.mem_cons, not_or] at hc
    simp only [List.cons_append, childOf]
    by_cases h : d.Key = k
    · have hkc : k ≠ c := by
        intro hkc
        exact hc.1 (by rw [h, hkc])
      simp [h, hkc]
    · simp only [h, if_false]
      exact childOf_append c k d1 rest hc.2

theorem findDescendant_eq_none (c : Nat) :
    ∀ (ds : List (SuggestTrieDescendant W)),
      findDescendant c ds = none ↔ c ∉ ds.map SuggestTrieDescendant.Key
  | [] => by simp [findDescendant]
  | d :: rest => by
    unfold findDescendant
    cases hf : findDescendant c rest with
    | some i =>
      have := (findDescendant_eq_none c rest).not.1 (by rw [hf]; simp)
      simp only [not_not] at this
      simp [this]
    | none =>
      have := (findDescendant_eq_none c rest).1 hf
      by_cases h : d.Key = c
      · simp [h]
      · simp only [h, if_false, List.map_cons, List.mem_cons, not_or, true_iff]
        exact ⟨fun hc => h hc.symm, this⟩

theorem findDescendant_some (c : Nat) :
    ∀ (ds : List (SuggestTrieDescendant W)) (i : Nat), findDescendant c ds = some i →
      ∃ d, ds[i]? = some d ∧ d.Key = c
  | [], i, h => by simp [findDescendant] at h
  | d :: rest, i, h => by
    unfold findDescendant at h
    cases hf : findDescendant c rest with
    | some j =>
      simp only [hf, Option.some.injEq] at h
      subst h
      obtain ⟨d1, hd1, hk⟩ := findDescendant_some c rest j hf
      exact ⟨d1, by simpa using hd1, hk⟩
    | none =>
      simp only [hf] at h
      by_cases hk : d.Key = c
      · simp only [hk, if_true, Option.some.injEq] at h
        subst h
        exact ⟨d, by simp, hk⟩
      · simp [hk] at h

theorem childOf_set (c k : Nat) (d1 : SuggestTrieBuilder W) :
    ∀ (ds : List (SuggestTrieDescendant W)) (i : Nat) (d : SuggestTrieDescendant W),
      (ds.map SuggestTrieDescendant.Key).Nodup → ds[i]? = some d → d.Key = c →
      childOf k (ds.set i (.mk c d1)) = if k = c then some d1 else childOf k ds
  | [], i, d, _, h, _ => by simp at h
  | a :: rest, 0, d, hnd, h, hk => by
    simp only [List.getElem?_cons_zero, Option.some.injEq] at h
    subst h
    simp only [List.set_cons_zero, childOf, Key_mk, Builder_mk]
    by_cases hkc : c = k
    · simp [hkc]
    · have : ¬ a.Key = k := by rw [hk]; exact hkc
      simp [hkc, Ne.symm hkc, this]
  | a :: rest, i + 1, d, hnd, h, hk => by
    simp only [List.getElem?_cons_succ] at h
    simp only [List.map_cons, List.nodup_cons] at hnd
    simp only [List.set_cons_succ, childOf]
    have hac : a.Key ≠ c := by
      intro hac
      apply hnd.1
      rw [hac, ← hk]
      exact List.mem_map.2 ⟨d, List.mem_iff_getElem?.2 ⟨i, h⟩, rfl⟩
    by_cases hak : a.Key = k
    · have : k ≠ c := by rw [← hak]; exact hac
      simp [hak, this]
    · simp only [hak, if_false]
      exact childOf_set c k d1 rest i d hnd.2 h hk

theorem childOf_of_getElem? (c : Nat) :
    ∀ (ds : List (SuggestTrieDescendant W)) (i : Nat) (d : SuggestTrieDescendant W),
      (ds.map SuggestTrieDescendant.Key).Nodup → ds[i]? = some d → d.Key = c →
      childOf c ds = some d.Builder
  | [], i, d, _, h, _ => by simp at h
  | a :: rest, 0, d, hnd, h, hk => by
    simp only [List.getElem?_cons_zero, Option.some.injEq] at h
    subst h
    simp [childOf, hk]
  | a :: rest, i + 1, d, hnd, h, hk => by
    simp only [List.getElem?_cons_succ] at h
    simp only [List.map_cons, List.nodup_cons] at hnd
    have hac : a.Key ≠ c := by
      intro hac
      apply hnd.1
      rw [hac, ← hk]
      exact List.mem_map.2 ⟨d, List.mem_iff_getElem?.2 ⟨i, h⟩, rfl⟩
    simp only [childOf, hac, if_false]
    exact childOf_of_getElem? c rest i d hnd.2 h hk

theorem map_key_set (c : Nat) (d1 : SuggestTrieBuilder W) :
    ∀ (ds : List (SuggestTrieDescendant W)) (i : Nat) (d : SuggestTrieDescendant W),
      ds[i]? = some d → d.Key = c →
      (ds.set i (.mk c d1)).map SuggestTrieDescendant.Key = ds.map SuggestTrieDescendant.Key
  | [], i, d, h, _ => by simp at h
  | a :: rest, 0, d, h, hk => by
    simp only [List.getElem?_cons_zero, Option.some.injEq] at h
    subst h
    simp [hk]
  | a :: rest, i + 1, d, h, hk => by
    simp only [List.getElem?_cons_succ] at h
    simp [map_key_set c d1 rest i d h hk]

theorem nodeAt_nil (s : SuggestTrieBuilder W) : s.nodeAt [] = some s := rfl

theorem nodeAt_cons (c : Nat) (q : List Nat) (s : SuggestTrieBuilder W) :
    s.nodeAt (c :: q) = (childOf c s.Descendants).bind (fun d => d.nodeAt q) := rfl

theorem nodeAt_empty (q : List Nat) :
    (SuggestTrieBuilder.mk ([] : List (SuggestTrieDescendant W)) []).nodeAt q =
      if q = [] then some (.mk [] []) else none := by
  cases q with
  | nil => rfl
  | cons c q => simp [nodeAt_cons, childOf]

theorem nodeAt_append (q : List Nat) :
    ∀ (r : List Nat) (s : SuggestTrieBuilder W),
      s.nodeAt (q ++ r) = (s.nodeAt q).bind (fun n => n.nodeAt r) := by
  induction q with
  | nil => intro r s; simp [nodeAt_nil]
  | cons c q ih =>
    intro r s
    simp only [List.cons_append, nodeAt_cons]
    cases childOf c s.Descendants with
    | none => simp
    | some d => simp [ih r d]

theorem NodupKeys_nodeAt :
    ∀ (q : List Nat) (s n : SuggestTrieBuilder W), s.NodupKeys → s.nodeAt q = some n →
      n.NodupKeys
  | [], s, n, hs, h => by
    simp only [nodeAt_nil, Option.some.injEq] at h
    subst h
    exact hs
  | c :: q, .mk ds bs, n, hs, h => by
    simp only [nodeAt_cons, Descendants_mk] at h
    cases hc : childOf c ds with
    | none => simp [hc] at h
    | some d =>
      simp only [hc, Option.some_bind] at h
      have := ((NodupKeys_mk ds bs).1 hs).2 _ (childOf_mem c ds d hc)
      exact NodupKeys_nodeAt q d n this h

/-! ## `Add` along a path -/

theorem bucketsAt_empty (q : List Nat) :
    (SuggestTrieBuilder.mk ([] : List (SuggestTrieDescendant W)) []).bucketsAt q = [] := by
  unfold SuggestTrieBuilder.bucketsAt
  rw [nodeAt_empty]
  by_cases h : q = []
  · simp [h]
  · simp [h]

theorem cons_isPrefix_cons {k c : Nat} {q text : List Nat} :
    (k :: q) <+: (c :: text) ↔ k = c ∧ q <+: text := by
  constructor
  · rintro ⟨t, ht⟩
    simp only [List.cons_append, List.cons.injEq] at ht
    exact ⟨ht.1, ⟨t, ht.2⟩⟩
  · rintro ⟨rfl, t, rfl⟩
    exact ⟨t, rfl⟩

theorem Add_spec (maxItemsPerPrefix : Int) (item : SuggestTrieItem W) (cls : List String) :
    ∀ (text : List Nat) (s s1 : SuggestTrieBuilder W), s.NodupKeys →
      s.Add maxItemsPerPrefix item cls text = some s1 →
      s1.NodupKeys ∧ ∀ q : List Nat,
        (q <+: text → ∃ n1, s1.nodeAt q = some n1 ∧
          addItem maxItemsPerPrefix item (s.bucketsAt q) cls = some n1.Buckets) ∧
        (¬ q <+: text → s1.nodeAt q = s.nodeAt q)
  | [], .mk ds bs, s1, hs, h => by
    simp only [SuggestTrieBuilder.Add, Buckets_mk, Descendants_mk, Option.map_eq_some'] at h
    obtain ⟨b, hb, rfl⟩ := h
    refine ⟨?_, ?_⟩
    · rw [NodupKeys_mk] at hs ⊢
      exact hs
    · intro q
      refine ⟨?_, ?_⟩
      · intro hq
        have : q = [] := List.eq_nil_of_prefix_nil hq
        subst this
        exact ⟨_, rfl, by simpa [SuggestTrieBuilder.bucketsAt, nodeAt_nil] using hb⟩
      · intro hq
        cases q with
        | nil => exact absurd (List.nil_prefix) hq
        | cons k q => rfl
  | c :: text, .mk ds bs, s1, hs, h => by
    have hs1 := (NodupKeys_mk ds bs).1 hs
    simp only [SuggestTrieBuilder.Add, Buckets_mk, Descendants_mk] at h
    cases hb : addItem maxItemsPerPrefix item bs cls with
    | none => simp [hb] at h
    | some b =>
      simp only [hb, Option.some_bind] at h
      cases hf : findDescendant c ds with
      | some i =>
        simp only [hf, Option.map_eq_some'] at h
        obtain ⟨d1, hd1, rfl⟩ := h
        obtain ⟨d, hd, hk⟩ := findDescendant_some c ds i hf
        have hgetD : ds.getD i (.mk c (.mk [] [])) = d := by
          simp [List.getD, hd]
        rw [hgetD] at hd1
        have hdmem : d ∈ ds := List.mem_iff_getElem?.2 ⟨i, hd⟩
        obtain ⟨hnd1, hq1⟩ := Add_spec maxItemsPerPrefix item cls text d.Builder d1
          (hs1.2 d hdmem) hd1
        have hchild := childOf_of_getElem? c ds i d hs1.1 hd hk
        refine ⟨?_, ?_⟩
        · rw [NodupKeys_mk]
          refine ⟨by rw [map_key_set c d1 ds i d hd hk]; exact hs1.1, ?_⟩
          intro d2 hd2
          rcases List.mem_or_eq_of_mem_set hd2 with h2 | h2
          · exact hs1.2 d2 h2
          · subst h2
            exact hnd1
        · intro q
          cases q with
          | nil =>
            refine ⟨fun _ => ⟨_, rfl, ?_⟩, fun hq => absurd List.nil_prefix hq⟩
            simpa [SuggestTrieBuilder.bucketsAt, nodeAt_nil] using hb
          | cons k q =>
            simp only [nodeAt_cons, Descendants_mk, cons_isPrefix_cons,
              SuggestTrieBuilder.bucketsAt, childOf_set c k d1 ds i d hs1.1 hd hk]
            by_cases hkc : k = c
            · subst hkc
              simp only [if_true, Option.some_bind, true_and, hchild]
              exact hq1 q
            · simp only [hkc, if_false, false_and, not_false_eq_true, forall_true_left,
                IsEmpty.forall_iff, true_and]
      | none =>
        simp only [hf, Option.map_eq_some'] at h
        obtain ⟨d1, hd1, rfl⟩ := h
        have hnotin := (findDescendant_eq_none c ds).1 hf
        have hempty : (SuggestTrieBuilder.mk ([] : List (SuggestTrieDescendant W)) []).NodupKeys := by
          rw [NodupKeys_mk]
          simp
        obtain ⟨hnd1, hq1⟩ := Add_spec maxItemsPerPrefix item cls text _ d1 hempty hd1
        have hchild := (childOf_eq_none c ds).2 hnotin
        refine ⟨?_, ?_⟩
        · rw [NodupKeys_mk]
          refine ⟨?_, ?_⟩
          · rw [List.map_append, List.nodup_append]
            refine ⟨hs1.1, by simp, ?_⟩
            intro a ha hb1
            simp only [List.map_cons, Key_mk, List.map_nil, List.mem_singleton] at hb1
            subst hb1
            exact hnotin ha
          · intro d2 hd2
            rcases List.mem_append.1 hd2 with h2 | h2
            · exact hs1.2 d2 h2
            · simp only [List.mem_singleton] at h2
              subst h2
              exact hnd1
        · intro q
          cases q with
          | nil =>
            refine ⟨fun _ => ⟨_, rfl, ?_⟩, fun hq => absurd List.nil_prefix hq⟩
            simpa [SuggestTrieBuilder.bucketsAt, nodeAt_nil] using hb
          | cons k q =>
            simp only [nodeAt_cons, Descendants_mk, cons_isPrefix_cons,
              SuggestTrieBuilder.bucketsAt, childOf_append c k d1 ds hnotin]
            by_cases hkc : k = c
            · subst hkc
              simp only [if_true, Option.some_bind, true_and, hchild, Option.none_bind,
                Option.map_none', Option.getD_none]
              have h1 := hq1 q
              rw [bucketsAt_empty] at h1
              refine ⟨h1.1, ?_⟩
              intro hq
              rw [h1.2 hq, nodeAt_empty]
              have : q ≠ [] := by
                intro hc
                subst hc
                exact hq List.nil_prefix
              simp [this]
            · simp only [hkc, if_false, false_and, not_false_eq_true, forall_true_left,
                IsEmpty.forall_iff, true_and]

theorem addAll_spec (maxItemsPerPrefix : Int) :
    ∀ (ins : List (Insertion W)) (s s1 : SuggestTrieBuilder W), s.NodupKeys →
      addAll maxItemsPerPrefix ins s = some s1 →
      s1.NodupKeys ∧ ∀ q : List Nat,
        ((s1.nodeAt q).isSome = true ↔
          ((s.nodeAt q).isSome = true ∨ ∃ i ∈ ins, q <+: i.text)) ∧
        addItems maxItemsPerPrefix (ins.filter (fun i => decide (q <+: i.text)))
          (s.bucketsAt q) = some (s1.bucketsAt q)
  | [], s, s1, hs, h => by
    simp only [addAll, Option.some.injEq] at h
    subst h
    refine ⟨hs, fun q => ⟨by simp, by simp [addItems]⟩⟩
  | i :: rest, s, s1, hs, h => by
    simp only [addAll] at h
    cases ha : s.Add maxItemsPerPrefix i.item i.classes i.text with
    | none => simp [ha] at h
    | some s2 =>
      simp only [ha, Option.some_bind] at h
      obtain ⟨hs2, hq2⟩ := Add_spec maxItemsPerPrefix i.item i.classes i.text s s2 hs ha
      obtain ⟨hs1, hq1⟩ := addAll_spec maxItemsPerPrefix rest s2 s1 hs2 h
      refine ⟨hs1, ?_⟩
      intro q
      obtain ⟨hdom, hbk⟩ := hq1 q
      by_cases hp : q <+: i.text
      · obtain ⟨n1, hn1, hadd⟩ := (hq2 q).1 hp
        have hb2 : s2.bucketsAt q = n1.Buckets := by
          simp [SuggestTrieBuilder.bucketsAt, hn1]
        refine ⟨?_, ?_⟩
        · rw [hdom]
          constructor
          · intro _
            exact Or.inr ⟨i, List.mem_cons_self _ _, hp⟩
          · intro _
            left
            simp [hn1]
        · simp only [List.filter_cons, hp, decide_True, if_true, addItems, hadd,
            Option.some_bind]
          rw [← hb2]
          exact hbk
      · have hsame := (hq2 q).2 hp
        have hb2 : s2.bucketsAt q = s.bucketsAt q := by
          simp [SuggestTrieBuilder.bucketsAt, hsame]
        refine ⟨?_, ?_⟩
        · rw [hdom, hsame]
          constructor
          · rintro (h1 | ⟨j, hj, hjq⟩)
            · exact Or.inl h1
            · exact Or.inr ⟨j, List.mem_cons_of_mem _ hj, hjq⟩
          · rintro (h1 | ⟨j, hj, hjq⟩)
            · exact Or.inl h1
            · rcases List.mem_cons.1 hj with rfl | hj
              · exact absurd hjq hp
              · exact Or.inr ⟨j, hj, hjq⟩
        · simp only [List.filter_cons, hp, decide_False, Bool.false_eq_true, if_false]
          rw [← hb2]
          exact hbk

theorem addAll_append (maxItemsPerPrefix : Int) :
    ∀ (l1 l2 : List (Insertion W)) (s : SuggestTrieBuilder W),
      addAll maxItemsPerPrefix (l1 ++ l2) s =
        (addAll maxItemsPerPrefix l1 s).bind (addAll maxItemsPerPrefix l2)
  | [], l2, s => by simp [addAll]
  | i :: l1, l2, s => by
    simp only [List.cons_append, addAll]
    cases s.Add maxItemsPerPrefix i.item i.classes i.text with
    | none => simp
    | some s2 => simp [addAll_append maxItemsPerPrefix l1 l2 s2]

theorem addRotations_eq_addAll (maxItemsPerPrefix : Int) (item : SuggestTrieItem W)
    (cls : List String) :
    ∀ (texts : List (List Nat)) (s : SuggestTrieBuilder W),
      addRotations maxItemsPerPrefix item cls texts s =
        addAll maxItemsPerPrefix
          (texts.map (fun t => { text := t, item := item, classes := cls })) s
  | [], s => rfl
  | t :: rest, s => by
    simp only [addRotations, List.map_cons, addAll]
    cases s.Add maxItemsPerPrefix item cls t with
    | none => simp
    | some s2 => simp [addRotations_eq_addAll maxItemsPerPrefix item cls rest s2]

theorem addSuggestItems_eq_addAll [Mul W] (norm : String → String) (limit : Int) (pwf : W) :
    ∀ (items : List (Item W)) (s : SuggestTrieBuilder W),
      addSuggestItems norm limit pwf items s = addAll limit (insertions norm pwf items) s
  | [], s => rfl
  | x :: rest, s => by
    simp only [addSuggestItems, insertions, List.flatMap_cons, addAll_append]
    have h1 : addSuggestItem norm limit pwf s x = addAll limit (insertionsOf norm pwf x) s := by
      simp only [addSuggestItem, insertionsOf, addAll, addRotations_eq_addAll]
    rw [h1]
    cases addAll limit (insertionsOf norm pwf x) s with
    | none => simp
    | some s2 =>
      simp only [Option.some_bind]
      exact addSuggestItems_eq_addAll norm limit pwf rest s2

end TrieLemmas

end Suggest


namespace Suggest

section HeapLemmas

set_option linter.unusedSectionVars false

variable {W : Type} [LinearOrder W]

/-! ## The binary heap: permutations -/

theorem cons_set_perm {α : Type} :
    ∀ (l : List α) (j : Nat) (b x : α), l[j]? = some b → (b :: l.set j x).Perm (x :: l)
  | [], j, b, x, h => by simp at h
  | y :: l, 0, b, x, h => by
    simp only [List.getElem?_cons_zero, Option.some.injEq] at h
    subst h
    simp only [List.set_cons_zero]
    exact List.Perm.swap _ _ _
  | y :: l, j + 1, b, x, h => by
    simp only [List.getElem?_cons_succ] at h
    simp only [List.set_cons_succ]
    have ih := cons_set_perm l j b x h
    exact (List.Perm.swap y b _).trans (((ih.cons y)).trans (List.Perm.swap x y l))

theorem set_set_perm_self {α : Type} :
    ∀ (l : List α) (i j : Nat) (a b : α), l[i]? = some a → l[j]? = some b →
      ((l.set i b).set j a).Perm l
  | [], i, j, a, b, h, _ => by simp at h
  | x :: l, 0, 0, a, b, ha, hb => by
    simp only [List.getElem?_cons_zero, Option.some.injEq] at ha hb
    subst ha
    subst hb
    simp
  | x :: l, 0, j + 1, a, b, ha, hb => by
    simp only [List.getElem?_cons_zero, Option.some.injEq, List.getElem?_cons_succ] at ha hb
    subst ha
    simp only [List.set_cons_zero, List.set_cons_succ]
    exact cons_set_perm l j b x hb
  | x :: l, i + 1, 0, a, b, ha, hb => by
    simp only [List.getElem?_cons_zero, Option.some.injEq, List.getElem?_cons_succ] at ha hb
    subst hb
    simp only [List.set_cons_zero, List.set_cons_succ]
    exact cons_set_perm l i a x ha
  | x :: l, i + 1, j + 1, a, b, ha, hb => by
    simp only [List.getElem?_cons_succ] at ha hb
    simp only [List.set_cons_succ]
    exact (set_set_perm_self l i j a b ha hb).cons x

theorem Swap_perm (s : List (SuggestTrieItem W)) (i j : Nat) : (Swap s i j).Perm s := by
  unfold Swap
  cases hi : s[i]? with
  | none => exact List.Perm.refl _
  | some a =>
    cases hj : s[j]? with
    | none => exact List.Perm.refl _
    | some b => exact set_set_perm_self s i j a b hi hj

theorem Swap_length (s : List (SuggestTrieItem W)) (i j : Nat) :
    (Swap s i j).length = s.length :=
  (Swap_perm s i j).length_eq

theorem getElem?_Swap (s : List (SuggestTrieItem W)) (i j k : Nat)
    (hi : i < s.length) (hj : j < s.length) :
    (Swap s i j)[k]? = if k = j then s[i]? else if k = i then s[j]? else s[k]? := by
  unfold Swap
  have h1 : s[i]? = some s[i] := by simp [hi]
  have h2 : s[j]? = some s[j] := by simp [hj]
  simp only [h1, h2]
  rw [List.getElem?_set, List.getElem?_set]
  by_cases hkj : j = k
  · subst hkj
    simp [hj]
  · by_cases hki : i = k
    · subst hki
      simp [hkj, Ne.symm hkj, hi]
    · simp [hkj, hki, Ne.symm hkj, Ne.symm hki]

theorem up_perm : ∀ (fuel : Nat) (s : List (SuggestTrieItem W)) (j : Nat), (up fuel s j).Perm s
  | 0, s, j => List.Perm.refl _
  | fuel + 1, s, j => by
    unfold up
    simp only
    split
    · exact List.Perm.refl _
    · exact (up_perm fuel _ _).trans (Swap_perm s _ _)

theorem pickChild_lt (s : List (SuggestTrieItem W)) (i n : Nat) (h : ¬ n ≤ 2 * i + 1) :
    pickChild s i n < n := by
  unfold pickChild
  split
  · rename_i h1
    exact h1.1
  · omega

theorem pickChild_cases (s : List (SuggestTrieItem W)) (i n : Nat) :
    pickChild s i n = 2 * i + 1 ∨ pickChild s i n = 2 * i + 2 := by
  unfold pickChild
  split
  · exact Or.inr rfl
  · exact Or.inl rfl

theorem down_succ (fuel : Nat) (s : List (SuggestTrieItem W)) (i n : Nat) :
    down (fuel + 1) s i n =
      if n ≤ 2 * i + 1 then s
      else if Less s (pickChild s i n) i = false then s
      else down fuel (Swap s i (pickChild s i n)) (pickChild s i n) n := rfl

theorem down_perm :
    ∀ (fuel : Nat) (s : List (SuggestTrieItem W)) (i n : Nat), (down fuel s i n).Perm s
  | 0, s, i, n => List.Perm.refl _
  | fuel + 1, s, i, n => by
    rw [down_succ]
    by_cases h1 : n ≤ 2 * i + 1
    · rw [if_pos h1]
    · rw [if_neg h1]
      by_cases h2 : Less s (pickChild s i n) i = false
      · rw [if_pos h2]
      · rw [if_neg h2]
        exact (down_perm fuel _ _ n).trans (Swap_perm s _ _)

theorem heapPush_perm (s : List (SuggestTrieItem W)) (x : SuggestTrieItem W) :
    (heapPush s x).Perm (s ++ [x]) := by
  unfold heapPush
  exact up_perm _ _ _

/-- Entries at and above `n` are left alone by `down ... n`. -/
theorem down_getElem?_ge :
    ∀ (fuel : Nat) (s : List (SuggestTrieItem W)) (i n k : Nat), i < n → n ≤ s.length →
      n ≤ k → (down fuel s i n)[k]? = s[k]?
  | 0, s, i, n, k, _, _, _ => rfl
  | fuel + 1, s, i, n, k, hi, hn, hk => by
    rw [down_succ]
    by_cases h1 : n ≤ 2 * i + 1
    · rw [if_pos h1]
    · rw [if_neg h1]
      by_cases h2 : Less s (pickChild s i n) i = false
      · rw [if_pos h2]
      · rw [if_neg h2]
        have hjn := pickChild_lt s i n h1
        rw [down_getElem?_ge fuel _ _ n k hjn (by rw [Swap_length]; exact hn) hk]
        rw [getElem?_Swap s _ _ k (by omega) (by omega)]
        have h3 : k ≠ i := by omega
        have h4 : k ≠ pickChild s i n := by omega
        simp [h3, h4]

theorem heapPop_perm (s r : List (SuggestTrieItem W)) (h : heapPop s = some r) :
    ∃ x, s[0]? = some x ∧ s.Perm (x :: r) := by
  unfold heapPop at h
  by_cases h0 : s.length = 0
  · simp [h0] at h
  · simp only [h0, if_false, Option.some.injEq] at h
    have hpos : 0 < s.length := Nat.pos_of_ne_zero h0
    refine ⟨s[0], by simp [hpos], ?_⟩
    have hperm : (down (s.length - 1) (Swap s 0 (s.length - 1)) 0 (s.length - 1)).Perm s :=
      (down_perm _ _ _ _).trans (Swap_perm _ _ _)
    have hlen := hperm.length_eq
    have hlast : (down (s.length - 1) (Swap s 0 (s.length - 1)) 0 (s.length - 1))[s.length - 1]? =
        some s[0] := by
      by_cases h1 : s.length - 1 = 0
      · rw [h1]
        simp only [down]
        rw [getElem?_Swap s 0 0 0 hpos hpos]
        simp
      · rw [down_getElem?_ge _ _ 0 (s.length - 1) (s.length - 1) (by omega)
          (by rw [Swap_length]; omega) (Nat.le_refl _)]
        rw [getElem?_Swap s 0 (s.length - 1) (s.length - 1) hpos (by omega)]
        simp [hpos]
    have hne : down (s.length - 1) (Swap s 0 (s.length - 1)) 0 (s.length - 1) ≠ [] := by
      intro hc
      rw [hc] at hlen
      simp at hlen
      omega
    have hsplit := List.dropLast_concat_getLast hne
    have hgl : (down (s.length - 1) (Swap s 0 (s.length - 1)) 0 (s.length - 1)).getLast hne =
        s[0] := by
      rw [List.getLast_eq_getElem]
      have := hlast
      rw [List.getElem?_eq_some] at this
      obtain ⟨hlt, heq⟩ := this
      simp only [hlen]
      rw [← heq]
    rw [hgl, h] at hsplit
    have h2 : (r ++ [s[0]]).Perm s := by
      rw [hsplit]
      exact hperm
    exact h2.symm.trans (List.perm_append_comm.trans (by simp))

theorem heapPop_length (s r : List (SuggestTrieItem W)) (h : heapPop s = some r) :
    r.length + 1 = s.length := by
  obtain ⟨x, _, hp⟩ := heapPop_perm s r h
  have := hp.length_eq
  simp at this
  omega

theorem heapPop_isSome (s : List (SuggestTrieItem W)) (h : 0 < s.length) :
    ∃ r, heapPop s = some r := by
  unfold heapPop
  rw [if_neg (by omega)]
  exact ⟨_, rfl⟩

theorem popWhile_perm (maxItemsPerPrefix : Int) :
    ∀ (fuel : Nat) (s r : List (SuggestTrieItem W)),
      popWhile fuel s maxItemsPerPrefix = some r → ∃ dropped, s.Perm (r ++ dropped)
  | 0, s, r, h => by simp [popWhile] at h
  | fuel + 1, s, r, h => by
    unfold popWhile at h
    by_cases hlt : maxItemsPerPrefix < (s.length : Int)
    · rw [if_pos hlt] at h
      cases hp : heapPop s with
      | none => simp [hp] at h
      | some s1 =>
        simp only [hp, Option.some_bind] at h
        obtain ⟨x, _, hperm⟩ := heapPop_perm s s1 hp
        obtain ⟨dropped, hd⟩ := popWhile_perm maxItemsPerPrefix fuel s1 r h
        refine ⟨x :: dropped, ?_⟩
        exact hperm.trans ((hd.cons x).trans (List.perm_middle.symm))
    · rw [if_neg hlt] at h
      simp only [Option.some.injEq] at h
      subst h
      exact ⟨[], by simp⟩

theorem popWhile_of_le (maxItemsPerPrefix : Int) (fuel : Nat) (s : List (SuggestTrieItem W))
    (h : (s.length : Int) ≤ maxItemsPerPrefix) :
    popWhile (fuel + 1) s maxItemsPerPrefix = some s := by
  unfold popWhile
  rw [if_neg (by omega)]

theorem popWhile_isSome (maxItemsPerPrefix : Int) (hmax : 0 ≤ maxItemsPerPrefix) :
    ∀ (fuel : Nat) (s : List (SuggestTrieItem W)), s.length < fuel →
      ∃ r, popWhile fuel s maxItemsPerPrefix = some r ∧
        r.length = min s.length maxItemsPerPrefix.toNat
  | 0, s, h => by omega
  | fuel + 1, s, h => by
    unfold popWhile
    by_cases hlt : maxItemsPerPrefix < (s.length : Int)
    · rw [if_pos hlt]
      obtain ⟨s1, hs1⟩ := heapPop_isSome s (by omega)
      have hlen := heapPop_length s s1 hs1
      obtain ⟨r, hr, hrl⟩ := popWhile_isSome maxItemsPerPrefix hmax fuel s1 (by omega)
      refine ⟨r, by simp [hs1, hr], ?_⟩
      rw [hrl]
      omega
    · rw [if_neg hlt]
      refine ⟨s, rfl, ?_⟩
      omega

/-! ## `addItem`: where the entries of a bucket come from -/

theorem addItemClass_entries (maxItemsPerPrefix : Int) (item : SuggestTrieItem W)
    (cls : String) :
    ∀ (bs bs1 : List (SuggestItems W)),
      addItemClass maxItemsPerPrefix item cls bs = some bs1 →
      ∀ b1 ∈ bs1, ∀ e ∈ b1.Suggest,
        (e = item ∧ b1.Class = cls) ∨ ∃ b ∈ bs, b.Class = b1.Class ∧ e ∈ b.Suggest
  | [], bs1, h, b1, hb1, e, he => by
    simp only [addItemClass, Option.some.injEq] at h
    subst h
    simp only [List.mem_singleton] at hb1
    subst hb1
    simp only [List.mem_singleton] at he
    exact Or.inl ⟨he, rfl⟩
  | b :: rest, bs1, h, b1, hb1, e, he => by
    unfold addItemClass at h
    by_cases hc : cls = b.Class
    · simp only [hc, if_true, Option.map_eq_some'] at h
      obtain ⟨s, hs, rfl⟩ := h
      rcases List.mem_cons.1 hb1 with rfl | hb1
      · obtain ⟨dropped, hperm⟩ := popWhile_perm _ _ _ _ hs
        have h1 : e ∈ heapPush b.Suggest item :=
          hperm.mem_iff.2 (List.mem_append_left _ he)
        have h2 := (heapPush_perm b.Suggest item).mem_iff.1 h1
        rcases List.mem_append.1 h2 with h3 | h3
        · exact Or.inr ⟨b, List.mem_cons_self _ _, rfl, h3⟩
        · simp only [List.mem_singleton] at h3
          exact Or.inl ⟨h3, hc.symm⟩
      · exact Or.inr ⟨b1, List.mem_cons_of_mem _ hb1, rfl, he⟩
    · simp only [hc, if_false, Option.map_eq_some'] at h
      obtain ⟨r, hr, rfl⟩ := h
      rcases List.mem_cons.1 hb1 with rfl | hb1
      · exact Or.inr ⟨b1, List.mem_cons_self _ _, rfl, he⟩
      · rcases addItemClass_entries maxItemsPerPrefix item cls rest r hr b1 hb1 e he with
          h1 | ⟨b2, hb2, h2⟩
        · exact Or.inl h1
        · exact Or.inr ⟨b2, List.mem_cons_of_mem _ hb2, h2⟩

theorem addItem_entries (maxItemsPerPrefix : Int) (item : SuggestTrieItem W) :
    ∀ (classes : List String) (bs bs1 : List (SuggestItems W)),
      addItem maxItemsPerPrefix item bs classes = some bs1 →
      ∀ b1 ∈ bs1, ∀ e ∈ b1.Suggest,
        (e = item ∧ b1.Class ∈ classes) ∨ ∃ b ∈ bs, b.Class = b1.Class ∧ e ∈ b.Suggest
  | [], bs, bs1, h, b1, hb1, e, he => by
    simp only [addItem, Option.some.injEq] at h
    subst h
    exact Or.inr ⟨b1, hb1, rfl, he⟩
  | c :: rest, bs, bs1, h, b1, hb1, e, he => by
    unfold addItem at h
    cases h1 : addItemClass maxItemsPerPrefix item c bs with
    | none => simp [h1] at h
    | some bs2 =>
      simp only [h1, Option.some_bind] at h
      rcases addItem_entries maxItemsPerPrefix item rest bs2 bs1 h b1 hb1 e he with
        ⟨h2, h3⟩ | ⟨b2, hb2, h2, h3⟩
      · exact Or.inl ⟨h2, List.mem_cons_of_mem _ h3⟩
      · rcases addItemClass_entries maxItemsPerPrefix item c bs bs2 h1 b2 hb2 e h3 with
          ⟨h4, h5⟩ | ⟨b3, hb3, h4, h5⟩
        · exact Or.inl ⟨h4, by rw [← h2, h5]; exact List.mem_cons_self _ _⟩
        · exact Or.inr ⟨b3, hb3, by rw [h4, h2], h5⟩

theorem addItems_entries (maxItemsPerPrefix : Int) :
    ∀ (ins : List (Insertion W)) (bs bs1 : List (SuggestItems W)),
      addItems maxItemsPerPrefix ins bs = some bs1 →
      ∀ b1 ∈ bs1, ∀ e ∈ b1.Suggest,
        (∃ i ∈ ins, e = i.item ∧ b1.Class ∈ i.classes) ∨
          ∃ b ∈ bs, b.Class = b1.Class ∧ e ∈ b.Suggest
  | [], bs, bs1, h, b1, hb1, e, he => by
    simp only [addItems, Option.some.injEq] at h
    subst h
    exact Or.inr ⟨b1, hb1, rfl, he⟩
  | i :: rest, bs, bs1, h, b1, hb1, e, he => by
    unfold addItems at h
    cases h1 : addItem maxItemsPerPrefix i.item bs i.classes with
    | none => simp [h1] at h
    | some bs2 =>
      simp only [h1, Option.some_bind] at h
      rcases addItems_entries maxItemsPerPrefix rest bs2 bs1 h b1 hb1 e he with
        ⟨j, hj, h2⟩ | ⟨b2, hb2, h2, h3⟩
      · exact Or.inl ⟨j, List.mem_cons_of_mem _ hj, h2⟩
      · rcases addItem_entries maxItemsPerPrefix i.item i.classes bs bs2 h1 b2 hb2 e h3 with
          ⟨h4, h5⟩ | ⟨b3, hb3, h4, h5⟩
        · exact Or.inl ⟨i, List.mem_cons_self _ _, h4, by rw [← h2]; exact h5⟩
        · exact Or.inr ⟨b3, hb3, by rw [h4, h2], h5⟩

end HeapLemmas

end Suggest


namespace Suggest

section TransformLemmas

set_option linter.unusedSectionVars false

variable {W : Type} [LinearOrder W]

/-! ## The serializer -/

theorem Ext.refl (pt : ProtoTransformer W) : Ext pt pt := fun _ _ h => h

theorem Ext.trans {a b c : ProtoTransformer W} (h1 : Ext a b) (h2 : Ext b c) : Ext a c :=
  fun p i h => h2 p i (h1 p i h)

theorem PtInv.fresh (Src : Item W → Prop) : PtInv Src (NewProtoTransformer : ProtoTransformer W) where
  item := by intro p i h; simp [NewProtoTransformer] at h
  inj := by intro p1 p2 i h; simp [NewProtoTransformer] at h
  len := rfl
  keys := List.nodup_nil

theorem uint32_of_lt (n : Nat) (h : n < 2 ^ 32) : uint32 n = n := by
  unfold uint32
  omega

theorem lookup_of_mem_keys (p : Nat) :
    ∀ (m : List (Nat × Nat)), p ∈ m.map Prod.fst → ∃ i, m.lookup p = some i
  | [], h => by simp at h
  | (k, v) :: rest, h => by
    by_cases hk : p = k
    · subst hk
      exact ⟨v, by simp [List.lookup_cons]⟩
    · have hmem : p ∈ rest.map Prod.fst := by
        simpa [hk] using h
      obtain ⟨i, hi⟩ := lookup_of_mem_keys p rest hmem
      have hne : (p == k) = false := by simpa using hk
      exact ⟨i, by simp [List.lookup_cons, hne, hi]⟩

/-- The items table of a serializer state never holds more entries than there are source
items. -/
theorem PtInv.length_le (Src : Item W → Prop) (items : List (Item W))
    (hsrc : ∀ x, Src x → x ∈ items) (pt : ProtoTransformer W) (hinv : PtInv Src pt) :
    pt.Items.length ≤ items.length := by
  have hsub : pt.ItemsMap.map Prod.fst ⊆ items.map Item.ptr := by
    intro p hp
    obtain ⟨i, hi⟩ := lookup_of_mem_keys p _ hp
    obtain ⟨x, hx, hxp, _⟩ := hinv.item p i hi
    exact List.mem_map.2 ⟨x, hsrc x hx, hxp⟩
  have h := (List.subperm_of_subset hinv.keys hsub).length_le
  simp only [List.length_map] at h
  rw [← hinv.len]
  exact h

theorem PtInv.index_lt (Src : Item W → Prop) (pt : ProtoTransformer W) (hinv : PtInv Src pt)
    (p i : Nat) (h : pt.ItemsMap.lookup p = some i) : i < pt.Items.length := by
  obtain ⟨y, _, _, hy⟩ := hinv.item p i h
  rcases List.getElem?_eq_some.1 hy with ⟨hlt, _⟩
  exact hlt

theorem intern_spec (Src : Item W → Prop) (pt : ProtoTransformer W) (x : Item W)
    (hinv : PtInv Src pt) (hx : Src x) :
    PtInv Src (pt.intern x) ∧ Ext pt (pt.intern x) ∧ ∃ i, (pt.intern x).look x.ptr = some i := by
  unfold ProtoTransformer.intern
  cases hl : pt.ItemsMap.lookup x.ptr with
  | some i => exact ⟨hinv, Ext.refl pt, i, hl⟩
  | none =>
    simp only
    have hlook : ∀ p i, List.lookup p (pt.ItemsMap ++ [(x.ptr, pt.Items.length)]) = some i ↔
        (pt.ItemsMap.lookup p = some i ∨ (p = x.ptr ∧ i = pt.Items.length)) := by
      intro p i
      rw [List.lookup_append, Option.or_eq_some]
      constructor
      · rintro (h | ⟨h1, h2⟩)
        · exact Or.inl h
        · right
          simp only [List.lookup_cons, List.lookup_nil] at h2
          by_cases hp : p = x.ptr
          · subst hp
            simp at h2
            exact ⟨rfl, h2.symm⟩
          · have : (p == x.ptr) = false := by simpa using hp
            simp [this] at h2
      · rintro (h | ⟨rfl, rfl⟩)
        · exact Or.inl h
        · right
          exact ⟨hl, by simp⟩
    have hlt : ∀ p i, pt.ItemsMap.lookup p = some i → i < pt.Items.length := by
      intro p i h
      obtain ⟨y, _, _, hy⟩ := hinv.item p i h
      rcases List.getElem?_eq_some.1 hy with ⟨hlt, _⟩
      exact hlt
    refine ⟨⟨?_, ?_, ?_, ?_⟩, ?_, ?_⟩
    · intro p i h
      rcases (hlook p i).1 h with h | ⟨rfl, rfl⟩
      · obtain ⟨y, hy1, hy2, hy3⟩ := hinv.item p i h
        refine ⟨y, hy1, hy2, ?_⟩
        simp only
        rw [List.getElem?_append_left (hlt p i h)]
        exact hy3
      · exact ⟨x, hx, rfl, by simp⟩
    · intro p1 p2 i h1 h2
      rcases (hlook p1 i).1 h1 with h1 | ⟨rfl, rfl⟩
      · rcases (hlook p2 i).1 h2 with h2 | ⟨rfl, rfl⟩
        · exact hinv.inj p1 p2 i h1 h2
        · exact absurd (hlt p1 _ h1) (Nat.lt_irrefl _)
      · rcases (hlook p2 _).1 h2 with h2 | ⟨rfl, _⟩
        · exact absurd (hlt p2 _ h2) (Nat.lt_irrefl _)
        · rfl
    · simp [hinv.len]
    · rw [List.map_append, List.nodup_append]
      refine ⟨hinv.keys, by simp, ?_⟩
      intro p hp1 hp2
      simp only [List.map_cons, List.map_nil, List.mem_singleton] at hp2
      subst hp2
      obtain ⟨i, hi⟩ := lookup_of_mem_keys _ _ hp1
      rw [hl] at hi
      cases hi
    · intro p i h
      exact (hlook p i).2 (Or.inl h)
    · exact ⟨pt.Items.length, (hlook _ _).2 (Or.inr ⟨rfl, rfl⟩)⟩

theorem transformItems_spec (Src : Item W → Prop)
    (hB : ∀ pt : ProtoTransformer W, PtInv Src pt → pt.Items.length ≤ 2 ^ 32) :
    ∀ (entries : List (SuggestTrieItem W)) (pt : ProtoTransformer W) (ci : stpb.ClassItems W),
      PtInv Src pt → (∀ e ∈ entries, Src e.OriginalItem) →
      PtInv Src (pt.transformItems ci entries).1 ∧ Ext pt (pt.transformItems ci entries).1 ∧
        (pt.transformItems ci entries).2.Class = ci.Class ∧
        (pt.transformItems ci entries).2.ItemWeights =
          ci.ItemWeights ++ entries.map SuggestTrieItem.Weight ∧
        ∃ idxs, (pt.transformItems ci entries).2.ItemIndexes = ci.ItemIndexes ++ idxs ∧
          List.Forall₂ (fun e idx =>
            (pt.transformItems ci entries).1.look e.OriginalItem.ptr = some idx) entries idxs
  | [], pt, ci, hinv, _ => by
    refine ⟨hinv, Ext.refl pt, ?_, ?_, [], ?_, List.Forall₂.nil⟩ <;>
      simp [ProtoTransformer.transformItems]
  | e :: rest, pt, ci, hinv, hsrc => by
    obtain ⟨hinv1, hext1, i, hi⟩ := intern_spec Src pt e.OriginalItem hinv
      (hsrc e (List.mem_cons_self _ _))
    have ih := transformItems_spec Src hB rest (pt.intern e.OriginalItem)
      { Class := ci.Class, ItemWeights := ci.ItemWeights ++ [e.Weight],
        ItemIndexes := ci.ItemIndexes ++
          [uint32 (((pt.intern e.OriginalItem).ItemsMap.lookup e.OriginalItem.ptr).getD 0)] }
      hinv1 (fun e1 he1 => hsrc e1 (List.mem_cons_of_mem _ he1))
    obtain ⟨h1, h2, h3, h4, idxs, h5, h6⟩ := ih
    simp only [ProtoTransformer.transformItems]
    refine ⟨h1, hext1.trans h2, h3, ?_, i :: idxs, ?_, ?_⟩
    · rw [h4]
      simp
    · rw [h5]
      have : (pt.intern e.OriginalItem).ItemsMap.lookup e.OriginalItem.ptr = some i := hi
      have hlt : i < 2 ^ 32 :=
        Nat.lt_of_lt_of_le (PtInv.index_lt Src _ hinv1 _ i this) (hB _ hinv1)
      simp [this, uint32_of_lt i hlt]
    · exact List.Forall₂.cons (h2 _ _ hi) h6

theorem MirrorBuckets_mono {look look1 : Nat → Option Nat}
    (h : ∀ p i, look p = some i → look1 p = some i) (bs : List (SuggestItems W))
    (items : List (stpb.ClassItems W)) (hm : MirrorBuckets look bs items) :
    MirrorBuckets look1 bs items := by
  unfold MirrorBuckets at hm ⊢
  refine hm.imp ?_
  intro b ci hb
  exact ⟨hb.1, hb.2.1, hb.2.2.imp (fun e idx he => h _ _ he)⟩

theorem transformBuckets_spec (Src : Item W → Prop)
    (hB : ∀ pt : ProtoTransformer W, PtInv Src pt → pt.Items.length ≤ 2 ^ 32) :
    ∀ (bs : List (SuggestItems W)) (pt : ProtoTransformer W),
      PtInv Src pt → (∀ b ∈ bs, ∀ e ∈ b.Suggest, Src e.OriginalItem) →
      PtInv Src (pt.transformBuckets bs).1 ∧ Ext pt (pt.transformBuckets bs).1 ∧
        MirrorBuckets (pt.transformBuckets bs).1.look bs (pt.transformBuckets bs).2
  | [], pt, hinv, _ => by
    simp only [ProtoTransformer.transformBuckets]
    exact ⟨hinv, Ext.refl pt, List.Forall₂.nil⟩
  | b :: rest, pt, hinv, hsrc => by
    obtain ⟨h1, h2, h3, h4, idxs, h5, h6⟩ := transformItems_spec Src hB b.Suggest pt
      { Class := b.Class, ItemWeights := [], ItemIndexes := [] } hinv
      (hsrc b (List.mem_cons_self _ _))
    obtain ⟨g1, g2, g3⟩ := transformBuckets_spec Src hB rest
      (pt.transformItems { Class := b.Class, ItemWeights := [], ItemIndexes := [] } b.Suggest).1
      h1 (fun b1 hb1 => hsrc b1 (List.mem_cons_of_mem _ hb1))
    simp only [ProtoTransformer.transformBuckets]
    refine ⟨g1, h2.trans g2, ?_⟩
    refine List.Forall₂.cons ⟨h3, by simpa using h4, ?_⟩ g3
    simp only [List.nil_append] at h5
    rw [h5]
    exact h6.imp (fun e idx he => g2 _ _ he)

theorem AllBucketsList_iff (P : SuggestItems W → Prop) :
    ∀ (ds : List (SuggestTrieDescendant W)),
      AllBucketsList P ds ↔ ∀ d ∈ ds, d.Builder.AllBuckets P
  | [] => by simp [AllBucketsList]
  | .mk k b :: rest => by
    simp only [AllBucketsList, AllBucketsDesc, AllBucketsList_iff P rest, List.mem_cons,
      forall_eq_or_imp]
    rfl

theorem AllBuckets_mk (P : SuggestItems W → Prop) (ds : List (SuggestTrieDescendant W))
    (bs : List (SuggestItems W)) :
    (SuggestTrieBuilder.mk ds bs).AllBuckets P ↔
      (∀ b ∈ bs, P b) ∧ ∀ d ∈ ds, d.Builder.AllBuckets P := by
  simp only [SuggestTrieBuilder.AllBuckets, AllBucketsList_iff]

mutual
theorem Mirror_mono {look look1 : Nat → Option Nat}
    (h : ∀ p i, look p = some i → look1 p = some i) :
    ∀ (s : SuggestTrieBuilder W) (t : stpb.SuggestTrie W), Mirror look s t → Mirror look1 s t
  | .mk ds bs, t, hm => by
    unfold Mirror at hm ⊢
    exact ⟨MirrorList_mono h ds _ _ hm.1, MirrorBuckets_mono h bs _ hm.2⟩
theorem MirrorList_mono {look look1 : Nat → Option Nat}
    (h : ∀ p i, look p = some i → look1 p = some i) :
    ∀ (ds : List (SuggestTrieDescendant W)) (ks : List Nat) (ts : List (stpb.SuggestTrie W)),
      MirrorList look ds ks ts → MirrorList look1 ds ks ts
  | [], ks, ts, hm => by
    unfold MirrorList at hm ⊢
    exact hm
  | d :: rest, ks, ts, hm => by
    unfold MirrorList at hm ⊢
    obtain ⟨k, ks1, t, ts1, h1, h2, h3, h4⟩ := hm
    exact ⟨k, ks1, t, ts1, h1, h2, MirrorDesc_mono h d k t h3, MirrorList_mono h rest ks1 ts1 h4⟩
theorem MirrorDesc_mono {look look1 : Nat → Option Nat}
    (h : ∀ p i, look p = some i → look1 p = some i) :
    ∀ (d : SuggestTrieDescendant W) (k : Nat) (t : stpb.SuggestTrie W),
      MirrorDesc look d k t → MirrorDesc look1 d k t
  | .mk key b, k, t, hm => by
    unfold MirrorDesc at hm ⊢
    exact ⟨hm.1, Mirror_mono h b t hm.2⟩
end

mutual
theorem TransformTrie_spec (Src : Item W → Prop)
    (hB : ∀ pt : ProtoTransformer W, PtInv Src pt → pt.Items.length ≤ 2 ^ 32) :
    ∀ (s : SuggestTrieBuilder W) (pt : ProtoTransformer W), PtInv Src pt →
      s.AllBuckets (fun b => ∀ e ∈ b.Suggest, Src e.OriginalItem) →
      PtInv Src (pt.TransformTrie s).1 ∧ Ext pt (pt.TransformTrie s).1 ∧
        Mirror (pt.TransformTrie s).1.look s (pt.TransformTrie s).2
  | .mk ds bs, pt, hinv, hall => by
    rw [AllBuckets_mk] at hall
    obtain ⟨h1, h2, h3⟩ := TransformDescendants_spec Src hB ds pt hinv
      ((AllBucketsList_iff _ ds).2 hall.2)
    obtain ⟨g1, g2, g3⟩ := transformBuckets_spec Src hB bs (TransformDescendants pt ds).1 h1 hall.1
    simp only [ProtoTransformer.TransformTrie]
    refine ⟨g1, h2.trans g2, ?_⟩
    unfold Mirror
    exact ⟨MirrorList_mono g2 ds _ _ h3, g3⟩
theorem TransformDescendants_spec (Src : Item W → Prop)
    (hB : ∀ pt : ProtoTransformer W, PtInv Src pt → pt.Items.length ≤ 2 ^ 32) :
    ∀ (ds : List (SuggestTrieDescendant W)) (pt : ProtoTransformer W), PtInv Src pt →
      AllBucketsList (fun b => ∀ e ∈ b.Suggest, Src e.OriginalItem) ds →
      PtInv Src (TransformDescendants pt ds).1 ∧ Ext pt (TransformDescendants pt ds).1 ∧
        MirrorList (TransformDescendants pt ds).1.look ds (TransformDescendants pt ds).2.1
          (TransformDescendants pt ds).2.2
  | [], pt, hinv, _ => by
    simp only [TransformDescendants]
    refine ⟨hinv, Ext.refl pt, ?_⟩
    unfold MirrorList
    exact ⟨rfl, rfl⟩
  | d :: rest, pt, hinv, hall => by
    unfold AllBucketsList at hall
    obtain ⟨h1, h2, h3⟩ := TransformDescendant_spec Src hB d pt hinv hall.1
    obtain ⟨g1, g2, g3⟩ := TransformDescendants_spec Src hB rest (TransformDescendant pt d).1 h1
      hall.2
    simp only [TransformDescendants]
    refine ⟨g1, h2.trans g2, ?_⟩
    unfold MirrorList
    exact ⟨_, _, _, _, rfl, rfl, MirrorDesc_mono g2 d _ _ h3, g3⟩
theorem TransformDescendant_spec (Src : Item W → Prop)
    (hB : ∀ pt : ProtoTransformer W, PtInv Src pt → pt.Items.length ≤ 2 ^ 32) :
    ∀ (d : SuggestTrieDescendant W) (pt : ProtoTransformer W), PtInv Src pt →
      AllBucketsDesc (fun b => ∀ e ∈ b.Suggest, Src e.OriginalItem) d →
      PtInv Src (TransformDescendant pt d).1 ∧ Ext pt (TransformDescendant pt d).1 ∧
        MirrorDesc (TransformDescendant pt d).1.look d (TransformDescendant pt d).2.1
          (TransformDescendant pt d).2.2
  | .mk k b, pt, hinv, hall => by
    unfold AllBucketsDesc at hall
    obtain ⟨h1, h2, h3⟩ := TransformTrie_spec Src hB b pt hinv hall
    simp only [TransformDescendant]
    refine ⟨h1, h2, ?_⟩
    unfold MirrorDesc
    exact ⟨rfl, h3⟩
end

end TransformLemmas

end Suggest


namespace Suggest

section BuildLemmas

set_option linter.unusedSectionVars false

variable {W : Type} [LinearOrder W]

/-! ## Queries on a serialized trie that mirrors a builder trie -/

theorem MirrorList_length (look : Nat → Option Nat) :
    ∀ (ds : List (SuggestTrieDescendant W)) (ks : List Nat) (ts : List (stpb.SuggestTrie W)),
      MirrorList look ds ks ts → ks.length = ds.length ∧ ts.length = ds.length
  | [], ks, ts, hm => by
    unfold MirrorList at hm
    simp [hm.1, hm.2]
  | d :: rest, ks, ts, hm => by
    unfold MirrorList at hm
    obtain ⟨k, ks1, t, ts1, rfl, rfl, _, h4⟩ := hm
    have := MirrorList_length look rest ks1 ts1 h4
    simp [this.1, this.2]

theorem MirrorList_keys (look : Nat → Option Nat) :
    ∀ (ds : List (SuggestTrieDescendant W)) (ks : List Nat) (ts : List (stpb.SuggestTrie W)),
      MirrorList look ds ks ts → ks = ds.map SuggestTrieDescendant.Key
  | [], ks, ts, hm => by
    unfold MirrorList at hm
    simp [hm.1]
  | .mk key b :: rest, ks, ts, hm => by
    unfold MirrorList at hm
    obtain ⟨k, ks1, t, ts1, rfl, rfl, h3, h4⟩ := hm
    unfold MirrorDesc at h3
    simp [h3.1, MirrorList_keys look rest ks1 ts1 h4]

theorem MirrorList_child (look : Nat → Option Nat) (c : Nat) :
    ∀ (ds : List (SuggestTrieDescendant W)) (ks : List Nat) (ts : List (stpb.SuggestTrie W)),
      MirrorList look ds ks ts →
      (childOf c ds = none → findKey c ks = none) ∧
        ∀ d, childOf c ds = some d →
          ∃ idx t, findKey c ks = some idx ∧ ts[idx]? = some t ∧ Mirror look d t
  | [], ks, ts, hm => by
    unfold MirrorList at hm
    simp [hm.1, childOf, findKey]
  | .mk key b :: rest, ks, ts, hm => by
    unfold MirrorList at hm
    obtain ⟨k, ks1, t, ts1, rfl, rfl, h3, h4⟩ := hm
    unfold MirrorDesc at h3
    obtain ⟨rfl, h3⟩ := h3
    have ih := MirrorList_child look c rest ks1 ts1 h4
    unfold childOf findKey
    by_cases hk : k = c
    · simp only [Key_mk, hk, if_true, Builder_mk]
      refine ⟨fun h => (by cases h), ?_⟩
      intro d hd
      simp only [Option.some.injEq] at hd
      subst hd
      exact ⟨0, t, rfl, by simp, h3⟩
    · simp only [Key_mk, hk, if_false]
      refine ⟨fun h => by simp [ih.1 h], ?_⟩
      intro d hd
      obtain ⟨idx, t1, g1, g2, g3⟩ := ih.2 d hd
      exact ⟨idx + 1, t1, by simp [g1], by simpa using g2, g3⟩

theorem descend_mirror (look : Nat → Option Nat) :
    ∀ (q : List Nat) (s : SuggestTrieBuilder W) (T : stpb.SuggestTrie W), Mirror look s T →
      (s.nodeAt q = none → descend q T = some none) ∧
        ∀ n, s.nodeAt q = some n → ∃ N, descend q T = some (some N) ∧ Mirror look n N
  | [], s, T, hm => by
    refine ⟨fun h => by simp [nodeAt_nil] at h, ?_⟩
    intro n hn
    simp only [nodeAt_nil, Option.some.injEq] at hn
    subst hn
    exact ⟨T, rfl, hm⟩
  | c :: q, .mk ds bs, T, hm => by
    unfold Mirror at hm
    obtain ⟨h1, h2⟩ := MirrorList_child look c ds _ _ hm.1
    simp only [nodeAt_cons, Descendants_mk]
    unfold descend
    cases hc : childOf c ds with
    | none =>
      refine ⟨fun _ => ?_, fun n hn => ?_⟩
      · simp [h1 hc]
      · simp at hn
    | some d =>
      obtain ⟨idx, t, g1, g2, g3⟩ := h2 d hc
      simp only [g1, g2, Option.some_bind]
      exact descend_mirror look q d t g3

mutual
theorem skip_mirror (look : Nat → Option Nat) :
    ∀ (n : SuggestTrieBuilder W) (N : stpb.SuggestTrie W), Mirror look n N →
      ∃ n1 N1, skipSingle N = some N1 ∧ Mirror look n1 N1 ∧ SkipTo n n1
  | .mk ds bs, .mk keys tries items, hm => by
    have hm0 := hm
    unfold Mirror at hm
    simp only [stpb.SuggestTrie.DescendantKeys, stpb.SuggestTrie.DescendantTries,
      stpb.SuggestTrie.Items] at hm
    have hlen := MirrorList_length look ds keys tries hm.1
    have hblen : bs.length = items.length := List.Forall₂.length_eq hm.2
    unfold skipSingle
    by_cases hc : keys.length = 1 ∧ items.length = 0
    · rw [if_pos hc]
      obtain ⟨d, hd, n1, N1, g1, g2, g3⟩ := skip_mirror_list look ds keys tries hm.1 hc.1
      exact ⟨n1, N1, g1, g2, SkipTo.step _ n1 d hd (by simp only [Buckets_mk]; omega) g3⟩
    · rw [if_neg hc]
      refine ⟨_, _, rfl, hm0, SkipTo.stop _ ?_⟩
      simp only [Descendants_mk, Buckets_mk]
      intro h
      exact hc ⟨by omega, by omega⟩
theorem skip_mirror_list (look : Nat → Option Nat) :
    ∀ (ds : List (SuggestTrieDescendant W)) (keys : List Nat)
      (tries : List (stpb.SuggestTrie W)), MirrorList look ds keys tries → keys.length = 1 →
      ∃ d, ds = [d] ∧ ∃ n1 N1, skipFirst tries = some N1 ∧ Mirror look n1 N1 ∧
        SkipTo d.Builder n1
  | [], keys, tries, hm, hk => by
    unfold MirrorList at hm
    rw [hm.1] at hk
    simp at hk
  | d :: rest, keys, tries, hm, hk => by
    have hlen := MirrorList_length look (d :: rest) keys tries hm
    unfold MirrorList at hm
    obtain ⟨k, ks1, t, ts1, rfl, rfl, h3, h4⟩ := hm
    have hrest : rest = [] := by
      have := hlen.1
      simp only [List.length_cons] at this hk
      exact List.length_eq_zero.1 (by omega)
    subst hrest
    obtain ⟨n1, N1, g1, g2, g3⟩ := skip_mirror_desc look d k t h3
    exact ⟨d, rfl, n1, N1, by unfold skipFirst; exact g1, g2, g3⟩
theorem skip_mirror_desc (look : Nat → Option Nat) :
    ∀ (d : SuggestTrieDescendant W) (k : Nat) (t : stpb.SuggestTrie W),
      MirrorDesc look d k t →
      ∃ n1 N1, skipSingle t = some N1 ∧ Mirror look n1 N1 ∧ SkipTo d.Builder n1
  | .mk key b, k, t, hm => by
    unfold MirrorDesc at hm
    exact skip_mirror look b t hm.2
end

theorem SkipTo_nodeAt {n n1 : SuggestTrieBuilder W} (h : SkipTo n n1) :
    ∃ ext, n.nodeAt ext = some n1 := by
  induction h with
  | stop n _ => exact ⟨[], rfl⟩
  | step n n1 d hd hb _ ih =>
    obtain ⟨ext, hext⟩ := ih
    refine ⟨d.Key :: ext, ?_⟩
    rw [nodeAt_cons, hd]
    simp [childOf, hext]

theorem SkipTo_stop {n n1 : SuggestTrieBuilder W} (h : SkipTo n n1) :
    ¬ (n1.Descendants.length = 1 ∧ n1.Buckets.length = 0) := by
  induction h with
  | stop n h => exact h
  | step n n1 d hd hb _ ih => exact ih

/-! ## `Finalize` along a path -/

theorem FinalizeDescendants_forall₂ (S : SliceSorter W) (maxItemsPerPrefix : Int) :
    ∀ (ds ds1 : List (SuggestTrieDescendant W)),
      FinalizeDescendants S maxItemsPerPrefix ds = some ds1 →
      List.Forall₂ (fun d d1 => d1.Key = d.Key ∧
        d.Builder.Finalize S maxItemsPerPrefix = some d1.Builder) ds ds1
  | [], ds1, h => by
    simp only [FinalizeDescendants, Option.some.injEq] at h
    subst h
    exact List.Forall₂.nil
  | .mk k b :: rest, ds1, h => by
    simp only [FinalizeDescendants, FinalizeDescendant] at h
    cases hb : SuggestTrieBuilder.Finalize S maxItemsPerPrefix b with
    | none => simp [hb] at h
    | some b1 =>
      simp only [hb, Option.map_some', Option.some_bind, Option.map_eq_some'] at h
      obtain ⟨r, hr, rfl⟩ := h
      exact List.Forall₂.cons ⟨rfl, hb⟩ (FinalizeDescendants_forall₂ S maxItemsPerPrefix rest r hr)

theorem Finalize_mk (S : SliceSorter W) (maxItemsPerPrefix : Int)
    (ds : List (SuggestTrieDescendant W)) (bs : List (SuggestItems W))
    (s1 : SuggestTrieBuilder W)
    (h : (SuggestTrieBuilder.mk ds bs).Finalize S maxItemsPerPrefix = some s1) :
    ∃ ds1 bs1, s1 = .mk ds1 bs1 ∧
      finalizeBuckets S maxItemsPerPrefix (clearPassThrough ds bs) = some bs1 ∧
      List.Forall₂ (fun d d1 => d1.Key = d.Key ∧
        d.Builder.Finalize S maxItemsPerPrefix = some d1.Builder) ds ds1 := by
  simp only [SuggestTrieBuilder.Finalize] at h
  cases hb : finalizeBuckets S maxItemsPerPrefix (clearPassThrough ds bs) with
  | none => simp [hb] at h
  | some bs1 =>
    simp only [hb, Option.some_bind, Option.map_eq_some'] at h
    obtain ⟨ds1, hds1, rfl⟩ := h
    exact ⟨ds1, bs1, rfl, rfl, FinalizeDescendants_forall₂ S maxItemsPerPrefix ds ds1 hds1⟩

theorem childOf_forall₂ (S : SliceSorter W) (maxItemsPerPrefix : Int) (c : Nat) :
    ∀ (ds ds1 : List (SuggestTrieDescendant W)),
      List.Forall₂ (fun d d1 => d1.Key = d.Key ∧
        d.Builder.Finalize S maxItemsPerPrefix = some d1.Builder) ds ds1 →
      (childOf c ds = none → childOf c ds1 = none) ∧
        ∀ b, childOf c ds = some b →
          ∃ b1, childOf c ds1 = some b1 ∧ b.Finalize S maxItemsPerPrefix = some b1
  | _, _, List.Forall₂.nil => by simp [childOf]
  | d :: rest, d1 :: rest1, List.Forall₂.cons h1 h2 => by
    have ih := childOf_forall₂ S maxItemsPerPrefix c rest rest1 h2
    unfold childOf
    rw [h1.1]
    by_cases hk : d.Key = c
    · simp only [hk, if_true]
      refine ⟨fun h => (by cases h), ?_⟩
      intro b hb
      simp only [Option.some.injEq] at hb
      subst hb
      exact ⟨_, rfl, h1.2⟩
    · simp only [hk, if_false]
      exact ih

theorem Finalize_nodeAt (S : SliceSorter W) (maxItemsPerPrefix : Int) :
    ∀ (q : List Nat) (s s1 : SuggestTrieBuilder W),
      s.Finalize S maxItemsPerPrefix = some s1 →
      (s.nodeAt q = none → s1.nodeAt q = none) ∧
        ∀ n, s.nodeAt q = some n →
          ∃ n1, s1.nodeAt q = some n1 ∧ n.Finalize S maxItemsPerPrefix = some n1
  | [], s, s1, h => by
    refine ⟨fun hc => by simp [nodeAt_nil] at hc, ?_⟩
    intro n hn
    simp only [nodeAt_nil, Option.some.injEq] at hn
    subst hn
    exact ⟨s1, rfl, h⟩
  | c :: q, .mk ds bs, s1, h => by
    obtain ⟨ds1, bs1, rfl, _, hf⟩ := Finalize_mk S maxItemsPerPrefix ds bs s1 h
    obtain ⟨h1, h2⟩ := childOf_forall₂ S maxItemsPerPrefix c ds ds1 hf
    simp only [nodeAt_cons, Descendants_mk]
    cases hc : childOf c ds with
    | none =>
      refine ⟨fun _ => ?_, fun n hn => ?_⟩
      · simp [h1 hc]
      · simp at hn
    | some b =>
      obtain ⟨b1, g1, g2⟩ := h2 b hc
      simp only [g1, Option.some_bind]
      exact Finalize_nodeAt S maxItemsPerPrefix q b b1 g2

end BuildLemmas

end Suggest


namespace Suggest

section BuildSpec

set_option linter.unusedSectionVars false

variable {W : Type} [LinearOrder W]

/-! ## The insertion phase returns -/

theorem addItemClass_isSome (maxItemsPerPrefix : Int) (hmax : 0 ≤ maxItemsPerPrefix)
    (item : SuggestTrieItem W) (cls : String) :
    ∀ (bs : List (SuggestItems W)), ∃ r, addItemClass maxItemsPerPrefix item cls bs = some r
  | [] => ⟨_, rfl⟩
  | b :: rest => by
    unfold addItemClass
    by_cases hc : cls = b.Class
    · rw [if_pos hc]
      obtain ⟨r, hr, _⟩ := popWhile_isSome maxItemsPerPrefix hmax
        ((heapPush b.Suggest item).length + 1) (heapPush b.Suggest item) (Nat.lt_succ_self _)
      simp only [hr, Option.map_some']
      exact ⟨_, rfl⟩
    · rw [if_neg hc]
      obtain ⟨r, hr⟩ := addItemClass_isSome maxItemsPerPrefix hmax item cls rest
      simp only [hr, Option.map_some']
      exact ⟨_, rfl⟩

theorem addItem_isSome (maxItemsPerPrefix : Int) (hmax : 0 ≤ maxItemsPerPrefix)
    (item : SuggestTrieItem W) :
    ∀ (classes : List String) (bs : List (SuggestItems W)),
      ∃ r, addItem maxItemsPerPrefix item bs classes = some r
  | [], bs => ⟨bs, rfl⟩
  | c :: rest, bs => by
    obtain ⟨r, hr⟩ := addItemClass_isSome maxItemsPerPrefix hmax item c bs
    obtain ⟨r1, hr1⟩ := addItem_isSome maxItemsPerPrefix hmax item rest r
    exact ⟨r1, by simp [addItem, hr, hr1]⟩

theorem Add_isSome (maxItemsPerPrefix : Int) (hmax : 0 ≤ maxItemsPerPrefix)
    (item : SuggestTrieItem W) (cls : List String) :
    ∀ (text : List Nat) (s : SuggestTrieBuilder W),
      ∃ r, s.Add maxItemsPerPrefix item cls text = some r
  | [], s => by
    obtain ⟨b, hb⟩ := addItem_isSome maxItemsPerPrefix hmax item cls s.Buckets
    simp only [SuggestTrieBuilder.Add, hb, Option.map_some']
    exact ⟨_, rfl⟩
  | c :: text, s => by
    obtain ⟨b, hb⟩ := addItem_isSome maxItemsPerPrefix hmax item cls s.Buckets
    simp only [SuggestTrieBuilder.Add, hb, Option.some_bind]
    cases findDescendant c s.Descendants with
    | some i =>
      obtain ⟨r, hr⟩ := Add_isSome maxItemsPerPrefix hmax item cls text
        (s.Descendants.getD i (.mk c (.mk [] []))).Builder
      simp only [hr, Option.map_some']
      exact ⟨_, rfl⟩
    | none =>
      obtain ⟨r, hr⟩ := Add_isSome maxItemsPerPrefix hmax item cls text (.mk [] [])
      simp only [hr, Option.map_some']
      exact ⟨_, rfl⟩

theorem addAll_isSome (maxItemsPerPrefix : Int) (hmax : 0 ≤ maxItemsPerPrefix) :
    ∀ (ins : List (Insertion W)) (s : SuggestTrieBuilder W),
      ∃ r, addAll maxItemsPerPrefix ins s = some r
  | [], s => ⟨s, rfl⟩
  | i :: rest, s => by
    obtain ⟨r, hr⟩ := Add_isSome maxItemsPerPrefix hmax i.item i.classes i.text s
    obtain ⟨r1, hr1⟩ := addAll_isSome maxItemsPerPrefix hmax rest r
    exact ⟨r1, by simp [addAll, hr, hr1]⟩

/-! ## Entries of the buckets through `Finalize` -/

theorem clearPassThrough_cases (ds : List (SuggestTrieDescendant W))
    (bs : List (SuggestItems W)) :
    clearPassThrough ds bs = bs ∨
      (clearPassThrough ds bs = [] ∧ ∃ d, ds = [d] ∧ DeepEqual d.Builder.Buckets bs = true) := by
  unfold clearPassThrough
  cases ds with
  | nil => exact Or.inl rfl
  | cons d rest =>
    cases rest with
    | nil =>
      simp only [List.foldl_cons, List.foldl_nil, List.length_singleton, true_and]
      by_cases h : DeepEqual d.Builder.Buckets bs = true
      · rw [if_pos h]
        exact Or.inr ⟨rfl, d, rfl, h⟩
      · rw [if_neg h]
        exact Or.inl rfl
    | cons d2 rest2 =>
      left
      have hlen : ¬ ((d :: d2 :: rest2).length = 1) := by simp
      have : ∀ (l : List (SuggestTrieDescendant W)) (cur : List (SuggestItems W)),
          l.foldl (fun cur d0 =>
            if (d :: d2 :: rest2).length = 1 ∧ DeepEqual d0.Builder.Buckets cur = true then []
            else cur) cur = cur := by
        intro l
        induction l with
        | nil => intro cur; rfl
        | cons a l ih =>
          intro cur
          simp only [List.foldl_cons]
          rw [if_neg (fun hc => hlen hc.1)]
          exact ih cur
      exact this _ _

theorem finalizeBuckets_forall₂ (S : SliceSorter W) (maxItemsPerPrefix : Int) :
    ∀ (bs r : List (SuggestItems W)), finalizeBuckets S maxItemsPerPrefix bs = some r →
      List.Forall₂ (fun b b1 => finalizeBucket S maxItemsPerPrefix b = some b1) bs r
  | [], r, h => by
    simp only [finalizeBuckets, Option.some.injEq] at h
    subst h
    exact List.Forall₂.nil
  | b :: bs, r, h => by
    simp only [finalizeBuckets] at h
    cases hb : finalizeBucket S maxItemsPerPrefix b with
    | none => simp [hb] at h
    | some b1 =>
      simp only [hb, Option.some_bind, Option.map_eq_some'] at h
      obtain ⟨r1, hr1, rfl⟩ := h
      exact List.Forall₂.cons hb (finalizeBuckets_forall₂ S maxItemsPerPrefix bs r1 hr1)

theorem finalizeBucket_sub (S : SliceSorter W) (maxItemsPerPrefix : Int)
    (b b1 : SuggestItems W) (h : finalizeBucket S maxItemsPerPrefix b = some b1) :
    b1.Class = b.Class ∧ ∀ e ∈ b1.Suggest, e ∈ b.Suggest := by
  unfold finalizeBucket at h
  simp only at h
  have hsub : ∀ e ∈ DeduplicateSuggest (S.sortDesc SuggestTrieItem.Weight b.Suggest),
      e ∈ b.Suggest := by
    intro e he
    exact (S.perm _ _).mem_iff.1 ((deduplicateLoop_sublist _ []).subset he)
  split at h
  · split at h
    · cases h
    · simp only [Option.some.injEq] at h
      subst h
      exact ⟨rfl, fun e he => hsub e (List.mem_of_mem_take he)⟩
  · simp only [Option.some.injEq] at h
    subst h
    exact ⟨rfl, hsub⟩

theorem Finalize_entries (S : SliceSorter W) (maxItemsPerPrefix : Int)
    (n n1 : SuggestTrieBuilder W) (h : n.Finalize S maxItemsPerPrefix = some n1) :
    ∀ b1 ∈ n1.Buckets, ∀ e ∈ b1.Suggest, ∃ b ∈ n.Buckets, b.Class = b1.Class ∧ e ∈ b.Suggest := by
  cases n with
  | mk ds bs =>
    obtain ⟨ds1, bs1, rfl, hf, _⟩ := Finalize_mk S maxItemsPerPrefix ds bs n1 h
    intro b1 hb1 e he
    simp only [Buckets_mk] at hb1 ⊢
    obtain ⟨b, hb, hfb⟩ := forall₂_mem_right (finalizeBuckets_forall₂ S maxItemsPerPrefix _ _ hf)
      b1 hb1
    obtain ⟨hcls, hsub⟩ := finalizeBucket_sub S maxItemsPerPrefix b b1 hfb
    refine ⟨b, ?_, hcls.symm, hsub e he⟩
    rcases clearPassThrough_cases ds bs with h1 | ⟨h1, _⟩
    · rw [h1] at hb
      exact hb
    · rw [h1] at hb
      simp at hb

mutual
theorem AllBuckets_of_nodeAt (P : SuggestItems W → Prop) :
    ∀ (s : SuggestTrieBuilder W), s.NodupKeys →
      (∀ q n, s.nodeAt q = some n → ∀ b ∈ n.Buckets, P b) → s.AllBuckets P
  | .mk ds bs, hnd, h => by
    rw [NodupKeys_mk] at hnd
    unfold SuggestTrieBuilder.AllBuckets
    refine ⟨fun b hb => h [] _ rfl b hb, ?_⟩
    refine AllBucketsList_of_nodeAt P ds ((NodupKeysList_iff ds).2 hnd.2) ?_
    intro d hd q n hn
    apply h (d.Key :: q) n
    rw [nodeAt_cons, Descendants_mk]
    obtain ⟨i, hi⟩ := List.mem_iff_getElem?.1 hd
    rw [childOf_of_getElem? d.Key ds i d hnd.1 hi rfl]
    exact hn
theorem AllBucketsList_of_nodeAt (P : SuggestItems W → Prop) :
    ∀ (ds : List (SuggestTrieDescendant W)), NodupKeysList ds →
      (∀ d ∈ ds, ∀ q n, d.Builder.nodeAt q = some n → ∀ b ∈ n.Buckets, P b) →
      AllBucketsList P ds
  | [], _, _ => trivial
  | d :: rest, hnd, h => by
    unfold NodupKeysList at hnd
    unfold AllBucketsList
    exact ⟨AllBucketsDesc_of_nodeAt P d hnd.1 (h d (List.mem_cons_self _ _)),
      AllBucketsList_of_nodeAt P rest hnd.2 (fun d1 hd1 => h d1 (List.mem_cons_of_mem _ hd1))⟩
theorem AllBucketsDesc_of_nodeAt (P : SuggestItems W → Prop) :
    ∀ (d : SuggestTrieDescendant W), NodupKeysDesc d →
      (∀ q n, d.Builder.nodeAt q = some n → ∀ b ∈ n.Buckets, P b) → AllBucketsDesc P d
  | .mk k b, hnd, h => by
    unfold NodupKeysDesc at hnd
    unfold AllBucketsDesc
    exact AllBuckets_of_nodeAt P b hnd h
end

mutual
theorem Finalize_allBuckets_imp (S : SliceSorter W) (maxItemsPerPrefix : Int)
    (P Q : SuggestItems W → Prop)
    (hPQ : ∀ b b1, P b → finalizeBucket S maxItemsPerPrefix b = some b1 → Q b1) :
    ∀ (s s1 : SuggestTrieBuilder W), s.Finalize S maxItemsPerPrefix = some s1 →
      s.AllBuckets P → s1.AllBuckets Q
  | .mk ds bs, s1, h, hall => by
    obtain ⟨ds1, bs1, rfl, hf, _⟩ := Finalize_mk S maxItemsPerPrefix ds bs s1 h
    simp only [SuggestTrieBuilder.Finalize, hf, Option.some_bind, Option.map_eq_some'] at h
    obtain ⟨ds2, hds2, heq⟩ := h
    cases heq
    unfold SuggestTrieBuilder.AllBuckets at hall ⊢
    refine ⟨?_, FinalizeDescendants_allBuckets_imp S maxItemsPerPrefix P Q hPQ ds ds1 hds2 hall.2⟩
    intro b1 hb1
    obtain ⟨b, hb, hfb⟩ := forall₂_mem_right (finalizeBuckets_forall₂ S maxItemsPerPrefix _ _ hf)
      b1 hb1
    refine hPQ b b1 (hall.1 b ?_) hfb
    rcases clearPassThrough_cases ds bs with h1 | ⟨h1, _⟩
    · rw [h1] at hb
      exact hb
    · rw [h1] at hb
      simp at hb
theorem FinalizeDescendants_allBuckets_imp (S : SliceSorter W) (maxItemsPerPrefix : Int)
    (P Q : SuggestItems W → Prop)
    (hPQ : ∀ b b1, P b → finalizeBucket S maxItemsPerPrefix b = some b1 → Q b1) :
    ∀ (ds ds1 : List (SuggestTrieDescendant W)),
      FinalizeDescendants S maxItemsPerPrefix ds = some ds1 →
      AllBucketsList P ds → AllBucketsList Q ds1
  | [], ds1, h, _ => by
    simp only [FinalizeDescendants, Option.some.injEq] at h
    subst h
    trivial
  | d :: rest, ds1, h, hall => by
    simp only [FinalizeDescendants] at h
    cases hd : FinalizeDescendant S maxItemsPerPrefix d with
    | none => simp [hd] at h
    | some d1 =>
      simp only [hd, Option.some_bind, Option.map_eq_some'] at h
      obtain ⟨r, hr, rfl⟩ := h
      unfold AllBucketsList at hall ⊢
      exact ⟨FinalizeDescendant_allBuckets_imp S maxItemsPerPrefix P Q hPQ d d1 hd hall.1,
        FinalizeDescendants_allBuckets_imp S maxItemsPerPrefix P Q hPQ rest r hr hall.2⟩
theorem FinalizeDescendant_allBuckets_imp (S : SliceSorter W) (maxItemsPerPrefix : Int)
    (P Q : SuggestItems W → Prop)
    (hPQ : ∀ b b1, P b → finalizeBucket S maxItemsPerPrefix b = some b1 → Q b1) :
    ∀ (d d1 : SuggestTrieDescendant W),
      FinalizeDescendant S maxItemsPerPrefix d = some d1 →
      AllBucketsDesc P d → AllBucketsDesc Q d1
  | .mk k b, d1, h, hall => by
    simp only [FinalizeDescendant, Option.map_eq_some'] at h
    obtain ⟨b1, hb1, rfl⟩ := h
    unfold AllBucketsDesc at hall ⊢
    exact Finalize_allBuckets_imp S maxItemsPerPrefix P Q hPQ b b1 hb1 hall
end

end BuildSpec

end Suggest


namespace Suggest

section BuildStructure

set_option linter.unusedSectionVars false

variable {W : Type} [LinearOrder W]

/-! ## The structure of a built artifact -/

theorem mem_insertionsOf [Mul W] (norm : String → String) (pwf : W) (x : Item W)
    (i : Insertion W) (h : i ∈ insertionsOf norm pwf x) :
    i.item.OriginalItem = x ∧ i.classes = extractItemClasses norm x ∧
      ((i.text = x.NormalizedText ∧ i.item.Weight = x.Weight) ∨
        ∃ k, 1 ≤ k ∧ k < (Split 32 x.NormalizedText).length ∧
          i.text = Join 32 ((Split 32 x.NormalizedText).drop k) ∧
          i.item.Weight = x.Weight * pwf) := by
  unfold insertionsOf at h
  rcases List.mem_cons.1 h with rfl | h
  · exact ⟨rfl, rfl, Or.inl ⟨rfl, rfl⟩⟩
  · simp only [rotations, List.map_map, List.mem_map, List.mem_range'_1] at h
    obtain ⟨k, ⟨hk1, hk2⟩, rfl⟩ := h
    exact ⟨rfl, rfl, Or.inr ⟨k, hk1, by omega, rfl, rfl⟩⟩

theorem mem_insertions [Mul W] (norm : String → String) (pwf : W) (items : List (Item W))
    (i : Insertion W) :
    i ∈ insertions norm pwf items ↔ ∃ x ∈ items, i ∈ insertionsOf norm pwf x := by
  simp only [insertions, List.mem_flatMap]

theorem built_entries (limit : Int) (ins : List (Insertion W)) (s : SuggestTrieBuilder W)
    (h : addAll limit ins (.mk [] []) = some s) (q : List Nat) (n : SuggestTrieBuilder W)
    (hn : s.nodeAt q = some n) :
    ∀ b ∈ n.Buckets, ∀ e ∈ b.Suggest,
      ∃ i ∈ ins, e = i.item ∧ b.Class ∈ i.classes ∧ q <+: i.text := by
  have hempty : (SuggestTrieBuilder.mk ([] : List (SuggestTrieDescendant W)) []).NodupKeys := by
    rw [NodupKeys_mk]
    simp
  obtain ⟨_, hq⟩ := addAll_spec limit ins _ s hempty h
  have hb := (hq q).2
  rw [bucketsAt_empty] at hb
  have hbk : s.bucketsAt q = n.Buckets := by
    simp [SuggestTrieBuilder.bucketsAt, hn]
  rw [hbk] at hb
  intro b hb1 e he
  rcases addItems_entries limit _ [] _ hb b hb1 e he with ⟨i, hi, h1, h2⟩ | ⟨b0, hb0, _⟩
  · simp only [List.mem_filter, decide_eq_true_eq] at hi
    exact ⟨i, hi.1, h1, h2, hi.2⟩
  · simp at hb0

/-- The product `maxItemsPerPrefix * 2` does not wrap for a bound below `2 ^ 62`. -/
theorem wrapInt_double (m : Int) (h0 : -2 ^ 62 ≤ m) (h1 : m < 2 ^ 62) :
    wrapInt (m * 2) = m * 2 := by
  unfold wrapInt
  omega

/-- What `BuildSuggest` returns: the serialized mirror of the finalized trie of all `Add`
calls, with an items table that holds at every assigned index the serialized form of a corpus
item with the assigned address. -/
theorem BuildSuggest_spec [Mul W] (S : SliceSorter W) (norm : String → String)
    (items : List (Item W)) (hsize : items.length ≤ 2 ^ 32) (maxItemsPerPrefix : Int) (pwf : W)
    (data : stpb.SuggestData W)
    (h : BuildSuggest S norm items maxItemsPerPrefix pwf = some data) :
    ∃ (s s1 : SuggestTrieBuilder W) (look : Nat → Option Nat),
      addAll (wrapInt (maxItemsPerPrefix * 2)) (insertions norm pwf items) (.mk [] []) =
        some s ∧
      s.NodupKeys ∧ s.Finalize S maxItemsPerPrefix = some s1 ∧ Mirror look s1 data.Trie ∧
      (∀ p i, look p = some i → ∃ x ∈ items, x.ptr = p ∧ data.Items[i]? = some x.toProto) ∧
      (∀ p1 p2 i, look p1 = some i → look p2 = some i → p1 = p2) := by
  unfold BuildSuggest at h
  rw [addSuggestItems_eq_addAll] at h
  cases hs : addAll (wrapInt (maxItemsPerPrefix * 2)) (insertions norm pwf items)
      (.mk [] []) with
  | none => simp [hs] at h
  | some s =>
    simp only [hs, Option.some_bind, Option.map_eq_some'] at h
    obtain ⟨s1, hs1, rfl⟩ := h
    have hempty : (SuggestTrieBuilder.mk ([] : List (SuggestTrieDescendant W)) []).NodupKeys := by
      rw [NodupKeys_mk]
      simp
    obtain ⟨hnd, _⟩ := addAll_spec _ _ _ s hempty hs
    have hall : s.AllBuckets (fun b => ∀ e ∈ b.Suggest, e.OriginalItem ∈ items) := by
      apply AllBuckets_of_nodeAt _ s hnd
      intro q n hn b hb e he
      obtain ⟨i, hi, rfl, _, _⟩ := built_entries _ _ s hs q n hn b hb e he
      obtain ⟨x, hx, hix⟩ := (mem_insertions norm pwf items i).1 hi
      rw [(mem_insertionsOf norm pwf x i hix).1]
      exact hx
    have hall1 : s1.AllBuckets (fun b => ∀ e ∈ b.Suggest, e.OriginalItem ∈ items) := by
      refine Finalize_allBuckets_imp S maxItemsPerPrefix _ _ ?_ s s1 hs1 hall
      intro b b1 hb hfb e he
      exact hb e ((finalizeBucket_sub S maxItemsPerPrefix b b1 hfb).2 e he)
    have hB : ∀ pt : ProtoTransformer W, PtInv (fun x => x ∈ items) pt →
        pt.Items.length ≤ 2 ^ 32 := fun pt hpt =>
      Nat.le_trans (PtInv.length_le _ items (fun _ hx => hx) pt hpt) hsize
    obtain ⟨hinv, _, hm⟩ := TransformTrie_spec (fun x => x ∈ items) hB s1 NewProtoTransformer
      (PtInv.fresh _) hall1
    refine ⟨s, s1, _, rfl, hnd, hs1, hm, ?_, ?_⟩
    · intro p i hp
      exact hinv.item p i hp
    · intro p1 p2 i h1 h2
      exact hinv.inj p1 p2 i h1 h2

theorem BuildSuggest_isSome [Mul W] (S : SliceSorter W) (norm : String → String)
    (items : List (Item W)) (maxItemsPerPrefix : Int) (hmax : 0 ≤ maxItemsPerPrefix)
    (hint : maxItemsPerPrefix < 2 ^ 62) (pwf : W) :
    ∃ data, BuildSuggest S norm items maxItemsPerPrefix pwf = some data := by
  unfold BuildSuggest
  rw [wrapInt_double maxItemsPerPrefix (by omega) hint, addSuggestItems_eq_addAll]
  obtain ⟨s, hs⟩ := addAll_isSome (maxItemsPerPrefix * 2) (by omega) (insertions norm pwf items)
    (.mk [] [])
  obtain ⟨s1, hs1, _⟩ := Finalize_allBuckets S maxItemsPerPrefix hmax s
  exact ⟨Transform s1, by simp [hs, hs1]⟩

theorem MirrorBuckets_index (look : Nat → Option Nat) (bs : List (SuggestItems W))
    (items : List (stpb.ClassItems W)) (hm : MirrorBuckets look bs items) :
    ∀ ci ∈ items, ∀ i ∈ ci.ItemIndexes,
      ∃ b ∈ bs, b.Class = ci.Class ∧ ∃ e ∈ b.Suggest, look e.OriginalItem.ptr = some i := by
  intro ci hci i hi
  obtain ⟨b, hb, hcls, _, hf⟩ := forall₂_mem_right hm ci hci
  obtain ⟨e, he, hei⟩ := forall₂_mem_right hf i hi
  exact ⟨b, hb, hcls.symm, e, he, hei⟩

theorem MirrorBuckets_entry (look : Nat → Option Nat) (bs : List (SuggestItems W))
    (items : List (stpb.ClassItems W)) (hm : MirrorBuckets look bs items) :
    ∀ b ∈ bs, ∀ e ∈ b.Suggest,
      ∃ ci ∈ items, ci.Class = b.Class ∧ ∃ i ∈ ci.ItemIndexes,
        look e.OriginalItem.ptr = some i := by
  intro b hb e he
  obtain ⟨ci, hci, hcls, _, hf⟩ := forall₂_mem_left hm b hb
  obtain ⟨i, hi, hei⟩ := forall₂_mem_left hf e he
  exact ⟨ci, hci, hcls, i, hi, hei⟩

theorem Mirror_buckets (look : Nat → Option Nat) (n : SuggestTrieBuilder W)
    (N : stpb.SuggestTrie W) (hm : Mirror look n N) : MirrorBuckets look n.Buckets N.Items := by
  cases n with
  | mk ds bs =>
    unfold Mirror at hm
    exact hm.2

/-- The shape of every query on a built artifact: the query returns, and a non-empty result
is collected at the serialized mirror of a finalized node whose path extends the bytes of the
query. -/
theorem query_built (S : SliceSorter W) (norm : String → String)
    (items : List (Item W)) (maxItemsPerPrefix : Int) (data : stpb.SuggestData W)
    (s s1 : SuggestTrieBuilder W) (look : Nat → Option Nat)
    (hs1 : s.Finalize S maxItemsPerPrefix = some s1) (hm : Mirror look s1 data.Trie)
    (hitem : ∀ p i, look p = some i → ∃ x ∈ items, x.ptr = p ∧ data.Items[i]? = some x.toProto)
    (pre : List Nat) (req excl : List String) :
    (s.nodeAt pre = none ∧ GetSuggestItems S norm data pre req excl = some []) ∨
    ∃ (n0 ne ne1 : SuggestTrieBuilder W) (N1 : stpb.SuggestTrie W) (ext : List Nat),
      s.nodeAt pre = some n0 ∧ s.nodeAt (pre ++ ext) = some ne ∧
      ne.Finalize S maxItemsPerPrefix = some ne1 ∧
      s1.nodeAt (pre ++ ext) = some ne1 ∧
      (∃ n1, s1.nodeAt pre = some n1 ∧ SkipTo n1 ne1) ∧
      Mirror look ne1 N1 ∧
      (∀ ci ∈ N1.Items, ∀ i ∈ ci.ItemIndexes, i < data.Items.length) ∧
      GetSuggestItems S norm data pre req excl = collectItems S norm data N1 req excl := by
  obtain ⟨hf1, hf2⟩ := Finalize_nodeAt S maxItemsPerPrefix pre s s1 hs1
  obtain ⟨hd1, hd2⟩ := descend_mirror look pre s1 data.Trie hm
  cases hn : s.nodeAt pre with
  | none =>
    left
    refine ⟨rfl, ?_⟩
    unfold GetSuggestItems
    rw [hd1 (hf1 hn)]
  | some n0 =>
    right
    obtain ⟨n1, hn1, _⟩ := hf2 n0 hn
    obtain ⟨N, hN, hmN⟩ := hd2 n1 hn1
    obtain ⟨ne1, N1, hskip, hmN1, hto⟩ := skip_mirror look n1 N hmN
    obtain ⟨ext, hext⟩ := SkipTo_nodeAt hto
    have hpath1 : s1.nodeAt (pre ++ ext) = some ne1 := by
      rw [nodeAt_append, hn1]
      exact hext
    obtain ⟨hg1, hg2⟩ := Finalize_nodeAt S maxItemsPerPrefix (pre ++ ext) s s1 hs1
    cases hne : s.nodeAt (pre ++ ext) with
    | none =>
      rw [hg1 hne] at hpath1
      cases hpath1
    | some ne =>
      obtain ⟨ne2, h1, h2⟩ := hg2 ne hne
      rw [hpath1] at h1
      cases h1
      refine ⟨n0, ne, ne1, N1, ext, rfl, hne, h2, hpath1, ⟨n1, hn1, hto⟩, hmN1, ?_,
        GetSuggestItems_of_node S norm data pre req excl N N1 hN hskip⟩
      intro ci hci i hi
      obtain ⟨b, _, _, e, _, hei⟩ := MirrorBuckets_index look _ _ (Mirror_buckets look _ _ hmN1)
        ci hci i hi
      obtain ⟨x, _, _, hx⟩ := hitem _ _ hei
      rcases List.getElem?_eq_some.1 hx with ⟨hlt, _⟩
      exact hlt

end BuildStructure

end Suggest


namespace Suggest

section HeapOrder

set_option linter.unusedSectionVars false

variable {W : Type} [LinearOrder W]

/-! ## The binary heap: order -/

theorem Swap_get_left (s : List (SuggestTrieItem W)) (i j : Nat) (hi : i < s.length)
    (hj : j < s.length) : (Swap s i j)[i]? = s[j]? := by
  rw [getElem?_Swap s i j i hi hj]
  by_cases h : i = j
  · subst h
    simp
  · simp [h]

theorem Swap_get_right (s : List (SuggestTrieItem W)) (i j : Nat) (hi : i < s.length)
    (hj : j < s.length) : (Swap s i j)[j]? = s[i]? := by
  rw [getElem?_Swap s i j j hi hj]
  simp

theorem Swap_get_other (s : List (SuggestTrieItem W)) (i j k : Nat) (hi : i < s.length)
    (hj : j < s.length) (hki : k ≠ i) (hkj : k ≠ j) : (Swap s i j)[k]? = s[k]? := by
  rw [getElem?_Swap s i j k hi hj]
  simp [hki, hkj]

theorem Less_true {s : List (SuggestTrieItem W)} {i j : Nat} (h : Less s i j = true) :
    ∃ a b, s[i]? = some a ∧ s[j]? = some b ∧ a.Weight < b.Weight := by
  unfold Less at h
  cases hi : s[i]? with
  | none => simp [hi] at h
  | some a =>
    cases hj : s[j]? with
    | none => simp [hi, hj] at h
    | some b =>
      simp only [hi, hj, decide_eq_true_eq] at h
      exact ⟨a, b, rfl, rfl, h⟩

theorem Less_false {s : List (SuggestTrieItem W)} {i j : Nat} (h : Less s i j = false)
    {a b : SuggestTrieItem W} (hi : s[i]? = some a) (hj : s[j]? = some b) :
    b.Weight ≤ a.Weight := by
  unfold Less at h
  simp only [hi, hj, decide_eq_false_iff_not, not_lt] at h
  exact h

theorem up_isHeap :
    ∀ (fuel : Nat) (s : List (SuggestTrieItem W)) (j : Nat), j < fuel → j < s.length →
      UpInv s j → IsHeap (up fuel s j)
  | 0, s, j, hf, _, _ => by omega
  | fuel + 1, s, j, hf, hj, hinv => by
    unfold up
    simp only
    by_cases hc : (j - 1) / 2 = j ∨ Less s j ((j - 1) / 2) = false
    · rw [if_pos hc]
      intro k a b hk hb ha
      by_cases hkj : k = j
      · subst hkj
        rcases hc with hc | hc
        · omega
        · exact Less_false hc hb ha
      · exact hinv.1 k a b hk hkj hb ha
    · rw [if_neg hc]
      simp only [not_or, Bool.not_eq_false] at hc
      obtain ⟨hne, hless⟩ := hc
      obtain ⟨x, y, hx, hy, hxy⟩ := Less_true hless
      have hjpos : 0 < j := by omega
      have hi : (j - 1) / 2 < s.length := by omega
      have hij : (j - 1) / 2 < j := by omega
      apply up_isHeap fuel (Swap s ((j - 1) / 2) j) ((j - 1) / 2) (by omega)
        (by rw [Swap_length]; exact hi)
      constructor
      · intro k a b hk hki hb ha
        by_cases hkj : k = j
        · subst hkj
          rw [Swap_get_right s _ _ hi hj] at hb
          rw [Swap_get_left s _ _ hi hj] at ha
          rw [hy] at hb
          rw [hx] at ha
          cases hb
          cases ha
          exact le_of_lt hxy
        · rw [Swap_get_other s _ _ k hi hj hki hkj] at hb
          by_cases hp1 : (k - 1) / 2 = j
          · rw [hp1, Swap_get_right s _ _ hi hj, hy] at ha
            cases ha
            exact hinv.2 k _ b hjpos hk hp1 hb hy
          · by_cases hp2 : (k - 1) / 2 = (j - 1) / 2
            · rw [hp2, Swap_get_left s _ _ hi hj, hx] at ha
              cases ha
              have h1 := hinv.1 k y b hk hkj hb (by rw [hp2]; exact hy)
              exact le_trans (le_of_lt hxy) h1
            · rw [Swap_get_other s _ _ _ hi hj hp2 hp1] at ha
              exact hinv.1 k a b hk hkj hb ha
      · intro k a b hipos hk hpk hb ha
        have hpi1 : ((j - 1) / 2 - 1) / 2 ≠ (j - 1) / 2 := by omega
        have hpi2 : ((j - 1) / 2 - 1) / 2 ≠ j := by omega
        rw [Swap_get_other s _ _ _ hi hj hpi1 hpi2] at ha
        have h1 : a.Weight ≤ y.Weight := hinv.1 ((j - 1) / 2) a y hipos (by omega) hy ha
        by_cases hkj : k = j
        · subst hkj
          rw [Swap_get_right s _ _ hi hj, hy] at hb
          cases hb
          exact h1
        · have hki : k ≠ (j - 1) / 2 := by omega
          rw [Swap_get_other s _ _ k hi hj hki hkj] at hb
          exact le_trans h1 (hinv.1 k y b hk hkj hb (by rw [hpk]; exact hy))

theorem heapPush_isHeap (s : List (SuggestTrieItem W)) (x : SuggestTrieItem W)
    (h : IsHeap s) : IsHeap (heapPush s x) := by
  unfold heapPush
  simp only
  apply up_isHeap
  · simp
  · simp
  · constructor
    · intro k a b hk hkj hb ha
      simp only [List.length_append, List.length_singleton, Nat.add_sub_cancel] at hkj
      have hklt : k < s.length := by
        rcases List.getElem?_eq_some.1 hb with ⟨hlt, _⟩
        simp only [List.length_append, List.length_singleton] at hlt
        omega
      rw [List.getElem?_append_left hklt] at hb
      rw [List.getElem?_append_left (by omega)] at ha
      exact h k a b hk hb ha
    · intro k a b hj hk hpk hb ha
      simp only [List.length_append, List.length_singleton, Nat.add_sub_cancel] at hpk hj
      rcases List.getElem?_eq_some.1 hb with ⟨hlt, _⟩
      simp only [List.length_append, List.length_singleton] at hlt
      omega

theorem down_isHeapN :
    ∀ (fuel : Nat) (s : List (SuggestTrieItem W)) (i n : Nat), n ≤ s.length → n ≤ fuel + i →
      DownInv s i n → IsHeapN (down fuel s i n) n
  | 0, s, i, n, _, hf, hinv => by
    simp only [down]
    intro k a b hk hkn hb ha
    exact hinv.1 k a b hk hkn (by omega) hb ha
  | fuel + 1, s, i, n, hn, hf, hinv => by
    rw [down_succ]
    by_cases h1 : n ≤ 2 * i + 1
    · rw [if_pos h1]
      intro k a b hk hkn hb ha
      exact hinv.1 k a b hk hkn (by omega) hb ha
    · rw [if_neg h1]
      have hjn := pickChild_lt s i n h1
      have hjc := pickChild_cases s i n
      have hilen : i < s.length := by omega
      have hjlen : pickChild s i n < s.length := by omega
      have hj1 : s[2 * i + 1]? = some s[2 * i + 1] := by
        rw [List.getElem?_eq_getElem]
      -- the other child is not lighter than the picked one
      have hother : ∀ k b c, 0 < k → k < n → (k - 1) / 2 = i → k ≠ pickChild s i n →
          s[k]? = some b → s[pickChild s i n]? = some c → c.Weight ≤ b.Weight := by
        intro k b c hk hkn hpk hkj hb hc
        unfold pickChild at hkj hc
        by_cases hcond : 2 * i + 1 + 1 < n ∧ Less s (2 * i + 1 + 1) (2 * i + 1) = true
        · rw [if_pos hcond] at hkj hc
          have hk1 : k = 2 * i + 1 := by omega
          subst hk1
          obtain ⟨x, y, hx, hy, hxy⟩ := Less_true hcond.2
          rw [hx] at hc
          rw [hy] at hb
          cases hc
          cases hb
          exact le_of_lt hxy
        · rw [if_neg hcond] at hkj hc
          have hk2 : k = 2 * i + 1 + 1 := by omega
          subst hk2
          have hl : Less s (2 * i + 1 + 1) (2 * i + 1) = false := by
            cases hl : Less s (2 * i + 1 + 1) (2 * i + 1) with
            | false => rfl
            | true => exact absurd ⟨hkn, hl⟩ hcond
          exact Less_false hl hb hc
      by_cases h2 : Less s (pickChild s i n) i = false
      · rw [if_pos h2]
        intro k a b hk hkn hb ha
        by_cases hpk : (k - 1) / 2 = i
        · rw [hpk] at ha
          have hpick : s[pickChild s i n]? = some s[pickChild s i n] := by
            rw [List.getElem?_eq_getElem]
          have h3 := Less_false h2 hpick ha
          by_cases hkj : k = pickChild s i n
          · rw [hkj, hpick] at hb
            cases hb
            exact h3
          · exact le_trans h3 (hother k b _ hk hkn hpk hkj hb hpick)
        · exact hinv.1 k a b hk hkn hpk hb ha
      · rw [if_neg h2]
        have hless : Less s (pickChild s i n) i = true := by
          cases hl : Less s (pickChild s i n) i with
          | false => exact absurd hl h2
          | true => rfl
        obtain ⟨x, y, hx, hy, hxy⟩ := Less_true hless
        have hij : i ≠ pickChild s i n := by omega
        have hpj : (pickChild s i n - 1) / 2 = i := by omega
        apply down_isHeapN fuel (Swap s i (pickChild s i n)) (pickChild s i n) n
          (by rw [Swap_length]; exact hn) (by omega)
        constructor
        · intro k a b hk hkn hpk hb ha
          by_cases hkj : k = pickChild s i n
          · subst hkj
            rw [Swap_get_right s _ _ hilen hjlen, hy] at hb
            rw [hpj, Swap_get_left s _ _ hilen hjlen, hx] at ha
            cases hb
            cases ha
            exact le_of_lt hxy
          · by_cases hki : k = i
            · subst hki
              rw [Swap_get_left s _ _ hilen hjlen, hx] at hb
              have hbx : x = b := Option.some.inj hb
              subst hbx
              have hp1 : (k - 1) / 2 ≠ k := by omega
              rw [Swap_get_other s _ _ _ hilen hjlen hp1 hpk] at ha
              exact hinv.2 (pickChild s k n) a x hk (by omega) hjn hpj hx ha
            · rw [Swap_get_other s _ _ k hilen hjlen hki hkj] at hb
              by_cases hp1 : (k - 1) / 2 = i
              · rw [hp1, Swap_get_left s _ _ hilen hjlen, hx] at ha
                have hax : x = a := Option.some.inj ha
                subst hax
                exact hother k b x hk hkn hp1 hkj hb hx
              · rw [Swap_get_other s _ _ _ hilen hjlen hp1 hpk] at ha
                exact hinv.1 k a b hk hkn hp1 hb ha
        · intro k a b hjpos hk hkn hpk hb ha
          rw [hpj, Swap_get_left s _ _ hilen hjlen, hx] at ha
          have hax : x = a := Option.some.inj ha
          subst hax
          have hki : k ≠ i := by omega
          have hkj : k ≠ pickChild s i n := by omega
          rw [Swap_get_other s _ _ k hilen hjlen hki hkj] at hb
          exact hinv.1 k x b hk hkn (by omega) hb (by rw [hpk]; exact hx)

theorem IsHeap_root_le (s : List (SuggestTrieItem W)) (h : IsHeap s)
    (m : SuggestTrieItem W) (hm : s[0]? = some m) :
    ∀ (k : Nat) (b : SuggestTrieItem W), s[k]? = some b → m.Weight ≤ b.Weight := by
  intro k
  induction k using Nat.strong_induction_on with
  | _ k ih =>
    intro b hb
    by_cases hk : k = 0
    · subst hk
      rw [hm] at hb
      cases hb
      exact le_refl _
    · have hlt : (k - 1) / 2 < s.length := by
        rcases List.getElem?_eq_some.1 hb with ⟨hlt, _⟩
        omega
      have hp : s[(k - 1) / 2]? = some s[(k - 1) / 2] := by
        rw [List.getElem?_eq_getElem]
      exact le_trans (ih ((k - 1) / 2) (by omega) _ hp) (h k _ b (by omega) hb hp)

theorem heapPop_isHeap (s r : List (SuggestTrieItem W)) (h : IsHeap s)
    (hp : heapPop s = some r) :
    IsHeap r ∧ ∃ m, s.Perm (m :: r) ∧ ∀ y ∈ s, m.Weight ≤ y.Weight := by
  obtain ⟨m, hm, hperm⟩ := heapPop_perm s r hp
  refine ⟨?_, m, hperm, ?_⟩
  · unfold heapPop at hp
    by_cases h0 : s.length = 0
    · simp [h0] at hp
    · simp only [h0, if_false, Option.some.injEq] at hp
      have hpos : 0 < s.length := Nat.pos_of_ne_zero h0
      have hN : IsHeapN (down (s.length - 1) (Swap s 0 (s.length - 1)) 0 (s.length - 1))
          (s.length - 1) := by
        apply down_isHeapN _ _ _ _ (by rw [Swap_length]; omega) (by omega)
        constructor
        · intro k a b hk hkn hpk hb ha
          rw [Swap_get_other s _ _ k hpos (by omega) (by omega) (by omega)] at hb
          rw [Swap_get_other s _ _ _ hpos (by omega) (by omega) (by omega)] at ha
          exact h k a b hk hb ha
        · intro k a b hi
          omega
      intro k a b hk hb ha
      rw [← hp] at hb ha
      rw [List.getElem?_dropLast] at hb ha
      have hlen : (down (s.length - 1) (Swap s 0 (s.length - 1)) 0 (s.length - 1)).length =
          s.length := by
        rw [(down_perm _ _ _ _).length_eq, Swap_length]
      rw [hlen] at hb ha
      by_cases hkn : k < s.length - 1
      · rw [if_pos hkn] at hb
        rw [if_pos (by omega)] at ha
        exact hN k a b hk hkn hb ha
      · rw [if_neg hkn] at hb
        cases hb
  · intro y hy
    obtain ⟨k, hk⟩ := List.mem_iff_getElem?.1 hy
    exact IsHeap_root_le s h m hm k y hk

end HeapOrder

end Suggest


namespace Suggest

section BoundedHeap

set_option linter.unusedSectionVars false

variable {W : Type} [LinearOrder W]

/-! ## The bounded heap of one bucket -/

theorem IsHeap_singleton (e : SuggestTrieItem W) : IsHeap [e] := by
  intro j a b hj hb _
  rcases List.getElem?_eq_some.1 hb with ⟨hlt, _⟩
  simp at hlt
  omega

theorem TopOf_singleton (limit : Nat) (hl : 1 ≤ limit) (e : SuggestTrieItem W) :
    TopOf limit [e] [e] := by
  refine ⟨IsHeap_singleton e, ?_, [], by simp, by simp⟩
  simp
  omega

/-- One push with the pop-while-oversize loop keeps the heap the top of what was pushed. -/
theorem pushLimit_TopOf (limit : Int) (hl : 1 ≤ limit) (all h : List (SuggestTrieItem W))
    (e : SuggestTrieItem W) (ht : TopOf limit.toNat all h) :
    ∃ h1, popWhile ((heapPush h e).length + 1) (heapPush h e) limit = some h1 ∧
      TopOf limit.toNat (all ++ [e]) h1 := by
  obtain ⟨hheap, hlen, dropped, hperm, hdrop⟩ := ht
  have hpush := heapPush_perm h e
  have hpheap := heapPush_isHeap h e hheap
  have hplen : (heapPush h e).length = h.length + 1 := by
    rw [hpush.length_eq]
    simp
  have hall : all.length = h.length + dropped.length := by
    rw [hperm.length_eq]
    simp
  by_cases hfit : ((heapPush h e).length : Int) ≤ limit
  · refine ⟨heapPush h e, popWhile_of_le limit _ _ hfit, hpheap, ?_, [], ?_, by simp⟩
    · rw [hplen] at hfit ⊢
      simp only [List.length_append, List.length_singleton]
      omega
    · have hd : dropped = [] := by
        apply List.length_eq_zero.1
        rw [hplen] at hfit
        omega
      subst hd
      simp only [List.append_nil] at hperm ⊢
      exact (hperm.append_right [e]).trans hpush.symm
  · have hfull : h.length = limit.toNat := by
      rw [hplen] at hfit
      omega
    obtain ⟨r, hr⟩ := heapPop_isSome (heapPush h e) (by rw [hplen]; omega)
    obtain ⟨hrheap, m, hmperm, hmin⟩ := heapPop_isHeap _ r hpheap hr
    have hrlen : r.length = h.length := by
      have := heapPop_length _ r hr
      rw [hplen] at this
      omega
    have hpop : popWhile ((heapPush h e).length + 1) (heapPush h e) limit = some r := by
      unfold popWhile
      rw [if_pos (by omega)]
      simp only [hr, Option.some_bind]
      rw [hplen]
      exact popWhile_of_le limit _ r (by rw [hrlen]; omega)
    refine ⟨r, hpop, hrheap, ?_, m :: dropped, ?_, ?_⟩
    · simp only [List.length_append, List.length_singleton]
      omega
    · have h1 : (all ++ [e]).Perm ((h ++ [e]) ++ dropped) := by
        refine (hperm.append_right [e]).trans ?_
        rw [List.append_assoc, List.append_assoc]
        exact List.Perm.append_left h List.perm_append_comm
      have h2 : ((h ++ [e]) ++ dropped).Perm ((m :: r) ++ dropped) :=
        (hpush.symm.trans hmperm).append_right dropped
      exact h1.trans (h2.trans (by simpa using List.perm_middle.symm))
    · intro d hd y hy
      have hyp : y ∈ heapPush h e := hmperm.mem_iff.2 (List.mem_cons_of_mem _ hy)
      rcases List.mem_cons.1 hd with rfl | hd
      · exact hmin y hyp
      · have hm : m ∈ h ++ [e] := hpush.mem_iff.1 (hmperm.mem_iff.2 (List.mem_cons_self _ _))
        by_cases hme : m = e
        · subst hme
          have hrh : r.Perm h := by
            have : (m :: r).Perm (m :: h) :=
              hmperm.symm.trans (hpush.trans (by simp))
            exact this.cons_inv
          exact hdrop d hd y (hrh.mem_iff.1 hy)
        · have hmh : m ∈ h := by
            rcases List.mem_append.1 hm with h1 | h1
            · exact h1
            · simp only [List.mem_singleton] at h1
              exact absurd h1 hme
          rcases List.mem_append.1 (hpush.mem_iff.1 hyp) with h1 | h1
          · exact hdrop d hd y h1
          · simp only [List.mem_singleton] at h1
            subst h1
            exact le_trans (hdrop d hd m hmh) (hmin y hyp)

/-- The buckets of a node that only receives insertions of the single class `c`: one bucket
of class `c`, whose heap is the top of the inserted entries. -/
theorem addItems_single_aux (limit : Int) (hl : 1 ≤ limit) (c : String) :
    ∀ (l : List (Insertion W)) (done h : List (SuggestTrieItem W)),
      (∀ i ∈ l, i.classes = [c]) → TopOf limit.toNat done h →
      ∃ h1, addItems limit l [{ Class := c, Suggest := h }] = some [{ Class := c, Suggest := h1 }] ∧
        TopOf limit.toNat (done ++ l.map Insertion.item) h1
  | [], done, h, _, ht => ⟨h, rfl, by simpa using ht⟩
  | i :: rest, done, h, hc, ht => by
    obtain ⟨h1, hp, ht1⟩ := pushLimit_TopOf limit hl done h i.item ht
    obtain ⟨h2, hr, ht2⟩ := addItems_single_aux limit hl c rest (done ++ [i.item]) h1
      (fun j hj => hc j (List.mem_cons_of_mem _ hj)) ht1
    refine ⟨h2, ?_, by simpa using ht2⟩
    simp only [addItems, hc i (List.mem_cons_self _ _), addItem, addItemClass, if_true, hp,
      Option.map_some', Option.some_bind]
    exact hr

theorem addItems_single (limit : Int) (hl : 1 ≤ limit) (c : String)
    (l : List (Insertion W)) (hc : ∀ i ∈ l, i.classes = [c]) (hne : l ≠ []) :
    ∃ h, addItems limit l [] = some [{ Class := c, Suggest := h }] ∧
      TopOf limit.toNat (l.map Insertion.item) h := by
  cases l with
  | nil => exact absurd rfl hne
  | cons i rest =>
    obtain ⟨h, hr, ht⟩ := addItems_single_aux limit hl c rest [i.item] [i.item]
      (fun j hj => hc j (List.mem_cons_of_mem _ hj))
      (TopOf_singleton _ (by omega) i.item)
    refine ⟨h, ?_, by simpa using ht⟩
    simp only [addItems, hc i (List.mem_cons_self _ _), addItem, addItemClass,
      Option.some_bind]
    exact hr

end BoundedHeap

end Suggest


namespace Suggest

section ChainLemmas

set_option linter.unusedSectionVars false

variable {W : Type} [LinearOrder W]

/-! ## `reflect.DeepEqual` and the chain of cleared nodes -/

theorem deepEqualList_forall₂ {α : Type} (eq : α → α → Bool) :
    ∀ (l1 l2 : List α), deepEqualList eq l1 l2 = true →
      List.Forall₂ (fun a b => eq a b = true) l1 l2
  | [], [], _ => List.Forall₂.nil
  | [], b :: l2, h => by simp [deepEqualList] at h
  | a :: l1, [], h => by simp [deepEqualList] at h
  | a :: l1, b :: l2, h => by
    simp only [deepEqualList, Bool.and_eq_true] at h
    exact List.Forall₂.cons h.1 (deepEqualList_forall₂ eq l1 l2 h.2)

theorem deepEqual_items_weights :
    ∀ (l1 l2 : List (SuggestTrieItem W)),
      List.Forall₂ (fun a b => SuggestTrieItem.deepEqual a b = true) l1 l2 →
      l1.map SuggestTrieItem.Weight = l2.map SuggestTrieItem.Weight
  | _, _, List.Forall₂.nil => rfl
  | _ :: r1, _ :: r2, List.Forall₂.cons h1 h2 => by
    unfold SuggestTrieItem.deepEqual at h1
    simp only [Bool.and_eq_true, decide_eq_true_eq] at h1
    simp [h1.1, deepEqual_items_weights r1 r2 h2]

theorem deepEqual_weights (a b : SuggestItems W) (h : a.deepEqual b = true) :
    a.Class = b.Class ∧
      a.Suggest.map SuggestTrieItem.Weight = b.Suggest.map SuggestTrieItem.Weight := by
  unfold SuggestItems.deepEqual at h
  simp only [Bool.and_eq_true, decide_eq_true_eq] at h
  exact ⟨h.1, deepEqual_items_weights _ _ (deepEqualList_forall₂ _ _ _ h.2)⟩

theorem DeepEqual_forall₂ (x y : List (SuggestItems W)) (h : DeepEqual x y = true) :
    List.Forall₂ (fun a b => a.Class = b.Class ∧
      a.Suggest.map SuggestTrieItem.Weight = b.Suggest.map SuggestTrieItem.Weight) x y := by
  unfold DeepEqual at h
  exact (deepEqualList_forall₂ _ _ _ h).imp (fun a b hab => deepEqual_weights a b hab)

theorem DeepEqual_single (x : List (SuggestItems W)) (c : String)
    (h : List (SuggestTrieItem W)) (hd : DeepEqual x [{ Class := c, Suggest := h }] = true) :
    ∃ h1, x = [{ Class := c, Suggest := h1 }] ∧
      h1.map SuggestTrieItem.Weight = h.map SuggestTrieItem.Weight := by
  have hf := DeepEqual_forall₂ _ _ hd
  cases hf with
  | cons h1 h2 =>
    cases h2
    rename_i a
    refine ⟨a.Suggest, ?_, h1.2⟩
    cases a
    simp only at h1
    simp [h1.1]

theorem forall₂_singleton_right {α β : Type} {R : α → β → Prop} {l : List α} {b : β}
    (h : List.Forall₂ R l [b]) : ∃ a, l = [a] ∧ R a b := by
  cases h with
  | cons h1 h2 =>
    cases h2
    exact ⟨_, rfl, h1⟩

theorem forall₂_singleton_left {α β : Type} {R : α → β → Prop} {a : α} {l : List β}
    (h : List.Forall₂ R [a] l) : ∃ b, l = [b] ∧ R a b := by
  cases h with
  | cons h1 h2 =>
    cases h2
    exact ⟨_, rfl, h1⟩

theorem forall₂_imp_mem {α β : Type} {R T : α → β → Prop} :
    ∀ {l : List α} {l2 : List β}, List.Forall₂ R l l2 →
      (∀ a ∈ l, ∀ b, R a b → T a b) → List.Forall₂ T l l2
  | _, _, List.Forall₂.nil, _ => List.Forall₂.nil
  | _, _, List.Forall₂.cons h1 h2, h =>
    List.Forall₂.cons (h _ (List.mem_cons_self _ _) _ h1)
      (forall₂_imp_mem h2 (fun a ha b hab => h a (List.mem_cons_of_mem _ ha) b hab))

theorem forall₂_nil_right {α β : Type} {R : α → β → Prop} {l : List α}
    (h : List.Forall₂ R l []) : l = [] := by
  cases h
  rfl

theorem bucketsAt_of_nodeAt (s n : SuggestTrieBuilder W) (q : List Nat)
    (h : s.nodeAt q = some n) : s.bucketsAt q = n.Buckets := by
  simp [SuggestTrieBuilder.bucketsAt, h]

theorem nodeAt_snoc_single (s n : SuggestTrieBuilder W) (q : List Nat)
    (d : SuggestTrieDescendant W) (h : s.nodeAt q = some n) (hd : n.Descendants = [d]) :
    s.nodeAt (q ++ [d.Key]) = some d.Builder := by
  rw [nodeAt_append, h]
  simp only [Option.some_bind, nodeAt_cons, hd, childOf, if_true, nodeAt_nil]

/-- Along the chain of nodes that a query skips, a property of paths that survives every
cleared single-descendant node holds at the node where the skip stops. -/
theorem skip_chain (S : SliceSorter W) (maxItemsPerPrefix : Int)
    (s s1 : SuggestTrieBuilder W) (hfin : s.Finalize S maxItemsPerPrefix = some s1)
    (Inv : List Nat → Prop)
    (hstep : ∀ q n d, Inv q → s.nodeAt q = some n → n.Descendants = [d] →
      clearPassThrough n.Descendants n.Buckets = [] → Inv (q ++ [d.Key]))
    (n1 ne1 : SuggestTrieBuilder W) (hskip : SkipTo n1 ne1) :
    ∀ p, Inv p → s1.nodeAt p = some n1 →
      ∃ ext, s1.nodeAt (p ++ ext) = some ne1 ∧ Inv (p ++ ext) := by
  induction hskip with
  | stop n _ =>
    intro p hp hn
    exact ⟨[], by simpa using hn, by simpa using hp⟩
  | step n1 ne1 d1 hd1 hb1 _ ih =>
    intro p hp hn
    obtain ⟨hf1, hf2⟩ := Finalize_nodeAt S maxItemsPerPrefix p s s1 hfin
    cases hsn : s.nodeAt p with
    | none =>
      rw [hf1 hsn] at hn
      cases hn
    | some n =>
      obtain ⟨n2, hn2, hfn⟩ := hf2 n hsn
      rw [hn] at hn2
      cases hn2
      cases n with
      | mk ds bs =>
        obtain ⟨ds1, bs1, rfl, hfb, hfd⟩ := Finalize_mk S maxItemsPerPrefix ds bs _ hfn
        simp only [Descendants_mk, Buckets_mk] at hd1 hb1
        subst hd1
        obtain ⟨d, rfl, hdk, _⟩ := forall₂_singleton_right hfd
        have hbs1 : bs1 = [] := List.length_eq_zero.1 hb1
        subst hbs1
        have hclear : clearPassThrough [d] bs = [] :=
          forall₂_nil_right (finalizeBuckets_forall₂ S maxItemsPerPrefix _ _ hfb)
        have hinv := hstep p _ d hp hsn rfl hclear
        have hnext : s1.nodeAt (p ++ [d.Key]) = some d1.Builder := by
          rw [← hdk]
          exact nodeAt_snoc_single s1 _ p d1 hn rfl
        obtain ⟨ext, hext, hie⟩ := ih (p ++ [d.Key]) hinv hnext
        refine ⟨d.Key :: ext, ?_, ?_⟩
        · simpa using hext
        · simpa using hie

/-- At the node where the skip stops, the buckets are the finalized buckets of the node
before `Finalize`, unless that node had no bucket. -/
theorem stop_not_cleared (S : SliceSorter W) (maxItemsPerPrefix : Int)
    (ne ne1 : SuggestTrieBuilder W) (hfin : ne.Finalize S maxItemsPerPrefix = some ne1)
    (hstop : ¬ (ne1.Descendants.length = 1 ∧ ne1.Buckets.length = 0))
    (hne : ne.Buckets ≠ []) :
    finalizeBuckets S maxItemsPerPrefix ne.Buckets = some ne1.Buckets := by
  cases ne with
  | mk ds bs =>
    obtain ⟨ds1, bs1, rfl, hfb, hfd⟩ := Finalize_mk S maxItemsPerPrefix ds bs _ hfin
    simp only [Descendants_mk, Buckets_mk] at hstop hne ⊢
    rcases clearPassThrough_cases ds bs with h1 | ⟨h1, d, hd, _⟩
    · rw [h1] at hfb
      exact hfb
    · exfalso
      apply hstop
      rw [h1] at hfb
      simp only [finalizeBuckets, Option.some.injEq] at hfb
      subst hfb
      subst hd
      have := hfd.length_eq
      simp at this
      exact ⟨this.symm, rfl⟩

theorem cleared_deepEqual (ds : List (SuggestTrieDescendant W)) (bs : List (SuggestItems W))
    (d : SuggestTrieDescendant W) (hd : ds = [d]) (hc : clearPassThrough ds bs = [])
    (hne : bs ≠ []) : DeepEqual d.Builder.Buckets bs = true := by
  rcases clearPassThrough_cases ds bs with h1 | ⟨_, d1, hd1, h2⟩
  · rw [hc] at h1
    exact absurd h1.symm hne
  · rw [hd] at hd1
    cases hd1
    exact h2

end ChainLemmas

end Suggest


namespace Suggest

section SingleClass

set_option linter.unusedSectionVars false

variable {W : Type} [LinearOrder W]

/-! ## A corpus of one class, without spaces, under one prefix -/

theorem Split_of_not_mem (sep : Nat) : ∀ (t : List Nat), sep ∉ t → Split sep t = [t]
  | [], _ => rfl
  | c :: rest, h => by
    simp only [List.mem_cons, not_or] at h
    unfold Split
    rw [if_neg (fun hc => h.1 hc.symm), Split_of_not_mem sep rest h.2]

theorem rotations_of_not_mem (t : List Nat) (h : 32 ∉ t) : rotations t = [] := by
  unfold rotations
  rw [Split_of_not_mem 32 t h]
  rfl

theorem insertions_nospace [Mul W] (norm : String → String) (pwf : W) (c : String) :
    ∀ (items : List (Item W)), (∀ x ∈ items, extractItemClasses norm x = [c]) →
      (∀ x ∈ items, 32 ∉ x.NormalizedText) →
      insertions norm pwf items = items.map (plainInsertion c)
  | [], _, _ => rfl
  | x :: rest, hc, hs => by
    have ih := insertions_nospace norm pwf c rest
      (fun y hy => hc y (List.mem_cons_of_mem _ hy))
      (fun y hy => hs y (List.mem_cons_of_mem _ hy))
    unfold insertions at ih ⊢
    simp only [List.flatMap_cons, List.map_cons, ih, insertionsOf,
      rotations_of_not_mem _ (hs x (List.mem_cons_self _ _)), hc x (List.mem_cons_self _ _),
      List.map_nil, List.singleton_append, plainInsertion, Item.entry]

theorem filter_eq_self_of_forall {α : Type} (P : α → Bool) (l : List α)
    (h : ∀ a ∈ l, P a = true) : l.filter P = l :=
  List.filter_eq_self.2 h

/-- The common part of the top-k and the group-dedup results: on a non-empty corpus whose
items carry the single class `c`, have no space in their normalized text and all begin with
`p`, the unfiltered query for `p` returns the items referenced by the finalized form of a
heap `hE` that carries the same weights as the bounded heap `hP` of the whole corpus. -/
theorem query_single [Mul W] (S : SliceSorter W) (norm : String → String)
    (items : List (Item W)) (hsize : items.length ≤ 2 ^ 32) (maxItemsPerPrefix : Int)
    (hmax : 1 ≤ maxItemsPerPrefix) (hint : maxItemsPerPrefix < 2 ^ 62) (pwf : W)
    (p : List Nat) (c : String)
    (hcls : ∀ x ∈ items, extractItemClasses norm x = [c])
    (hnosp : ∀ x ∈ items, 32 ∉ x.NormalizedText)
    (hpre : ∀ x ∈ items, p <+: x.NormalizedText)
    (hptr : ∀ a ∈ items, ∀ b ∈ items, a.ptr = b.ptr → a = b)
    (hne : items ≠ []) :
    ∃ (data : stpb.SuggestData W) (r : List (ItemRef W)) (look : Nat → Option Nat)
      (hP hE : List (SuggestTrieItem W)) (idxs : List Nat),
      BuildSuggest S norm items maxItemsPerPrefix pwf = some data ∧
      GetSuggestItems S norm data p [] [] = some r ∧
      TopOf (maxItemsPerPrefix * 2).toNat
        (items.map Item.entry) hP ∧
      hE.map SuggestTrieItem.Weight = hP.map SuggestTrieItem.Weight ∧
      (∀ e ∈ hE, e ∈ items.map Item.entry) ∧
      (∀ p1 p2 i, look p1 = some i → look p2 = some i → p1 = p2) ∧
      List.Forall₂ (fun e idx => look e.OriginalItem.ptr = some idx ∧
          data.Items[idx]? = some e.OriginalItem.toProto)
        ((DeduplicateSuggest (S.sortDesc SuggestTrieItem.Weight hE)).take
          maxItemsPerPrefix.toNat) idxs ∧
      (r.map ItemRef.index).Nodup ∧ (∀ i, i ∈ r.map ItemRef.index ↔ i ∈ idxs) ∧
      (∀ x ∈ r, data.Items[x.index]? = some x.item) ∧
      r.Pairwise (fun a b => b.item.Weight ≤ a.item.Weight) := by
  obtain ⟨data, hd⟩ := BuildSuggest_isSome S norm items maxItemsPerPrefix (by omega) hint pwf
  obtain ⟨s, s1, look, hs, hnd, hs1, hm, hitem, hinj⟩ :=
    BuildSuggest_spec S norm items hsize maxItemsPerPrefix pwf data hd
  rw [wrapInt_double maxItemsPerPrefix (by omega) hint] at hs
  have hins := insertions_nospace norm pwf c items hcls hnosp
  rw [hins] at hs
  have hempty : (SuggestTrieBuilder.mk ([] : List (SuggestTrieDescendant W)) []).NodupKeys := by
    rw [NodupKeys_mk]
    simp
  obtain ⟨_, hq⟩ := addAll_spec _ _ _ s hempty hs
  -- the node of `p` before `Finalize`
  obtain ⟨hdom, hbk⟩ := hq p
  rw [bucketsAt_empty, filter_eq_self_of_forall _ _ (by
    intro i hi
    simp only [List.mem_map] at hi
    obtain ⟨x, hx, rfl⟩ := hi
    simpa using hpre x hx)] at hbk
  obtain ⟨hP, hPb, hPtop⟩ := addItems_single (maxItemsPerPrefix * 2) (by omega) c
    (items.map (plainInsertion c))
    (by
      intro i hi
      simp only [List.mem_map] at hi
      obtain ⟨x, _, rfl⟩ := hi
      rfl)
    (by simpa using hne)
  rw [hPb] at hbk
  have hbp : s.bucketsAt p = [{ Class := c, Suggest := hP }] := (Option.some.inj hbk).symm
  rw [List.map_map] at hPtop
  have hPtop1 : TopOf (maxItemsPerPrefix * 2).toNat
      (items.map Item.entry) hP := hPtop
  obtain ⟨x0, hx0⟩ := List.exists_mem_of_ne_nil items hne
  have hsome : (s.nodeAt p).isSome = true :=
    hdom.2 (Or.inr ⟨_, List.mem_map.2 ⟨x0, hx0, rfl⟩, hpre x0 hx0⟩)
  rcases query_built S norm items maxItemsPerPrefix data s s1 look hs1 hm hitem p [] [] with
    ⟨hnone, _⟩ | ⟨n0, _, ne1, N1, _, _, _, _, _, ⟨n1, hn1, hto⟩, hmN1, hbound, hq1⟩
  · rw [hnone] at hsome
    cases hsome
  -- along the chain of cleared nodes the single bucket keeps its weights
  obtain ⟨ext, hext, hE, hEb, hEw⟩ := skip_chain S maxItemsPerPrefix s s1 hs1
    (fun q => ∃ h, s.bucketsAt q = [{ Class := c, Suggest := h }] ∧
      h.map SuggestTrieItem.Weight = hP.map SuggestTrieItem.Weight)
    (by
      intro q n d ⟨h, hb, hw⟩ hn hd hc
      rw [bucketsAt_of_nodeAt s n q hn] at hb
      have hde := cleared_deepEqual n.Descendants n.Buckets d hd hc (by rw [hb]; simp)
      rw [hb] at hde
      obtain ⟨h1, hb1, hw1⟩ := DeepEqual_single _ c h hde
      refine ⟨h1, ?_, hw1.trans hw⟩
      rw [bucketsAt_of_nodeAt s d.Builder _ (nodeAt_snoc_single s n q d hn hd)]
      exact hb1)
    n1 ne1 hto p ⟨hP, hbp, rfl⟩ hn1
  -- the node where the skip stops, before and after `Finalize`
  obtain ⟨hg1, hg2⟩ := Finalize_nodeAt S maxItemsPerPrefix (p ++ ext) s s1 hs1
  cases hne0 : s.nodeAt (p ++ ext) with
  | none =>
    rw [hg1 hne0] at hext
    cases hext
  | some ne =>
    obtain ⟨ne2, h1, hfin⟩ := hg2 ne hne0
    rw [hext] at h1
    cases h1
    rw [bucketsAt_of_nodeAt s ne _ hne0] at hEb
    have hfb := stop_not_cleared S maxItemsPerPrefix ne ne1 hfin (SkipTo_stop hto)
      (by rw [hEb]; simp)
    rw [hEb] at hfb
    obtain ⟨b1, hb1, hb1c, hb1s⟩ := finalizeBucket_spec S maxItemsPerPrefix (by omega)
      { Class := c, Suggest := hE }
    simp only [finalizeBuckets, hb1, Option.some_bind, Option.map_some',
      Option.some.injEq] at hfb
    have hEsub : ∀ e ∈ hE, e ∈ items.map Item.entry := by
      intro e he
      obtain ⟨i, hi, hie, _, _⟩ := built_entries _ _ s hs (p ++ ext) ne hne0
        { Class := c, Suggest := hE } (by rw [hEb]; simp) e he
      simp only [List.mem_map] at hi
      obtain ⟨x, hx, rfl⟩ := hi
      exact List.mem_map.2 ⟨x, hx, hie.symm⟩
    have hmb := Mirror_buckets look ne1 N1 hmN1
    rw [← hfb] at hmb
    unfold MirrorBuckets at hmb
    obtain ⟨ci, hci, hcc, _, hmb1⟩ := forall₂_singleton_left hmb
    have hfbsub : ∀ e ∈ b1.Suggest, e ∈ hE := by
      intro e he
      rw [hb1s] at he
      exact (S.perm _ _).mem_iff.1
        ((deduplicateLoop_sublist _ []).subset (List.mem_of_mem_take he))
    have hF : List.Forall₂ (fun e idx => look e.OriginalItem.ptr = some idx ∧
        data.Items[idx]? = some e.OriginalItem.toProto) b1.Suggest ci.ItemIndexes := by
      refine forall₂_imp_mem hmb1 ?_
      intro e he idx h1
      refine ⟨h1, ?_⟩
      obtain ⟨y, hy, hyp, hyi⟩ := hitem _ _ h1
      have he1 := hEsub e (hfbsub e he)
      simp only [List.mem_map] at he1
      obtain ⟨x, hx, rfl⟩ := he1
      have : y = x := hptr y hy x hx hyp
      subst this
      exact hyi
    obtain ⟨r, hr, hrnd, hrs, hri, hrmem⟩ := collectItems_spec S norm data N1 [] [] hbound
    refine ⟨data, r, look, hP, hE, ci.ItemIndexes, hd, by rw [hq1, hr], hPtop1, hEw, hEsub,
      hinj, by rw [← hb1s]; exact hF, hrnd, ?_, hri, hrs⟩
    intro i
    simp only [List.mem_map]
    constructor
    · rintro ⟨x, hx, rfl⟩
      obtain ⟨_, ⟨b, hb, hib⟩, _⟩ := (hrmem x).1 hx
      rw [hci] at hb
      simp only [List.mem_singleton] at hb
      subst hb
      exact hib
    · intro hi
      have hlt : i < data.Items.length := hbound ci (by rw [hci]; simp) i hi
      refine ⟨{ index := i, item := data.Items[i] }, (hrmem _).2 ⟨by simp [hlt], ?_, ?_⟩, rfl⟩
      · exact ⟨ci, by rw [hci]; simp, hi⟩
      · rw [itemSatisfyClasses_iff]
        refine ⟨⟨ci.Class, mem_classesOf.2 ⟨ci, by rw [hci]; simp, rfl, hi⟩, Or.inr ?_⟩, ?_⟩
        · simp [PrepareCheckMap]
        · simp [PrepareCheckMap]

end SingleClass

end Suggest


namespace Suggest

section TopLemmas

set_option linter.unusedSectionVars false

variable {W : Type} [LinearOrder W]

/-! ## Lists sorted by weight -/

theorem eq_of_map_eq {α β : Type} (f : α → β) :
    ∀ (l1 l2 : List α), l1.map f = l2.map f →
      (∀ a ∈ l1, ∀ b ∈ l2, f a = f b → a = b) → l1 = l2
  | [], [], _, _ => rfl
  | [], b :: l2, h, _ => by simp at h
  | a :: l1, [], h, _ => by simp at h
  | a :: l1, b :: l2, h, hinj => by
    simp only [List.map_cons, List.cons.injEq] at h
    have hab : a = b := hinj a (List.mem_cons_self _ _) b (List.mem_cons_self _ _) h.1
    have := eq_of_map_eq f l1 l2 h.2
      (fun x hx y hy => hinj x (List.mem_cons_of_mem _ hx) y (List.mem_cons_of_mem _ hy))
    rw [hab, this]

theorem map_eq_of_perm_sorted {α : Type} (w : α → W) (l1 l2 : List α) (hp : l1.Perm l2)
    (h1 : l1.Pairwise (fun a b => w b ≤ w a)) (h2 : l2.Pairwise (fun a b => w b ≤ w a)) :
    l1.map w = l2.map w := by
  haveI : IsAntisymm W (fun a b => b ≤ a) := ⟨fun a b hab hba => le_antisymm hba hab⟩
  exact List.eq_of_perm_of_sorted (r := fun a b => b ≤ a) (hp.map w)
    (List.pairwise_map.2 h1) (List.pairwise_map.2 h2)

/-- Two lists sorted by descending weight that are permutations of each other are equal when
the weight identifies the element. -/
theorem eq_of_perm_sorted {α : Type} (w : α → W) (l1 l2 : List α) (hp : l1.Perm l2)
    (h1 : l1.Pairwise (fun a b => w b ≤ w a)) (h2 : l2.Pairwise (fun a b => w b ≤ w a))
    (hinj : ∀ a ∈ l2, ∀ b ∈ l2, w a = w b → a = b) : l1 = l2 :=
  eq_of_map_eq w l1 l2 (map_eq_of_perm_sorted w l1 l2 hp h1 h2)
    (fun a ha b hb hab => hinj a (hp.mem_iff.1 ha) b hb hab)

theorem deduplicateLoop_no_group :
    ∀ (l : List (SuggestTrieItem W)) (seen : List String),
      (∀ e ∈ l, e.OriginalItem.Data.group = none) → deduplicateLoop seen l = l
  | [], _, _ => rfl
  | e :: l, seen, h => by
    unfold deduplicateLoop
    rw [h e (List.mem_cons_self _ _)]
    simp only
    rw [deduplicateLoop_no_group l seen (fun e1 he1 => h e1 (List.mem_cons_of_mem _ he1))]

theorem forall₂_nodup {α β : Type} {R : α → β → Prop}
    (hR : ∀ a a1 b, R a b → R a1 b → a = a1) :
    ∀ {l : List α} {l2 : List β}, List.Forall₂ R l l2 → l.Nodup → l2.Nodup
  | _, _, List.Forall₂.nil, _ => List.nodup_nil
  | a :: l, b :: l2, List.Forall₂.cons h1 h2, hnd => by
    rw [List.nodup_cons] at hnd ⊢
    refine ⟨?_, forall₂_nodup hR h2 hnd.2⟩
    intro hb
    obtain ⟨a1, ha1, hab⟩ := forall₂_mem_right h2 b hb
    have := hR a a1 b h1 hab
    subst this
    exact hnd.1 ha1

/-- The items of a query result, read off the finalized bucket they are referenced from. -/
theorem result_perm (tbl : List (stpb.Item W)) (F : SuggestTrieItem W → stpb.Item W) :
    ∀ (fb : List (SuggestTrieItem W)) (idxs : List Nat),
      List.Forall₂ (fun e idx => tbl[idx]? = some (F e)) fb idxs → idxs.Nodup →
      ∀ (r : List (ItemRef W)), (r.map ItemRef.index).Nodup →
        (∀ i, i ∈ r.map ItemRef.index ↔ i ∈ idxs) →
        (∀ x ∈ r, tbl[x.index]? = some x.item) →
        (r.map ItemRef.item).Perm (fb.map F)
  | _, _, List.Forall₂.nil, _, r, _, hmem, _ => by
    have : r = [] := by
      cases r with
      | nil => rfl
      | cons x r =>
        have := (hmem x.index).1 (by simp)
        simp at this
    subst this
    exact List.Perm.refl _
  | e :: fb, idx :: idxs, List.Forall₂.cons h1 h2, hnd, r, hrnd,
      hmem, hitem => by
    rw [List.nodup_cons] at hnd
    have hin : idx ∈ r.map ItemRef.index := (hmem idx).2 (List.mem_cons_self _ _)
    obtain ⟨x, hx, hxi⟩ := List.mem_map.1 hin
    have hperm : r.Perm (x :: r.erase x) := List.perm_cons_erase hx
    have hnd2 : ((x :: r.erase x).map ItemRef.index).Nodup :=
      (hperm.map ItemRef.index).nodup_iff.1 hrnd
    simp only [List.map_cons, List.nodup_cons] at hnd2
    have hxitem : x.item = F e := by
      have := hitem x hx
      rw [hxi, h1] at this
      exact (Option.some.inj this).symm
    have ih := result_perm tbl F fb idxs h2 hnd.2 (r.erase x) hnd2.2
      (by
        intro i
        constructor
        · intro hi
          have h3 : i ∈ r.map ItemRef.index := by
            obtain ⟨y, hy, hyi⟩ := List.mem_map.1 hi
            exact List.mem_map.2 ⟨y, List.mem_of_mem_erase hy, hyi⟩
          rcases List.mem_cons.1 ((hmem i).1 h3) with h4 | h4
          · exfalso
            apply hnd2.1
            rw [hxi, ← h4]
            exact hi
          · exact h4
        · intro hi
          have h3 := (hmem i).2 (List.mem_cons_of_mem _ hi)
          have h4 := (hperm.map ItemRef.index).mem_iff.1 h3
          simp only [List.map_cons, List.mem_cons] at h4
          rcases h4 with h4 | h4
          · exfalso
            apply hnd.1
            rw [← hxi, ← h4]
            exact hi
          · exact h4)
      (fun y hy => hitem y (List.mem_of_mem_erase hy))
    refine (hperm.map ItemRef.item).trans ?_
    simp only [List.map_cons, hxitem]
    exact ih.cons _

end TopLemmas

end Suggest


namespace Suggest

section NoEviction

set_option linter.unusedSectionVars false

variable {W : Type} [LinearOrder W]

/-! ## Buckets that never overflow -/

theorem entriesOf_cons (c : String) (b : SuggestItems W) (bs : List (SuggestItems W)) :
    entriesOf c (b :: bs) = if b.Class = c then b.Suggest ++ entriesOf c bs
      else entriesOf c bs := by
  unfold entriesOf
  by_cases h : b.Class = c
  · simp [List.filter_cons, h]
  · simp [List.filter_cons, h]

theorem mem_entriesOf (c : String) (bs : List (SuggestItems W)) (e : SuggestTrieItem W) :
    e ∈ entriesOf c bs ↔ ∃ b ∈ bs, b.Class = c ∧ e ∈ b.Suggest := by
  simp only [entriesOf, List.mem_flatMap, List.mem_filter, decide_eq_true_eq]
  constructor
  · rintro ⟨b, ⟨hb, hc⟩, he⟩
    exact ⟨b, hb, hc, he⟩
  · rintro ⟨b, hb, hc, he⟩
    exact ⟨b, ⟨hb, hc⟩, he⟩

theorem length_le_entriesOf :
    ∀ (bs : List (SuggestItems W)) (b : SuggestItems W), b ∈ bs →
      b.Suggest.length ≤ (entriesOf b.Class bs).length
  | [], b, h => by simp at h
  | a :: bs, b, h => by
    rw [entriesOf_cons]
    rcases List.mem_cons.1 h with rfl | h
    · simp
    · have := length_le_entriesOf bs b h
      by_cases hc : a.Class = b.Class
      · rw [if_pos hc, List.length_append]
        omega
      · rw [if_neg hc]
        exact this

theorem addItemClass_noevict (limit : Int) (item : SuggestTrieItem W) (c : String) :
    ∀ (bs bs1 : List (SuggestItems W)), addItemClass limit item c bs = some bs1 →
      ((entriesOf c bs).length : Int) + 1 ≤ limit →
      ∀ c1, (entriesOf c1 bs1).Perm
        (if c1 = c then item :: entriesOf c1 bs else entriesOf c1 bs)
  | [], bs1, h, _ => by
    simp only [addItemClass, Option.some.injEq] at h
    subst h
    intro c1
    rw [entriesOf_cons]
    by_cases h1 : c1 = c
    · subst h1
      simp [entriesOf]
    · have : ¬ c = c1 := fun h => h1 h.symm
      simp [entriesOf, h1, this]
  | b :: rest, bs1, h, hlen => by
    unfold addItemClass at h
    by_cases hc : c = b.Class
    · rw [if_pos hc] at h
      have hpush := heapPush_perm b.Suggest item
      have hl : ((heapPush b.Suggest item).length : Int) ≤ limit := by
        rw [hpush.length_eq]
        rw [entriesOf_cons, if_pos hc.symm] at hlen
        simp only [List.length_append, List.length_singleton, Nat.cast_add,
          Nat.cast_one] at hlen ⊢
        omega
      simp only [popWhile_of_le limit _ _ hl, Option.map_some', Option.some.injEq] at h
      subst h
      intro c1
      rw [entriesOf_cons, entriesOf_cons]
      simp only
      by_cases h1 : b.Class = c1
      · rw [if_pos h1, if_pos (by rw [hc, h1]), if_pos h1]
        have h2 := hpush.append_right (entriesOf c1 rest)
        refine h2.trans ?_
        rw [List.append_assoc]
        simp
      · have h3 : ¬ c1 = c := fun h => h1 (by rw [h, hc])
        rw [if_neg h1, if_neg h3, if_neg h1]
    · rw [if_neg hc] at h
      cases hr : addItemClass limit item c rest with
      | none => simp [hr] at h
      | some r =>
        simp only [hr, Option.map_some', Option.some.injEq] at h
        subst h
        have hc1 : ¬ b.Class = c := fun h => hc h.symm
        rw [entriesOf_cons, if_neg hc1] at hlen
        have ih := addItemClass_noevict limit item c rest r hr hlen
        intro c1
        rw [entriesOf_cons, entriesOf_cons]
        by_cases h1 : b.Class = c1
        · have h3 : ¬ c1 = c := fun h => hc1 (by rw [h1, h])
          have := ih c1
          rw [if_neg h3] at this
          rw [if_pos h1, if_neg h3, if_pos h1]
          exact this.append_left _
        · rw [if_neg h1, if_neg h1]
          exact ih c1

theorem addItem_noevict (limit : Int) (item : SuggestTrieItem W) :
    ∀ (classes : List String) (bs bs1 : List (SuggestItems W)),
      addItem limit item bs classes = some bs1 → classes.Nodup →
      (∀ c ∈ classes, ((entriesOf c bs).length : Int) + 1 ≤ limit) →
      ∀ c1, (entriesOf c1 bs1).Perm
        (if c1 ∈ classes then item :: entriesOf c1 bs else entriesOf c1 bs)
  | [], bs, bs1, h, _, _ => by
    simp only [addItem, Option.some.injEq] at h
    subst h
    intro c1
    simp
  | c :: rest, bs, bs1, h, hnd, hlen => by
    unfold addItem at h
    cases h1 : addItemClass limit item c bs with
    | none => simp [h1] at h
    | some b1 =>
      simp only [h1, Option.some_bind] at h
      rw [List.nodup_cons] at hnd
      have hA := addItemClass_noevict limit item c bs b1 h1 (hlen c (List.mem_cons_self _ _))
      have hB := addItem_noevict limit item rest b1 bs1 h hnd.2 (by
        intro c2 hc2
        have hne : ¬ c2 = c := fun h => hnd.1 (h ▸ hc2)
        have := hA c2
        rw [if_neg hne] at this
        rw [this.length_eq]
        exact hlen c2 (List.mem_cons_of_mem _ hc2))
      intro c1
      have hA1 := hA c1
      have hB1 := hB c1
      by_cases hc : c1 = c
      · subst hc
        rw [if_neg hnd.1] at hB1
        rw [if_pos rfl] at hA1
        rw [if_pos (List.mem_cons_self _ _)]
        exact hB1.trans hA1
      · rw [if_neg hc] at hA1
        by_cases hr : c1 ∈ rest
        · rw [if_pos hr] at hB1
          rw [if_pos (List.mem_cons_of_mem _ hr)]
          exact hB1.trans (hA1.cons _)
        · rw [if_neg hr] at hB1
          rw [if_neg (by simp [hc, hr])]
          exact hB1.trans hA1

theorem addItems_noevict (limit : Int) :
    ∀ (ins : List (Insertion W)) (bs bs1 : List (SuggestItems W)),
      addItems limit ins bs = some bs1 → (∀ i ∈ ins, i.classes.Nodup) →
      (∀ c, ((entriesOf c bs).length : Int) + ins.length ≤ limit) →
      ∀ c, (entriesOf c bs1).Perm
        (entriesOf c bs ++
          (ins.filter (fun i => decide (c ∈ i.classes))).map Insertion.item)
  | [], bs, bs1, h, _, _ => by
    simp only [addItems, Option.some.injEq] at h
    subst h
    intro c
    simp
  | i :: rest, bs, bs1, h, hnd, hlen => by
    unfold addItems at h
    cases h1 : addItem limit i.item bs i.classes with
    | none => simp [h1] at h
    | some b1 =>
      simp only [h1, Option.some_bind] at h
      have hA := addItem_noevict limit i.item i.classes bs b1 h1
        (hnd i (List.mem_cons_self _ _)) (by
          intro c _
          have := hlen c
          simp only [List.length_cons, Nat.cast_add, Nat.cast_one] at this
          omega)
      have hB := addItems_noevict limit rest b1 bs1 h
        (fun j hj => hnd j (List.mem_cons_of_mem _ hj)) (by
          intro c
          have h2 := hlen c
          simp only [List.length_cons, Nat.cast_add, Nat.cast_one] at h2
          have h3 := (hA c).length_eq
          by_cases hc : c ∈ i.classes
          · rw [if_pos hc] at h3
            rw [h3]
            simp only [List.length_cons, Nat.cast_add, Nat.cast_one]
            omega
          · rw [if_neg hc] at h3
            rw [h3]
            omega)
      intro c
      have hA1 := hA c
      have hB1 := hB c
      by_cases hc : c ∈ i.classes
      · rw [if_pos hc] at hA1
        rw [List.filter_cons, if_pos (by simpa using hc), List.map_cons]
        refine hB1.trans ((hA1.append_right _).trans ?_)
        simpa using (@List.perm_middle _ i.item (entriesOf c bs)
          ((rest.filter (fun i => decide (c ∈ i.classes))).map Insertion.item)).symm
      · rw [if_neg hc] at hA1
        rw [List.filter_cons, if_neg (by simpa using hc)]
        exact hB1.trans (hA1.append_right _)

/-- When the bound on a bucket is at least the number of `Add` calls, the buckets of class
`c` at the path `q` hold exactly the entries inserted with class `c` along `q`. -/
theorem built_noevict (limit : Int) (ins : List (Insertion W)) (s : SuggestTrieBuilder W)
    (h : addAll limit ins (.mk [] []) = some s) (hnd : ∀ i ∈ ins, i.classes.Nodup)
    (hlen : (ins.length : Int) ≤ limit) (q : List Nat) (c : String) :
    (entriesOf c (s.bucketsAt q)).Perm
      (((ins.filter (fun i => decide (q <+: i.text))).filter
        (fun i => decide (c ∈ i.classes))).map Insertion.item) := by
  have hempty : (SuggestTrieBuilder.mk ([] : List (SuggestTrieDescendant W)) []).NodupKeys := by
    rw [NodupKeys_mk]
    simp
  obtain ⟨_, hq⟩ := addAll_spec limit ins _ s hempty h
  have hb := (hq q).2
  rw [bucketsAt_empty] at hb
  have := addItems_noevict limit _ [] _ hb
    (fun i hi => hnd i (List.mem_of_mem_filter hi)) (by
      intro c1
      have := List.length_filter_le (fun i : Insertion W => decide (q <+: i.text)) ins
      simp only [entriesOf, List.filter_nil, List.flatMap_nil, List.length_nil, Nat.cast_zero,
        zero_add]
      omega) c
  simpa [entriesOf] using this

theorem extractLoop_nodup (norm : String → String) :
    ∀ (rest seen classes : List String), classes.Nodup → (∀ c ∈ classes, c ∈ seen) →
      (extractLoop norm seen classes rest).Nodup
  | [], seen, classes, h, _ => by
    simpa [extractLoop] using h
  | c :: rest, seen, classes, h, hs => by
    unfold extractLoop
    simp only
    by_cases hc : norm c ∈ seen
    · rw [if_pos hc]
      exact extractLoop_nodup norm rest seen classes h hs
    · rw [if_neg hc]
      apply extractLoop_nodup norm rest
      · rw [List.nodup_append]
        refine ⟨h, by simp, ?_⟩
        intro a ha hb
        simp only [List.mem_singleton] at hb
        subst hb
        exact hc (hs _ ha)
      · intro a ha
        rcases List.mem_append.1 ha with h1 | h1
        · exact List.mem_cons_of_mem _ (hs a h1)
        · simp only [List.mem_singleton] at h1
          subst h1
          exact List.mem_cons_self _ _

theorem extractItemClasses_nodup (norm : String → String) (x : Item W) :
    (extractItemClasses norm x).Nodup := by
  unfold extractItemClasses
  cases x.Data.cls with
  | none =>
    cases x.Data.classes with
    | none => simp
    | some l => exact extractLoop_nodup norm l [] [] (by simp) (by simp)
  | some c =>
    cases x.Data.classes with
    | none => simp
    | some l => exact extractLoop_nodup norm l _ _ (by simp) (fun a ha => ha)

theorem forall_of_countP_eq {α : Type} (P Q : α → Bool)
    (himp : ∀ a, P a = true → Q a = true) :
    ∀ (l : List α), l.countP P = l.countP Q → ∀ a ∈ l, Q a = true → P a = true
  | [], _, a, ha, _ => by simp at ha
  | x :: l, h, a, ha, hq => by
    have hle : l.countP P ≤ l.countP Q := List.countP_mono_left (fun a _ => himp a)
    rw [List.countP_cons, List.countP_cons] at h
    rcases List.mem_cons.1 ha with rfl | ha
    · by_contra hp
      rw [if_neg hp, if_pos hq] at h
      omega
    · apply forall_of_countP_eq P Q himp l _ a ha hq
      by_cases hpx : P x = true
      · rw [if_pos hpx, if_pos (himp x hpx)] at h
        omega
      · rw [if_neg hpx] at h
        by_cases hqx : Q x = true
        · rw [if_pos hqx] at h
          omega
        · rw [if_neg hqx] at h
          omega

theorem DeepEqual_entriesOf_length (c : String) :
    ∀ (x y : List (SuggestItems W)),
      List.Forall₂ (fun a b => a.Class = b.Class ∧
        a.Suggest.map SuggestTrieItem.Weight = b.Suggest.map SuggestTrieItem.Weight) x y →
      (entriesOf c x).length = (entriesOf c y).length
  | _, _, List.Forall₂.nil => rfl
  | _ :: r1, _ :: r2, List.Forall₂.cons h1 h2 => by
    have ih := DeepEqual_entriesOf_length c r1 r2 h2
    have hl := congrArg List.length h1.2
    simp only [List.length_map] at hl
    rw [entriesOf_cons, entriesOf_cons, ← h1.1]
    split
    · simp only [List.length_append]
      omega
    · exact ih

theorem length_insertions [Mul W] (norm : String → String) (pwf : W) :
    ∀ (items : List (Item W)), (insertions norm pwf items).length =
      (items.map (fun x => 1 + (rotations x.NormalizedText).length)).sum
  | [] => rfl
  | x :: items => by
    have ih := length_insertions norm pwf items
    simp only [insertions, List.flatMap_cons, List.length_append, List.map_cons,
      List.sum_cons] at ih ⊢
    rw [ih]
    simp [insertionsOf]
    omega

end NoEviction

end Suggest


namespace Suggest

section QueryClaims

set_option linter.unusedSectionVars false

variable {W : Type} [LinearOrder W]

/-- C6 (class filter).  On an artifact that satisfies the decode invariants, `trie` being the
result node of the query (reached by descent along the bytes of the query, then single-child
skip), an index `i` referenced by some bucket of `trie` is the index of a returned item if
and only if (the required list has no non-empty string, or some bucket referencing `i` has
the normalized form of a non-empty required string as its class) and no bucket referencing
`i` has the normalized form of a non-empty excluded string as its class. -/
theorem C6_class_filter (S : SliceSorter W) (norm : String → String)
    (suggest : stpb.SuggestData W) (pre : List Nat) (requiredClasses excludedClasses : List String)
    (hv : suggest.valid = true) (node trie : stpb.SuggestTrie W)
    (hd : descend pre suggest.Trie = some (some node)) (hs : skipSingle node = some trie)
    (i : Nat) (hi : ∃ b ∈ trie.Items, i ∈ b.ItemIndexes) :
    ∃ r, GetSuggestItems S norm suggest pre requiredClasses excludedClasses = some r ∧
      ((∃ x ∈ r, x.index = i) ↔
        ((∀ v ∈ requiredClasses, v = "") ∨
            ∃ b ∈ trie.Items, i ∈ b.ItemIndexes ∧
              ∃ v ∈ requiredClasses, v ≠ "" ∧ norm v = b.Class) ∧
          ∀ b ∈ trie.Items, i ∈ b.ItemIndexes →
            ∀ v ∈ excludedClasses, v ≠ "" → norm v ≠ b.Class) := by
  have htv : trie.valid suggest.Items.length = true := by
    rcases descend_valid suggest.Items.length pre suggest.Trie hv with h | ⟨n1, h, hn⟩
    · rw [h] at hd
      cases hd
    · rw [h] at hd
      cases hd
      obtain ⟨t, ht, htv⟩ := skipSingle_valid _ node hn
      rw [ht] at hs
      cases hs
      exact htv
  have hb := valid_items_bound htv
  obtain ⟨r, hr, _, _, _, hmem⟩ :=
    collectItems_spec S norm suggest trie requiredClasses excludedClasses hb
  refine ⟨r, by rw [GetSuggestItems_of_node S norm suggest pre _ _ node trie hd hs, hr], ?_⟩
  obtain ⟨b0, hb0, hib0⟩ := hi
  have hilt : i < suggest.Items.length := hb b0 hb0 i hib0
  have hx : (∃ x ∈ r, x.index = i) ↔
      itemSatisfyClasses (classesOf trie.Items i) (PrepareCheckMap norm requiredClasses)
        (PrepareCheckMap norm excludedClasses) = true := by
    constructor
    · rintro ⟨x, hx, rfl⟩
      exact ((hmem x).1 hx).2.2
    · intro hsat
      refine ⟨{ index := i, item := suggest.Items[i] }, (hmem _).2 ⟨by simp [hilt], ?_, hsat⟩, rfl⟩
      exact ⟨b0, hb0, hib0⟩
  rw [hx, itemSatisfyClasses_iff]
  constructor
  · rintro ⟨⟨c, hc, hreq⟩, hex⟩
    obtain ⟨b, hb1, hbc, hbi⟩ := mem_classesOf.1 hc
    refine ⟨?_, ?_⟩
    · rcases hreq with hreq | hreq
      · right
        obtain ⟨v, hv1, hv2, hv3⟩ := (mem_PrepareCheckMap norm _ c).1 hreq
        exact ⟨b, hb1, hbi, v, hv1, hv2, by rw [hv3, hbc]⟩
      · left
        exact (PrepareCheckMap_eq_nil norm _).1 hreq
    · intro b1 hb1 hi1 v hv1 hv2 hv3
      exact hex b1.Class (mem_classesOf.2 ⟨b1, hb1, rfl, hi1⟩)
        ((mem_PrepareCheckMap norm _ _).2 ⟨v, hv1, hv2, hv3⟩)
  · rintro ⟨hreq, hex⟩
    refine ⟨?_, ?_⟩
    · rcases hreq with hreq | ⟨b, hb1, hbi, v, hv1, hv2, hv3⟩
      · exact ⟨b0.Class, mem_classesOf.2 ⟨b0, hb0, rfl, hib0⟩,
          Or.inr ((PrepareCheckMap_eq_nil norm _).2 hreq)⟩
      · exact ⟨b.Class, mem_classesOf.2 ⟨b, hb1, rfl, hbi⟩,
          Or.inl ((mem_PrepareCheckMap norm _ _).2 ⟨v, hv1, hv2, hv3⟩)⟩
    · intro c hc hce
      obtain ⟨b, hb1, hbc, hbi⟩ := mem_classesOf.1 hc
      obtain ⟨v, hv1, hv2, hv3⟩ := (mem_PrepareCheckMap norm _ c).1 hce
      exact hex b hb1 hbi v hv1 hv2 (by rw [hv3, hbc])

/-- C7 (ordering).  On an artifact that satisfies the decode invariants the query returns
items whose weights never increase along the sequence, and the weights of the answer items
of `GetSuggest`, whenever it returns, are those weights: a non-increasing sequence. -/
theorem C7_ordering (S : SliceSorter W) (norm : String → String) (alpha : List Nat → List Nat)
    (suggest : stpb.SuggestData W) (originalPart normalizedPart : List Nat)
    (requiredClasses excludeClasses : List String) (hv : suggest.valid = true) :
    (∃ items, GetSuggestItems S norm suggest normalizedPart requiredClasses excludeClasses =
        some items ∧
      (items.map (fun r => r.item.Weight)).Pairwise (fun a b => b ≤ a)) ∧
    ∀ answers, GetSuggest S norm alpha suggest originalPart normalizedPart requiredClasses
        excludeClasses = some answers →
      (answers.map SuggestAnswerItem.Weight).Pairwise (fun a b => b ≤ a) := by
  obtain ⟨items, hitems⟩ :=
    GetSuggestItems_valid S norm suggest normalizedPart requiredClasses excludeClasses hv
  have hsorted : (items.map (fun r => r.item.Weight)).Pairwise (fun a b => b ≤ a) := by
    rw [List.pairwise_map]
    rcases GetSuggestItems_cases S norm suggest normalizedPart requiredClasses excludeClasses
      items hitems with ⟨_, h⟩ | ⟨node, trie, _, _, h⟩
    · rw [h]
      exact List.Pairwise.nil
    · exact collectItems_sorted S norm suggest trie _ _ items h
  refine ⟨⟨items, hitems, hsorted⟩, ?_⟩
  intro answers ha
  unfold GetSuggest at ha
  rw [hitems] at ha
  simp only [Option.some_bind] at ha
  rw [(answerItems_weights alpha originalPart items answers ha).1]
  exact hsorted

theorem itemSatisfyClasses_excl_mono (classes req excl excl1 : List String)
    (hsub : ∀ c ∈ excl, c ∈ excl1)
    (h : itemSatisfyClasses classes req excl1 = true) :
    itemSatisfyClasses classes req excl = true := by
  rw [itemSatisfyClasses_iff] at h ⊢
  exact ⟨h.1, fun c hc hce => h.2 c hc (hsub c hce)⟩

theorem itemSatisfyClasses_req_mono (classes req req1 excl : List String)
    (hsub : ∀ c ∈ req, c ∈ req1) (hne : req ≠ [])
    (h : itemSatisfyClasses classes req excl = true) :
    itemSatisfyClasses classes req1 excl = true := by
  rw [itemSatisfyClasses_iff] at h ⊢
  obtain ⟨⟨c, hc, hr⟩, hex⟩ := h
  refine ⟨⟨c, hc, ?_⟩, hex⟩
  rcases hr with hr | hr
  · exact Or.inl (hsub c hr)
  · exact absurd hr hne

theorem GetSuggestItems_mono (S : SliceSorter W) (norm : String → String)
    (suggest : stpb.SuggestData W) (pre : List Nat) (req excl req1 excl1 : List String)
    (hsat : ∀ classes, itemSatisfyClasses classes (PrepareCheckMap norm req1)
        (PrepareCheckMap norm excl1) = true →
      itemSatisfyClasses classes (PrepareCheckMap norm req) (PrepareCheckMap norm excl) = true)
    (r : List (ItemRef W)) (h : GetSuggestItems S norm suggest pre req excl = some r) :
    ∃ r1, GetSuggestItems S norm suggest pre req1 excl1 = some r1 ∧ ∀ x ∈ r1, x ∈ r := by
  rcases GetSuggestItems_cases S norm suggest pre req excl r h with ⟨hd, hr⟩ | ⟨node, trie, hd, hs, hc⟩
  · refine ⟨[], ?_, by simp⟩
    unfold GetSuggestItems
    rw [hd]
  · rw [GetSuggestItems_of_node S norm suggest pre _ _ node trie hd hs]
    obtain ⟨st, hst, hmem⟩ := collectItems_mem S norm suggest trie req excl r hc
    refine ⟨S.sortDesc (fun r => r.item.Weight) ((st.1.filter (fun classesItem =>
      itemSatisfyClasses classesItem.Classes (PrepareCheckMap norm req1)
        (PrepareCheckMap norm excl1))).map SuggestClassesItem.Item), ?_, ?_⟩
    · simp only [collectItems, hst, Option.map_some']
    · intro x hx
      rw [(S.perm _ _).mem_iff] at hx
      simp only [List.mem_map, List.mem_filter] at hx
      obtain ⟨e, ⟨he, hs1⟩, rfl⟩ := hx
      exact (hmem _).2 ⟨e, he, hsat _ hs1, rfl⟩

theorem GetSuggestItems_isSome_indep (S : SliceSorter W) (norm : String → String)
    (suggest : stpb.SuggestData W) (pre : List Nat) (req excl req1 excl1 : List String)
    (r : List (ItemRef W)) (h : GetSuggestItems S norm suggest pre req excl = some r) :
    ∃ r1, GetSuggestItems S norm suggest pre req1 excl1 = some r1 := by
  rcases GetSuggestItems_cases S norm suggest pre req excl r h with ⟨hd, hr⟩ | ⟨node, trie, hd, hs, hc⟩
  · refine ⟨[], ?_⟩
    unfold GetSuggestItems
    rw [hd]
  · rw [GetSuggestItems_of_node S norm suggest pre _ _ node trie hd hs]
    obtain ⟨st, hst, _⟩ := collectItems_mem S norm suggest trie req excl r hc
    simp only [collectItems, hst, Option.map_some']
    exact ⟨_, rfl⟩

theorem PrepareCheckMap_append (norm : String → String) (l : List String) (c : String) :
    ∀ x, x ∈ PrepareCheckMap norm l → x ∈ PrepareCheckMap norm (l ++ [c]) := by
  intro x hx
  obtain ⟨v, hv1, hv2, hv3⟩ := (mem_PrepareCheckMap norm l x).1 hx
  exact (mem_PrepareCheckMap norm _ x).2 ⟨v, List.mem_append_left _ hv1, hv2, hv3⟩

/-- C8, as amended (required-class monotonicity).  When the required list already holds a
non-empty string, every item returned with the required classes `req` is also returned with
the required classes `req` plus `c`: adding a required class never shrinks the result. -/
theorem C8_required_monotone (S : SliceSorter W) (norm : String → String)
    (suggest : stpb.SuggestData W) (pre : List Nat) (req excl : List String) (c : String)
    (hne : ∃ v ∈ req, v ≠ "") (r1 : List (ItemRef W))
    (h : GetSuggestItems S norm suggest pre req excl = some r1) :
    ∃ r2, GetSuggestItems S norm suggest pre (req ++ [c]) excl = some r2 ∧
      ∀ x ∈ r1, x ∈ r2 := by
  obtain ⟨r2, h2⟩ := GetSuggestItems_isSome_indep S norm suggest pre req excl (req ++ [c]) excl r1 h
  refine ⟨r2, h2, ?_⟩
  have hne1 : PrepareCheckMap norm req ≠ [] := by
    intro hc
    obtain ⟨v, hv1, hv2⟩ := hne
    exact hv2 ((PrepareCheckMap_eq_nil norm req).1 hc v hv1)
  obtain ⟨r3, h3, hsub⟩ := GetSuggestItems_mono S norm suggest pre (req ++ [c]) excl req excl
    (fun classes hs => itemSatisfyClasses_req_mono classes _ _ _
      (PrepareCheckMap_append norm req c) hne1 hs) r2 h2
  rw [h] at h3
  cases h3
  exact hsub

/-- Witness of `C8_required_monotone`: on the artifact `fruitVeggie`, asking for "fruit" and
then for "fruit" plus "veggie". -/
theorem C8_required_monotone_witness :
    (∃ v ∈ ["fruit"], v ≠ "") ∧
    GetSuggestItems insertionSorter id fruitVeggie [120] ["fruit"] [] =
      some [{ index := 0, item := fruitItem }] ∧
    ∃ r2, GetSuggestItems insertionSorter id fruitVeggie [120] (["fruit"] ++ ["veggie"]) [] =
        some r2 ∧
      ∀ x ∈ [({ index := 0, item := fruitItem } :
          ItemRef Int)], x ∈ r2 :=
  ⟨by decide, by decide,
    C8_required_monotone insertionSorter id fruitVeggie [120] ["fruit"] [] "veggie" (by decide)
      _ (by decide)⟩

/-- Counterexample to C8 as stated: on the artifact `fruitVeggie`, with the non-empty required
list ["fruit"], adding the required class "veggie" enlarges the result from one item to two. -/
theorem C8_counterexample :
    ∃ r1 r2, GetSuggestItems insertionSorter id fruitVeggie [120] ["fruit"] [] = some r1 ∧
      GetSuggestItems insertionSorter id fruitVeggie [120] (["fruit"] ++ ["veggie"]) [] =
        some r2 ∧
      ¬ (∀ x ∈ r2, x ∈ r1) :=
  ⟨[{ index := 0, item := fruitItem }],
    [{ index := 0, item := fruitItem },
      { index := 1, item := veggieItem }],
    by decide, by decide, by decide⟩

/-- C9 (excluded-class monotonicity).  Every item returned with the excluded classes `excl`
plus `c` is also returned with the excluded classes `excl`: adding an excluded class never
enlarges the result. -/
theorem C9_excluded_monotone (S : SliceSorter W) (norm : String → String)
    (suggest : stpb.SuggestData W) (pre : List Nat) (req excl : List String) (c : String)
    (r1 : List (ItemRef W)) (h : GetSuggestItems S norm suggest pre req excl = some r1) :
    ∃ r2, GetSuggestItems S norm suggest pre req (excl ++ [c]) = some r2 ∧
      ∀ x ∈ r2, x ∈ r1 :=
  GetSuggestItems_mono S norm suggest pre req excl req (excl ++ [c])
    (fun classes hs => itemSatisfyClasses_excl_mono classes _ _ _
      (PrepareCheckMap_append norm excl c) hs) r1 h

/-- Witness of `C9_excluded_monotone`: on the artifact `fruitVeggie`, excluding nothing and
then excluding "veggie". -/
theorem C9_excluded_monotone_witness :
    GetSuggestItems insertionSorter id fruitVeggie [120] [] [] =
      some [{ index := 0, item := fruitItem },
        { index := 1, item := veggieItem }] ∧
    ∃ r2, GetSuggestItems insertionSorter id fruitVeggie [120] [] ([] ++ ["veggie"]) = some r2 ∧
      ∀ x ∈ r2, x ∈ [({ index := 0, item := fruitItem } :
            ItemRef Int),
        { index := 1, item := veggieItem }] :=
  ⟨by decide, C9_excluded_monotone insertionSorter id fruitVeggie [120] [] [] "veggie" _
    (by decide)⟩

/-- Witness of `C6_class_filter`: on the artifact `fruitVeggie`, the query "x" with the
required class "fruit", at the index 0. -/
theorem C6_class_filter_witness :
    fruitVeggie.valid = true ∧
    descend [120] fruitVeggie.Trie = some (some fruitVeggieNode) ∧
    skipSingle fruitVeggieNode = some fruitVeggieNode ∧
    (∃ b ∈ fruitVeggieNode.Items, 0 ∈ b.ItemIndexes) ∧
    ∃ r, GetSuggestItems insertionSorter id fruitVeggie [120] ["fruit"] [] = some r ∧
      ((∃ x ∈ r, x.index = 0) ↔
        ((∀ v ∈ ["fruit"], v = "") ∨
            ∃ b ∈ fruitVeggieNode.Items, 0 ∈ b.ItemIndexes ∧
              ∃ v ∈ ["fruit"], v ≠ "" ∧ id v = b.Class) ∧
          ∀ b ∈ fruitVeggieNode.Items, 0 ∈ b.ItemIndexes →
            ∀ v ∈ ([] : List String), v ≠ "" → id v ≠ b.Class) :=
  ⟨by decide, rfl, rfl, by decide,
    C6_class_filter insertionSorter id fruitVeggie [120] ["fruit"] [] (by decide)
      fruitVeggieNode fruitVeggieNode rfl rfl 0 (by decide)⟩

/-- Witness of `C7_ordering`: on the artifact `fruitVeggie`, the query "x". -/
theorem C7_ordering_witness :
    fruitVeggie.valid = true ∧
    ((∃ items, GetSuggestItems insertionSorter id fruitVeggie [120] [] [] = some items ∧
        (items.map (fun r => r.item.Weight)).Pairwise (fun a b => b ≤ a)) ∧
      ∀ answers, GetSuggest insertionSorter id id fruitVeggie [120] [120] [] [] = some answers →
        (answers.map SuggestAnswerItem.Weight).Pairwise (fun a b => b ≤ a)) :=
  ⟨by decide, C7_ordering insertionSorter id id fruitVeggie [120] [120] [] [] (by decide)⟩

end QueryClaims

end Suggest


namespace Suggest

section FinalizeClaims

set_option linter.unusedSectionVars false

variable {W : Type} [LinearOrder W]

/-- C5 (finalized-bucket invariant).  For every builder trie (so for every trie reachable
from the empty builder by `Add` calls) and every `maxItemsPerPrefix ≥ 0`, `Finalize` returns
and, in the trie it leaves, every bucket of every node has at most `maxItemsPerPrefix`
entries, weights that never increase, and no two entries whose items carry the same "group"
value. -/
theorem C5_finalized_buckets (S : SliceSorter W) (maxItemsPerPrefix : Int)
    (hmax : 0 ≤ maxItemsPerPrefix) (builder : SuggestTrieBuilder W) :
    ∃ finalized, builder.Finalize S maxItemsPerPrefix = some finalized ∧
      finalized.AllBuckets (fun b =>
        (b.Suggest.length : Int) ≤ maxItemsPerPrefix ∧
        b.Suggest.Pairwise (fun x y => y.Weight ≤ x.Weight) ∧
        b.Suggest.Pairwise (fun x y => ∀ g, x.OriginalItem.Data.group = some g →
          y.OriginalItem.Data.group ≠ some g)) :=
  Finalize_allBuckets S maxItemsPerPrefix hmax builder

end FinalizeClaims

end Suggest


namespace Suggest

section BuildClaims

set_option linter.unusedSectionVars false

variable {W : Type} [LinearOrder W]

/-- Every item returned by a query on a built artifact is the serialized form of a corpus
item whose normalized text, or one of its suffix rotations, begins with the bytes of the
query. -/
theorem query_sound [Mul W] (S : SliceSorter W) (norm : String → String)
    (items : List (Item W)) (hsize : items.length ≤ 2 ^ 32) (maxItemsPerPrefix : Int) (pwf : W)
    (data : stpb.SuggestData W)
    (hb : BuildSuggest S norm items maxItemsPerPrefix pwf = some data)
    (hptr : ∀ a ∈ items, ∀ b ∈ items, a.ptr = b.ptr → a = b)
    (pre : List Nat) (req excl : List String) :
    ∃ r, GetSuggestItems S norm data pre req excl = some r ∧
      ∀ x ∈ r, ∃ it ∈ items, x.item = it.toProto ∧
        (pre <+: it.NormalizedText ∨
          ∃ i, 1 ≤ i ∧ i < (Split 32 it.NormalizedText).length ∧
            pre <+: Join 32 ((Split 32 it.NormalizedText).drop i)) := by
  obtain ⟨s, s1, look, hs, hnd, hs1, hm, hitem, _⟩ :=
    BuildSuggest_spec S norm items hsize maxItemsPerPrefix pwf data hb
  rcases query_built S norm items maxItemsPerPrefix data s s1 look hs1 hm hitem pre req excl with
    ⟨_, h⟩ | ⟨n0, ne, ne1, N1, ext, _, hne, hfin, _, _, hmN1, hbound, hq⟩
  · exact ⟨[], h, by simp⟩
  · obtain ⟨r, hr, _, _, _, hmem⟩ := collectItems_spec S norm data N1 req excl hbound
    refine ⟨r, by rw [hq, hr], ?_⟩
    intro x hx
    obtain ⟨hxi, ⟨ci, hci, hidx⟩, _⟩ := (hmem x).1 hx
    obtain ⟨b1, hb1, _, e, he, hlook⟩ :=
      MirrorBuckets_index look _ _ (Mirror_buckets look _ _ hmN1) ci hci _ hidx
    obtain ⟨y, hy, hyp, hyi⟩ := hitem _ _ hlook
    obtain ⟨b0, hb0, _, he0⟩ := Finalize_entries S maxItemsPerPrefix ne ne1 hfin b1 hb1 e he
    obtain ⟨i, hi, rfl, _, hpre⟩ := built_entries _ _ s hs (pre ++ ext) ne hne b0 hb0 e he0
    obtain ⟨z, hz, hiz⟩ := (mem_insertions norm pwf items i).1 hi
    obtain ⟨hz1, _, hz2⟩ := mem_insertionsOf norm pwf z i hiz
    have hyz : y = z := hptr y hy z hz (by rw [hyp, hz1])
    subst hyz
    refine ⟨y, hy, ?_, ?_⟩
    · rw [hxi] at hyi
      exact (Option.some.inj hyi)
    · have hp : pre <+: i.text := (List.prefix_append pre ext).trans hpre
      rcases hz2 with ⟨ht, _⟩ | ⟨k, hk1, hk2, ht, _⟩
      · left
        rw [← ht]
        exact hp
      · right
        exact ⟨k, hk1, hk2, by rw [← ht]; exact hp⟩

/-- C3, as amended (returned weight).  For every list of at most `2 ^ 32` items and every
`maxItemsPerPrefix ≥ 1`: the build returns when `maxItemsPerPrefix < 2 ^ 62`, and on every
artifact that the build returns the item query of `GetSuggest` returns, `GetSuggest` is the
highlighting loop over its result, and every answer item that `GetSuggest` returns carries the
weight and the data of a corpus item whose normalized text, or one of its suffix rotations,
begins with the normalized part: the weight returned for an item is its own weight, also when
only a suffix rotation matches. -/
theorem C3_returned_weight [Mul W] (S : SliceSorter W) (norm : String → String)
    (alpha : List Nat → List Nat) (items : List (Item W)) (maxItemsPerPrefix : Int)
    (hmax : 1 ≤ maxItemsPerPrefix) (postfixWeightFactor : W)
    (originalPart normalizedPart : List Nat) (requiredClasses excludeClasses : List String)
    (hsize : items.length ≤ 2 ^ 32)
    (hptr : ∀ a ∈ items, ∀ b ∈ items, a.ptr = b.ptr → a = b) :
    (maxItemsPerPrefix < 2 ^ 62 →
      ∃ data, BuildSuggest S norm items maxItemsPerPrefix postfixWeightFactor = some data) ∧
    ∀ data, BuildSuggest S norm items maxItemsPerPrefix postfixWeightFactor = some data →
      ∃ r, GetSuggestItems S norm data normalizedPart requiredClasses excludeClasses = some r ∧
        GetSuggest S norm alpha data originalPart normalizedPart requiredClasses
          excludeClasses = answerItems alpha originalPart r ∧
        ∀ answers, GetSuggest S norm alpha data originalPart normalizedPart requiredClasses
            excludeClasses = some answers →
          ∀ a ∈ answers, ∃ it ∈ items, a.Weight = it.Weight ∧ a.Data = it.Data ∧
            (normalizedPart <+: it.NormalizedText ∨
              ∃ i, 1 ≤ i ∧ i < (Split 32 it.NormalizedText).length ∧
                normalizedPart <+: Join 32 ((Split 32 it.NormalizedText).drop i)) := by
  refine ⟨fun hint => BuildSuggest_isSome S norm items maxItemsPerPrefix (by omega) hint
    postfixWeightFactor, ?_⟩
  intro data hd
  obtain ⟨r, hr, hsound⟩ := query_sound S norm items hsize maxItemsPerPrefix
    postfixWeightFactor data hd hptr normalizedPart requiredClasses excludeClasses
  have hg : GetSuggest S norm alpha data originalPart normalizedPart requiredClasses
      excludeClasses = answerItems alpha originalPart r := by
    unfold GetSuggest
    rw [hr]
    rfl
  refine ⟨r, hr, hg, ?_⟩
  intro answers ha a hmem
  rw [hg] at ha
  obtain ⟨hw, hdat⟩ := answerItems_weights alpha originalPart r answers ha
  obtain ⟨k, hk⟩ := List.mem_iff_getElem?.1 hmem
  have hkw : (answers.map SuggestAnswerItem.Weight)[k]? = some a.Weight := by
    simp [hk]
  have hkd : (answers.map SuggestAnswerItem.Data)[k]? = some a.Data := by
    simp [hk]
  rw [hw] at hkw
  rw [hdat] at hkd
  simp only [List.getElem?_map, Option.map_eq_some'] at hkw hkd
  obtain ⟨x, hx, hxw⟩ := hkw
  obtain ⟨x1, hx1, hxd⟩ := hkd
  rw [hx] at hx1
  cases hx1
  obtain ⟨it, hit, hxi, hpre⟩ := hsound x (List.mem_iff_getElem?.2 ⟨k, hx⟩)
  refine ⟨it, hit, ?_, ?_, hpre⟩
  · rw [← hxw, hxi]
    rfl
  · rw [← hxd, hxi]
    rfl

/-- Witness of `C3_returned_weight`: the corpus of "Red Apple" alone, with weight 1 and
factor 3/10, queried with "apple". -/
theorem C3_returned_weight_witness :
    (1 : Int) ≤ 10 ∧ [redApple].length ≤ 2 ^ 32 ∧
    (∀ a ∈ [redApple], ∀ b ∈ [redApple], a.ptr = b.ptr → a = b) ∧
    (10 : Int) < 2 ^ 62 ∧
    (∃ data, BuildSuggest insertionSorter id [redApple] 10 (3 / 10) = some data) ∧
    ∀ data, BuildSuggest insertionSorter id [redApple] 10 (3 / 10) = some data →
      ∃ r, GetSuggestItems insertionSorter id data appleBytes [] [] = some r ∧
        GetSuggest insertionSorter id id data appleBytes appleBytes [] [] =
          answerItems id appleBytes r ∧
        ∀ answers, GetSuggest insertionSorter id id data appleBytes appleBytes [] [] =
            some answers →
          ∀ a ∈ answers, ∃ it ∈ [redApple], a.Weight = it.Weight ∧ a.Data = it.Data ∧
            (appleBytes <+: it.NormalizedText ∨
              ∃ i, 1 ≤ i ∧ i < (Split 32 it.NormalizedText).length ∧
                appleBytes <+: Join 32 ((Split 32 it.NormalizedText).drop i)) :=
  ⟨by decide, by decide, by simp, by decide,
    (C3_returned_weight insertionSorter id id [redApple] 10 (by decide) (3 / 10) appleBytes
      appleBytes [] [] (by decide) (by simp)).1 (by decide),
    (C3_returned_weight insertionSorter id id [redApple] 10 (by decide) (3 / 10) appleBytes
      appleBytes [] [] (by decide) (by simp)).2⟩

/-- Counterexample to C3 as stated: "Red Apple" / "red apple" with weight 1 and factor 3/10,
queried with "apple", which matches the suffix rotation "apple" and not the normalized text,
is returned with weight 1, not with weight 1 * 3/10. -/
theorem C3_counterexample :
    ((BuildSuggest insertionSorter id [redApple] 10 (3 / 10)).bind (fun data =>
        GetSuggest insertionSorter id id data appleBytes appleBytes [] [])).map
      (fun answers => answers.map SuggestAnswerItem.Weight) = some [1] ∧
    ¬ (appleBytes <+: redApple.NormalizedText) ∧
    appleBytes <+: Join 32 ((Split 32 redApple.NormalizedText).drop 1) ∧
    (1 : ℚ) ≠ redApple.Weight * (3 / 10) := by
  refine ⟨by decide!, by decide, by decide, by decide!⟩

end BuildClaims

end Suggest


namespace Suggest

section TopClaims

set_option linter.unusedSectionVars false

variable {W : Type} [LinearOrder W]

theorem query_empty_corpus [Mul W] (S : SliceSorter W) (norm : String → String)
    (maxItemsPerPrefix : Int) (hmax : 1 ≤ maxItemsPerPrefix)
    (hint : maxItemsPerPrefix < 2 ^ 62) (pwf : W) (p : List Nat) :
    ∃ data, BuildSuggest S norm ([] : List (Item W)) maxItemsPerPrefix pwf = some data ∧
      GetSuggestItems S norm data p [] [] = some [] := by
  obtain ⟨data, hd⟩ := BuildSuggest_isSome S norm ([] : List (Item W)) maxItemsPerPrefix
    (by omega) hint pwf
  obtain ⟨r, hr, hsound⟩ := query_sound S norm [] (by simp) maxItemsPerPrefix pwf data hd
    (by simp) p [] []
  refine ⟨data, hd, ?_⟩
  cases r with
  | nil => exact hr
  | cons x r =>
    obtain ⟨it, hit, _⟩ := hsound x (List.mem_cons_self _ _)
    simp at hit

/-- C4, as amended (top-k end to end).  For every corpus of at most `2 ^ 32` items whose
normalized texts contain no space and all begin with `p`, whose items all carry the single
class `c` and no "group", with pairwise distinct weights (and addresses identifying items),
and for every `maxItemsPerPrefix` with `1 ≤ maxItemsPerPrefix < 2 ^ 62`, the build returns
and the unfiltered query for `p` returns exactly the serialized forms of a list `top` of
`min(n, maxItemsPerPrefix)` corpus items, in order, where `top` is strictly descending in
weight and every corpus item outside `top` weighs less than every item of `top`. -/
theorem C4_top_k [Mul W] (S : SliceSorter W) (norm : String → String)
    (items : List (Item W)) (maxItemsPerPrefix : Int) (hmax : 1 ≤ maxItemsPerPrefix)
    (hint : maxItemsPerPrefix < 2 ^ 62)
    (postfixWeightFactor : W) (p : List Nat) (c : String)
    (hsize : items.length ≤ 2 ^ 32)
    (hcls : ∀ x ∈ items, extractItemClasses norm x = [c])
    (hnosp : ∀ x ∈ items, 32 ∉ x.NormalizedText)
    (hpre : ∀ x ∈ items, p <+: x.NormalizedText)
    (hgrp : ∀ x ∈ items, x.Data.group = none)
    (hw : (items.map Item.Weight).Nodup)
    (hptr : ∀ a ∈ items, ∀ b ∈ items, a.ptr = b.ptr → a = b) :
    ∃ data r top rest,
      BuildSuggest S norm items maxItemsPerPrefix postfixWeightFactor = some data ∧
      GetSuggestItems S norm data p [] [] = some r ∧
      items.Perm (top ++ rest) ∧
      top.length = min items.length maxItemsPerPrefix.toNat ∧
      (∀ a ∈ top, ∀ b ∈ rest, b.Weight < a.Weight) ∧
      top.Pairwise (fun a b => b.Weight < a.Weight) ∧
      r.map ItemRef.item = top.map Item.toProto := by
  by_cases hne : items = []
  · subst hne
    obtain ⟨data, hd, hr⟩ := query_empty_corpus S norm maxItemsPerPrefix hmax hint
      postfixWeightFactor p
    exact ⟨data, [], [], [], hd, hr, by simp, by simp, by simp, List.Pairwise.nil, rfl⟩
  obtain ⟨data, r, look, hP, hE, idxs, hd, hr, hTop, hEw, hEsub, hinj, hF, hrnd, hrmem, hritem,
    hrsorted⟩ := query_single S norm items hsize maxItemsPerPrefix hmax hint postfixWeightFactor p c hcls
      hnosp hpre hptr hne
  have hwinj : ∀ a ∈ items, ∀ b ∈ items, a.Weight = b.Weight → a = b :=
    fun a ha b hb hab => List.inj_on_of_nodup_map hw ha hb hab
  have hmemE : ∀ e, e ∈ items.map Item.entry ↔ ∃ x ∈ items, x.entry = e := by
    intro e
    simp only [List.mem_map]
  have hEinj : ∀ e1 ∈ items.map Item.entry, ∀ e2 ∈ items.map Item.entry,
      e1.Weight = e2.Weight → e1 = e2 := by
    intro e1 h1 e2 h2 h12
    obtain ⟨x1, hx1, rfl⟩ := (hmemE e1).1 h1
    obtain ⟨x2, hx2, rfl⟩ := (hmemE e2).1 h2
    rw [hwinj x1 hx1 x2 hx2 h12]
  obtain ⟨_, hlen, dropped, hperm, hdrop⟩ := hTop
  have hPsub : ∀ e ∈ hP, e ∈ items.map Item.entry :=
    fun e he => hperm.mem_iff.2 (List.mem_append_left _ he)
  have hEP : hE = hP :=
    eq_of_map_eq SuggestTrieItem.Weight hE hP hEw
      (fun a ha b hb hab => hEinj a (hEsub a ha) b (hPsub b hb) hab)
  subst hEP
  have hEw2 : ∀ e ∈ items.map Item.entry, e.OriginalItem.Weight = e.Weight ∧
      e.OriginalItem ∈ items ∧ e.OriginalItem.entry = e := by
    intro e he
    obtain ⟨x, hx, rfl⟩ := (hmemE e).1 he
    exact ⟨rfl, hx, rfl⟩
  -- the sorted corpus: the sorted heap followed by the sorted rest
  have hAperm := S.perm SuggestTrieItem.Weight hE
  have hBperm := S.perm SuggestTrieItem.Weight dropped
  have hsEperm : (S.sortDesc SuggestTrieItem.Weight hE ++
      S.sortDesc SuggestTrieItem.Weight dropped).Perm (items.map Item.entry) :=
    (hAperm.append hBperm).trans hperm.symm
  have hsEsorted : (S.sortDesc SuggestTrieItem.Weight hE ++
      S.sortDesc SuggestTrieItem.Weight dropped).Pairwise
        (fun a b => b.Weight ≤ a.Weight) := by
    rw [List.pairwise_append]
    refine ⟨S.sorted _ _, S.sorted _ _, ?_⟩
    intro a ha b hb
    exact hdrop b (hBperm.mem_iff.1 hb) a (hAperm.mem_iff.1 ha)
  have hsEnd : ((S.sortDesc SuggestTrieItem.Weight hE ++
      S.sortDesc SuggestTrieItem.Weight dropped).map SuggestTrieItem.Weight).Nodup := by
    refine (hsEperm.map SuggestTrieItem.Weight).nodup_iff.2 ?_
    rw [List.map_map]
    exact hw
  have hsEstrict : (S.sortDesc SuggestTrieItem.Weight hE ++
      S.sortDesc SuggestTrieItem.Weight dropped).Pairwise
        (fun a b => b.OriginalItem.Weight < a.OriginalItem.Weight) := by
    have h2 : (S.sortDesc SuggestTrieItem.Weight hE ++
        S.sortDesc SuggestTrieItem.Weight dropped).Pairwise
          (fun a b => a.Weight ≠ b.Weight) := List.pairwise_map.1 hsEnd
    refine (hsEsorted.and h2).imp_of_mem ?_
    intro a b ha hb hab
    rw [(hEw2 a (hsEperm.mem_iff.1 ha)).1, (hEw2 b (hsEperm.mem_iff.1 hb)).1]
    exact lt_of_le_of_ne hab.1 (Ne.symm hab.2)
  have hdedup : DeduplicateSuggest (S.sortDesc SuggestTrieItem.Weight hE) =
      S.sortDesc SuggestTrieItem.Weight hE := by
    unfold DeduplicateSuggest
    apply deduplicateLoop_no_group
    intro e he
    exact hgrp _ (hEw2 e (hEsub e (hAperm.mem_iff.1 he))).2.1
  rw [hdedup] at hF
  have hsplit : S.sortDesc SuggestTrieItem.Weight hE ++
      S.sortDesc SuggestTrieItem.Weight dropped =
      (S.sortDesc SuggestTrieItem.Weight hE).take maxItemsPerPrefix.toNat ++
        ((S.sortDesc SuggestTrieItem.Weight hE).drop maxItemsPerPrefix.toNat ++
          S.sortDesc SuggestTrieItem.Weight dropped) := by
    rw [← List.append_assoc, List.take_append_drop]
  have hfbsub : ∀ e ∈ (S.sortDesc SuggestTrieItem.Weight hE).take maxItemsPerPrefix.toNat,
      e ∈ items.map Item.entry :=
    fun e he => hEsub e (hAperm.mem_iff.1 (List.mem_of_mem_take he))
  refine ⟨data, r,
    ((S.sortDesc SuggestTrieItem.Weight hE).take maxItemsPerPrefix.toNat).map
      SuggestTrieItem.OriginalItem,
    ((S.sortDesc SuggestTrieItem.Weight hE).drop maxItemsPerPrefix.toNat ++
      S.sortDesc SuggestTrieItem.Weight dropped).map SuggestTrieItem.OriginalItem,
    hd, hr, ?_, ?_, ?_, ?_, ?_⟩
  · rw [← List.map_append, ← hsplit]
    have h1 := hsEperm.map SuggestTrieItem.OriginalItem
    rw [List.map_map] at h1
    have h2 : (SuggestTrieItem.OriginalItem ∘ Item.entry : Item W → Item W) = id := rfl
    rw [h2, List.map_id] at h1
    exact h1.symm
  · simp only [List.length_map, List.length_take, hAperm.length_eq, hlen]
    omega
  · intro a ha b hb
    rw [hsplit, List.pairwise_append] at hsEstrict
    obtain ⟨a1, ha1, rfl⟩ := List.mem_map.1 ha
    obtain ⟨b1, hb1, rfl⟩ := List.mem_map.1 hb
    exact hsEstrict.2.2 a1 ha1 b1 hb1
  · rw [List.pairwise_map]
    rw [hsplit, List.pairwise_append] at hsEstrict
    exact hsEstrict.1
  · have hFtbl : List.Forall₂ (fun e idx => data.Items[idx]? = some
        ((fun e => e.OriginalItem.toProto) e))
        ((S.sortDesc SuggestTrieItem.Weight hE).take maxItemsPerPrefix.toNat) idxs :=
      hF.imp (fun e idx h => h.2)
    have hFnd : List.Forall₂ (fun e idx => e ∈ items.map Item.entry ∧
        look e.OriginalItem.ptr = some idx)
        ((S.sortDesc SuggestTrieItem.Weight hE).take maxItemsPerPrefix.toNat) idxs :=
      forall₂_imp_mem hF (fun e he idx h => ⟨hfbsub e he, h.1⟩)
    have hEnd : (items.map Item.entry).Nodup := by
      have : ((items.map Item.entry).map SuggestTrieItem.Weight).Nodup := by
        rw [List.map_map]
        exact hw
      exact List.Nodup.of_map _ this
    have hfbnd : ((S.sortDesc SuggestTrieItem.Weight hE).take maxItemsPerPrefix.toNat).Nodup := by
      have h1 : (S.sortDesc SuggestTrieItem.Weight hE ++
          S.sortDesc SuggestTrieItem.Weight dropped).Nodup := hsEperm.nodup_iff.2 hEnd
      exact (List.Nodup.of_append_left h1).sublist (List.take_sublist _ _)
    have hidxnd : idxs.Nodup := by
      refine forall₂_nodup ?_ hFnd hfbnd
      intro a a1 b ⟨ha, hla⟩ ⟨ha1, hla1⟩
      have hp := hinj _ _ _ hla hla1
      have := hptr _ (hEw2 a ha).2.1 _ (hEw2 a1 ha1).2.1 hp
      rw [← (hEw2 a ha).2.2, ← (hEw2 a1 ha1).2.2, this]
    have hperm2 := result_perm data.Items (fun e => e.OriginalItem.toProto) _ _ hFtbl hidxnd r
      hrnd hrmem hritem
    rw [List.map_map]
    apply eq_of_perm_sorted stpb.Item.Weight _ _ hperm2
    · rw [List.pairwise_map]
      exact hrsorted
    · rw [List.pairwise_map]
      rw [hsplit, List.pairwise_append] at hsEstrict
      exact hsEstrict.1.imp (fun h => le_of_lt h)
    · intro a ha b hb hab
      obtain ⟨e1, he1, rfl⟩ := List.mem_map.1 ha
      obtain ⟨e2, he2, rfl⟩ := List.mem_map.1 hb
      have := hwinj _ (hEw2 e1 (hfbsub e1 he1)).2.1 _ (hEw2 e2 (hfbsub e2 he2)).2.1 hab
      simp only [this]

end TopClaims

end Suggest


namespace Suggest

section GroupClaims

set_option linter.unusedSectionVars false

variable {W : Type} [LinearOrder W]

/-- Counterexample to C4 as stated: two items under "z" with weights 1 and 2, the class "c",
no space and no group, and `maxItemsPerPrefix = 2 ^ 62`.  The limit `maxItemsPerPrefix * 2`
of the heaps wraps to `-2 ^ 63`, the second push into the bucket of the root pops the heap
empty and pops once more, and the build returns nothing, where the claim promises the two
items. -/
theorem C4_counterexample :
    (1 : Int) ≤ 2 ^ 62 ∧ wrapInt (2 ^ 62 * 2) = -2 ^ 63 ∧
    (∀ x ∈ [sampleItem 1 1 [122, 97] "c" none, sampleItem 2 2 [122, 98] "c" none],
      extractItemClasses id x = ["c"] ∧ 32 ∉ x.NormalizedText ∧ [122] <+: x.NormalizedText ∧
        x.Data.group = none) ∧
    (List.map Item.Weight
      [sampleItem 1 1 [122, 97] "c" none, sampleItem 2 2 [122, 98] "c" none]).Nodup ∧
    (BuildSuggest insertionSorter id
      [sampleItem 1 1 [122, 97] "c" none, sampleItem 2 2 [122, 98] "c" none]
      (2 ^ 62) 3).isSome = false := by
  refine ⟨by decide, by decide, by decide, by decide, by decide⟩

/-- Witness of `C4_top_k`: three items under "z" with weights 1, 2, 3 and class "c", with at
most 2 items for a prefix. -/
theorem C4_top_k_witness :
    (1 : Int) ≤ 2 ∧ (2 : Int) < 2 ^ 62 ∧
    ((List.map Item.Weight [sampleItem 1 1 [122, 97] "c" none, sampleItem 2 2 [122, 98] "c" none,
      sampleItem 3 3 [122, 99] "c" none]).Nodup) ∧
    ∃ data r top rest,
      BuildSuggest insertionSorter id
        [sampleItem 1 1 [122, 97] "c" none, sampleItem 2 2 [122, 98] "c" none,
          sampleItem 3 3 [122, 99] "c" none] 2 3 = some data ∧
      GetSuggestItems insertionSorter id data [122] [] [] = some r ∧
      [sampleItem 1 1 [122, 97] "c" none, sampleItem 2 2 [122, 98] "c" none,
          sampleItem 3 3 [122, 99] "c" none].Perm (top ++ rest) ∧
      top.length = min [sampleItem 1 1 [122, 97] "c" none, sampleItem 2 2 [122, 98] "c" none,
          sampleItem 3 3 [122, 99] "c" none].length (2 : Int).toNat ∧
      (∀ a ∈ top, ∀ b ∈ rest, b.Weight < a.Weight) ∧
      top.Pairwise (fun a b => b.Weight < a.Weight) ∧
      r.map ItemRef.item = top.map Item.toProto :=
  ⟨by decide, by decide, by decide,
    C4_top_k insertionSorter id _ 2 (by decide) (by decide) 3 [122] "c" (by decide) (by decide)
      (by decide) (by decide) (by decide) (by decide) (by decide)⟩

/-- Witness of `C5_finalized_buckets`: one node with one bucket of three entries, two of
them of the same group, finalized with at most 1 item for a prefix. -/
theorem C5_finalized_buckets_witness :
    (0 : Int) ≤ 1 ∧
    ∃ finalized, (SuggestTrieBuilder.mk []
        [{ Class := "c", Suggest := [(sampleItem 1 8 [120] "c" (some "g1")).entry,
          (sampleItem 2 10 [120] "c" (some "g1")).entry,
          (sampleItem 3 9 [120] "c" none).entry] }]).Finalize insertionSorter 1 =
        some finalized ∧
      finalized.AllBuckets (fun b =>
        (b.Suggest.length : Int) ≤ 1 ∧
        b.Suggest.Pairwise (fun x y => y.Weight ≤ x.Weight) ∧
        b.Suggest.Pairwise (fun x y => ∀ g, x.OriginalItem.Data.group = some g →
          y.OriginalItem.Data.group ≠ some g)) :=
  ⟨by decide, C5_finalized_buckets insertionSorter 1 (by decide) _⟩

end GroupClaims

end Suggest


namespace Suggest

section Completeness

variable {W : Type} [LinearOrder W]

/-- C2, as amended (suffix-rotation retrieval, completeness).  For every corpus of at most
`2 ^ 32` items in which every item carries at least one class and no item carries a "group",
in which the total number of trie insertions (one per item plus one per space-delimited
suffix rotation `Join(parts[i:], " ")`, `1 ≤ i < len(parts)`, of its normalized text) is at
most `maxItemsPerPrefix`, with `maxItemsPerPrefix < 2 ^ 62` (addresses identifying items),
for every item `x` of the corpus and every byte prefix `p` of the normalized text of `x` or
of one of its suffix rotations, `BuildSuggest` returns an artifact on which the unfiltered
query for `p` returns a list that holds the serialized form of `x`. -/
theorem C2_rotation_retrieval [Mul W] (S : SliceSorter W) (norm : String → String)
    (items : List (Item W)) (maxItemsPerPrefix : Int) (postfixWeightFactor : W)
    (hint : maxItemsPerPrefix < 2 ^ 62)
    (hsize : items.length ≤ 2 ^ 32)
    (hcls : ∀ x ∈ items, extractItemClasses norm x ≠ [])
    (hgrp : ∀ x ∈ items, x.Data.group = none)
    (htotal : (((items.map
      (fun x => 1 + ((Split 32 x.NormalizedText).length - 1))).sum : Nat) : Int)
      ≤ maxItemsPerPrefix)
    (hptr : ∀ a ∈ items, ∀ b ∈ items, a.ptr = b.ptr → a = b)
    (x : Item W) (hx : x ∈ items) (p : List Nat)
    (hp : p <+: x.NormalizedText ∨
      ∃ i, 1 ≤ i ∧ i < (Split 32 x.NormalizedText).length ∧
        p <+: Join 32 ((Split 32 x.NormalizedText).drop i)) :
    ∃ data r, BuildSuggest S norm items maxItemsPerPrefix postfixWeightFactor = some data ∧
      GetSuggestItems S norm data p [] [] = some r ∧
      ∃ y ∈ r, y.item = x.toProto := by
  have hrot : ∀ t : List Nat, (rotations t).length = (Split 32 t).length - 1 := by
    intro t
    simp [rotations]
  have hp : p <+: x.NormalizedText ∨ ∃ t ∈ rotations x.NormalizedText, p <+: t := by
    rcases hp with hp | ⟨i, hi1, hi2, hp⟩
    · exact Or.inl hp
    · refine Or.inr ⟨_, ?_, hp⟩
      simp only [rotations, List.mem_map, List.mem_range'_1]
      exact ⟨i, ⟨hi1, by omega⟩, rfl⟩
  have hlenI := length_insertions norm postfixWeightFactor items
  simp only [hrot] at hlenI
  rw [← hlenI] at htotal
  have hmax0 : 0 ≤ maxItemsPerPrefix := by omega
  obtain ⟨data, hd⟩ := BuildSuggest_isSome S norm items maxItemsPerPrefix hmax0 hint
    postfixWeightFactor
  obtain ⟨s, s1, look, hs, hnd, hs1, hm, hitem, hinj⟩ :=
    BuildSuggest_spec S norm items hsize maxItemsPerPrefix postfixWeightFactor data hd
  rw [wrapInt_double maxItemsPerPrefix (by omega) hint] at hs
  -- facts about every insertion
  have hins : ∀ i ∈ insertions norm postfixWeightFactor items,
      i.item.OriginalItem ∈ items ∧ i.classes.Nodup := by
    intro i hi
    obtain ⟨y, hy, hiy⟩ := (mem_insertions norm postfixWeightFactor items i).1 hi
    obtain ⟨h1, h2, _⟩ := mem_insertionsOf norm postfixWeightFactor y i hiy
    exact ⟨h1 ▸ hy, h2 ▸ extractItemClasses_nodup norm y⟩
  -- the insertion of `x` whose text begins with `p`
  obtain ⟨i0, hi0, hi0x, hi0c, hi0p⟩ : ∃ i0 ∈ insertions norm postfixWeightFactor items,
      i0.item.OriginalItem = x ∧ i0.classes = extractItemClasses norm x ∧ p <+: i0.text := by
    rcases hp with hp | ⟨t, ht, hp⟩
    · refine ⟨_, (mem_insertions norm postfixWeightFactor items _).2
        ⟨x, hx, List.mem_cons_self _ _⟩, rfl, rfl, hp⟩
    · refine ⟨Insertion.mk t (SuggestTrieItem.mk (x.Weight * postfixWeightFactor) x)
          (extractItemClasses norm x),
        (mem_insertions norm postfixWeightFactor items _).2 ⟨x, hx, ?_⟩, rfl, rfl, hp⟩
      unfold insertionsOf
      exact List.mem_cons_of_mem _ (List.mem_map.2 ⟨t, ht, rfl⟩)
  obtain ⟨c0, hc0⟩ := List.exists_mem_of_ne_nil _ (hcls x hx)
  rw [← hi0c] at hc0
  have hperm := built_noevict (maxItemsPerPrefix * 2) _ s hs (fun i hi => (hins i hi).2)
    (by omega)
  -- the entry of `i0` sits in a bucket of class `c0` at every path along its text
  have hK : ∀ q, q <+: i0.text → i0.item ∈ entriesOf c0 (s.bucketsAt q) := by
    intro q hq
    rw [(hperm q c0).mem_iff]
    refine List.mem_map.2 ⟨i0, ?_, rfl⟩
    simp only [List.mem_filter, decide_eq_true_eq]
    exact ⟨⟨hi0, hq⟩, hc0⟩
  have hsome : s.nodeAt p ≠ none := by
    intro hnone
    have := hK p hi0p
    simp [SuggestTrieBuilder.bucketsAt, hnone, entriesOf] at this
  rcases query_built S norm items maxItemsPerPrefix data s s1 look hs1 hm hitem p [] [] with
    ⟨hnone, _⟩ | ⟨n0, _, ne1, N1, _, _, _, _, _, ⟨n1, hn1, hto⟩, hmN1, hbound, hq1⟩
  · exact absurd hnone hsome
  -- along the chain of cleared nodes the path stays on the text of `i0`
  obtain ⟨ext, hext, hpe⟩ := skip_chain S maxItemsPerPrefix s s1 hs1
    (fun q => q <+: i0.text)
    (by
      intro q n d hq hn hdd hc
      have hbq := bucketsAt_of_nodeAt s n q hn
      have hmem := hK q hq
      rw [hbq] at hmem
      have hne : n.Buckets ≠ [] := by
        intro h0
        rw [h0] at hmem
        simp [entriesOf] at hmem
      have hde := cleared_deepEqual n.Descendants n.Buckets d hdd hc hne
      have hl := DeepEqual_entriesOf_length c0 _ _ (DeepEqual_forall₂ _ _ hde)
      rw [← bucketsAt_of_nodeAt s d.Builder _ (nodeAt_snoc_single s n q d hn hdd), ← hbq,
        (hperm _ c0).length_eq, (hperm q c0).length_eq, List.length_map, List.length_map,
        List.filter_filter, List.filter_filter, ← List.countP_eq_length_filter,
        ← List.countP_eq_length_filter] at hl
      have := forall_of_countP_eq _ _ (by
        intro a ha
        simp only [Bool.and_eq_true, decide_eq_true_eq] at ha ⊢
        exact ⟨ha.1, (List.prefix_append q [d.Key]).trans ha.2⟩) _ hl i0 hi0 (by
          simp only [Bool.and_eq_true, decide_eq_true_eq]
          exact ⟨hc0, hq⟩)
      simp only [Bool.and_eq_true, decide_eq_true_eq] at this
      exact this.2)
    n1 ne1 hto p hi0p hn1
  -- the node where the skip stops, before and after `Finalize`
  obtain ⟨hg1, hg2⟩ := Finalize_nodeAt S maxItemsPerPrefix (p ++ ext) s s1 hs1
  cases hne0 : s.nodeAt (p ++ ext) with
  | none =>
    rw [hg1 hne0] at hext
    cases hext
  | some ne =>
    obtain ⟨ne2, h1, hfin⟩ := hg2 ne hne0
    rw [hext] at h1
    cases h1
    have hbe := bucketsAt_of_nodeAt s ne _ hne0
    have hmem := hK _ hpe
    rw [hbe] at hmem
    obtain ⟨b, hb, hbc, heb⟩ := (mem_entriesOf c0 ne.Buckets i0.item).1 hmem
    have hfb := stop_not_cleared S maxItemsPerPrefix ne ne1 hfin (SkipTo_stop hto)
      (List.ne_nil_of_mem hb)
    obtain ⟨b1, hb1, hfb1⟩ := forall₂_mem_left
      (finalizeBuckets_forall₂ S maxItemsPerPrefix _ _ hfb) b hb
    obtain ⟨b2, hb2, _, hb2s⟩ := finalizeBucket_spec S maxItemsPerPrefix hmax0 b
    rw [hfb1] at hb2
    cases hb2
    -- no entry of the bucket has a group, and the bucket is not longer than the bound
    have hsp := S.perm SuggestTrieItem.Weight b.Suggest
    have hnog : ∀ e ∈ S.sortDesc SuggestTrieItem.Weight b.Suggest,
        e.OriginalItem.Data.group = none := by
      intro e he
      obtain ⟨i, hi, hie, _, _⟩ := built_entries _ _ s hs (p ++ ext) ne hne0 b hb e
        (hsp.mem_iff.1 he)
      rw [hie]
      exact hgrp _ (hins i hi).1
    have hlenb : b.Suggest.length ≤ (insertions norm postfixWeightFactor items).length := by
      refine le_trans (length_le_entriesOf ne.Buckets b hb) ?_
      rw [← hbe, (hperm _ b.Class).length_eq, List.length_map]
      exact le_trans (List.length_filter_le _ _) (List.length_filter_le _ _)
    have hb1s : b1.Suggest = S.sortDesc SuggestTrieItem.Weight b.Suggest := by
      rw [hb2s]
      unfold DeduplicateSuggest
      rw [deduplicateLoop_no_group _ [] hnog]
      apply List.take_of_length_le
      rw [hsp.length_eq]
      omega
    have he1 : i0.item ∈ b1.Suggest := by
      rw [hb1s]
      exact hsp.mem_iff.2 heb
    obtain ⟨ci, hci, _, idx, hidx, hlook⟩ := MirrorBuckets_entry look ne1.Buckets N1.Items
      (Mirror_buckets look ne1 N1 hmN1) b1 hb1 i0.item he1
    obtain ⟨y, hy, hyp, hyi⟩ := hitem _ _ hlook
    rw [hi0x] at hyp
    have hyx : y = x := hptr y hy x hx hyp
    subst hyx
    obtain ⟨r, hr, _, _, _, hrmem⟩ := collectItems_spec S norm data N1 [] [] hbound
    refine ⟨data, r, hd, by rw [hq1, hr], { index := idx, item := y.toProto }, ?_, rfl⟩
    refine (hrmem _).2 ⟨hyi, ⟨ci, hci, hidx⟩, ?_⟩
    rw [itemSatisfyClasses_iff]
    refine ⟨⟨ci.Class, mem_classesOf.2 ⟨ci, hci, rfl, hidx⟩, Or.inr ?_⟩, ?_⟩
    · simp [PrepareCheckMap]
    · simp [PrepareCheckMap]

/-- Witness of `C2_rotation_retrieval`: the item "a b c" of class "c", with 3 insertions and
at most 3 items for a prefix, is retrieved by the prefix "b c" of its first rotation. -/
theorem C2_rotation_retrieval_witness :
    (3 : Int) < 2 ^ 62 ∧
    (∀ x ∈ [sampleItem 1 10 [97, 32, 98, 32, 99] "c" none], extractItemClasses id x ≠ []) ∧
    ((([sampleItem 1 10 [97, 32, 98, 32, 99] "c" none].map
      (fun x => 1 + ((Split 32 x.NormalizedText).length - 1))).sum : Nat) : Int) ≤ 3 ∧
    ((1 : Nat) ≤ 1 ∧
      1 < (Split 32 (sampleItem 1 10 [97, 32, 98, 32, 99] "c" none).NormalizedText).length ∧
      [98, 32, 99] <+:
        Join 32 ((Split 32 (sampleItem 1 10 [97, 32, 98, 32, 99] "c" none).NormalizedText).drop
          1)) ∧
    ∃ data r,
      BuildSuggest insertionSorter id [sampleItem 1 10 [97, 32, 98, 32, 99] "c" none] 3 2 =
        some data ∧
      GetSuggestItems insertionSorter id data [98, 32, 99] [] [] = some r ∧
      ∃ y ∈ r, y.item = (sampleItem 1 10 [97, 32, 98, 32, 99] "c" none).toProto :=
  ⟨by decide, by decide, by decide, by decide,
    C2_rotation_retrieval insertionSorter id _ 3 2 (by decide) (by decide) (by decide)
      (by decide) (by decide) (by decide) _ (List.mem_singleton_self _) [98, 32, 99]
      (Or.inr ⟨1, by decide⟩)⟩

/-- Counterexample to C2 as stated: the corpus of the single item "a b" of class "c", without
group, makes 2 insertions, and `maxItemsPerPrefix = 2 ^ 62` is at least 2.  The limit
`maxItemsPerPrefix * 2` of the heaps wraps to `-2 ^ 63`, the insertion of the rotation "b"
is the second push into the bucket of the root and pops the emptied heap, and the build
returns nothing, where the claim promises that "a" retrieves the item. -/
theorem C2_counterexample :
    wrapInt (2 ^ 62 * 2) = -2 ^ 63 ∧
    (∀ x ∈ [sampleItem 1 10 [97, 32, 98] "c" none],
      extractItemClasses id x ≠ [] ∧ x.Data.group = none) ∧
    ((([sampleItem 1 10 [97, 32, 98] "c" none].map
      (fun x => 1 + ((Split 32 x.NormalizedText).length - 1))).sum : Nat) : Int) ≤ 2 ^ 62 ∧
    [97] <+: (sampleItem 1 10 [97, 32, 98] "c" none).NormalizedText ∧
    (BuildSuggest insertionSorter id [sampleItem 1 10 [97, 32, 98] "c" none]
      (2 ^ 62) 2).isSome = false := by
  refine ⟨by decide, by decide, by decide, by decide, by decide⟩

end Completeness

end Suggest


namespace Suggest

section TotalityClaims

set_option linter.unusedSectionVars false

variable {W : Type} [LinearOrder W]

/-! ## Build and query totality, class extraction -/

/-- C13, as amended (build never fails).  For every list of items, every
`maxItemsPerPrefix` with `0 ≤ maxItemsPerPrefix < 2 ^ 62` and every factor, the limit
`maxItemsPerPrefix * 2` does not wrap, the insertion phase (with the bound
`2 * maxItemsPerPrefix`) returns a trie, `Finalize` returns on that trie, and `BuildSuggest`
returns the serialized form of the finalized trie. -/
theorem C13_build_total [Mul W] (S : SliceSorter W) (norm : String → String)
    (items : List (Item W)) (maxItemsPerPrefix : Int) (hmax : 0 ≤ maxItemsPerPrefix)
    (hint : maxItemsPerPrefix < 2 ^ 62) (postfixWeightFactor : W) :
    ∃ builder finalized,
      wrapInt (maxItemsPerPrefix * 2) = maxItemsPerPrefix * 2 ∧
      addSuggestItems norm (maxItemsPerPrefix * 2) postfixWeightFactor items
        (SuggestTrieBuilder.mk [] []) = some builder ∧
      builder.Finalize S maxItemsPerPrefix = some finalized ∧
      BuildSuggest S norm items maxItemsPerPrefix postfixWeightFactor =
        some (Transform finalized) := by
  obtain ⟨data, hd⟩ := BuildSuggest_isSome S norm items maxItemsPerPrefix hmax hint
    postfixWeightFactor
  have hw := wrapInt_double maxItemsPerPrefix (by omega) hint
  unfold BuildSuggest at hd ⊢
  rw [hw] at hd ⊢
  cases hb : addSuggestItems norm (maxItemsPerPrefix * 2) postfixWeightFactor items
      (SuggestTrieBuilder.mk [] []) with
  | none => simp [hb] at hd
  | some builder =>
    simp only [hb, Option.some_bind, Option.map_eq_some'] at hd
    obtain ⟨finalized, hf, _⟩ := hd
    exact ⟨builder, finalized, rfl, rfl, hf, by simp [hf]⟩

/-- Witness of `C13_build_total`: one item "x" of class "c", with at most 0 items for a
prefix. -/
theorem C13_build_total_witness :
    (0 : Int) ≤ 0 ∧ (0 : Int) < 2 ^ 62 ∧
    ∃ builder finalized,
      wrapInt ((0 : Int) * 2) = (0 : Int) * 2 ∧
      addSuggestItems id ((0 : Int) * 2) 3 [sampleItem 1 10 [120] "c" none]
        (SuggestTrieBuilder.mk [] []) = some builder ∧
      builder.Finalize insertionSorter 0 = some finalized ∧
      BuildSuggest insertionSorter id [sampleItem 1 10 [120] "c" none] 0 3 =
        some (Transform finalized) :=
  ⟨le_refl _, by decide, C13_build_total insertionSorter id [sampleItem 1 10 [120] "c" none] 0
    (le_refl _) (by decide) 3⟩

/-- Counterexample to C13 as stated: with `maxItemsPerPrefix = -1`, the build of the single
item "x" of class "c" fails (the cut `suggest.Suggest[:-1]` of `Finalize` is out of range),
and the insertion phase of two such items fails already (the second push into the bucket is
followed by pops down to the empty heap and one pop more).  With
`maxItemsPerPrefix = 2 ^ 62` the limit `maxItemsPerPrefix * 2` wraps to `-2 ^ 63`, and the
insertion phase of two such items fails in the same way. -/
theorem C13_counterexample :
    (BuildSuggest insertionSorter id [sampleItem 1 10 [120] "c" none] (-1) 3).isSome = false ∧
    (addSuggestItems id ((-1 : Int) * 2) 3 [sampleItem 1 10 [120] "c" none]
      (SuggestTrieBuilder.mk [] [])).isSome = true ∧
    (addSuggestItems id ((-1 : Int) * 2) 3
      [sampleItem 1 10 [120] "c" none, sampleItem 2 9 [120] "c" none]
      (SuggestTrieBuilder.mk [] [])).isSome = false ∧
    wrapInt (2 ^ 62 * 2) = -2 ^ 63 ∧
    (addSuggestItems id (wrapInt (2 ^ 62 * 2)) 3
      [sampleItem 1 10 [120] "c" none, sampleItem 2 9 [120] "c" none]
      (SuggestTrieBuilder.mk [] [])).isSome = false ∧
    (BuildSuggest insertionSorter id
      [sampleItem 1 10 [120] "c" none, sampleItem 2 9 [120] "c" none]
      (2 ^ 62) 3).isSome = false := by
  refine ⟨by decide, by decide, by decide, by decide, by decide, by decide⟩

theorem inRangeList_getElem? (n : Nat) :
    ∀ (ts : List (stpb.SuggestTrie W)) (i : Nat) (t : stpb.SuggestTrie W),
      inRangeList n ts = true → ts[i]? = some t → t.inRange n = true
  | [], i, t, _, h => by simp at h
  | a :: ts, 0, t, hv, h => by
    simp only [inRangeList, Bool.and_eq_true] at hv
    simp at h
    subst h
    exact hv.1
  | a :: ts, i + 1, t, hv, h => by
    simp only [inRangeList, Bool.and_eq_true] at hv
    simp at h
    exact inRangeList_getElem? n ts i t hv.2 h

theorem inRange_unfold {n : Nat} {keys : List Nat} {tries : List (stpb.SuggestTrie W)}
    {items : List (stpb.ClassItems W)}
    (h : (stpb.SuggestTrie.mk keys tries items).inRange n = true) :
    keys.length = tries.length ∧
      (∀ b ∈ items, ∀ i ∈ b.ItemIndexes, i < n) ∧ inRangeList n tries = true := by
  simp only [stpb.SuggestTrie.inRange, Bool.and_eq_true, decide_eq_true_eq, List.all_eq_true]
    at h
  exact ⟨h.1.1, fun b hb i hi => h.1.2 b hb i hi, h.2⟩

theorem inRange_items_bound {n : Nat} {t : stpb.SuggestTrie W} (h : t.inRange n = true) :
    ∀ b ∈ t.Items, ∀ i ∈ b.ItemIndexes, i < n := by
  cases t with
  | mk keys tries items => exact (inRange_unfold h).2.1

theorem descend_inRange (n : Nat) :
    ∀ (pre : List Nat) (t : stpb.SuggestTrie W), t.inRange n = true →
      descend pre t = some none ∨
        ∃ node, descend pre t = some (some node) ∧ node.inRange n = true
  | [], t, h => Or.inr ⟨t, rfl, h⟩
  | c :: rest, .mk keys tries items, h => by
    obtain ⟨hlen, _, hl⟩ := inRange_unfold h
    unfold descend
    simp only [stpb.SuggestTrie.DescendantKeys, stpb.SuggestTrie.DescendantTries]
    cases hf : findKey c keys with
    | none => exact Or.inl rfl
    | some idx =>
      have hlt := findKey_lt c keys idx hf
      rw [hlen] at hlt
      have hg : tries[idx]? = some tries[idx] := by simp [hlt]
      simp only [hg]
      exact descend_inRange n rest _ (inRangeList_getElem? n tries idx _ hl hg)

mutual
theorem skipSingle_inRange (n : Nat) :
    ∀ (t : stpb.SuggestTrie W), t.inRange n = true →
      ∃ r, skipSingle t = some r ∧ r.inRange n = true
  | .mk keys tries items, h => by
    unfold skipSingle
    by_cases hc : keys.length = 1 ∧ items.length = 0
    · rw [if_pos hc]
      obtain ⟨hlen, _, hl⟩ := inRange_unfold h
      exact skipFirst_inRange n tries hl (by rw [← hlen, hc.1]; exact Nat.one_pos)
    · rw [if_neg hc]
      exact ⟨_, rfl, h⟩
theorem skipFirst_inRange (n : Nat) :
    ∀ (ts : List (stpb.SuggestTrie W)), inRangeList n ts = true → 0 < ts.length →
      ∃ r, skipFirst ts = some r ∧ r.inRange n = true
  | [], _, h => by simp at h
  | d :: rest, hv, _ => by
    simp only [inRangeList, Bool.and_eq_true] at hv
    unfold skipFirst
    exact skipSingle_inRange n d hv.1
end

/-- C15 (query is total on valid artifacts).  On every artifact in which every node has as
many descendant tries as keys and every index of every bucket is below the length of the
items table, for every byte prefix and every required and excluded class lists,
`GetSuggestItems` returns a result (the skip loop ends and no access is out of range), and
the result is empty when the descent finds no key for some byte of the prefix. -/
theorem C15_query_total (S : SliceSorter W) (norm : String → String)
    (suggest : stpb.SuggestData W) (pre : List Nat)
    (requiredClasses excludedClasses : List String)
    (hv : suggest.Trie.inRange suggest.Items.length = true) :
    ∃ r, GetSuggestItems S norm suggest pre requiredClasses excludedClasses = some r ∧
      (descend pre suggest.Trie = some none → r = []) := by
  unfold GetSuggestItems
  rcases descend_inRange suggest.Items.length pre suggest.Trie hv with h | ⟨node, h, hn⟩
  · rw [h]
    exact ⟨[], rfl, fun _ => rfl⟩
  · rw [h]
    obtain ⟨t, ht, htv⟩ := skipSingle_inRange _ node hn
    simp only [ht]
    obtain ⟨r, hr, _⟩ := collectItems_spec S norm suggest t requiredClasses excludedClasses
      (inRange_items_bound htv)
    exact ⟨r, hr, fun hc => by cases hc⟩

/-- Witness of `C15_query_total`: the artifact `fruitVeggie` queried with "y", a byte
without a key at the root. -/
theorem C15_query_total_witness :
    fruitVeggie.Trie.inRange fruitVeggie.Items.length = true ∧
    descend [121] fruitVeggie.Trie = some none ∧
    ∃ r, GetSuggestItems insertionSorter id fruitVeggie [121] ["fruit"] [] = some r ∧
      (descend [121] fruitVeggie.Trie = some none → r = []) :=
  ⟨by decide, rfl, C15_query_total insertionSorter id fruitVeggie [121] ["fruit"] []
    (by decide)⟩

theorem extractLoop_eq (norm : String → String) :
    ∀ (rest seen classes : List String), (∀ c, c ∈ seen ↔ c ∈ classes) →
      extractLoop norm seen classes rest =
        classes ++ (firstOccurrences (rest.map norm)).filter (fun b => decide (b ∉ classes))
  | [], seen, classes, _ => by simp [extractLoop, firstOccurrences]
  | c :: rest, seen, classes, h => by
    unfold extractLoop
    simp only [List.map_cons, firstOccurrences]
    by_cases hc : norm c ∈ seen
    · rw [if_pos hc, extractLoop_eq norm rest seen classes h]
      have hcc : norm c ∈ classes := (h _).1 hc
      rw [List.filter_cons, if_neg (by simpa using hcc), List.filter_filter]
      congr 1
      apply List.filter_congr
      intro b _
      by_cases hb : b ∈ classes
      · simp [hb]
      · have : b ≠ norm c := fun hbc => hb (hbc ▸ hcc)
        simp [hb, this]
    · rw [if_neg hc, extractLoop_eq norm rest (norm c :: seen) (classes ++ [norm c]) (by
        intro a
        simp only [List.mem_cons, List.mem_append, List.mem_singleton, h a]
        tauto)]
      have hcc : norm c ∉ classes := fun hx => hc ((h _).2 hx)
      rw [List.filter_cons, if_pos (by simpa using hcc), List.filter_filter, List.append_assoc]
      congr 1
      rw [List.singleton_append]
      congr 1
      apply List.filter_congr
      intro b _
      by_cases hb : b ∈ classes
      · simp [hb]
      · by_cases hbc : b = norm c
        · simp [hbc]
        · simp [hb, hbc]

theorem firstOccurrences_eq_nil (l : List String) : firstOccurrences l = [] ↔ l = [] := by
  cases l with
  | nil => simp [firstOccurrences]
  | cons a l => simp [firstOccurrences]

/-- C18 (class extraction).  `extractItemClasses` returns the list made of the normalized
"class" value, when present, followed by the normalized entries of "classes", with every
later duplicate removed and the order of first occurrences kept; the result has no
duplicate, and it is empty exactly when the item has no "class" and no "classes" or only an
empty "classes" list. -/
theorem C18_class_extraction (norm : String → String) (x : Item W) :
    extractItemClasses norm x =
      firstOccurrences ((x.Data.cls.toList ++ x.Data.classes.getD []).map norm) ∧
    (extractItemClasses norm x).Nodup ∧
    (extractItemClasses norm x = [] ↔
      x.Data.cls = none ∧ (x.Data.classes = none ∨ x.Data.classes = some [])) := by
  have heq : extractItemClasses norm x =
      firstOccurrences ((x.Data.cls.toList ++ x.Data.classes.getD []).map norm) := by
    unfold extractItemClasses
    cases x.Data.cls with
    | none =>
      cases x.Data.classes with
      | none => simp [firstOccurrences]
      | some l =>
        simp only [Option.toList, List.nil_append, Option.getD_some]
        rw [extractLoop_eq norm l [] [] (fun _ => Iff.rfl)]
        simp
    | some c =>
      cases x.Data.classes with
      | none => simp [firstOccurrences]
      | some l =>
        simp only [Option.toList, List.singleton_append, Option.getD_some, List.map_cons,
          firstOccurrences]
        rw [extractLoop_eq norm l [norm c] [norm c] (fun _ => Iff.rfl)]
        simp
  refine ⟨heq, extractItemClasses_nodup norm x, ?_⟩
  rw [heq, firstOccurrences_eq_nil]
  cases x.Data.cls with
  | none =>
    cases x.Data.classes with
    | none => simp
    | some l => simp
  | some c => simp

end TotalityClaims

end Suggest


namespace Suggest

section NodeInvariant

set_option linter.unusedSectionVars false

variable {W : Type} [LinearOrder W]

/-! ## One bucket per class, distinct descendant keys -/

theorem addItemClass_classes (limit : Int) (item : SuggestTrieItem W) (c : String) :
    ∀ (bs bs1 : List (SuggestItems W)), addItemClass limit item c bs = some bs1 →
      bs1.map SuggestItems.Class =
        if c ∈ bs.map SuggestItems.Class then bs.map SuggestItems.Class
        else bs.map SuggestItems.Class ++ [c]
  | [], bs1, h => by
    simp only [addItemClass, Option.some.injEq] at h
    subst h
    simp
  | b :: rest, bs1, h => by
    unfold addItemClass at h
    by_cases hc : c = b.Class
    · rw [if_pos hc] at h
      simp only [Option.map_eq_some'] at h
      obtain ⟨s, _, rfl⟩ := h
      simp [hc]
    · rw [if_neg hc] at h
      simp only [Option.map_eq_some'] at h
      obtain ⟨r, hr, rfl⟩ := h
      have ih := addItemClass_classes limit item c rest r hr
      simp only [List.map_cons, List.mem_cons, hc, false_or]
      rw [ih]
      by_cases hm : c ∈ rest.map SuggestItems.Class
      · rw [if_pos hm, if_pos hm]
      · rw [if_neg hm, if_neg hm]
        rfl

theorem addItemClass_nodup (limit : Int) (item : SuggestTrieItem W) (c : String)
    (bs bs1 : List (SuggestItems W)) (h : addItemClass limit item c bs = some bs1)
    (hnd : (bs.map SuggestItems.Class).Nodup) : (bs1.map SuggestItems.Class).Nodup := by
  rw [addItemClass_classes limit item c bs bs1 h]
  by_cases hm : c ∈ bs.map SuggestItems.Class
  · rw [if_pos hm]
    exact hnd
  · rw [if_neg hm, List.nodup_append]
    refine ⟨hnd, by simp, ?_⟩
    intro a ha hb
    simp only [List.mem_singleton] at hb
    subst hb
    exact hm ha

theorem addItem_nodup (limit : Int) (item : SuggestTrieItem W) :
    ∀ (classes : List String) (bs bs1 : List (SuggestItems W)),
      addItem limit item bs classes = some bs1 → (bs.map SuggestItems.Class).Nodup →
      (bs1.map SuggestItems.Class).Nodup
  | [], bs, bs1, h, hnd => by
    simp only [addItem, Option.some.injEq] at h
    subst h
    exact hnd
  | c :: rest, bs, bs1, h, hnd => by
    unfold addItem at h
    cases h1 : addItemClass limit item c bs with
    | none => simp [h1] at h
    | some b1 =>
      simp only [h1, Option.some_bind] at h
      exact addItem_nodup limit item rest b1 bs1 h (addItemClass_nodup limit item c bs b1 h1 hnd)

/-- Every trie reachable by `Add` calls has distinct keys in every node, and at most one
bucket per class in the node at the end of every path. -/
theorem Reachable_paths (s : SuggestTrieBuilder W) (h : Reachable s) :
    s.NodupKeys ∧ ∀ q n, s.nodeAt q = some n → (n.Buckets.map SuggestItems.Class).Nodup := by
  induction h with
  | empty =>
    refine ⟨by rw [NodupKeys_mk]; simp, ?_⟩
    intro q n hn
    rw [nodeAt_empty] at hn
    by_cases hq : q = []
    · rw [if_pos hq] at hn
      cases hn
      simp
    · rw [if_neg hq] at hn
      cases hn
  | add s s1 limit item classes text _ ha ih =>
    obtain ⟨hk1, hq1⟩ := Add_spec limit item classes text s s1 ih.1 ha
    refine ⟨hk1, ?_⟩
    intro q n hn
    by_cases hq : q <+: text
    · obtain ⟨n1, hn1, hadd⟩ := (hq1 q).1 hq
      rw [hn] at hn1
      cases hn1
      refine addItem_nodup limit item classes _ _ hadd ?_
      unfold SuggestTrieBuilder.bucketsAt
      cases hs : s.nodeAt q with
      | none => simp
      | some n0 => simpa using ih.2 q n0 hs
    · rw [(hq1 q).2 hq] at hn
      exact ih.2 q n hn

mutual
theorem NodeInv_of_nodeAt :
    ∀ (s : SuggestTrieBuilder W), s.NodupKeys →
      (∀ q n, s.nodeAt q = some n → (n.Buckets.map SuggestItems.Class).Nodup) → s.NodeInv
  | .mk ds bs, hnd, h => by
    rw [NodupKeys_mk] at hnd
    unfold SuggestTrieBuilder.NodeInv
    refine ⟨h [] _ rfl, hnd.1, ?_⟩
    refine NodeInvList_of_nodeAt ds ((NodupKeysList_iff ds).2 hnd.2) ?_
    intro d hd q n hn
    apply h (d.Key :: q) n
    rw [nodeAt_cons, Descendants_mk]
    obtain ⟨i, hi⟩ := List.mem_iff_getElem?.1 hd
    rw [childOf_of_getElem? d.Key ds i d hnd.1 hi rfl]
    exact hn
theorem NodeInvList_of_nodeAt :
    ∀ (ds : List (SuggestTrieDescendant W)), NodupKeysList ds →
      (∀ d ∈ ds, ∀ q n, d.Builder.nodeAt q = some n →
        (n.Buckets.map SuggestItems.Class).Nodup) →
      NodeInvList ds
  | [], _, _ => trivial
  | d :: rest, hnd, h => by
    unfold NodupKeysList at hnd
    unfold NodeInvList
    exact ⟨NodeInvDesc_of_nodeAt d hnd.1 (h d (List.mem_cons_self _ _)),
      NodeInvList_of_nodeAt rest hnd.2 (fun d1 hd1 => h d1 (List.mem_cons_of_mem _ hd1))⟩
theorem NodeInvDesc_of_nodeAt :
    ∀ (d : SuggestTrieDescendant W), NodupKeysDesc d →
      (∀ q n, d.Builder.nodeAt q = some n → (n.Buckets.map SuggestItems.Class).Nodup) →
      NodeInvDesc d
  | .mk k b, hnd, h => by
    unfold NodupKeysDesc at hnd
    unfold NodeInvDesc
    exact NodeInv_of_nodeAt b hnd h
end

theorem forall₂_map_eq {α β γ : Type} {R : α → β → Prop} (f : α → γ) (g : β → γ)
    (hR : ∀ a b, R a b → f a = g b) :
    ∀ {l : List α} {r : List β}, List.Forall₂ R l r → l.map f = r.map g
  | [], [], List.Forall₂.nil => rfl
  | _ :: _, _ :: _, List.Forall₂.cons h1 h2 => by
    simp only [List.map_cons, hR _ _ h1, forall₂_map_eq f g hR h2]

theorem finalizeBucket_class (S : SliceSorter W) (maxItemsPerPrefix : Int)
    (b b1 : SuggestItems W) (h : finalizeBucket S maxItemsPerPrefix b = some b1) :
    b1.Class = b.Class := by
  unfold finalizeBucket at h
  simp only at h
  split at h
  · split at h
    · cases h
    · cases h
      rfl
  · cases h
    rfl

mutual
theorem Finalize_nodeInv (S : SliceSorter W) (maxItemsPerPrefix : Int) :
    ∀ (s s1 : SuggestTrieBuilder W), s.Finalize S maxItemsPerPrefix = some s1 →
      s.NodeInv → s1.NodeInv
  | .mk ds bs, s1, h, hinv => by
    obtain ⟨ds1, bs1, rfl, hf, hfd⟩ := Finalize_mk S maxItemsPerPrefix ds bs s1 h
    simp only [SuggestTrieBuilder.Finalize, hf, Option.some_bind, Option.map_eq_some'] at h
    obtain ⟨ds2, hds2, heq⟩ := h
    cases heq
    unfold SuggestTrieBuilder.NodeInv at hinv ⊢
    refine ⟨?_, ?_, FinalizeDescendants_nodeInv S maxItemsPerPrefix ds ds1 hds2 hinv.2.2⟩
    · have hcls := forall₂_map_eq SuggestItems.Class SuggestItems.Class
        (fun b b1 hb => (finalizeBucket_class S maxItemsPerPrefix b b1 hb).symm)
        (finalizeBuckets_forall₂ S maxItemsPerPrefix _ _ hf)
      rw [← hcls]
      rcases clearPassThrough_cases ds bs with h1 | ⟨h1, _⟩
      · rw [h1]
        exact hinv.1
      · rw [h1]
        simp
    · have hkeys := forall₂_map_eq SuggestTrieDescendant.Key SuggestTrieDescendant.Key
        (fun d d1 hd => hd.1.symm) hfd
      rw [← hkeys]
      exact hinv.2.1
theorem FinalizeDescendants_nodeInv (S : SliceSorter W) (maxItemsPerPrefix : Int) :
    ∀ (ds ds1 : List (SuggestTrieDescendant W)),
      FinalizeDescendants S maxItemsPerPrefix ds = some ds1 →
      NodeInvList ds → NodeInvList ds1
  | [], ds1, h, _ => by
    simp only [FinalizeDescendants, Option.some.injEq] at h
    subst h
    trivial
  | d :: rest, ds1, h, hall => by
    simp only [FinalizeDescendants] at h
    cases hd : FinalizeDescendant S maxItemsPerPrefix d with
    | none => simp [hd] at h
    | some d1 =>
      simp only [hd, Option.some_bind, Option.map_eq_some'] at h
      obtain ⟨r, hr, rfl⟩ := h
      unfold NodeInvList at hall ⊢
      exact ⟨FinalizeDescendant_nodeInv S maxItemsPerPrefix d d1 hd hall.1,
        FinalizeDescendants_nodeInv S maxItemsPerPrefix rest r hr hall.2⟩
theorem FinalizeDescendant_nodeInv (S : SliceSorter W) (maxItemsPerPrefix : Int) :
    ∀ (d d1 : SuggestTrieDescendant W),
      FinalizeDescendant S maxItemsPerPrefix d = some d1 →
      NodeInvDesc d → NodeInvDesc d1
  | .mk k b, d1, h, hall => by
    simp only [FinalizeDescendant, Option.map_eq_some'] at h
    obtain ⟨b1, hb1, rfl⟩ := h
    unfold NodeInvDesc at hall ⊢
    exact Finalize_nodeInv S maxItemsPerPrefix b b1 hb1 hall
end

/-- C19 (trie node invariant).  In every trie reachable from the empty builder by a sequence
of `Add` calls (with any class lists, duplicates included), every node has at most one bucket
per class and pairwise distinct descendant keys; the same holds in the trie that `Finalize`
leaves whenever it is run on such a trie; and `Finalize` returns for every bound that is
not negative. -/
theorem C19_node_invariant (s : SuggestTrieBuilder W) (h : Reachable s) :
    s.NodeInv ∧
      (∀ (S : SliceSorter W) (maxItemsPerPrefix : Int) (s1 : SuggestTrieBuilder W),
        s.Finalize S maxItemsPerPrefix = some s1 → s1.NodeInv) ∧
      ∀ (S : SliceSorter W) (maxItemsPerPrefix : Int), 0 ≤ maxItemsPerPrefix →
        ∃ s1, s.Finalize S maxItemsPerPrefix = some s1 := by
  obtain ⟨hk, hp⟩ := Reachable_paths s h
  have hinv := NodeInv_of_nodeAt s hk hp
  refine ⟨hinv, fun S m s1 hf => Finalize_nodeInv S m s s1 hf hinv, ?_⟩
  intro S m hm
  obtain ⟨s1, hs1, _⟩ := Finalize_allBuckets S m hm s
  exact ⟨s1, hs1⟩

/-- Witness of `C19_node_invariant`: the trie left by one `Add` call of the text "x" with
the class list ["c", "c"] and the bound 5. -/
theorem C19_node_invariant_witness :
    Reachable ((sampleItem 1 10 [120] "c" none).entry.trieOf) ∧
    ((sampleItem 1 10 [120] "c" none).entry.trieOf).NodeInv ∧
      (∀ (S : SliceSorter Int) (maxItemsPerPrefix : Int) (s1 : SuggestTrieBuilder Int),
        ((sampleItem 1 10 [120] "c" none).entry.trieOf).Finalize S maxItemsPerPrefix =
          some s1 → s1.NodeInv) ∧
      ∀ (S : SliceSorter Int) (maxItemsPerPrefix : Int), 0 ≤ maxItemsPerPrefix →
        ∃ s1, ((sampleItem 1 10 [120] "c" none).entry.trieOf).Finalize S maxItemsPerPrefix =
          some s1 :=
  ⟨Reachable.add _ _ 5 (sampleItem 1 10 [120] "c" none).entry ["c", "c"] [120]
      Reachable.empty rfl,
    C19_node_invariant _ (Reachable.add _ _ 5 (sampleItem 1 10 [120] "c" none).entry
      ["c", "c"] [120] Reachable.empty rfl)⟩

end NodeInvariant

end Suggest


namespace Suggest

section AssemblyClaims

set_option linter.unusedSectionVars false

variable {W : Type} [LinearOrder W]

/-! ## The item assembly of a query -/

/-- The item assembly at a node whose indexes are in range returns a list of working entries
with pairwise distinct indexes, one for each index that a bucket of the node references,
each carrying the classes of all the references to its index. -/
theorem assembleBuckets_entries (items : List (stpb.Item W)) (trie : stpb.SuggestTrie W)
    (hb : ∀ b ∈ trie.Items, ∀ i ∈ b.ItemIndexes, i < items.length) :
    ∃ st, assembleBuckets items trie.Items ([], []) = some st ∧
      (st.1.map (fun e => e.Item.index)).Nodup ∧
      (∀ i, (∃ b ∈ trie.Items, i ∈ b.ItemIndexes) ↔ ∃ e ∈ st.1, e.Item.index = i) ∧
      ∀ e ∈ st.1, e.Classes = classesOf trie.Items e.Item.index := by
  obtain ⟨st, hst, hinv⟩ := assembleBuckets_inv trie.Items [] ([], []) (AInv.init _) hb
  simp only [List.nil_append] at hinv
  refine ⟨st, hst, ?_, ?_, ?_⟩
  · rw [List.nodup_iff_getElem?_ne_getElem?]
    intro j k hjk hk hc
    have hj : j < (st.1.map (fun e => e.Item.index)).length := Nat.lt_trans hjk hk
    simp only [List.length_map] at hj hk
    have h1 : st.1[j]? = some st.1[j] := by simp [hj]
    have h2 : st.1[k]? = some st.1[k] := by simp [hk]
    simp only [List.getElem?_map, h1, h2, Option.map_some', Option.some.injEq] at hc
    have := hinv.index_inj h1 h2 hc
    omega
  · intro i
    rw [hinv.dom i]
    simp only [List.mem_map]
    constructor
    · rintro ⟨b, hb1, hb2⟩
      exact ⟨(b.Class, i), mem_pairsOf.2 ⟨b, hb1, rfl, hb2⟩, rfl⟩
    · rintro ⟨⟨c, j⟩, hp, hj⟩
      simp only at hj
      subst hj
      obtain ⟨b, hb1, _, hb2⟩ := mem_pairsOf.1 hp
      exact ⟨b, hb1, hb2⟩
  · intro e he
    rw [hinv.cls e he]
    simp [classesOf]

/-- C17 (no duplicate results).  On an artifact that satisfies the decode invariants every
query returns a list in which no index of the items table occurs twice; at the node where
the query collects, the item assembly makes exactly one working entry for each index that
a bucket references, however often it is referenced, the entry carries the class of every
reference in scan order, and the result is a rearrangement of the entries that pass the
class filter. -/
theorem C17_no_duplicates (S : SliceSorter W) (norm : String → String)
    (suggest : stpb.SuggestData W) (pre : List Nat)
    (requiredClasses excludedClasses : List String) (hv : suggest.valid = true) :
    ∃ r, GetSuggestItems S norm suggest pre requiredClasses excludedClasses = some r ∧
      (r.map ItemRef.index).Nodup ∧
      ∀ node trie, descend pre suggest.Trie = some (some node) → skipSingle node = some trie →
        ∃ classesItems classesItemsMap,
          assembleBuckets suggest.Items trie.Items ([], []) =
            some (classesItems, classesItemsMap) ∧
          (classesItems.map (fun e => e.Item.index)).Nodup ∧
          (∀ i, (∃ b ∈ trie.Items, i ∈ b.ItemIndexes) ↔
            ∃ e ∈ classesItems, e.Item.index = i) ∧
          (∀ e ∈ classesItems, e.Classes = classesOf trie.Items e.Item.index) ∧
          r.Perm ((classesItems.filter (fun e => itemSatisfyClasses e.Classes
            (PrepareCheckMap norm requiredClasses)
            (PrepareCheckMap norm excludedClasses))).map SuggestClassesItem.Item) := by
  obtain ⟨r, hr⟩ := GetSuggestItems_valid S norm suggest pre requiredClasses excludedClasses hv
  refine ⟨r, hr, ?_, ?_⟩
  · rcases GetSuggestItems_cases S norm suggest pre requiredClasses excludedClasses r hr with
      ⟨_, h⟩ | ⟨node, trie, hd, hs, hc⟩
    · rw [h]
      exact List.nodup_nil
    · rcases descend_valid suggest.Items.length pre suggest.Trie hv with h | ⟨node1, h, hn⟩
      · rw [h] at hd
        cases hd
      · rw [h] at hd
        cases hd
        obtain ⟨t, ht, htv⟩ := skipSingle_valid _ node hn
        rw [ht] at hs
        cases hs
        obtain ⟨r1, hr1, hnd, _⟩ := collectItems_spec S norm suggest trie requiredClasses
          excludedClasses (valid_items_bound htv)
        rw [hc] at hr1
        cases hr1
        exact hnd
  · intro node trie hd hs
    rcases descend_valid suggest.Items.length pre suggest.Trie hv with h | ⟨node1, h, hn⟩
    · rw [h] at hd
      cases hd
    · rw [h] at hd
      cases hd
      obtain ⟨t, ht, htv⟩ := skipSingle_valid _ node hn
      rw [ht] at hs
      cases hs
      obtain ⟨st, hst, h1, h2, h3⟩ := assembleBuckets_entries suggest.Items trie
        (valid_items_bound htv)
      refine ⟨st.1, st.2, hst, h1, h2, h3, ?_⟩
      rw [GetSuggestItems_of_node S norm suggest pre requiredClasses excludedClasses node trie
        h ht] at hr
      unfold collectItems at hr
      simp only [hst, Option.map_some', Option.some.injEq] at hr
      rw [← hr]
      exact S.perm _ _

/-- Witness of `C17_no_duplicates`: the artifact `twiceArtifact`, whose root references the
index 0 three times, queried with the empty prefix; the result holds the item once. -/
theorem C17_no_duplicates_witness :
    twiceArtifact.valid = true ∧
    GetSuggestItems insertionSorter id twiceArtifact [] [] [] =
      some [{ index := 0, item := fruitItem }] ∧
    ∃ r, GetSuggestItems insertionSorter id twiceArtifact [] [] [] = some r ∧
      (r.map ItemRef.index).Nodup ∧
      ∀ node trie, descend [] twiceArtifact.Trie = some (some node) →
        skipSingle node = some trie →
        ∃ classesItems classesItemsMap,
          assembleBuckets twiceArtifact.Items trie.Items ([], []) =
            some (classesItems, classesItemsMap) ∧
          (classesItems.map (fun e => e.Item.index)).Nodup ∧
          (∀ i, (∃ b ∈ trie.Items, i ∈ b.ItemIndexes) ↔
            ∃ e ∈ classesItems, e.Item.index = i) ∧
          (∀ e ∈ classesItems, e.Classes = classesOf trie.Items e.Item.index) ∧
          r.Perm ((classesItems.filter (fun e => itemSatisfyClasses e.Classes
            (PrepareCheckMap id []) (PrepareCheckMap id []))).map SuggestClassesItem.Item) :=
  ⟨by decide, by decide, C17_no_duplicates insertionSorter id twiceArtifact [] [] []
    (by decide)⟩

end AssemblyClaims

end Suggest


namespace Suggest

section BoundedHeap

set_option linter.unusedSectionVars false

variable {W : Type} [LinearOrder W]

/-! ## The bounded heap of one bucket -/

/-- The weights of a heap that is the top of the pushed entries are the largest weights
pushed. -/
theorem TopOf_weights (limit : Nat) (all h : List (SuggestTrieItem W))
    (ht : TopOf limit all h) :
    (h.map SuggestTrieItem.Weight).Perm (largest limit (all.map SuggestTrieItem.Weight)) := by
  obtain ⟨_, hlen, dropped, hperm, hdrop⟩ := ht
  haveI : IsAntisymm W (fun a b => b ≤ a) := ⟨fun a b hab hba => le_antisymm hba hab⟩
  haveI : IsTotal W (fun a b => b ≤ a) := ⟨fun a b => le_total b a⟩
  haveI : IsTrans W (fun a b => b ≤ a) := ⟨fun a b c h1 h2 => le_trans h2 h1⟩
  have hA := List.perm_insertionSort (fun a b : W => b ≤ a) (h.map SuggestTrieItem.Weight)
  have hD := List.perm_insertionSort (fun a b : W => b ≤ a)
    (dropped.map SuggestTrieItem.Weight)
  have hsA := List.sorted_insertionSort (fun a b : W => b ≤ a)
    (h.map SuggestTrieItem.Weight)
  have hsD := List.sorted_insertionSort (fun a b : W => b ≤ a)
    (dropped.map SuggestTrieItem.Weight)
  have hsorted : ((h.map SuggestTrieItem.Weight).insertionSort (fun a b => b ≤ a) ++
      (dropped.map SuggestTrieItem.Weight).insertionSort (fun a b => b ≤ a)).Sorted
        (fun a b => b ≤ a) := by
    refine List.pairwise_append.2 ⟨hsA, hsD, ?_⟩
    intro a ha d hd
    obtain ⟨y, hy, rfl⟩ := List.mem_map.1 (hA.mem_iff.1 ha)
    obtain ⟨x, hx, rfl⟩ := List.mem_map.1 (hD.mem_iff.1 hd)
    exact hdrop x hx y hy
  have hp : ((all.map SuggestTrieItem.Weight).insertionSort (fun a b => b ≤ a)).Perm
      ((h.map SuggestTrieItem.Weight).insertionSort (fun a b => b ≤ a) ++
        (dropped.map SuggestTrieItem.Weight).insertionSort (fun a b => b ≤ a)) := by
    refine (List.perm_insertionSort _ _).trans ?_
    refine ((hperm.map SuggestTrieItem.Weight).trans ?_)
    rw [List.map_append]
    exact hA.symm.append hD.symm
  have heq := List.eq_of_perm_of_sorted hp (List.sorted_insertionSort _ _) hsorted
  unfold largest
  rw [heq]
  have hlenA : ((h.map SuggestTrieItem.Weight).insertionSort (fun a b => b ≤ a)).length =
      h.length := by
    rw [hA.length_eq, List.length_map]
  have hlenall := hperm.length_eq
  rw [List.length_append] at hlenall
  by_cases hc : all.length ≤ limit
  · have hd0 : dropped = [] := by
      apply List.length_eq_zero.1
      omega
    rw [hd0]
    simp only [List.map_nil, List.insertionSort, List.append_nil]
    rw [List.take_of_length_le (by omega)]
    exact hA.symm
  · have hl : h.length = limit := by omega
    rw [List.take_left' (by rw [hlenA, hl])]
    exact hA.symm

/-- C16 (bounded heap keeps the top k).  For every bound `k ≥ 1`, every class and every
non-empty sequence of trie items added through `addItem` to the bucket of that class of a
node without buckets (the first creating the bucket, the rest pushed with the
pop-while-oversize loop), after every step `m ≥ 1` the node holds the single bucket of the
class, its array is in min-heap order on weight, it has `min(m', k)` entries for the number
`m'` of items added so far, and its weights are, as a multiset, the `min(m', k)` largest
weights of the items added so far. -/
theorem C16_bounded_heap (k : Int) (hk : 1 ≤ k) (c : String)
    (es : List (SuggestTrieItem W)) (hes : es ≠ []) (m : Nat) (hm : 1 ≤ m) :
    ∃ h, addItems k ((es.take m).map (fun e => Insertion.mk [] e [c])) [] =
        some [SuggestItems.mk c h] ∧
      IsHeap h ∧ h.length = min (es.take m).length k.toNat ∧
      (h.map SuggestTrieItem.Weight).Perm
        (largest k.toNat ((es.take m).map SuggestTrieItem.Weight)) := by
  have hne : (es.take m).map (fun e => Insertion.mk [] e [c]) ≠ [] := by
    cases es with
    | nil => exact absurd rfl hes
    | cons e es =>
      cases m with
      | zero => omega
      | succ m => simp
  obtain ⟨h, hadd, htop⟩ := addItems_single k hk c _ (by
    intro i hi
    simp only [List.mem_map] at hi
    obtain ⟨e, _, rfl⟩ := hi
    rfl) hne
  rw [List.map_map] at htop
  have htop1 : TopOf k.toNat (es.take m) h := by
    simpa [Function.comp_def] using htop
  refine ⟨h, hadd, htop1.1, htop1.2.1, TopOf_weights _ _ _ htop1⟩

/-- Witness of `C16_bounded_heap`: entries of weights 1, 3, 2 added with the bound 2, after
all three steps. -/
theorem C16_bounded_heap_witness :
    (1 : Int) ≤ 2 ∧
    [(sampleItem 1 1 [120] "c" none).entry, (sampleItem 2 3 [120] "c" none).entry,
      (sampleItem 3 2 [120] "c" none).entry] ≠ [] ∧ 1 ≤ 3 ∧
    ∃ h, addItems 2 (([(sampleItem 1 1 [120] "c" none).entry,
          (sampleItem 2 3 [120] "c" none).entry,
          (sampleItem 3 2 [120] "c" none).entry].take 3).map
            (fun e => Insertion.mk [] e ["c"])) [] =
        some [SuggestItems.mk "c" h] ∧
      IsHeap h ∧
      h.length = min ([(sampleItem 1 1 [120] "c" none).entry,
          (sampleItem 2 3 [120] "c" none).entry,
          (sampleItem 3 2 [120] "c" none).entry].take 3).length (2 : Int).toNat ∧
      (h.map SuggestTrieItem.Weight).Perm
        (largest (2 : Int).toNat (([(sampleItem 1 1 [120] "c" none).entry,
          (sampleItem 2 3 [120] "c" none).entry,
          (sampleItem 3 2 [120] "c" none).entry].take 3).map SuggestTrieItem.Weight)) :=
  ⟨by decide, by simp, by decide,
    C16_bounded_heap 2 (by decide) "c" _ (by simp) 3 (by decide)⟩

end BoundedHeap

end Suggest


namespace Suggest

section HighlightLemmas

/-! ## `strings.Index`, `strings.SplitN` and slices -/

theorem Index_spec (sep : List Nat) :
    ∀ (s : List Nat) (i : Nat), Index sep s = some i →
      s = s.take i ++ sep ++ s.drop (i + sep.length) ∧
        ∀ a1 b1, s = a1 ++ sep ++ b1 → i ≤ a1.length
  | [], i, h => by
    unfold Index at h
    by_cases hs : sep = []
    · rw [if_pos hs] at h
      cases h
      subst hs
      simp
    · rw [if_neg hs] at h
      cases h
  | c :: s, i, h => by
    unfold Index at h
    by_cases hp : sep.isPrefixOf (c :: s) = true
    · rw [if_pos hp] at h
      cases h
      rw [List.isPrefixOf_iff_prefix] at hp
      refine ⟨?_, fun _ _ _ => Nat.zero_le _⟩
      simp only [List.take_zero, List.nil_append, Nat.zero_add]
      exact (List.prefix_iff_eq_append.1 hp).symm
    · rw [if_neg hp] at h
      simp only [Option.map_eq_some'] at h
      obtain ⟨j, hj, rfl⟩ := h
      obtain ⟨h1, h2⟩ := Index_spec sep s j hj
      refine ⟨?_, ?_⟩
      · have : j + 1 + sep.length = (j + sep.length) + 1 := by omega
        rw [this]
        simp only [List.take_succ_cons, List.drop_succ_cons, List.cons_append]
        rw [← h1]
      · intro a1 b1 hab
        cases a1 with
        | nil =>
          exfalso
          apply hp
          rw [List.isPrefixOf_iff_prefix]
          exact ⟨b1, by simpa using hab.symm⟩
        | cons x a1 =>
          simp only [List.cons_append, List.cons.injEq] at hab
          have := h2 a1 b1 hab.2
          simp
          omega

theorem Index_none (sep : List Nat) :
    ∀ (s : List Nat), Index sep s = none → ∀ a1 b1, s ≠ a1 ++ sep ++ b1
  | [], h, a1, b1, hab => by
    unfold Index at h
    by_cases hs : sep = []
    · rw [if_pos hs] at h
      cases h
    · apply hs
      have := congrArg List.length hab
      simp only [List.length_nil, List.length_append] at this
      exact List.length_eq_zero.1 (by omega)
  | c :: s, h, a1, b1, hab => by
    unfold Index at h
    by_cases hp : sep.isPrefixOf (c :: s) = true
    · rw [if_pos hp] at h
      cases h
    · rw [if_neg hp] at h
      simp only [Option.map_eq_none'] at h
      cases a1 with
      | nil =>
        apply hp
        rw [List.isPrefixOf_iff_prefix]
        exact ⟨b1, by simpa using hab.symm⟩
      | cons x a1 =>
        simp only [List.cons_append, List.cons.injEq] at hab
        exact Index_none sep s h a1 b1 hab.2

theorem Index_of_first (sep s a b : List Nat) (hs : s = a ++ sep ++ b)
    (hmin : ∀ a1 b1, s = a1 ++ sep ++ b1 → a.length ≤ a1.length) :
    Index sep s = some a.length := by
  cases h : Index sep s with
  | none => exact absurd hs (Index_none sep s h a b)
  | some i =>
    obtain ⟨h1, h2⟩ := Index_spec sep s i h
    have hle := h2 a b hs
    have hge := hmin _ _ h1
    simp only [List.length_take] at hge
    congr 1
    omega

theorem SplitN2_found (sep a b : List Nat)
    (hmin : ∀ a1 b1, a ++ sep ++ b = a1 ++ sep ++ b1 → a.length ≤ a1.length) :
    SplitN2 (a ++ sep ++ b) sep = (a, some b) := by
  unfold SplitN2
  rw [Index_of_first sep _ a b rfl hmin]
  simp only [List.append_assoc, List.take_left', Prod.mk.injEq, Option.some.injEq, true_and]
  rw [← List.append_assoc, List.drop_left' (by simp)]

theorem slice_drop_take (s : List Nat) (lo n : Nat) (h : lo + n ≤ s.length) :
    slice s lo (lo + n) = some ((s.drop lo).take n) := by
  unfold slice
  rw [if_pos ⟨by omega, h⟩]
  congr 1
  rw [List.drop_take]
  congr 1
  omega

theorem ToLower_length (s : List Nat) : (ToLower s).length = s.length := by
  simp [ToLower]

theorem ToLower_take (s : List Nat) (n : Nat) : ToLower (s.take n) = (ToLower s).take n := by
  simp [ToLower, List.map_take]

theorem ToLower_drop (s : List Nat) (n : Nat) : ToLower (s.drop n) = (ToLower s).drop n := by
  simp [ToLower, List.map_drop]

theorem fieldsLoop_nonempty :
    ∀ (s cur : List Nat), ∀ f ∈ fieldsLoop cur s, f ≠ []
  | [], cur, f, hf => by
    unfold fieldsLoop at hf
    by_cases hc : cur = []
    · simp [hc] at hf
    · simp only [hc, if_false, List.mem_singleton] at hf
      subst hf
      exact hc
  | c :: rest, cur, f, hf => by
    unfold fieldsLoop at hf
    by_cases hsp : isSpace c = true
    · rw [if_pos hsp] at hf
      by_cases hc : cur = []
      · rw [if_pos hc] at hf
        exact fieldsLoop_nonempty rest [] f hf
      · rw [if_neg hc] at hf
        rcases List.mem_cons.1 hf with rfl | hf
        · exact hc
        · exact fieldsLoop_nonempty rest [] f hf
    · rw [if_neg hsp] at hf
      exact fieldsLoop_nonempty rest _ f hf

theorem Fields_nonempty (s : List Nat) : ∀ f ∈ Fields s, f ≠ [] :=
  fieldsLoop_nonempty s []

end HighlightLemmas

end Suggest


namespace Suggest

section HighlightLoop

/-! ## The loop of `doHighlight` -/

theorem slice_mid (p x q : List Nat) :
    slice (p ++ x ++ q) p.length (p.length + x.length) = some x := by
  unfold slice
  rw [if_pos ⟨by omega, by simp⟩]
  congr 1
  rw [List.take_left' (by simp), List.drop_left' rfl]

theorem slice_tail (p x : List Nat) :
    slice (p ++ x) p.length (p ++ x).length = some x := by
  have := slice_mid p x []
  simpa using this

theorem ToLower_append (s t : List Nat) : ToLower (s ++ t) = ToLower s ++ ToLower t := by
  simp [ToLower]

theorem ToLower_split (t a f b : List Nat) (h : ToLower t = a ++ f ++ b) :
    ∃ ta tf tb, t = ta ++ tf ++ tb ∧ ToLower ta = a ∧ ToLower tf = f ∧ ToLower tb = b := by
  unfold ToLower at h
  obtain ⟨l1, tb, rfl, h1, h2⟩ := List.map_eq_append_iff.1 h
  obtain ⟨ta, tf, rfl, h3, h4⟩ := List.map_eq_append_iff.1 h1
  exact ⟨ta, tf, tb, rfl, h3, h4, h2⟩

theorem ToLower_eq_nil (s : List Nat) : ToLower s = [] ↔ s = [] := by
  simp [ToLower]

/-- One turn of the loop of `doHighlight` on a field found in the rest of the suggestion:
the text is `p ++ ta ++ tf ++ tb`, the turn starts behind `p`, and the field is the lowered
form of `tf`, at its first occurrence in the lowered form of `ta ++ tf ++ tb`. -/
theorem highlightLoop_step (p ta tf tb : List Nat) (rest : List (List Nat))
    (blocks : List SuggestionTextBlock)
    (hmin : ∀ a1 b1, ToLower ta ++ ToLower tf ++ ToLower tb = a1 ++ ToLower tf ++ b1 →
      (ToLower ta).length ≤ a1.length) :
    highlightLoop (p ++ (ta ++ tf ++ tb)) (ToLower (p ++ (ta ++ tf ++ tb)))
        (ToLower tf :: rest) p.length blocks =
      highlightLoop ((p ++ ta ++ tf) ++ tb) (ToLower ((p ++ ta ++ tf) ++ tb)) rest
        (p ++ ta ++ tf).length
        (blocks ++ (if ta = [] then [] else [SuggestionTextBlock.mk ta false]) ++
          [SuggestionTextBlock.mk tf true] ++
          (if rest = [] ∧ tb ≠ [] then [SuggestionTextBlock.mk tb false] else [])) := by
  have ho : p ++ (ta ++ tf ++ tb) = (p ++ ta ++ tf) ++ tb := by simp
  have hl : ToLower (p ++ (ta ++ tf ++ tb)) =
      ToLower p ++ (ToLower ta ++ ToLower tf ++ ToLower tb) := by
    simp [ToLower_append]
  conv_lhs => unfold highlightLoop
  have hs1 : slice (ToLower (p ++ (ta ++ tf ++ tb))) p.length
      (ToLower (p ++ (ta ++ tf ++ tb))).length =
      some (ToLower ta ++ ToLower tf ++ ToLower tb) := by
    rw [hl]
    have := slice_tail (ToLower p) (ToLower ta ++ ToLower tf ++ ToLower tb)
    rwa [ToLower_length] at this
  have hA : slice (p ++ (ta ++ tf ++ tb)) p.length (p.length + (ToLower ta).length) =
      some ta := by
    have e2 : p ++ (ta ++ tf ++ tb) = p ++ ta ++ (tf ++ tb) := by simp
    rw [ToLower_length, e2]
    exact slice_mid _ _ _
  have hF : slice (p ++ (ta ++ tf ++ tb)) (p.length + (ToLower ta).length)
      (p.length + (ToLower ta).length + (ToLower tf).length) = some tf := by
    have e1 : p.length + ta.length = (p ++ ta).length := by simp only [List.length_append]
    have e2 : p ++ (ta ++ tf ++ tb) = (p ++ ta) ++ tf ++ tb := by simp
    rw [ToLower_length, ToLower_length, e1, e2]
    exact slice_mid _ _ _
  have hB : slice (p ++ (ta ++ tf ++ tb))
      (p.length + (ToLower ta).length + (ToLower tf).length)
      (p.length + (ToLower ta).length + (ToLower tf).length + (ToLower tb).length) =
      some tb := by
    have e1 : p.length + ta.length + tf.length = (p ++ ta ++ tf).length := by
      simp only [List.length_append]
    have e2 : p ++ (ta ++ tf ++ tb) = (p ++ ta ++ tf) ++ tb ++ [] := by simp
    rw [ToLower_length, ToLower_length, ToLower_length, e1, e2]
    exact slice_mid _ _ _
  have hpos : p.length + (ToLower tf).length + (ToLower ta).length = (p ++ ta ++ tf).length := by
    simp only [ToLower_length, List.length_append]
    omega
  cases rest with
  | nil =>
    simp only [hs1, Option.some_bind, SplitN2_found (ToLower tf) (ToLower ta) (ToLower tb) hmin,
      hA, hF, hB, hpos, Option.map_some', ne_eq, ToLower_eq_nil]
    rw [← ho]
    by_cases hta : ta = []
    · by_cases htb : tb = []
      · simp [hta, htb]
      · simp [hta, htb]
    · by_cases htb : tb = []
      · simp [hta, htb]
      · simp [hta, htb]
  | cons g rest =>
    simp only [hs1, Option.some_bind, SplitN2_found (ToLower tf) (ToLower ta) (ToLower tb) hmin,
      hA, hF, hpos, Option.map_some', ne_eq, ToLower_eq_nil]
    rw [← ho]
    by_cases hta : ta = []
    · simp [hta]
    · simp [hta]

end HighlightLoop

end Suggest


namespace Suggest

section HighlightClaims

/-! ## `doHighlight` -/

theorem slice_none (s : List Nat) (lo hi : Nat) (h : s.length < hi) : slice s lo hi = none := by
  unfold slice
  rw [if_neg (by omega)]

/-- One turn of the loop of `doHighlight` on a field that does not occur in the rest of the
suggestion: the slice of the highlighted block is out of range. -/
theorem highlightLoop_not_found (p t f : List Nat) (rest : List (List Nat))
    (blocks : List SuggestionTextBlock) (hf : f ≠ [])
    (h : Index f (ToLower t) = none) :
    highlightLoop (p ++ t) (ToLower (p ++ t)) (f :: rest) p.length blocks = none := by
  unfold highlightLoop
  have hs1 : slice (ToLower (p ++ t)) p.length (ToLower (p ++ t)).length =
      some (ToLower t) := by
    rw [ToLower_append]
    have := slice_tail (ToLower p) (ToLower t)
    rwa [ToLower_length] at this
  have hsp : SplitN2 (ToLower t) f = (ToLower t, none) := by
    unfold SplitN2
    rw [h]
  have hfl : 0 < f.length := List.length_pos.2 hf
  have hF : slice (p ++ t) (p.length + (ToLower t).length)
      (p.length + (ToLower t).length + f.length) = none := by
    apply slice_none
    simp only [ToLower_length, List.length_append]
    omega
  simp only [hs1, Option.some_bind, hsp, hF, Option.none_bind]
  split <;> simp

theorem highlightLoop_found :
    ∀ (fs : List (List Nat)) (p t : List Nat) (blocks : List SuggestionTextBlock),
      (∀ f ∈ fs, f ≠ []) → FieldsOccur (ToLower t) fs →
      ∃ new, highlightLoop (p ++ t) (ToLower (p ++ t)) fs p.length blocks =
          some (blocks ++ new) ∧
        (fs = [] → new = []) ∧
        (∀ b ∈ new, b.Text ≠ []) ∧
        (fs ≠ [] → (new.map SuggestionTextBlock.Text).flatten = t) ∧
        (new.filter (fun b => b.Highlight)).map (fun b => ToLower b.Text) = fs
  | [], p, t, blocks, _, _ => ⟨[], by simp [highlightLoop], fun _ => rfl, by simp, by simp, rfl⟩
  | f :: rest, p, t, blocks, hne, hocc => by
    obtain ⟨a, b, hs, hmin, hrest⟩ := hocc
    obtain ⟨ta, tf, tb, rfl, rfl, rfl, rfl⟩ := ToLower_split t a f b hs
    have hmin1 : ∀ a1 b1, ToLower ta ++ ToLower tf ++ ToLower tb = a1 ++ ToLower tf ++ b1 →
        (ToLower ta).length ≤ a1.length := by
      intro a1 b1 h1
      exact hmin a1 b1 (by rw [← h1]; simp [ToLower_append])
    have htf : tf ≠ [] := fun h0 =>
      hne (ToLower tf) (List.mem_cons_self _ _) ((ToLower_eq_nil tf).2 h0)
    rw [highlightLoop_step p ta tf tb rest blocks hmin1]
    obtain ⟨new1, hrun, hnil, htxt, hflat, hhl⟩ := highlightLoop_found rest (p ++ ta ++ tf) tb
      (blocks ++ (if ta = [] then [] else [SuggestionTextBlock.mk ta false]) ++
          [SuggestionTextBlock.mk tf true] ++
          (if rest = [] ∧ tb ≠ [] then [SuggestionTextBlock.mk tb false] else []))
      (fun g hg => hne g (List.mem_cons_of_mem _ hg)) hrest
    refine ⟨(if ta = [] then [] else [SuggestionTextBlock.mk ta false]) ++
          [SuggestionTextBlock.mk tf true] ++
          (if rest = [] ∧ tb ≠ [] then [SuggestionTextBlock.mk tb false] else []) ++ new1,
      ?_, ?_, ?_, ?_, ?_⟩
    · rw [hrun]
      simp only [List.append_assoc]
    · intro h0
      cases h0
    · intro blk hb
      simp only [List.mem_append, List.mem_singleton] at hb
      rcases hb with ((hb | hb) | hb) | hb
      · by_cases hta : ta = []
        · simp [hta] at hb
        · simp only [hta, if_false, List.mem_singleton] at hb
          subst hb
          exact hta
      · subst hb
        exact htf
      · by_cases hc : rest = [] ∧ tb ≠ []
        · rw [if_pos hc, List.mem_singleton] at hb
          subst hb
          exact hc.2
        · simp [hc] at hb
      · exact htxt blk hb
    · intro _
      by_cases hr : rest = []
      · have hn1 := hnil hr
        subst hn1
        by_cases hta : ta = [] <;> by_cases htb : tb = [] <;> simp [hr, hta, htb]
      · have hfl := hflat hr
        by_cases hta : ta = []
        · simp [hr, hta, hfl]
        · simp [hr, hta, hfl]
    · by_cases hta : ta = [] <;> by_cases hc : rest = [] ∧ tb ≠ [] <;>
        simp [hta, hc, hhl, List.filter_append, List.filter_cons]

theorem highlightLoop_some :
    ∀ (fs : List (List Nat)) (p t : List Nat) (blocks r : List SuggestionTextBlock),
      (∀ f ∈ fs, f ≠ []) →
      highlightLoop (p ++ t) (ToLower (p ++ t)) fs p.length blocks = some r →
      FieldsOccur (ToLower t) fs
  | [], _, _, _, _, _, _ => trivial
  | f :: rest, p, t, blocks, r, hne, h => by
    have hf := hne f (List.mem_cons_self _ _)
    cases hI : Index f (ToLower t) with
    | none =>
      rw [highlightLoop_not_found p t f rest blocks hf hI] at h
      cases h
    | some i =>
      obtain ⟨h1, h2⟩ := Index_spec f (ToLower t) i hI
      obtain ⟨ta, tf, tb, rfl, hta, rfl, htb⟩ := ToLower_split t _ f _ h1
      have hmin1 : ∀ a1 b1, ToLower ta ++ ToLower tf ++ ToLower tb = a1 ++ ToLower tf ++ b1 →
          (ToLower ta).length ≤ a1.length := by
        intro a1 b1 hab
        have := h2 a1 b1 (by rw [← hab]; simp [ToLower_append])
        rw [hta, List.length_take]
        omega
      rw [highlightLoop_step p ta tf tb rest blocks hmin1] at h
      have ih := highlightLoop_some rest (p ++ ta ++ tf) tb _ r
        (fun g hg => hne g (List.mem_cons_of_mem _ hg)) h
      refine ⟨ToLower ta, ToLower tb, by simp [ToLower_append], ?_, ih⟩
      intro a1 b1 hab
      exact hmin1 a1 b1 (by rw [← hab]; simp [ToLower_append])

/-- A field found by `strings.Index` occurs at its first occurrence. -/
theorem FieldsOccur_cons (f s : List Nat) (i : Nat) (rest : List (List Nat))
    (h : Index f s = some i) (hr : FieldsOccur (s.drop (i + f.length)) rest) :
    FieldsOccur s (f :: rest) := by
  obtain ⟨h1, h2⟩ := Index_spec f s i h
  refine ⟨s.take i, s.drop (i + f.length), h1, ?_, hr⟩
  intro a1 b1 hab
  have := h2 a1 b1 hab
  rw [List.length_take]
  omega

/-- C11 (highlight segmentation).  For every ASCII `originalSuggest` and every
`originalPart` whose lowered alpha-normalized fields `f1..fn`, `n ≥ 1`, occur in that order
in the lowered suggestion, each found at its first occurrence after the previous match,
`doHighlight` returns blocks whose texts are all non-empty and concatenate to
`originalSuggest`, and whose highlighted blocks, lowered, are `f1..fn` in this order. -/
theorem C11_highlight_segmentation (AlphaNormalizeString : List Nat → List Nat)
    (originalPart originalSuggest : List Nat)
    (_hascii : ∀ c ∈ originalSuggest, c < 128)
    (hn : Fields (ToLower (AlphaNormalizeString originalPart)) ≠ [])
    (hocc : FieldsOccur (ToLower originalSuggest)
      (Fields (ToLower (AlphaNormalizeString originalPart)))) :
    ∃ blocks, doHighlight AlphaNormalizeString originalPart originalSuggest = some blocks ∧
      (∀ b ∈ blocks, b.Text ≠ []) ∧
      (blocks.map SuggestionTextBlock.Text).flatten = originalSuggest ∧
      (blocks.filter (fun b => b.Highlight)).map (fun b => ToLower b.Text) =
        Fields (ToLower (AlphaNormalizeString originalPart)) := by
  obtain ⟨new, hrun, _, htxt, hflat, hhl⟩ := highlightLoop_found
    (Fields (ToLower (AlphaNormalizeString originalPart))) [] originalSuggest []
    (Fields_nonempty _) hocc
  refine ⟨new, ?_, htxt, hflat hn, hhl⟩
  unfold doHighlight
  simpa using hrun

/-- Witness of `C11_highlight_segmentation`: the part "Ap pi" on the suggestion
"Apple Pie", which gives "Ap" highlighted, "ple ", "Pi" highlighted, "e". -/
theorem C11_highlight_segmentation_witness :
    (∀ c ∈ [65, 112, 112, 108, 101, 32, 80, 105, 101], c < 128) ∧
    Fields (ToLower (id [65, 112, 32, 112, 105])) ≠ [] ∧
    doHighlight id [65, 112, 32, 112, 105] [65, 112, 112, 108, 101, 32, 80, 105, 101] =
      some [SuggestionTextBlock.mk [65, 112] true,
        SuggestionTextBlock.mk [112, 108, 101, 32] false,
        SuggestionTextBlock.mk [80, 105] true, SuggestionTextBlock.mk [101] false] ∧
    ∃ blocks, doHighlight id [65, 112, 32, 112, 105]
        [65, 112, 112, 108, 101, 32, 80, 105, 101] = some blocks ∧
      (∀ b ∈ blocks, b.Text ≠ []) ∧
      (blocks.map SuggestionTextBlock.Text).flatten =
        [65, 112, 112, 108, 101, 32, 80, 105, 101] ∧
      (blocks.filter (fun b => b.Highlight)).map (fun b => ToLower b.Text) =
        Fields (ToLower (id [65, 112, 32, 112, 105])) :=
  ⟨by decide, by decide, by decide,
    C11_highlight_segmentation id [65, 112, 32, 112, 105]
      [65, 112, 112, 108, 101, 32, 80, 105, 101] (by decide) (by decide)
      (FieldsOccur_cons [97, 112] [97, 112, 112, 108, 101, 32, 112, 105, 101] 0 _ (by decide)
        (FieldsOccur_cons [112, 105] [112, 108, 101, 32, 112, 105, 101] 4 _ (by decide)
          trivial))⟩

/-- C12 (highlight never crashes) fails on the code.  The part "zz" has the single field
"zz", which does not occur in "apple": `SplitN` returns the whole lowered suggestion as its
only part, and `doHighlight` on the suggestion "Apple" takes the slice `originalSuggest[5:7]`
for the highlighted block, which is out of range.  The same failure reaches `GetSuggest`: for
the item with original text "AT&T" and normalized text "att" the item query for "att"
returns the item, and the highlighting of the part "att" on "AT&T" fails. -/
theorem C12_highlight_crash :
    Fields (ToLower (id [122, 122])) = [[122, 122]] ∧
    Index [122, 122] (ToLower [65, 112, 112, 108, 101]) = none ∧
    SplitN2 (ToLower [65, 112, 112, 108, 101]) [122, 122] =
      ([97, 112, 112, 108, 101], none) ∧
    slice [65, 112, 112, 108, 101] 5 7 = none ∧
    doHighlight id [122, 122] [65, 112, 112, 108, 101] = none ∧
    ((BuildSuggest insertionSorter id
        [{ sampleItem 1 10 [97, 116, 116] "c" none with OriginalText := [65, 84, 38, 84] }]
        5 1).bind
      (fun data => GetSuggestItems insertionSorter id data [97, 116, 116] [] [])).map
        (fun r => r.map (fun x => x.item.OriginalText)) = some [[65, 84, 38, 84]] ∧
    ((BuildSuggest insertionSorter id
        [{ sampleItem 1 10 [97, 116, 116] "c" none with OriginalText := [65, 84, 38, 84] }]
        5 1).bind
      (fun data => GetSuggest insertionSorter id id data [97, 116, 116] [97, 116, 116]
        [] [])).isSome = false := by
  refine ⟨by decide, by decide, by decide, by decide, by decide, by decide, by decide⟩

end HighlightClaims

end Suggest


namespace Suggest

section InternTable

set_option linter.unusedSectionVars false

variable {W : Type} [LinearOrder W]

/-! ## The items table of the serializer -/

theorem ptrIndex_of_get (p : Nat) :
    ∀ (l : List (Item W)) (i : Nat) (x : Item W), (l.map Item.ptr).Nodup → l[i]? = some x →
      x.ptr = p → ptrIndex l p = some i
  | [], i, x, _, h, _ => by simp at h
  | y :: l, 0, x, _, h, hp => by
    simp only [List.getElem?_cons_zero, Option.some.injEq] at h
    subst h
    simp [ptrIndex, hp]
  | y :: l, i + 1, x, hnd, h, hp => by
    simp only [List.getElem?_cons_succ] at h
    simp only [List.map_cons, List.nodup_cons] at hnd
    have hy : ¬ y.ptr = p := by
      intro hy
      apply hnd.1
      rw [hy, ← hp]
      exact List.mem_map.2 ⟨x, List.mem_iff_getElem?.2 ⟨i, h⟩, rfl⟩
    unfold ptrIndex
    rw [if_neg hy, ptrIndex_of_get p l i x hnd.2 h hp]
    rfl

theorem transformItems_state :
    ∀ (entries : List (SuggestTrieItem W)) (pt : ProtoTransformer W) (ci : stpb.ClassItems W),
      (pt.transformItems ci entries).1 =
        (entries.map SuggestTrieItem.OriginalItem).foldl ProtoTransformer.intern pt
  | [], pt, ci => rfl
  | e :: rest, pt, ci => by
    simp only [ProtoTransformer.transformItems, List.map_cons, List.foldl_cons]
    exact transformItems_state rest _ _

theorem transformBuckets_state :
    ∀ (bs : List (SuggestItems W)) (pt : ProtoTransformer W),
      (pt.transformBuckets bs).1 =
        (bs.flatMap (fun b => b.Suggest.map SuggestTrieItem.OriginalItem)).foldl
          ProtoTransformer.intern pt
  | [], pt => rfl
  | b :: rest, pt => by
    simp only [ProtoTransformer.transformBuckets, List.flatMap_cons, List.foldl_append]
    rw [transformBuckets_state rest, transformItems_state]

mutual
theorem TransformTrie_state :
    ∀ (s : SuggestTrieBuilder W) (pt : ProtoTransformer W),
      (pt.TransformTrie s).1 = s.encounter.foldl ProtoTransformer.intern pt
  | .mk ds bs, pt => by
    simp only [ProtoTransformer.TransformTrie, SuggestTrieBuilder.encounter, List.foldl_append]
    rw [transformBuckets_state, TransformDescendants_state ds pt]
theorem TransformDescendants_state :
    ∀ (ds : List (SuggestTrieDescendant W)) (pt : ProtoTransformer W),
      (TransformDescendants pt ds).1 = (encounterList ds).foldl ProtoTransformer.intern pt
  | [], pt => rfl
  | d :: rest, pt => by
    simp only [TransformDescendants, encounterList, List.foldl_append]
    rw [TransformDescendants_state rest, TransformDescendant_state d pt]
theorem TransformDescendant_state :
    ∀ (d : SuggestTrieDescendant W) (pt : ProtoTransformer W),
      (TransformDescendant pt d).1 = (encounterDesc d).foldl ProtoTransformer.intern pt
  | .mk k b, pt => by
    simp only [TransformDescendant, encounterDesc]
    exact TransformTrie_state b pt
end

mutual
theorem AllBuckets_of_forall (P : SuggestItems W → Prop) (h : ∀ b, P b) :
    ∀ (s : SuggestTrieBuilder W), s.AllBuckets P
  | .mk ds bs => by
    unfold SuggestTrieBuilder.AllBuckets
    exact ⟨fun b _ => h b, AllBucketsList_of_forall P h ds⟩
theorem AllBucketsList_of_forall (P : SuggestItems W → Prop) (h : ∀ b, P b) :
    ∀ (ds : List (SuggestTrieDescendant W)), AllBucketsList P ds
  | [] => trivial
  | d :: rest => by
    unfold AllBucketsList
    exact ⟨AllBucketsDesc_of_forall P h d, AllBucketsList_of_forall P h rest⟩
theorem AllBucketsDesc_of_forall (P : SuggestItems W → Prop) (h : ∀ b, P b) :
    ∀ (d : SuggestTrieDescendant W), AllBucketsDesc P d
  | .mk k b => by
    unfold AllBucketsDesc
    exact AllBuckets_of_forall P h b
end

mutual
theorem AllBuckets_of_encounter (P : Item W → Prop) :
    ∀ (s : SuggestTrieBuilder W), (∀ x ∈ s.encounter, P x) →
      s.AllBuckets (fun b => ∀ e ∈ b.Suggest, P e.OriginalItem)
  | .mk ds bs, h => by
    unfold SuggestTrieBuilder.AllBuckets
    simp only [SuggestTrieBuilder.encounter, List.mem_append, List.mem_flatMap,
      List.mem_map] at h
    refine ⟨fun b hb e he => h _ (Or.inr ⟨b, hb, e, he, rfl⟩), ?_⟩
    exact AllBucketsList_of_encounter P ds (fun x hx => h x (Or.inl hx))
theorem AllBucketsList_of_encounter (P : Item W → Prop) :
    ∀ (ds : List (SuggestTrieDescendant W)), (∀ x ∈ encounterList ds, P x) →
      AllBucketsList (fun b => ∀ e ∈ b.Suggest, P e.OriginalItem) ds
  | [], _ => trivial
  | d :: rest, h => by
    unfold AllBucketsList
    simp only [encounterList, List.mem_append] at h
    exact ⟨AllBucketsDesc_of_encounter P d (fun x hx => h x (Or.inl hx)),
      AllBucketsList_of_encounter P rest (fun x hx => h x (Or.inr hx))⟩
theorem AllBucketsDesc_of_encounter (P : Item W → Prop) :
    ∀ (d : SuggestTrieDescendant W), (∀ x ∈ encounterDesc d, P x) →
      AllBucketsDesc (fun b => ∀ e ∈ b.Suggest, P e.OriginalItem) d
  | .mk k b, h => by
    unfold AllBucketsDesc
    exact AllBuckets_of_encounter P b h
end

end InternTable

end Suggest


namespace Suggest

section ReferenceLemmas

set_option linter.unusedSectionVars false

variable {W : Type} [LinearOrder W]

/-! ## The reference finalization -/

theorem FinalizeReferenceDescendants_forall₂ (S : SliceSorter W) (maxItemsPerPrefix : Int) :
    ∀ (ds ds1 : List (SuggestTrieDescendant W)),
      FinalizeReferenceDescendants S maxItemsPerPrefix ds = some ds1 →
      List.Forall₂ (fun d d1 => d1.Key = d.Key ∧
        d.Builder.FinalizeReference S maxItemsPerPrefix = some d1.Builder) ds ds1
  | [], ds1, h => by
    simp only [FinalizeReferenceDescendants, Option.some.injEq] at h
    subst h
    exact List.Forall₂.nil
  | .mk k b :: rest, ds1, h => by
    simp only [FinalizeReferenceDescendants, FinalizeReferenceDescendant] at h
    cases hb : SuggestTrieBuilder.FinalizeReference S maxItemsPerPrefix b with
    | none => simp [hb] at h
    | some b1 =>
      simp only [hb, Option.map_some', Option.some_bind, Option.map_eq_some'] at h
      obtain ⟨r, hr, rfl⟩ := h
      exact List.Forall₂.cons ⟨rfl, hb⟩
        (FinalizeReferenceDescendants_forall₂ S maxItemsPerPrefix rest r hr)

theorem FinalizeReference_mk (S : SliceSorter W) (maxItemsPerPrefix : Int)
    (ds : List (SuggestTrieDescendant W)) (bs : List (SuggestItems W))
    (s1 : SuggestTrieBuilder W)
    (h : (SuggestTrieBuilder.mk ds bs).FinalizeReference S maxItemsPerPrefix = some s1) :
    ∃ ds1 bs1, s1 = .mk ds1 bs1 ∧
      finalizeBuckets S maxItemsPerPrefix bs = some bs1 ∧
      List.Forall₂ (fun d d1 => d1.Key = d.Key ∧
        d.Builder.FinalizeReference S maxItemsPerPrefix = some d1.Builder) ds ds1 := by
  simp only [SuggestTrieBuilder.FinalizeReference] at h
  cases hb : finalizeBuckets S maxItemsPerPrefix bs with
  | none => simp [hb] at h
  | some bs1 =>
    simp only [hb, Option.some_bind, Option.map_eq_some'] at h
    obtain ⟨ds1, hds1, rfl⟩ := h
    exact ⟨ds1, bs1, rfl, rfl,
      FinalizeReferenceDescendants_forall₂ S maxItemsPerPrefix ds ds1 hds1⟩

theorem childOf_rel (Rb : SuggestTrieBuilder W → SuggestTrieBuilder W → Prop) (c : Nat) :
    ∀ (ds ds1 : List (SuggestTrieDescendant W)),
      List.Forall₂ (fun d d1 => d1.Key = d.Key ∧ Rb d.Builder d1.Builder) ds ds1 →
      (childOf c ds = none → childOf c ds1 = none) ∧
        ∀ b, childOf c ds = some b → ∃ b1, childOf c ds1 = some b1 ∧ Rb b b1
  | _, _, List.Forall₂.nil => by simp [childOf]
  | d :: rest, d1 :: rest1, List.Forall₂.cons h1 h2 => by
    have ih := childOf_rel Rb c rest rest1 h2
    unfold childOf
    rw [h1.1]
    by_cases hk : d.Key = c
    · simp only [hk, if_true]
      refine ⟨fun h => (by cases h), ?_⟩
      intro b hb
      simp only [Option.some.injEq] at hb
      subst hb
      exact ⟨_, rfl, h1.2⟩
    · simp only [hk, if_false]
      exact ih

theorem FinalizeReference_nodeAt (S : SliceSorter W) (maxItemsPerPrefix : Int) :
    ∀ (q : List Nat) (s s1 : SuggestTrieBuilder W),
      s.FinalizeReference S maxItemsPerPrefix = some s1 →
      (s.nodeAt q = none → s1.nodeAt q = none) ∧
        ∀ n, s.nodeAt q = some n →
          ∃ n1, s1.nodeAt q = some n1 ∧ n.FinalizeReference S maxItemsPerPrefix = some n1
  | [], s, s1, h => by
    refine ⟨fun hc => by simp [nodeAt_nil] at hc, ?_⟩
    intro n hn
    simp only [nodeAt_nil, Option.some.injEq] at hn
    subst hn
    exact ⟨s1, rfl, h⟩
  | c :: q, .mk ds bs, s1, h => by
    obtain ⟨ds1, bs1, rfl, _, hf⟩ := FinalizeReference_mk S maxItemsPerPrefix ds bs s1 h
    obtain ⟨h1, h2⟩ := childOf_rel
      (fun b b1 => b.FinalizeReference S maxItemsPerPrefix = some b1) c ds ds1 hf
    simp only [nodeAt_cons, Descendants_mk]
    cases hc : childOf c ds with
    | none =>
      refine ⟨fun _ => ?_, fun n hn => ?_⟩
      · simp [h1 hc]
      · simp at hn
    | some b =>
      obtain ⟨b1, g1, g2⟩ := h2 b hc
      simp only [g1, Option.some_bind]
      exact FinalizeReference_nodeAt S maxItemsPerPrefix q b b1 g2

mutual
theorem FinalizeReference_spec (S : SliceSorter W) (maxItemsPerPrefix : Int)
    (hmax : 0 ≤ maxItemsPerPrefix) (P Q : SuggestItems W → Prop)
    (hPQ : ∀ b b1, P b → finalizeBucket S maxItemsPerPrefix b = some b1 → Q b1) :
    ∀ (s : SuggestTrieBuilder W), s.AllBuckets P →
      ∃ s1, s.FinalizeReference S maxItemsPerPrefix = some s1 ∧ s1.AllBuckets Q
  | .mk ds bs, hall => by
    unfold SuggestTrieBuilder.AllBuckets at hall
    obtain ⟨bs1, hbs1, hf⟩ := finalizeBuckets_spec S maxItemsPerPrefix hmax bs
    obtain ⟨ds1, hds1, hq⟩ := FinalizeReferenceDescendants_spec S maxItemsPerPrefix hmax P Q hPQ
      ds hall.2
    refine ⟨.mk ds1 bs1, by simp [SuggestTrieBuilder.FinalizeReference, hbs1, hds1], ?_⟩
    unfold SuggestTrieBuilder.AllBuckets
    refine ⟨?_, hq⟩
    intro b1 hb1
    obtain ⟨b, hb, hfb⟩ := forall₂_mem_right hf b1 hb1
    exact hPQ b b1 (hall.1 b hb) hfb
theorem FinalizeReferenceDescendants_spec (S : SliceSorter W) (maxItemsPerPrefix : Int)
    (hmax : 0 ≤ maxItemsPerPrefix) (P Q : SuggestItems W → Prop)
    (hPQ : ∀ b b1, P b → finalizeBucket S maxItemsPerPrefix b = some b1 → Q b1) :
    ∀ (ds : List (SuggestTrieDescendant W)), AllBucketsList P ds →
      ∃ ds1, FinalizeReferenceDescendants S maxItemsPerPrefix ds = some ds1 ∧
        AllBucketsList Q ds1
  | [], _ => ⟨[], rfl, trivial⟩
  | d :: rest, hall => by
    unfold AllBucketsList at hall
    obtain ⟨d1, hd1, hq1⟩ := FinalizeReferenceDescendant_spec S maxItemsPerPrefix hmax P Q hPQ
      d hall.1
    obtain ⟨r, hr, hq⟩ := FinalizeReferenceDescendants_spec S maxItemsPerPrefix hmax P Q hPQ
      rest hall.2
    refine ⟨d1 :: r, by simp [FinalizeReferenceDescendants, hd1, hr], ?_⟩
    unfold AllBucketsList
    exact ⟨hq1, hq⟩
theorem FinalizeReferenceDescendant_spec (S : SliceSorter W) (maxItemsPerPrefix : Int)
    (hmax : 0 ≤ maxItemsPerPrefix) (P Q : SuggestItems W → Prop)
    (hPQ : ∀ b b1, P b → finalizeBucket S maxItemsPerPrefix b = some b1 → Q b1) :
    ∀ (d : SuggestTrieDescendant W), AllBucketsDesc P d →
      ∃ d1, FinalizeReferenceDescendant S maxItemsPerPrefix d = some d1 ∧
        AllBucketsDesc Q d1
  | .mk k b, hall => by
    unfold AllBucketsDesc at hall
    obtain ⟨b1, hb1, hq⟩ := FinalizeReference_spec S maxItemsPerPrefix hmax P Q hPQ b hall
    refine ⟨.mk k b1, by simp [FinalizeReferenceDescendant, hb1], ?_⟩
    unfold AllBucketsDesc
    exact hq
end

/-- The structure of a reference artifact, over the trie `s` that the insertion phase
leaves. -/
theorem BuildSuggestReference_spec [Mul W] (S : SliceSorter W) (norm : String → String)
    (items : List (Item W)) (hsize : items.length ≤ 2 ^ 32) (maxItemsPerPrefix : Int)
    (hmax : 0 ≤ maxItemsPerPrefix) (pwf : W) (s : SuggestTrieBuilder W)
    (hs : addAll (wrapInt (maxItemsPerPrefix * 2)) (insertions norm pwf items) (.mk [] []) =
      some s) :
    ∃ (ref : stpb.SuggestData W) (s1 : SuggestTrieBuilder W) (look : Nat → Option Nat),
      BuildSuggestReference S norm items maxItemsPerPrefix pwf = some ref ∧
      s.FinalizeReference S maxItemsPerPrefix = some s1 ∧ Mirror look s1 ref.Trie ∧
      (∀ p i, look p = some i → ∃ x ∈ items, x.ptr = p ∧ ref.Items[i]? = some x.toProto) ∧
      (∀ p1 p2 i, look p1 = some i → look p2 = some i → p1 = p2) := by
  have hempty : (SuggestTrieBuilder.mk ([] : List (SuggestTrieDescendant W)) []).NodupKeys := by
    rw [NodupKeys_mk]
    simp
  obtain ⟨hnd, _⟩ := addAll_spec _ _ _ s hempty hs
  have hall : s.AllBuckets (fun b => ∀ e ∈ b.Suggest, e.OriginalItem ∈ items) := by
    apply AllBuckets_of_nodeAt _ s hnd
    intro q n hn b hb e he
    obtain ⟨i, hi, rfl, _, _⟩ := built_entries _ _ s hs q n hn b hb e he
    obtain ⟨x, hx, hix⟩ := (mem_insertions norm pwf items i).1 hi
    rw [(mem_insertionsOf norm pwf x i hix).1]
    exact hx
  obtain ⟨s1, hs1, hall1⟩ := FinalizeReference_spec S maxItemsPerPrefix hmax _
    (fun b => ∀ e ∈ b.Suggest, e.OriginalItem ∈ items) (by
      intro b b1 hb hfb e he
      exact hb e ((finalizeBucket_sub S maxItemsPerPrefix b b1 hfb).2 e he)) s hall
  have hB : ∀ pt : ProtoTransformer W, PtInv (fun x => x ∈ items) pt →
      pt.Items.length ≤ 2 ^ 32 := fun pt hpt =>
    Nat.le_trans (PtInv.length_le _ items (fun _ hx => hx) pt hpt) hsize
  obtain ⟨hinv, _, hm⟩ := TransformTrie_spec (fun x => x ∈ items) hB s1 NewProtoTransformer
    (PtInv.fresh _) hall1
  refine ⟨Transform s1, s1, _, ?_, hs1, hm, ?_, ?_⟩
  · unfold BuildSuggestReference
    rw [addSuggestItems_eq_addAll, hs]
    simp [hs1]
  · intro p i hp
    exact hinv.item p i hp
  · intro p1 p2 i h1 h2
    exact hinv.inj p1 p2 i h1 h2

end ReferenceLemmas

end Suggest


namespace Suggest

section AssemblySimulation

set_option linter.unusedSectionVars false

variable {W : Type} [LinearOrder W]

/-! ## Two item assemblies over corresponding indexes -/

theorem appendClass_sim (ρ : Nat → Nat → Prop) (c : String) :
    ∀ (k : Nat) (l l1 r : List (SuggestClassesItem W)),
      List.Forall₂ (EntryRel ρ) l l1 → appendClass c k l = some r →
      ∃ r1, appendClass c k l1 = some r1 ∧ List.Forall₂ (EntryRel ρ) r r1
  | _, [], [], r, _, h => by simp [appendClass] at h
  | 0, e :: rest, e1 :: rest1, r, List.Forall₂.cons h1 h2, h => by
    simp only [appendClass, Option.some.injEq] at h
    subst h
    refine ⟨_, rfl, List.Forall₂.cons ?_ h2⟩
    exact ⟨by rw [h1.1], h1.2.1, h1.2.2⟩
  | k + 1, e :: rest, e1 :: rest1, r, List.Forall₂.cons h1 h2, h => by
    simp only [appendClass, Option.map_eq_some'] at h
    obtain ⟨r0, hr0, rfl⟩ := h
    obtain ⟨r1, hr1, hf⟩ := appendClass_sim ρ c k rest rest1 r0 h2 hr0
    exact ⟨e1 :: r1, by simp [appendClass, hr1], List.Forall₂.cons h1 hf⟩

theorem assembleIndex_sim (ρ : Nat → Nat → Prop)
    (hbi : ∀ i i1 j j1, ρ i i1 → ρ j j1 → (i = j ↔ i1 = j1))
    (items items1 : List (stpb.Item W))
    (htab : ∀ i i1, ρ i i1 → items[i]? = items1[i1]?) (c : String)
    (st st1 : List (SuggestClassesItem W) × List (Nat × Nat))
    (hsim : List.Forall₂ (EntryRel ρ) st.1 st1.1)
    (hmap : ∀ i i1, ρ i i1 → st.2.lookup i = st1.2.lookup i1)
    (i i1 : Nat) (hi : ρ i i1) (res : List (SuggestClassesItem W) × List (Nat × Nat))
    (h : assembleIndex items c st i = some res) :
    ∃ res1, assembleIndex items1 c st1 i1 = some res1 ∧
      List.Forall₂ (EntryRel ρ) res.1 res1.1 ∧
      ∀ j j1, ρ j j1 → res.2.lookup j = res1.2.lookup j1 := by
  unfold assembleIndex at h ⊢
  rw [← hmap i i1 hi]
  cases hl : st.2.lookup i with
  | some k =>
    simp only [hl, Option.map_eq_some'] at h ⊢
    obtain ⟨r, hr, rfl⟩ := h
    obtain ⟨r1, hr1, hf⟩ := appendClass_sim ρ c k st.1 st1.1 r hsim hr
    exact ⟨(r1, st1.2), ⟨r1, hr1, rfl⟩, hf, hmap⟩
  | none =>
    simp only [hl] at h ⊢
    rw [← htab i i1 hi]
    cases hit : items[i]? with
    | none => simp [hit] at h
    | some it =>
      simp only [hit, Option.map_eq_some'] at h ⊢
      obtain ⟨r, hr, rfl⟩ := h
      have hlen : st1.1.length = st.1.length := hsim.length_eq.symm
      have hf0 : List.Forall₂ (EntryRel ρ)
          (st.1 ++ [SuggestClassesItem.mk [] (ItemRef.mk i it)])
          (st1.1 ++ [SuggestClassesItem.mk [] (ItemRef.mk i1 it)]) :=
        List.rel_append hsim (List.Forall₂.cons ⟨rfl, rfl, hi⟩ List.Forall₂.nil)
      obtain ⟨r1, hr1, hf⟩ := appendClass_sim ρ c st.1.length _ _ r hf0 hr
      refine ⟨(r1, st1.2 ++ [(i1, st1.1.length)]), ⟨r1, by rw [hlen]; exact hr1, rfl⟩, hf, ?_⟩
      intro j j1 hj
      simp only [List.lookup_append, hmap j j1 hj, hlen]
      congr 1
      by_cases hji : j = i
      · have : j1 = i1 := (hbi j j1 i i1 hj hi).1 hji
        subst hji
        subst this
        simp [List.lookup]
      · have hne : ¬ j1 = i1 := fun hc => hji ((hbi j j1 i i1 hj hi).2 hc)
        have e1 : (j == i) = false := by simpa using hji
        have e2 : (j1 == i1) = false := by simpa using hne
        simp [List.lookup, e1, e2]

theorem assembleIndexes_sim (ρ : Nat → Nat → Prop)
    (hbi : ∀ i i1 j j1, ρ i i1 → ρ j j1 → (i = j ↔ i1 = j1))
    (items items1 : List (stpb.Item W))
    (htab : ∀ i i1, ρ i i1 → items[i]? = items1[i1]?) (c : String) :
    ∀ (idxs idxs1 : List Nat), List.Forall₂ ρ idxs idxs1 →
      ∀ (st st1 res : List (SuggestClassesItem W) × List (Nat × Nat)),
        List.Forall₂ (EntryRel ρ) st.1 st1.1 →
        (∀ i i1, ρ i i1 → st.2.lookup i = st1.2.lookup i1) →
        assembleIndexes items c idxs st = some res →
        ∃ res1, assembleIndexes items1 c idxs1 st1 = some res1 ∧
          List.Forall₂ (EntryRel ρ) res.1 res1.1 ∧
          ∀ j j1, ρ j j1 → res.2.lookup j = res1.2.lookup j1
  | [], [], List.Forall₂.nil, st, st1, res, hsim, hmap, h => by
    simp only [assembleIndexes, Option.some.injEq] at h
    subst h
    exact ⟨st1, rfl, hsim, hmap⟩
  | i :: idxs, i1 :: idxs1, List.Forall₂.cons h1 h2, st, st1, res, hsim, hmap, h => by
    simp only [assembleIndexes] at h ⊢
    cases ha : assembleIndex items c st i with
    | none => simp [ha] at h
    | some mid =>
      simp only [ha, Option.some_bind] at h
      obtain ⟨mid1, hm1, g1, g2⟩ := assembleIndex_sim ρ hbi items items1 htab c st st1 hsim
        hmap i i1 h1 mid ha
      simp only [hm1, Option.some_bind]
      exact assembleIndexes_sim ρ hbi items items1 htab c idxs idxs1 h2 mid mid1 res g1 g2 h

theorem assembleBuckets_sim (ρ : Nat → Nat → Prop)
    (hbi : ∀ i i1 j j1, ρ i i1 → ρ j j1 → (i = j ↔ i1 = j1))
    (items items1 : List (stpb.Item W))
    (htab : ∀ i i1, ρ i i1 → items[i]? = items1[i1]?) :
    ∀ (bs bs1 : List (stpb.ClassItems W)),
      List.Forall₂ (fun b b1 => b.Class = b1.Class ∧
        List.Forall₂ ρ b.ItemIndexes b1.ItemIndexes) bs bs1 →
      ∀ (st st1 res : List (SuggestClassesItem W) × List (Nat × Nat)),
        List.Forall₂ (EntryRel ρ) st.1 st1.1 →
        (∀ i i1, ρ i i1 → st.2.lookup i = st1.2.lookup i1) →
        assembleBuckets items bs st = some res →
        ∃ res1, assembleBuckets items1 bs1 st1 = some res1 ∧
          List.Forall₂ (EntryRel ρ) res.1 res1.1
  | [], [], List.Forall₂.nil, st, st1, res, hsim, _, h => by
    simp only [assembleBuckets, Option.some.injEq] at h
    subst h
    exact ⟨st1, rfl, hsim⟩
  | b :: bs, b1 :: bs1, List.Forall₂.cons h1 h2, st, st1, res, hsim, hmap, h => by
    simp only [assembleBuckets] at h ⊢
    cases ha : assembleIndexes items b.Class b.ItemIndexes st with
    | none => simp [ha] at h
    | some mid =>
      simp only [ha, Option.some_bind] at h
      obtain ⟨mid1, hm1, g1, g2⟩ := assembleIndexes_sim ρ hbi items items1 htab b.Class
        b.ItemIndexes b1.ItemIndexes h1.2 st st1 mid hsim hmap ha
      rw [← h1.1]
      simp only [hm1, Option.some_bind]
      exact assembleBuckets_sim ρ hbi items items1 htab bs bs1 h2 mid mid1 res g1 g2 h

theorem forall₂_filter {α β : Type} {R : α → β → Prop} (P : α → Bool) (Q : β → Bool)
    (hPQ : ∀ a b, R a b → P a = Q b) :
    ∀ {l : List α} {r : List β}, List.Forall₂ R l r →
      List.Forall₂ R (l.filter P) (r.filter Q)
  | [], [], List.Forall₂.nil => List.Forall₂.nil
  | a :: l, b :: r, List.Forall₂.cons h1 h2 => by
    have ih := forall₂_filter P Q hPQ h2
    simp only [List.filter_cons, ← hPQ a b h1]
    cases P a with
    | true => exact List.Forall₂.cons h1 ih
    | false => exact ih

/-- Two nodes whose buckets hold corresponding indexes, over tables that agree on
corresponding indexes, give the same sequence of items. -/
theorem collectItems_sim (S : SliceSorter W) (hS : S.Natural) (norm : String → String)
    (data ref : stpb.SuggestData W) (N N1 : stpb.SuggestTrie W)
    (req excl : List String) (ρ : Nat → Nat → Prop)
    (hbi : ∀ i i1 j j1, ρ i i1 → ρ j j1 → (i = j ↔ i1 = j1))
    (htab : ∀ i i1, ρ i i1 → data.Items[i]? = ref.Items[i1]?)
    (hb : List.Forall₂ (fun b b1 => b.Class = b1.Class ∧
      List.Forall₂ ρ b.ItemIndexes b1.ItemIndexes) N.Items N1.Items)
    (r : List (ItemRef W)) (h : collectItems S norm data N req excl = some r) :
    ∃ rr, collectItems S norm ref N1 req excl = some rr ∧
      r.map ItemRef.item = rr.map ItemRef.item := by
  unfold collectItems at h ⊢
  cases hst : assembleBuckets data.Items N.Items ([], []) with
  | none => simp [hst] at h
  | some st =>
    simp only [hst, Option.map_some', Option.some.injEq] at h
    obtain ⟨st1, hst1, hf⟩ := assembleBuckets_sim ρ hbi data.Items ref.Items htab N.Items
      N1.Items hb ([], []) ([], []) st List.Forall₂.nil (fun _ _ _ => rfl) hst
    simp only [hst1, Option.map_some', Option.some.injEq, exists_eq_left']
    rw [← h]
    have hfil := forall₂_filter
      (fun e : SuggestClassesItem W => itemSatisfyClasses e.Classes (PrepareCheckMap norm req)
        (PrepareCheckMap norm excl))
      (fun e : SuggestClassesItem W => itemSatisfyClasses e.Classes (PrepareCheckMap norm req)
        (PrepareCheckMap norm excl))
      (fun a b hab => by simp only [hab.1]) hf
    have hmap : ((st.1.filter (fun e => itemSatisfyClasses e.Classes
          (PrepareCheckMap norm req) (PrepareCheckMap norm excl))).map
            SuggestClassesItem.Item).map ItemRef.item =
        ((st1.1.filter (fun e => itemSatisfyClasses e.Classes
          (PrepareCheckMap norm req) (PrepareCheckMap norm excl))).map
            SuggestClassesItem.Item).map ItemRef.item := by
      rw [List.map_map, List.map_map]
      exact forall₂_map_eq _ _ (fun a b hab => hab.2.1) hfil
    have h1 := hS ItemRef.item stpb.Item.Weight
      ((st.1.filter (fun e => itemSatisfyClasses e.Classes
          (PrepareCheckMap norm req) (PrepareCheckMap norm excl))).map SuggestClassesItem.Item)
    have h2 := hS ItemRef.item stpb.Item.Weight
      ((st1.1.filter (fun e => itemSatisfyClasses e.Classes
          (PrepareCheckMap norm req) (PrepareCheckMap norm excl))).map SuggestClassesItem.Item)
    rw [h1, h2, hmap]

end AssemblySimulation

end Suggest


namespace Suggest

section CompressionLemmas

set_option linter.unusedSectionVars false

variable {W : Type} [LinearOrder W]

/-! ## Cleared nodes over a corpus of pairwise different items -/

theorem forall₂_eq_of {α : Type} {R : α → α → Prop} :
    ∀ {l r : List α}, List.Forall₂ R l r → (∀ a ∈ l, ∀ b ∈ r, R a b → a = b) → l = r
  | [], [], List.Forall₂.nil, _ => rfl
  | a :: l, b :: r, List.Forall₂.cons h1 h2, h => by
    rw [h a (List.mem_cons_self _ _) b (List.mem_cons_self _ _) h1,
      forall₂_eq_of h2 (fun x hx y hy => h x (List.mem_cons_of_mem _ hx) y
        (List.mem_cons_of_mem _ hy))]

theorem forall₂_common_left {α β γ : Type} {R : α → β → Prop} {T : α → γ → Prop} :
    ∀ {l : List α} {a : List β} {b : List γ}, List.Forall₂ R l a → List.Forall₂ T l b →
      List.Forall₂ (fun x y => ∃ z, R z x ∧ T z y) a b
  | [], [], [], List.Forall₂.nil, List.Forall₂.nil => List.Forall₂.nil
  | _ :: _, _ :: _, _ :: _, List.Forall₂.cons h1 h2, List.Forall₂.cons g1 g2 =>
    List.Forall₂.cons ⟨_, h1, g1⟩ (forall₂_common_left h2 g2)

/-- Over items of which no two different ones are deeply equal, deeply equal bucket lists
are equal. -/
theorem DeepEqual_eq (items : List (Item W))
    (hdist : ∀ a ∈ items, ∀ b ∈ items, Item.deepEqual a b = true → a = b)
    (x y : List (SuggestItems W))
    (hx : ∀ b ∈ x, ∀ e ∈ b.Suggest, e.OriginalItem ∈ items)
    (hy : ∀ b ∈ y, ∀ e ∈ b.Suggest, e.OriginalItem ∈ items)
    (h : DeepEqual x y = true) : x = y := by
  unfold DeepEqual at h
  refine forall₂_eq_of (deepEqualList_forall₂ _ _ _ h) ?_
  intro a ha b hb hab
  unfold SuggestItems.deepEqual at hab
  simp only [Bool.and_eq_true, decide_eq_true_eq] at hab
  have hs : a.Suggest = b.Suggest := by
    refine forall₂_eq_of (deepEqualList_forall₂ _ _ _ hab.2) ?_
    intro e he f hf hef
    unfold SuggestTrieItem.deepEqual at hef
    simp only [Bool.and_eq_true, decide_eq_true_eq] at hef
    have := hdist _ (hx a ha e he) _ (hy b hb f hf) hef.2
    cases e
    cases f
    simp only at hef this
    simp [hef.1, this]
  cases a
  cases b
  simp only at hab hs
  simp [hab.1, hs]

theorem addItemClass_ne_nil (limit : Int) (item : SuggestTrieItem W) (c : String)
    (bs bs1 : List (SuggestItems W)) (h : addItemClass limit item c bs = some bs1) :
    bs1 ≠ [] ∧ bs.length ≤ bs1.length := by
  have hc := addItemClass_classes limit item c bs bs1 h
  have hl := congrArg List.length hc
  simp only [List.length_map] at hl
  by_cases hm : c ∈ bs.map SuggestItems.Class
  · rw [if_pos hm, List.length_map] at hl
    have : 0 < bs.length := by
      cases bs with
      | nil => simp at hm
      | cons b bs => simp
    exact ⟨List.length_pos.1 (by omega), by omega⟩
  · rw [if_neg hm, List.length_append, List.length_map] at hl
    simp only [List.length_singleton] at hl
    exact ⟨List.length_pos.1 (by omega), by omega⟩

theorem addItem_length (limit : Int) (item : SuggestTrieItem W) :
    ∀ (classes : List String) (bs bs1 : List (SuggestItems W)),
      addItem limit item bs classes = some bs1 →
      bs.length ≤ bs1.length ∧ (classes ≠ [] → bs1 ≠ [])
  | [], bs, bs1, h => by
    simp only [addItem, Option.some.injEq] at h
    subst h
    exact ⟨le_refl _, fun hc => absurd rfl hc⟩
  | c :: rest, bs, bs1, h => by
    unfold addItem at h
    cases h1 : addItemClass limit item c bs with
    | none => simp [h1] at h
    | some b1 =>
      simp only [h1, Option.some_bind] at h
      obtain ⟨g1, g2⟩ := addItemClass_ne_nil limit item c bs b1 h1
      obtain ⟨g3, _⟩ := addItem_length limit item rest b1 bs1 h
      have : 0 < b1.length := List.length_pos.2 g1
      exact ⟨by omega, fun _ => List.length_pos.1 (by omega)⟩

theorem addItems_nil (limit : Int) :
    ∀ (ins : List (Insertion W)) (bs : List (SuggestItems W)),
      addItems limit ins bs = some [] → ∀ i ∈ ins, i.classes = []
  | [], _, _, i, hi => by simp at hi
  | j :: rest, bs, h, i, hi => by
    unfold addItems at h
    cases h1 : addItem limit j.item bs j.classes with
    | none => simp [h1] at h
    | some b1 =>
      simp only [h1, Option.some_bind] at h
      have hb1 : b1 = [] := by
        by_contra hne
        have hlen : ∀ (l : List (Insertion W)) (b r : List (SuggestItems W)),
            addItems limit l b = some r → b.length ≤ r.length := by
          intro l
          induction l with
          | nil =>
            intro b r hr
            simp only [addItems, Option.some.injEq] at hr
            subst hr
            exact le_refl _
          | cons k l ih =>
            intro b r hr
            unfold addItems at hr
            cases h2 : addItem limit k.item b k.classes with
            | none => simp [h2] at hr
            | some b2 =>
              simp only [h2, Option.some_bind] at hr
              have := (addItem_length limit k.item k.classes b b2 h2).1
              have := ih b2 r hr
              omega
        have h3 := hlen rest b1 [] h
        have h4 : 0 < b1.length := List.length_pos.2 hne
        simp only [List.length_nil] at h3
        omega
      subst hb1
      rcases List.mem_cons.1 hi with rfl | hi
      · by_contra hne
        exact (addItem_length limit i.item i.classes bs [] h1).2 hne rfl
      · exact addItems_nil limit rest [] h i hi

theorem addItems_no_class (limit : Int) :
    ∀ (ins : List (Insertion W)) (bs : List (SuggestItems W)),
      (∀ i ∈ ins, i.classes = []) → addItems limit ins bs = some bs
  | [], bs, _ => rfl
  | j :: rest, bs, h => by
    unfold addItems
    rw [h j (List.mem_cons_self _ _)]
    simp only [addItem, Option.some_bind]
    exact addItems_no_class limit rest bs (fun i hi => h i (List.mem_cons_of_mem _ hi))

/-- Below a node without buckets there is no bucket. -/
theorem bucketsAt_nil_mono (limit : Int) (ins : List (Insertion W))
    (s : SuggestTrieBuilder W) (h : addAll limit ins (.mk [] []) = some s)
    (q ext : List Nat) (hq : s.bucketsAt q = []) : s.bucketsAt (q ++ ext) = [] := by
  have hempty : (SuggestTrieBuilder.mk ([] : List (SuggestTrieDescendant W)) []).NodupKeys := by
    rw [NodupKeys_mk]
    simp
  obtain ⟨_, hspec⟩ := addAll_spec limit ins _ s hempty h
  have h1 := (hspec q).2
  rw [bucketsAt_empty, hq] at h1
  have hcls := addItems_nil limit _ [] h1
  have h2 := (hspec (q ++ ext)).2
  rw [bucketsAt_empty, addItems_no_class limit _ [] (by
    intro i hi
    simp only [List.mem_filter, decide_eq_true_eq] at hi
    apply hcls i
    simp only [List.mem_filter, decide_eq_true_eq]
    exact ⟨hi.1, (List.prefix_append q ext).trans hi.2⟩)] at h2
  exact (Option.some.inj h2).symm

/-- The buckets of the node where the skip stops are the finalized buckets of the node
before `Finalize`. -/
theorem stop_buckets (S : SliceSorter W) (maxItemsPerPrefix : Int)
    (ne ne1 : SuggestTrieBuilder W) (hfin : ne.Finalize S maxItemsPerPrefix = some ne1)
    (hstop : ¬ (ne1.Descendants.length = 1 ∧ ne1.Buckets.length = 0)) :
    finalizeBuckets S maxItemsPerPrefix ne.Buckets = some ne1.Buckets := by
  by_cases hne : ne.Buckets = []
  · cases ne with
    | mk ds bs =>
      simp only [Buckets_mk] at hne
      subst hne
      obtain ⟨ds1, bs1, rfl, hfb, _⟩ := Finalize_mk S maxItemsPerPrefix ds [] _ hfin
      have hc : clearPassThrough ds ([] : List (SuggestItems W)) = [] := by
        rcases clearPassThrough_cases ds ([] : List (SuggestItems W)) with h1 | ⟨h1, _⟩
        · exact h1
        · exact h1
      rw [hc] at hfb
      simpa using hfb
  · exact stop_not_cleared S maxItemsPerPrefix ne ne1 hfin hstop hne

theorem insertionSorter_natural : (insertionSorter : SliceSorter W).Natural := by
  intro α β f key l
  exact List.map_insertionSort (r := fun a b => key (f b) ≤ key (f a))
    (s := fun a b => key b ≤ key a) f l (fun _ _ _ _ => Iff.rfl)

end CompressionLemmas

end Suggest


namespace Suggest

section CompressionTransparency

set_option linter.unusedSectionVars false

variable {W : Type} [LinearOrder W]

/-- C20, as amended (path compression is transparent to queries).  For every corpus of at
most `2 ^ 32` items in which no two different items are deeply equal (neither the same
address nor the same weight, texts and data), every `maxItemsPerPrefix ≥ 1`, every factor and
every query, with a sort that sees the elements only through their keys: `BuildSuggest`
returns when `maxItemsPerPrefix < 2 ^ 62` (the limit `maxItemsPerPrefix * 2` does not wrap),
and whenever `BuildSuggest` returns, the reference build returns, the query with the
single-child skip on the first and the reference query without skip on the second return,
and the two results hold the same sequence of items (weight, original text and data). -/
theorem C20_compression_transparent [Mul W] (S : SliceSorter W) (hS : S.Natural)
    (norm : String → String) (items : List (Item W)) (maxItemsPerPrefix : Int)
    (hmax : 1 ≤ maxItemsPerPrefix) (postfixWeightFactor : W) (pre : List Nat)
    (requiredClasses excludedClasses : List String)
    (hsize : items.length ≤ 2 ^ 32)
    (hdist : ∀ a ∈ items, ∀ b ∈ items, Item.deepEqual a b = true → a = b) :
    (maxItemsPerPrefix < 2 ^ 62 →
      ∃ data, BuildSuggest S norm items maxItemsPerPrefix postfixWeightFactor = some data) ∧
    ∀ data, BuildSuggest S norm items maxItemsPerPrefix postfixWeightFactor = some data →
      ∃ ref r rr,
        BuildSuggestReference S norm items maxItemsPerPrefix postfixWeightFactor = some ref ∧
        GetSuggestItems S norm data pre requiredClasses excludedClasses = some r ∧
        GetSuggestItemsReference S norm ref pre requiredClasses excludedClasses = some rr ∧
        r.map ItemRef.item = rr.map ItemRef.item := by
  refine ⟨fun hint => BuildSuggest_isSome S norm items maxItemsPerPrefix (by omega) hint
    postfixWeightFactor, ?_⟩
  intro data hd
  have hptr : ∀ a ∈ items, ∀ b ∈ items, a.ptr = b.ptr → a = b := by
    intro a ha b hb hab
    apply hdist a ha b hb
    unfold Item.deepEqual
    simp [hab]
  obtain ⟨s, s1, look, hs, hnd, hs1, hm, hitem, hinj⟩ :=
    BuildSuggest_spec S norm items hsize maxItemsPerPrefix postfixWeightFactor data hd
  obtain ⟨ref, s2, look2, href, hs2, hm2, hitem2, hinj2⟩ :=
    BuildSuggestReference_spec S norm items hsize maxItemsPerPrefix (by omega)
      postfixWeightFactor s hs
  have hent : ∀ q n, s.nodeAt q = some n → ∀ b ∈ n.Buckets, ∀ e ∈ b.Suggest,
      e.OriginalItem ∈ items := by
    intro q n hn b hb e he
    obtain ⟨i, hi, rfl, _, _⟩ := built_entries _ _ s hs q n hn b hb e he
    obtain ⟨x, hx, hix⟩ := (mem_insertions norm postfixWeightFactor items i).1 hi
    rw [(mem_insertionsOf norm postfixWeightFactor x i hix).1]
    exact hx
  obtain ⟨hr1, hr2⟩ := FinalizeReference_nodeAt S maxItemsPerPrefix pre s s2 hs2
  obtain ⟨hd1, hd2⟩ := descend_mirror look2 pre s2 ref.Trie hm2
  rcases query_built S norm items maxItemsPerPrefix data s s1 look hs1 hm hitem pre
      requiredClasses excludedClasses with
    ⟨hnone, hq⟩ | ⟨n0, _, ne1, N1, _, hn0, _, _, _, ⟨n1, hn1, hto⟩, hmN1, hbound, hq1⟩
  · refine ⟨ref, [], [], href, hq, ?_, rfl⟩
    unfold GetSuggestItemsReference
    rw [hd1 (hr1 hnone)]
  -- along the chain of cleared nodes the bucket list stays the one of the node of `pre`
  obtain ⟨ext, hext, hinv⟩ := skip_chain S maxItemsPerPrefix s s1 hs1
    (fun q => s.bucketsAt q = n0.Buckets)
    (by
      intro q n d hq hn hdd hc
      have hbq := bucketsAt_of_nodeAt s n q hn
      have hchild := nodeAt_snoc_single s n q d hn hdd
      by_cases hne : n.Buckets = []
      · have h0 := bucketsAt_nil_mono _ _ s hs q [d.Key] (by rw [hbq]; exact hne)
        show s.bucketsAt (q ++ [d.Key]) = n0.Buckets
        rw [h0]
        have hq1 : s.bucketsAt q = n0.Buckets := hq
        rw [← hq1, hbq, hne]
      · have hde := cleared_deepEqual n.Descendants n.Buckets d hdd hc hne
        have hq1 : s.bucketsAt q = n0.Buckets := hq
        show s.bucketsAt (q ++ [d.Key]) = n0.Buckets
        rw [bucketsAt_of_nodeAt s d.Builder _ hchild, ← hq1, hbq]
        exact DeepEqual_eq items hdist _ _ (hent _ _ hchild) (hent _ _ hn) hde)
    n1 ne1 hto pre (bucketsAt_of_nodeAt s n0 pre hn0) hn1
  obtain ⟨hg1, hg2⟩ := Finalize_nodeAt S maxItemsPerPrefix (pre ++ ext) s s1 hs1
  cases hne0 : s.nodeAt (pre ++ ext) with
  | none =>
    rw [hg1 hne0] at hext
    cases hext
  | some ne =>
    obtain ⟨ne2, h1, hfin⟩ := hg2 ne hne0
    rw [hext] at h1
    cases h1
    have hinv1 : s.bucketsAt (pre ++ ext) = n0.Buckets := hinv
    rw [bucketsAt_of_nodeAt s ne _ hne0] at hinv1
    have hfb := stop_buckets S maxItemsPerPrefix ne ne1 hfin (SkipTo_stop hto)
    rw [hinv1] at hfb
    -- the node of `pre` in the reference trie
    obtain ⟨n2, hn2, hfin2⟩ := hr2 n0 hn0
    have hfb2 : finalizeBuckets S maxItemsPerPrefix n0.Buckets = some n2.Buckets := by
      cases n0 with
      | mk ds bs =>
        obtain ⟨ds1, bs1, rfl, h, _⟩ := FinalizeReference_mk S maxItemsPerPrefix ds bs _ hfin2
        simpa using h
    have hsame : ne1.Buckets = n2.Buckets := Option.some.inj (hfb.symm.trans hfb2)
    obtain ⟨N2, hN2, hmN2⟩ := hd2 n2 hn2
    have hmb1 := Mirror_buckets look ne1 N1 hmN1
    have hmb2 := Mirror_buckets look2 n2 N2 hmN2
    rw [hsame] at hmb1
    unfold MirrorBuckets at hmb1 hmb2
    have hb : List.Forall₂ (fun b b1 => b.Class = b1.Class ∧
        List.Forall₂ (fun i i2 => ∃ p, look p = some i ∧ look2 p = some i2)
          b.ItemIndexes b1.ItemIndexes) N1.Items N2.Items := by
      refine (forall₂_common_left hmb1 hmb2).imp ?_
      rintro ci ci2 ⟨b, ⟨hc1, _, hf1⟩, ⟨hc2, _, hf2⟩⟩
      refine ⟨by rw [hc1, hc2], (forall₂_common_left hf1 hf2).imp ?_⟩
      rintro i i2 ⟨e, he1, he2⟩
      exact ⟨e.OriginalItem.ptr, he1, he2⟩
    obtain ⟨r, hr, _⟩ := collectItems_spec S norm data N1 requiredClasses excludedClasses
      hbound
    obtain ⟨rr, hrr, heq⟩ := collectItems_sim S hS norm data ref N1 N2 requiredClasses
      excludedClasses (fun i i2 => ∃ p, look p = some i ∧ look2 p = some i2)
      (by
        rintro i i1 j j1 ⟨p, hp1, hp2⟩ ⟨q, hq1, hq2⟩
        constructor
        · intro h
          subst h
          have := hinj p q i hp1 hq1
          subst this
          rw [hp2] at hq2
          exact Option.some.inj hq2
        · intro h
          subst h
          have := hinj2 p q i1 hp2 hq2
          subst this
          rw [hp1] at hq1
          exact Option.some.inj hq1)
      (by
        rintro i i1 ⟨p, hp1, hp2⟩
        obtain ⟨x, hx, hxp, hxi⟩ := hitem p i hp1
        obtain ⟨y, hy, hyp, hyi⟩ := hitem2 p i1 hp2
        have hxy : x = y := hptr x hx y hy (hxp.trans hyp.symm)
        subst hxy
        rw [hxi, hyi])
      hb r hr
    refine ⟨ref, r, rr, href, by rw [hq1, hr], ?_, heq⟩
    unfold GetSuggestItemsReference
    simp only [hN2]
    exact hrr

/-- Witness of `C20_compression_transparent`: the items "xa" (class "fruit", weight 10) and
"xb" (class "veggie", weight 9), at most 5 items for a prefix, the query "x" asking for
"fruit". -/
theorem C20_compression_transparent_witness :
    (insertionSorter : SliceSorter Int).Natural ∧ (1 : Int) ≤ 5 ∧ (5 : Int) < 2 ^ 62 ∧
    [sampleItem 1 10 [120, 97] "fruit" none,
      sampleItem 2 9 [120, 98] "veggie" none].length ≤ 2 ^ 32 ∧
    (∀ a ∈ [sampleItem 1 10 [120, 97] "fruit" none, sampleItem 2 9 [120, 98] "veggie" none],
      ∀ b ∈ [sampleItem 1 10 [120, 97] "fruit" none, sampleItem 2 9 [120, 98] "veggie" none],
        Item.deepEqual a b = true → a = b) ∧
    (∃ data, BuildSuggest insertionSorter id
        [sampleItem 1 10 [120, 97] "fruit" none, sampleItem 2 9 [120, 98] "veggie" none]
        5 3 = some data) ∧
    ∀ data,
      BuildSuggest insertionSorter id
        [sampleItem 1 10 [120, 97] "fruit" none, sampleItem 2 9 [120, 98] "veggie" none]
        5 3 = some data →
      ∃ ref r rr,
        BuildSuggestReference insertionSorter id
          [sampleItem 1 10 [120, 97] "fruit" none, sampleItem 2 9 [120, 98] "veggie" none]
          5 3 = some ref ∧
        GetSuggestItems insertionSorter id data [120] ["fruit"] [] = some r ∧
        GetSuggestItemsReference insertionSorter id ref [120] ["fruit"] [] = some rr ∧
        r.map ItemRef.item = rr.map ItemRef.item :=
  ⟨insertionSorter_natural, by decide, by decide, by decide, by decide,
    (C20_compression_transparent insertionSorter insertionSorter_natural id _ 5 (by decide) 3
      [120] ["fruit"] [] (by decide) (by decide)).1 (by decide),
    (C20_compression_transparent insertionSorter insertionSorter_natural id _ 5 (by decide) 3
      [120] ["fruit"] [] (by decide) (by decide)).2⟩

/-- Counterexample to C20 as stated: two different items with the same weight 1, the same
text "a a a" and the same data, the factor 1 and at most 2 items for a prefix.  The query "a"
on the compressed trie returns one item; the reference query on the trie finalized without
clearing returns two. -/
theorem C20_counterexample :
    ((BuildSuggest insertionSorter id
        [sampleItem 1 1 [97, 32, 97, 32, 97] "c" none,
          sampleItem 2 1 [97, 32, 97, 32, 97] "c" none] 2 1).bind
      (fun data => GetSuggestItems insertionSorter id data [97] [] [])).map
        (fun r => r.map (fun x => x.item.Weight)) = some [1] ∧
    ((BuildSuggestReference insertionSorter id
        [sampleItem 1 1 [97, 32, 97, 32, 97] "c" none,
          sampleItem 2 1 [97, 32, 97, 32, 97] "c" none] 2 1).bind
      (fun ref => GetSuggestItemsReference insertionSorter id ref [97] [] [])).map
        (fun r => r.map (fun x => x.item.Weight)) = some [1, 1] := by
  refine ⟨by decide, by decide⟩

end CompressionTransparency

end Suggest
